import Mathlib

/-!
# lwes_event.c : the event model and its wire codec

A shallow embedding of `src/lwes_event.c`.  An event is a record of a name, a
16-bit attribute counter, an optional type database and a table of attributes.
Pointers that the C code tests against `NULL` are `Option`s, byte buffers are
lists of bytes (natural numbers below 256), C strings are the lists of their
characters (the terminating NUL left out), and every function that writes
through a pointer returns the new contents next to its `int` result.
Allocation is taken to succeed.

The hash table, the marshalling primitives, the type database and the
constants of the headers are not part of `lwes_event.c`; they are modelled from
their description in the specification and marked as such.
-/

namespace Lwes

/-! ## Constants of the headers -/

/-- Modelled from the spec: the header with the sizes is missing; a short
string carries at most 255 bytes. -/
def SHORT_STRING_MAX : Nat := 255

/-- Modelled from the spec: the header with the sizes is missing; a long string
carries at most 65535 bytes. -/
def LONG_STRING_MAX : Nat := 65535

/-- Modelled from the spec: the header with the type tags is missing; the nine
tags form a closed enumeration of pairwise distinct bytes, here the type tag of
an unsigned 16-bit attribute. -/
def LWES_U_INT_16_TOKEN : Nat := 1

/-- Modelled from the spec: the header with the type tags is missing; the
type tag of a signed 16-bit attribute. -/
def LWES_INT_16_TOKEN : Nat := 2

/-- Modelled from the spec: the header with the type tags is missing; the
type tag of an unsigned 32-bit attribute. -/
def LWES_U_INT_32_TOKEN : Nat := 3

/-- Modelled from the spec: the header with the type tags is missing; the
type tag of a signed 32-bit attribute. -/
def LWES_INT_32_TOKEN : Nat := 4

/-- Modelled from the spec: the header with the type tags is missing; the
type tag of a string attribute. -/
def LWES_STRING_TOKEN : Nat := 5

/-- Modelled from the spec: the header with the type tags is missing; the
type tag of an IP address attribute. -/
def LWES_IP_ADDR_TOKEN : Nat := 6

/-- Modelled from the spec: the header with the type tags is missing; the
type tag of a signed 64-bit attribute. -/
def LWES_INT_64_TOKEN : Nat := 7

/-- Modelled from the spec: the header with the type tags is missing; the
type tag of an unsigned 64-bit attribute. -/
def LWES_U_INT_64_TOKEN : Nat := 8

/-- Modelled from the spec: the header with the type tags is missing; the
type tag of a boolean attribute. -/
def LWES_BOOLEAN_TOKEN : Nat := 9

/-- Modelled from the spec: the header with the reserved names is missing; the
reserved attribute name that denotes the encoding, the C string `enc`. -/
def LWES_ENCODING : List Nat := [101, 110, 99]

/-! ## Byte buffers -/

/-- Writes `data` into `bytes` from index `offset` on (the `memcpy` of the
primitives). -/
def put_bytes : List Nat → List Nat → Nat → List Nat
  | [], bytes, _ => bytes
  | d :: ds, bytes, offset => put_bytes ds (bytes.set offset d) (offset + 1)

/-- The `n` bytes of `bytes` from index `offset` on. -/
def get_bytes (n : Nat) (bytes : List Nat) (offset : Nat) : List Nat :=
  (bytes.drop offset).take n

/-- Big-endian representation of `v` in `w` bytes (network byte order). -/
def be_bytes : Nat → Nat → List Nat
  | 0, _ => []
  | w + 1, v => (v / 256 ^ w) % 256 :: be_bytes w v

/-- The number whose big-endian representation is `bs`. -/
def be_value (bs : List Nat) : Nat :=
  bs.foldl (fun acc b => acc * 256 + b) 0

/-- Two's complement reading of the `w`-byte pattern `u`. -/
def to_signed (w : Nat) (u : Nat) : Int :=
  if u < 256 ^ w / 2 then (u : Int) else (u : Int) - (256 ^ w : Nat)

/-- The `w`-byte two's complement pattern of `v`. -/
def of_signed (w : Nat) (v : Int) : Nat :=
  (v % ((256 ^ w : Nat) : Int)).toNat

/-- The conversion `(int)` of a `size_t` or `ptrdiff_t` value to a 32-bit `int`:
the value modulo 2^32, read as two's complement. -/
def to_int (d : Int) : Int :=
  if d % 4294967296 < 2147483648 then d % 4294967296 else d % 4294967296 - 4294967296

/-- The C string held in a character buffer: the characters before the first
NUL. -/
def c_str (s : List Nat) : List Nat :=
  s.takeWhile (fun c => c != 0)

/-! ## Marshalling primitives (lwes_marshall_functions.h)

Each primitive takes the buffer, its capacity `length` and the offset, and
returns `none` when it reports failure (the C function returns 0, the buffer and
the offset untouched), and otherwise the new buffer and the advanced offset. -/

/-- Modelled from the spec: the marshalling functions (lwes_marshall_functions.h)
are missing; a primitive writes its bytes only when they fit below the capacity,
and advances the offset only on success. -/
def marshall_generic (data : List Nat) (bytes : List Nat) (length offset : Nat) :
    Option (List Nat × Nat) :=
  if offset + data.length ≤ length then
    some (put_bytes data bytes offset, offset + data.length)
  else none

/-- Modelled from the spec: the unmarshalling functions
(lwes_marshall_functions.h) are missing; a primitive reads its bytes only when
they lie below the capacity, and advances the offset only on success. -/
def unmarshall_generic (n : Nat) (bytes : List Nat) (length offset : Nat) :
    Option (List Nat × Nat) :=
  if offset + n ≤ length then some (get_bytes n bytes offset, offset + n) else none

/-- Modelled from the spec: `marshall_BYTE` of the missing marshalling functions
writes one byte. -/
def marshall_BYTE (aByte : Nat) (bytes : List Nat) (length offset : Nat) :
    Option (List Nat × Nat) :=
  marshall_generic (be_bytes 1 aByte) bytes length offset

/-- Modelled from the spec: `marshall_U_INT_16` of the missing marshalling functions
writes an unsigned 16-bit field, big-endian. -/
def marshall_U_INT_16 (anInt : Nat) (bytes : List Nat) (length offset : Nat) :
    Option (List Nat × Nat) :=
  marshall_generic (be_bytes 2 anInt) bytes length offset

/-- Modelled from the spec: `marshall_INT_16` of the missing marshalling functions
writes a signed 16-bit field, two's complement, big-endian. -/
def marshall_INT_16 (anInt : Int) (bytes : List Nat) (length offset : Nat) :
    Option (List Nat × Nat) :=
  marshall_generic (be_bytes 2 (of_signed 2 anInt)) bytes length offset

/-- Modelled from the spec: `marshall_U_INT_32` of the missing marshalling functions
writes an unsigned 32-bit field, big-endian. -/
def marshall_U_INT_32 (anInt : Nat) (bytes : List Nat) (length offset : Nat) :
    Option (List Nat × Nat) :=
  marshall_generic (be_bytes 4 anInt) bytes length offset

/-- Modelled from the spec: `marshall_INT_32` of the missing marshalling functions
writes a signed 32-bit field, two's complement, big-endian. -/
def marshall_INT_32 (anInt : Int) (bytes : List Nat) (length offset : Nat) :
    Option (List Nat × Nat) :=
  marshall_generic (be_bytes 4 (of_signed 4 anInt)) bytes length offset

/-- Modelled from the spec: `marshall_U_INT_64` of the missing marshalling functions
writes an unsigned 64-bit field, big-endian. -/
def marshall_U_INT_64 (anInt : Nat) (bytes : List Nat) (length offset : Nat) :
    Option (List Nat × Nat) :=
  marshall_generic (be_bytes 8 anInt) bytes length offset

/-- Modelled from the spec: `marshall_INT_64` of the missing marshalling functions
writes a signed 64-bit field, two's complement, big-endian. -/
def marshall_INT_64 (anInt : Int) (bytes : List Nat) (length offset : Nat) :
    Option (List Nat × Nat) :=
  marshall_generic (be_bytes 8 (of_signed 8 anInt)) bytes length offset

/-- Modelled from the spec: `marshall_BOOLEAN` of the missing marshalling
functions; a boolean takes one byte, 1 for true and 0 for false. -/
def marshall_BOOLEAN (aBoolean : Bool) (bytes : List Nat) (length offset : Nat) :
    Option (List Nat × Nat) :=
  marshall_generic [if aBoolean then 1 else 0] bytes length offset

/-- Modelled from the spec: `marshall_IP_ADDR` of the missing marshalling
functions; an IP address takes 4 bytes, the 32-bit address in network byte
order. -/
def marshall_IP_ADDR (ipAddress : Nat) (bytes : List Nat) (length offset : Nat) :
    Option (List Nat × Nat) :=
  marshall_generic (be_bytes 4 ipAddress) bytes length offset

/-- Modelled from the spec: `marshall_SHORT_STRING` of the missing marshalling
functions; a short string is a 1-byte length `L` (0 to 255) and `L` raw bytes,
no terminator; an absent string and a string longer than 255 bytes are not
written. -/
def marshall_SHORT_STRING (aString : Option (List Nat)) (bytes : List Nat)
    (length offset : Nat) : Option (List Nat × Nat) :=
  match aString with
  | none => none
  | some s =>
    if s.length ≤ SHORT_STRING_MAX then
      marshall_generic (s.length :: s) bytes length offset
    else none

/-- Modelled from the spec: `marshall_LONG_STRING` of the missing marshalling
functions; a long string is a 2-byte length `L` (0 to 65535) and `L` raw bytes;
an absent string and a string longer than 65535 bytes are not written. -/
def marshall_LONG_STRING (aString : Option (List Nat)) (bytes : List Nat)
    (length offset : Nat) : Option (List Nat × Nat) :=
  match aString with
  | none => none
  | some s =>
    if s.length ≤ LONG_STRING_MAX then
      marshall_generic (be_bytes 2 s.length ++ s) bytes length offset
    else none

/-- Modelled from the spec: `unmarshall_BYTE` of the missing marshalling functions
reads one byte. -/
def unmarshall_BYTE (bytes : List Nat) (length offset : Nat) : Option (Nat × Nat) :=
  (unmarshall_generic 1 bytes length offset).map (fun r => (be_value r.1, r.2))

/-- Modelled from the spec: `unmarshall_U_INT_16` of the missing marshalling functions
reads an unsigned 16-bit field, big-endian. -/
def unmarshall_U_INT_16 (bytes : List Nat) (length offset : Nat) : Option (Nat × Nat) :=
  (unmarshall_generic 2 bytes length offset).map (fun r => (be_value r.1, r.2))

/-- Modelled from the spec: `unmarshall_INT_16` of the missing marshalling functions
reads a signed 16-bit field, two's complement, big-endian. -/
def unmarshall_INT_16 (bytes : List Nat) (length offset : Nat) : Option (Int × Nat) :=
  (unmarshall_generic 2 bytes length offset).map (fun r => (to_signed 2 (be_value r.1), r.2))

/-- Modelled from the spec: `unmarshall_U_INT_32` of the missing marshalling functions
reads an unsigned 32-bit field, big-endian. -/
def unmarshall_U_INT_32 (bytes : List Nat) (length offset : Nat) : Option (Nat × Nat) :=
  (unmarshall_generic 4 bytes length offset).map (fun r => (be_value r.1, r.2))

/-- Modelled from the spec: `unmarshall_INT_32` of the missing marshalling functions
reads a signed 32-bit field, two's complement, big-endian. -/
def unmarshall_INT_32 (bytes : List Nat) (length offset : Nat) : Option (Int × Nat) :=
  (unmarshall_generic 4 bytes length offset).map (fun r => (to_signed 4 (be_value r.1), r.2))

/-- Modelled from the spec: `unmarshall_U_INT_64` of the missing marshalling functions
reads an unsigned 64-bit field, big-endian. -/
def unmarshall_U_INT_64 (bytes : List Nat) (length offset : Nat) : Option (Nat × Nat) :=
  (unmarshall_generic 8 bytes length offset).map (fun r => (be_value r.1, r.2))

/-- Modelled from the spec: `unmarshall_INT_64` of the missing marshalling functions
reads a signed 64-bit field, two's complement, big-endian. -/
def unmarshall_INT_64 (bytes : List Nat) (length offset : Nat) : Option (Int × Nat) :=
  (unmarshall_generic 8 bytes length offset).map (fun r => (to_signed 8 (be_value r.1), r.2))

/-- Modelled from the spec: `unmarshall_BOOLEAN` of the missing marshalling
functions reads a boolean byte; any non-zero byte reads as true. -/
def unmarshall_BOOLEAN (bytes : List Nat) (length offset : Nat) : Option (Bool × Nat) :=
  (unmarshall_generic 1 bytes length offset).map (fun r => (be_value r.1 != 0, r.2))

/-- Modelled from the spec: `unmarshall_IP_ADDR` of the missing marshalling
functions reads a 4-byte address in network byte order. -/
def unmarshall_IP_ADDR (bytes : List Nat) (length offset : Nat) : Option (Nat × Nat) :=
  (unmarshall_generic 4 bytes length offset).map (fun r => (be_value r.1, r.2))

/-- Modelled from the spec: `unmarshall_SHORT_STRING` of the missing marshalling
functions reads the 1-byte length `L`, which has to be below
the size `max_string_length` of the destination, then `L` raw bytes, and
leaves them NUL-terminated in the destination; the result is the C string the
destination then holds. -/
def unmarshall_SHORT_STRING (max_string_length : Nat) (bytes : List Nat)
    (length offset : Nat) : Option (List Nat × Nat) :=
  match unmarshall_BYTE bytes length offset with
  | none => none
  | some (len, off) =>
    if len < max_string_length then
      (unmarshall_generic len bytes length off).map (fun r => (c_str r.1, r.2))
    else none

/-- Modelled from the spec: `unmarshall_LONG_STRING` of the missing marshalling
functions reads the 2-byte length `L`, which has to be below
the size `max_string_length` of the destination, then `L` raw bytes, and
leaves them NUL-terminated in the destination; the result is the C string the
destination then holds. -/
def unmarshall_LONG_STRING (max_string_length : Nat) (bytes : List Nat)
    (length offset : Nat) : Option (List Nat × Nat) :=
  match unmarshall_U_INT_16 bytes length offset with
  | none => none
  | some (len, off) =>
    if len < max_string_length then
      (unmarshall_generic len bytes length off).map (fun r => (c_str r.1, r.2))
    else none

/-! ## Attribute values and the attribute table -/

/-- The object an attribute's `void *value` points to: each typed setter
allocates one object of its own C type and copies the value in. -/
inductive lwes_value where
  | U_INT_16 (v : Nat)
  | INT_16 (v : Int)
  | U_INT_32 (v : Nat)
  | INT_32 (v : Int)
  | U_INT_64 (v : Nat)
  | INT_64 (v : Int)
  | BOOLEAN (v : Bool)
  | IP_ADDR (v : Nat)
  | STRING (v : List Nat)
  deriving DecidableEq, Repr

/-- The read `*((LWES_U_INT_16 *) value)`.  Reading an object of another type,
or through `NULL`, has no meaning in C; the embedding reads 0 there. -/
def lwes_value.as_U_INT_16 : Option lwes_value → Nat
  | some (.U_INT_16 v) => v
  | _ => 0

/-- The read `*((LWES_INT_16 *) value)`; 0 where C gives it no meaning. -/
def lwes_value.as_INT_16 : Option lwes_value → Int
  | some (.INT_16 v) => v
  | _ => 0

/-- The read `*((LWES_U_INT_32 *) value)`; 0 where C gives it no meaning. -/
def lwes_value.as_U_INT_32 : Option lwes_value → Nat
  | some (.U_INT_32 v) => v
  | _ => 0

/-- The read `*((LWES_INT_32 *) value)`; 0 where C gives it no meaning. -/
def lwes_value.as_INT_32 : Option lwes_value → Int
  | some (.INT_32 v) => v
  | _ => 0

/-- The read `*((LWES_U_INT_64 *) value)`; 0 where C gives it no meaning. -/
def lwes_value.as_U_INT_64 : Option lwes_value → Nat
  | some (.U_INT_64 v) => v
  | _ => 0

/-- The read `*((LWES_INT_64 *) value)`; 0 where C gives it no meaning. -/
def lwes_value.as_INT_64 : Option lwes_value → Int
  | some (.INT_64 v) => v
  | _ => 0

/-- The read `*((LWES_BOOLEAN *) value)`; false where C gives it no meaning. -/
def lwes_value.as_BOOLEAN : Option lwes_value → Bool
  | some (.BOOLEAN v) => v
  | _ => false

/-- The read `*((LWES_IP_ADDR *) value)`; 0 where C gives it no meaning. -/
def lwes_value.as_IP_ADDR : Option lwes_value → Nat
  | some (.IP_ADDR v) => v
  | _ => 0

/-- The cast `(LWES_LONG_STRING) value`: the string the pointer leads to, absent
for `NULL` and for an object that is no string. -/
def lwes_value.as_STRING : Option lwes_value → Option (List Nat)
  | some (.STRING v) => some v
  | _ => none

/-- Modelled from the spec: the declaration of `struct lwes_event_attribute`
(lwes_event.h) is missing; the fields are those `lwes_event.c` uses, a type
byte and the `void *` value (`none` for `NULL`). -/
structure lwes_event_attribute where
  type : Nat
  value : Option lwes_value
  deriving DecidableEq, Repr

/-- Adds `x` as the element number `i` of the list (as the last one when the
list is shorter). -/
def insert_at {α : Type} : Nat → α → List α → List α
  | 0, x, l => x :: l
  | _ + 1, x, [] => [x]
  | i + 1, x, y :: l => y :: insert_at i x l

/-- Modelled from the spec: the hash table (lwes_hash.h) is missing; it is a
key/value store with unique keys and an enumeration of its keys in the store's
native order, which is not the insertion order.  `entries` lists the table in
enumeration order and `place`, fixed at creation, is the answer of the table to a
`put`, which the specification leaves open: for a new key the position that the
key takes among the keys present, for a key present the error that the table
reports, `-(place keys key) - 1`. -/
structure lwes_hash where
  entries : List (List Nat × lwes_event_attribute)
  place : List (List Nat) → List Nat → Nat

/-- Modelled from the spec: `lwes_hash_create` of the missing hash table;
`create` gives an empty store. -/
def lwes_hash_create (place : List (List Nat) → List Nat → Nat) : lwes_hash :=
  { entries := [], place := place }

/-- Modelled from the spec: `lwes_hash_keys` and the enumeration of the missing
hash table; the cursor yields all keys in the store's native order. -/
def lwes_hash_keys (hash : lwes_hash) : List (List Nat) :=
  hash.entries.map Prod.fst

/-- Modelled from the spec: `lwes_hash_get` of the missing hash table;
`get(key) -> value|absent`. -/
def lwes_hash_get (hash : lwes_hash) (key : List Nat) : Option lwes_event_attribute :=
  (hash.entries.find? (fun e => e.1 = key)).map Prod.snd

/-- Modelled from the spec: `lwes_hash_put` of the missing hash table;
`put(key, value) -> rank|error`; a duplicate key is
rejected with a negative result, whose value is the table's, and the store
unchanged, a new key is stored and its rank (0 or more) returned. -/
def lwes_hash_put (hash : lwes_hash) (key : List Nat) (value : lwes_event_attribute) :
    Int × lwes_hash :=
  if key ∈ lwes_hash_keys hash then
    (-((hash.place (lwes_hash_keys hash) key : Nat) : Int) - 1, hash)
  else
    let rank := min (hash.place (lwes_hash_keys hash) key) hash.entries.length
    ((rank : Int), { hash with entries := insert_at rank (key, value) hash.entries })

/-- Modelled from the spec: the type database (lwes_type_db.h) is missing; it is
consumed as a
validation oracle with the two checks `check_for_attribute (attribute name, event
name)` and `check_for_type (type tag, attribute name, event name)`, each
returning 0 to reject. -/
structure lwes_event_type_db where
  check_for_attribute : List Nat → Option (List Nat) → Int
  check_for_type : Nat → List Nat → Option (List Nat) → Int

/-- Modelled from the spec: `lwes_event_type_db_check_for_attribute` of the
missing type database asks the oracle whether the event may carry the
attribute. -/
def lwes_event_type_db_check_for_attribute (db : lwes_event_type_db)
    (attr_name : List Nat) (event_name : Option (List Nat)) : Int :=
  db.check_for_attribute attr_name event_name

/-- Modelled from the spec: `lwes_event_type_db_check_for_type` of the missing
type database asks the oracle whether the attribute of the event has the
type. -/
def lwes_event_type_db_check_for_type (db : lwes_event_type_db) (type_value : Nat)
    (attr_name : List Nat) (event_name : Option (List Nat)) : Int :=
  db.check_for_type type_value attr_name event_name

/-- Modelled from the spec: the declaration of `struct lwes_event`
(lwes_event.h) is missing; the fields are those `lwes_event.c` uses, and `number_of_attributes` is the
unsigned 16-bit counter that `lwes_event_get_number_of_attributes` copies into
an `LWES_U_INT_16` and `lwes_event_to_bytes` hands to `marshall_U_INT_16`. -/
structure lwes_event where
  eventName : Option (List Nat)
  number_of_attributes : Nat
  type_db : Option lwes_event_type_db
  attributes : lwes_hash

/-- Modelled from the spec: the declaration of
`struct lwes_event_deserialize_tmp` (lwes_event.h) is missing; the two scratch
buffers of the decoder that `lwes_event_from_bytes` uses. -/
structure lwes_event_deserialize_tmp where
  tmp_string : List Nat
  tmp_string_long : List Nat

/-! ## lwes_event.c -/

/-- Embeds `lwes_event_attribute_create` (lines 1336-1352). -/
def lwes_event_attribute_create (attrType : Nat) (attrValue : Option lwes_value) :
    lwes_event_attribute :=
  { type := attrType, value := attrValue }

/-- Embeds the static `lwes_event_add` (lines 1355-1415): the two checks against
the type database, the copy of the name, the `lwes_hash_put`, and the increment
of the 16-bit counter, whose new value is returned. -/
def lwes_event_add (event : lwes_event) (attrNameIn : List Nat) (attrType : Nat)
    (attrValue : Option lwes_value) : Int × lwes_event :=
  if (match event.type_db with
      | some db =>
        decide (lwes_event_type_db_check_for_attribute db attrNameIn event.eventName = 0)
      | none => false) then (-1, event)
  else if (match event.type_db with
      | some db =>
        decide (lwes_event_type_db_check_for_type db attrType attrNameIn event.eventName = 0)
      | none => false) then (-2, event)
  else
    let attrName := attrNameIn
    let attr := lwes_event_attribute_create attrType attrValue
    let r := lwes_hash_put event.attributes attrName attr
    if r.1 < 0 then (r.1, event)
    else
      let number_of_attributes := (event.number_of_attributes + 1) % 65536
      ((number_of_attributes : Int),
        { event with attributes := r.2, number_of_attributes := number_of_attributes })

/-- Embeds `lwes_event_set_name` (lines 174-195). -/
def lwes_event_set_name (event : Option lwes_event) (name : Option (List Nat)) :
    Int × Option lwes_event :=
  match event, name with
  | some ev, some nm =>
    if ev.eventName ≠ none then (-1, event)
    else (0, some { ev with eventName := some nm })
  | _, _ => (-1, event)

/-- Embeds `lwes_event_set_U_INT_16` (lines 824-850). -/
def lwes_event_set_U_INT_16 (event : Option lwes_event) (attrName : Option (List Nat))
    (value : Nat) : Int × Option lwes_event :=
  match event, attrName with
  | some ev, some nm =>
    let r := lwes_event_add ev nm LWES_U_INT_16_TOKEN (some (.U_INT_16 value))
    (r.1, some r.2)
  | _, _ => (-1, event)

/-- Embeds `lwes_event_set_INT_16` (lines 852-878). -/
def lwes_event_set_INT_16 (event : Option lwes_event) (attrName : Option (List Nat))
    (value : Int) : Int × Option lwes_event :=
  match event, attrName with
  | some ev, some nm =>
    let r := lwes_event_add ev nm LWES_INT_16_TOKEN (some (.INT_16 value))
    (r.1, some r.2)
  | _, _ => (-1, event)

/-- Embeds `lwes_event_set_U_INT_32` (lines 880-906). -/
def lwes_event_set_U_INT_32 (event : Option lwes_event) (attrName : Option (List Nat))
    (value : Nat) : Int × Option lwes_event :=
  match event, attrName with
  | some ev, some nm =>
    let r := lwes_event_add ev nm LWES_U_INT_32_TOKEN (some (.U_INT_32 value))
    (r.1, some r.2)
  | _, _ => (-1, event)

/-- Embeds `lwes_event_set_INT_32` (lines 908-934). -/
def lwes_event_set_INT_32 (event : Option lwes_event) (attrName : Option (List Nat))
    (value : Int) : Int × Option lwes_event :=
  match event, attrName with
  | some ev, some nm =>
    let r := lwes_event_add ev nm LWES_INT_32_TOKEN (some (.INT_32 value))
    (r.1, some r.2)
  | _, _ => (-1, event)

/-- Embeds `lwes_event_set_U_INT_64` (lines 936-962). -/
def lwes_event_set_U_INT_64 (event : Option lwes_event) (attrName : Option (List Nat))
    (value : Nat) : Int × Option lwes_event :=
  match event, attrName with
  | some ev, some nm =>
    let r := lwes_event_add ev nm LWES_U_INT_64_TOKEN (some (.U_INT_64 value))
    (r.1, some r.2)
  | _, _ => (-1, event)

/-- Embeds `lwes_event_set_INT_64` (lines 980-1006). -/
def lwes_event_set_INT_64 (event : Option lwes_event) (attrName : Option (List Nat))
    (value : Int) : Int × Option lwes_event :=
  match event, attrName with
  | some ev, some nm =>
    let r := lwes_event_add ev nm LWES_INT_64_TOKEN (some (.INT_64 value))
    (r.1, some r.2)
  | _, _ => (-1, event)

/-- Embeds `lwes_event_set_STRING` (lines 1026-1051); the value is a pointer and
may be absent. -/
def lwes_event_set_STRING (event : Option lwes_event) (attrName : Option (List Nat))
    (value : Option (List Nat)) : Int × Option lwes_event :=
  match event, attrName, value with
  | some ev, some nm, some v =>
    let r := lwes_event_add ev nm LWES_STRING_TOKEN (some (.STRING v))
    (r.1, some r.2)
  | _, _, _ => (-1, event)

/-- Embeds `lwes_event_set_IP_ADDR` (lines 1053-1079). -/
def lwes_event_set_IP_ADDR (event : Option lwes_event) (attrName : Option (List Nat))
    (value : Nat) : Int × Option lwes_event :=
  match event, attrName with
  | some ev, some nm =>
    let r := lwes_event_add ev nm LWES_IP_ADDR_TOKEN (some (.IP_ADDR value))
    (r.1, some r.2)
  | _, _ => (-1, event)

/-- Embeds `lwes_event_set_BOOLEAN` (lines 1108-1133). -/
def lwes_event_set_BOOLEAN (event : Option lwes_event) (attrName : Option (List Nat))
    (value : Bool) : Int × Option lwes_event :=
  match event, attrName with
  | some ev, some nm =>
    let r := lwes_event_add ev nm LWES_BOOLEAN_TOKEN (some (.BOOLEAN value))
    (r.1, some r.2)
  | _, _ => (-1, event)

/-- Embeds `lwes_event_get_INT_16` (lines 1160-1179): the result and the contents
of the output slot `value` (`none` for a `NULL` slot). -/
def lwes_event_get_INT_16 (event : Option lwes_event) (name : Option (List Nat))
    (value : Option Int) : Int × Option Int :=
  match event, name, value with
  | some ev, some nm, some _ =>
    match lwes_hash_get ev.attributes nm with
    | some tmp => (0, some (lwes_value.as_INT_16 tmp.value))
    | none => (-1, value)
  | _, _, _ => (-1, value)

/-- Embeds `lwes_event_set_encoding` (lines 197-214). -/
def lwes_event_set_encoding (event : Option lwes_event) (encoding : Int) :
    Int × Option lwes_event :=
  match event with
  | none => (-1, event)
  | some _ =>
    if (lwes_event_get_INT_16 event (some LWES_ENCODING) (some 0)).1 = -1 then
      lwes_event_set_INT_16 event (some LWES_ENCODING) encoding
    else (-1, event)

/-- Embeds `lwes_event_create_no_name` (lines 54-77); `place` is the placement
rule of the table that `lwes_hash_create` makes. -/
def lwes_event_create_no_name (db : Option lwes_event_type_db)
    (place : List (List Nat) → List Nat → Nat) : Option lwes_event :=
  some { eventName := none, number_of_attributes := 0, type_db := db,
         attributes := lwes_hash_create place }

/-- Embeds `lwes_event_create` (lines 80-118). -/
def lwes_event_create (db : Option lwes_event_type_db)
    (place : List (List Nat) → List Nat → Nat) (name : Option (List Nat)) :
    Option lwes_event :=
  match name with
  | none => none
  | some _ =>
    let event : Option lwes_event :=
      some { eventName := none, number_of_attributes := 0, type_db := db,
             attributes := lwes_hash_create place }
    let r := lwes_event_set_name event name
    if r.1 < 0 then none else r.2

/-- Embeds `lwes_event_create_with_encoding` (lines 120-172). -/
def lwes_event_create_with_encoding (db : Option lwes_event_type_db)
    (place : List (List Nat) → List Nat → Nat) (name : Option (List Nat))
    (encoding : Int) : Option lwes_event :=
  match name with
  | none => none
  | some _ =>
    let event : Option lwes_event :=
      some { eventName := none, number_of_attributes := 0, type_db := db,
             attributes := lwes_hash_create place }
    let r := lwes_event_set_name event name
    if r.1 < 0 then none
    else
      let r2 := lwes_event_set_encoding r.2 encoding
      if r2.1 < 0 then none else r2.2

/-! ### lwes_event_to_bytes -/

/-- Embeds the encoding block of `lwes_event_to_bytes` (lines 346-390): the
attribute under the reserved name goes first.  The result is the error code, or
0 when the function goes on, with the buffer and the offset. -/
def to_bytes_encoding (event : lwes_event) (bytes : List Nat) (num_bytes tmpOffset : Nat) :
    Int × List Nat × Nat :=
  match lwes_hash_get event.attributes LWES_ENCODING with
  | none => (0, bytes, tmpOffset)
  | some encodingAttr =>
    match encodingAttr.value with
    | none => (-4, bytes, tmpOffset)
    | some _ =>
      if encodingAttr.type = LWES_INT_16_TOKEN then
        match marshall_SHORT_STRING (some LWES_ENCODING) bytes num_bytes tmpOffset with
        | none => (-2, bytes, tmpOffset)
        | some r1 =>
          match marshall_BYTE encodingAttr.type r1.1 num_bytes r1.2 with
          | none => (-2, r1.1, r1.2)
          | some r2 =>
            match marshall_INT_16 (lwes_value.as_INT_16 encodingAttr.value) r2.1 num_bytes
                r2.2 with
            | none => (-2, r2.1, r2.2)
            | some r3 => (0, r3.1, r3.2)
      else (-3, bytes, tmpOffset)

/-- Embeds the dispatch on the type of the loop body of `lwes_event_to_bytes`
(lines 428-523): the payload of the attribute `tmp`; an unknown type writes
nothing and is no error. -/
def to_bytes_value (tmp : lwes_event_attribute) (bytes : List Nat)
    (num_bytes tmpOffset : Nat) : Int × List Nat × Nat :=
  if tmp.type = LWES_U_INT_16_TOKEN then
    match marshall_U_INT_16 (lwes_value.as_U_INT_16 tmp.value) bytes num_bytes tmpOffset with
    | none => (-7, bytes, tmpOffset)
    | some r => (0, r.1, r.2)
  else if tmp.type = LWES_INT_16_TOKEN then
    match marshall_INT_16 (lwes_value.as_INT_16 tmp.value) bytes num_bytes tmpOffset with
    | none => (-8, bytes, tmpOffset)
    | some r => (0, r.1, r.2)
  else if tmp.type = LWES_U_INT_32_TOKEN then
    match marshall_U_INT_32 (lwes_value.as_U_INT_32 tmp.value) bytes num_bytes tmpOffset with
    | none => (-9, bytes, tmpOffset)
    | some r => (0, r.1, r.2)
  else if tmp.type = LWES_INT_32_TOKEN then
    match marshall_INT_32 (lwes_value.as_INT_32 tmp.value) bytes num_bytes tmpOffset with
    | none => (-10, bytes, tmpOffset)
    | some r => (0, r.1, r.2)
  else if tmp.type = LWES_U_INT_64_TOKEN then
    match marshall_U_INT_64 (lwes_value.as_U_INT_64 tmp.value) bytes num_bytes tmpOffset with
    | none => (-11, bytes, tmpOffset)
    | some r => (0, r.1, r.2)
  else if tmp.type = LWES_INT_64_TOKEN then
    match marshall_INT_64 (lwes_value.as_INT_64 tmp.value) bytes num_bytes tmpOffset with
    | none => (-12, bytes, tmpOffset)
    | some r => (0, r.1, r.2)
  else if tmp.type = LWES_BOOLEAN_TOKEN then
    match marshall_BOOLEAN (lwes_value.as_BOOLEAN tmp.value) bytes num_bytes tmpOffset with
    | none => (-13, bytes, tmpOffset)
    | some r => (0, r.1, r.2)
  else if tmp.type = LWES_IP_ADDR_TOKEN then
    match marshall_IP_ADDR (lwes_value.as_IP_ADDR tmp.value) bytes num_bytes tmpOffset with
    | none => (-14, bytes, tmpOffset)
    | some r => (0, r.1, r.2)
  else if tmp.type = LWES_STRING_TOKEN then
    match marshall_LONG_STRING (lwes_value.as_STRING tmp.value) bytes num_bytes tmpOffset with
    | none => (-15, bytes, tmpOffset)
    | some r => (0, r.1, r.2)
  else (0, bytes, tmpOffset)

/-- Embeds the loop of `lwes_event_to_bytes` over the enumeration `e` of the keys
(lines 393-527): it stops at the first error.  A key that the enumeration yields
is in the table; for a `NULL` from `lwes_hash_get`, which C gives no meaning, the
embedding reads an attribute of type 0 without value. -/
def to_bytes_attributes (event : lwes_event) :
    List (List Nat) → List Nat → Nat → Nat → Int × List Nat × Nat
  | [], bytes, _, tmpOffset => (0, bytes, tmpOffset)
  | tmpAttrName :: e, bytes, num_bytes, tmpOffset =>
    if tmpAttrName = LWES_ENCODING then
      to_bytes_attributes event e bytes num_bytes tmpOffset
    else
      let tmp : lwes_event_attribute :=
        (lwes_hash_get event.attributes tmpAttrName).getD ⟨0, none⟩
      match marshall_SHORT_STRING (some tmpAttrName) bytes num_bytes tmpOffset with
      | none => (-5, bytes, tmpOffset)
      | some r1 =>
        match marshall_BYTE tmp.type r1.1 num_bytes r1.2 with
        | none => (-6, r1.1, r1.2)
        | some r2 =>
          let r3 := to_bytes_value tmp r2.1 num_bytes r2.2
          if r3.1 < 0 then r3
          else to_bytes_attributes event e r3.2.1 num_bytes r3.2.2

/-- Embeds `lwes_event_to_bytes` (lines 313-540): the `int` result and the buffer
after the call.  The result is `(ret < 0) ? ret : (int)(tmpOffset-offset)`
(line 539): after the last write, the distance that the offset has advanced,
converted to `int`. -/
def lwes_event_to_bytes (event : Option lwes_event) (bytes : Option (List Nat))
    (num_bytes offset : Nat) : Int × Option (List Nat) :=
  match event, bytes with
  | some ev, some bs =>
    if num_bytes = 0 ∨ offset ≥ num_bytes then (-1, bytes)
    else
      match marshall_SHORT_STRING ev.eventName bs num_bytes offset with
      | none => (-17, bytes)
      | some r1 =>
        match marshall_U_INT_16 ev.number_of_attributes r1.1 num_bytes r1.2 with
        | none => (-16, some r1.1)
        | some r2 =>
          let r3 := to_bytes_encoding ev r2.1 num_bytes r2.2
          if r3.1 < 0 then (r3.1, some r3.2.1)
          else
            let r4 := to_bytes_attributes ev (lwes_hash_keys ev.attributes) r3.2.1
              num_bytes r3.2.2
            (if r4.1 < 0 then r4.1 else to_int ((r4.2.2 : Int) - (offset : Int)),
              some r4.2.1)
  | _, _ => (-1, bytes)

/-- The encoder without the conversion of its last line: `lwes_event_to_bytes`
with the distance `tmpOffset - offset` itself as the result of a success, the
number of bytes written. -/
def to_bytes_exact (event : Option lwes_event) (bytes : Option (List Nat))
    (num_bytes offset : Nat) : Int × Option (List Nat) :=
  match event, bytes with
  | some ev, some bs =>
    if num_bytes = 0 ∨ offset ≥ num_bytes then (-1, bytes)
    else
      match marshall_SHORT_STRING ev.eventName bs num_bytes offset with
      | none => (-17, bytes)
      | some r1 =>
        match marshall_U_INT_16 ev.number_of_attributes r1.1 num_bytes r1.2 with
        | none => (-16, some r1.1)
        | some r2 =>
          let r3 := to_bytes_encoding ev r2.1 num_bytes r2.2
          if r3.1 < 0 then (r3.1, some r3.2.1)
          else
            let r4 := to_bytes_attributes ev (lwes_hash_keys ev.attributes) r3.2.1
              num_bytes r3.2.2
            (if r4.1 < 0 then r4.1 else (r4.2.2 : Int) - (offset : Int), some r4.2.1)
  | _, _ => (-1, bytes)

/-! ### lwes_event_from_bytes -/

/-- Embeds one pass of the loop of `lwes_event_from_bytes` (lines 596-803): the
name, the type byte, the payload of that type and the call of the typed setter.
The result is the error code that the function returns, or 0 when the loop goes
on, with the event and the offset. -/
def from_bytes_attribute (event : Option lwes_event) (bytes : List Nat)
    (num_bytes tmpOffset : Nat) : Int × Option lwes_event × Nat :=
  match unmarshall_SHORT_STRING (SHORT_STRING_MAX + 1) bytes num_bytes tmpOffset with
  | none => (-22, event, tmpOffset)
  | some tmp_short_str =>
    match unmarshall_BYTE bytes num_bytes tmp_short_str.2 with
    | none => (-21, event, tmp_short_str.2)
    | some tmp_byte =>
      if tmp_byte.1 = LWES_U_INT_16_TOKEN then
        match unmarshall_U_INT_16 bytes num_bytes tmp_byte.2 with
        | some tmp_uint16 =>
          let r := lwes_event_set_U_INT_16 event (some tmp_short_str.1) tmp_uint16.1
          if r.1 < 0 then (-2, r.2, tmp_uint16.2) else (0, r.2, tmp_uint16.2)
        | none => (-3, event, tmp_byte.2)
      else if tmp_byte.1 = LWES_INT_16_TOKEN then
        match unmarshall_INT_16 bytes num_bytes tmp_byte.2 with
        | some tmp_int16 =>
          let r := lwes_event_set_INT_16 event (some tmp_short_str.1) tmp_int16.1
          if r.1 < 0 then (-4, r.2, tmp_int16.2) else (0, r.2, tmp_int16.2)
        | none => (-5, event, tmp_byte.2)
      else if tmp_byte.1 = LWES_U_INT_32_TOKEN then
        match unmarshall_U_INT_32 bytes num_bytes tmp_byte.2 with
        | some tmp_uint32 =>
          let r := lwes_event_set_U_INT_32 event (some tmp_short_str.1) tmp_uint32.1
          if r.1 < 0 then (-6, r.2, tmp_uint32.2) else (0, r.2, tmp_uint32.2)
        | none => (-7, event, tmp_byte.2)
      else if tmp_byte.1 = LWES_INT_32_TOKEN then
        match unmarshall_INT_32 bytes num_bytes tmp_byte.2 with
        | some tmp_int32 =>
          let r := lwes_event_set_INT_32 event (some tmp_short_str.1) tmp_int32.1
          if r.1 < 0 then (-8, r.2, tmp_int32.2) else (0, r.2, tmp_int32.2)
        | none => (-9, event, tmp_byte.2)
      else if tmp_byte.1 = LWES_U_INT_64_TOKEN then
        match unmarshall_U_INT_64 bytes num_bytes tmp_byte.2 with
        | some tmp_uint64 =>
          let r := lwes_event_set_U_INT_64 event (some tmp_short_str.1) tmp_uint64.1
          if r.1 < 0 then (-10, r.2, tmp_uint64.2) else (0, r.2, tmp_uint64.2)
        | none => (-11, event, tmp_byte.2)
      else if tmp_byte.1 = LWES_INT_64_TOKEN then
        match unmarshall_INT_64 bytes num_bytes tmp_byte.2 with
        | some tmp_int64 =>
          let r := lwes_event_set_INT_64 event (some tmp_short_str.1) tmp_int64.1
          if r.1 < 0 then (-12, r.2, tmp_int64.2) else (0, r.2, tmp_int64.2)
        | none => (-13, event, tmp_byte.2)
      else if tmp_byte.1 = LWES_BOOLEAN_TOKEN then
        match unmarshall_BOOLEAN bytes num_bytes tmp_byte.2 with
        | some tmp_boolean =>
          let r := lwes_event_set_BOOLEAN event (some tmp_short_str.1) tmp_boolean.1
          if r.1 < 0 then (-14, r.2, tmp_boolean.2) else (0, r.2, tmp_boolean.2)
        | none => (-15, event, tmp_byte.2)
      else if tmp_byte.1 = LWES_IP_ADDR_TOKEN then
        match unmarshall_IP_ADDR bytes num_bytes tmp_byte.2 with
        | some tmp_ip_addr =>
          let r := lwes_event_set_IP_ADDR event (some tmp_short_str.1) tmp_ip_addr.1
          if r.1 < 0 then (-16, r.2, tmp_ip_addr.2) else (0, r.2, tmp_ip_addr.2)
        | none => (-17, event, tmp_byte.2)
      else if tmp_byte.1 = LWES_STRING_TOKEN then
        match unmarshall_LONG_STRING (LONG_STRING_MAX + 1) bytes num_bytes tmp_byte.2 with
        | some tmp_long_str =>
          let r := lwes_event_set_STRING event (some tmp_short_str.1) (some tmp_long_str.1)
          if r.1 < 0 then (-18, r.2, tmp_long_str.2) else (0, r.2, tmp_long_str.2)
        | none => (-19, event, tmp_byte.2)
      else (-20, event, tmp_byte.2)

/-- Embeds the loop `for (i = 0; i < tmp_number_of_attributes; i++)` of
`lwes_event_from_bytes` (lines 594-804); the first argument is the number of
passes left. -/
def from_bytes_attributes :
    Nat → Option lwes_event → List Nat → Nat → Nat → Int × Option lwes_event × Nat
  | 0, event, _, _, tmpOffset => (0, event, tmpOffset)
  | n + 1, event, bytes, num_bytes, tmpOffset =>
    let r := from_bytes_attribute event bytes num_bytes tmpOffset
    if r.1 < 0 then r
    else from_bytes_attributes n r.2.1 bytes num_bytes r.2.2

/-- Embeds `lwes_event_from_bytes` (lines 543-822): the `int` result and the
event after the call.  The result of a success is `(int)(tmpOffset-offset)`
(line 821): the distance that the offset has advanced, converted to `int`. -/
def lwes_event_from_bytes (event : Option lwes_event) (bytes : Option (List Nat))
    (num_bytes offset : Nat) (dtmp : Option lwes_event_deserialize_tmp) :
    Int × Option lwes_event :=
  match event, bytes, dtmp with
  | some _, some bs, some _ =>
    if num_bytes = 0 ∨ offset ≥ num_bytes then (-1, event)
    else
      match unmarshall_SHORT_STRING (SHORT_STRING_MAX + 1) bs num_bytes offset with
      | none => (-25, event)
      | some tmp_short_str =>
        let r := lwes_event_set_name event (some tmp_short_str.1)
        if r.1 = 0 then
          match unmarshall_U_INT_16 bs num_bytes tmp_short_str.2 with
          | none => (-23, r.2)
          | some tmp_uint16 =>
            let l := from_bytes_attributes tmp_uint16.1 r.2 bs num_bytes tmp_uint16.2
            if l.1 < 0 then (l.1, l.2.1)
            else (to_int ((l.2.2 : Int) - (offset : Int)), l.2.1)
        else (-24, r.2)
  | _, _, _ => (-1, event)

/-- The decoder without the conversion of its last line: `lwes_event_from_bytes`
with the distance `tmpOffset - offset` itself as the result of a success, the
number of bytes read. -/
def from_bytes_exact (event : Option lwes_event) (bytes : Option (List Nat))
    (num_bytes offset : Nat) (dtmp : Option lwes_event_deserialize_tmp) :
    Int × Option lwes_event :=
  match event, bytes, dtmp with
  | some _, some bs, some _ =>
    if num_bytes = 0 ∨ offset ≥ num_bytes then (-1, event)
    else
      match unmarshall_SHORT_STRING (SHORT_STRING_MAX + 1) bs num_bytes offset with
      | none => (-25, event)
      | some tmp_short_str =>
        let r := lwes_event_set_name event (some tmp_short_str.1)
        if r.1 = 0 then
          match unmarshall_U_INT_16 bs num_bytes tmp_short_str.2 with
          | none => (-23, r.2)
          | some tmp_uint16 =>
            let l := from_bytes_attributes tmp_uint16.1 r.2 bs num_bytes tmp_uint16.2
            if l.1 < 0 then (l.1, l.2.1)
            else ((l.2.2 : Int) - (offset : Int), l.2.1)
        else (-24, r.2)
  | _, _, _ => (-1, event)

/-! ### The accessors -/

/-- Embeds `lwes_event_get_name` (lines 217-227): the result and the contents of
the output slot `name`, which takes the pointer `event->eventName` (`none` for a
`NULL` slot, `some none` for a slot that holds `NULL`). -/
def lwes_event_get_name (event : Option lwes_event) (name : Option (Option (List Nat))) :
    Int × Option (Option (List Nat)) :=
  match event, name with
  | some ev, some _ => (0, some ev.eventName)
  | _, _ => (-1, name)

/-- Embeds `lwes_event_get_number_of_attributes` (lines 229-240): the result and
the contents of the output slot `number` (`none` for a `NULL` slot). -/
def lwes_event_get_number_of_attributes (event : Option lwes_event) (number : Option Nat) :
    Int × Option Nat :=
  match event, number with
  | some ev, some _ => (0, some ev.number_of_attributes)
  | _, _ => (-1, number)

/-- Embeds `lwes_event_get_encoding` (lines 242-255). -/
def lwes_event_get_encoding (event : Option lwes_event) (encoding : Option Int) :
    Int × Option Int :=
  match event, encoding with
  | some _, some _ => lwes_event_get_INT_16 event (some LWES_ENCODING) encoding
  | _, _ => (-1, encoding)

/-- Embeds `lwes_event_get_U_INT_16` (lines 1138-1158): the result and the
contents of the output slot `value` (`none` for a `NULL` slot). -/
def lwes_event_get_U_INT_16 (event : Option lwes_event) (name : Option (List Nat))
    (value : Option Nat) : Int × Option Nat :=
  match event, name, value with
  | some ev, some nm, some _ =>
    match lwes_hash_get ev.attributes nm with
    | some tmp => (0, some (lwes_value.as_U_INT_16 tmp.value))
    | none => (-1, value)
  | _, _, _ => (-1, value)

/-- Embeds `lwes_event_get_U_INT_32` (lines 1181-1201). -/
def lwes_event_get_U_INT_32 (event : Option lwes_event) (name : Option (List Nat))
    (value : Option Nat) : Int × Option Nat :=
  match event, name, value with
  | some ev, some nm, some _ =>
    match lwes_hash_get ev.attributes nm with
    | some tmp => (0, some (lwes_value.as_U_INT_32 tmp.value))
    | none => (-1, value)
  | _, _, _ => (-1, value)

/-- Embeds `lwes_event_get_INT_32` (lines 1203-1223). -/
def lwes_event_get_INT_32 (event : Option lwes_event) (name : Option (List Nat))
    (value : Option Int) : Int × Option Int :=
  match event, name, value with
  | some ev, some nm, some _ =>
    match lwes_hash_get ev.attributes nm with
    | some tmp => (0, some (lwes_value.as_INT_32 tmp.value))
    | none => (-1, value)
  | _, _, _ => (-1, value)

/-- Embeds `lwes_event_get_U_INT_64` (lines 1225-1245). -/
def lwes_event_get_U_INT_64 (event : Option lwes_event) (name : Option (List Nat))
    (value : Option Nat) : Int × Option Nat :=
  match event, name, value with
  | some ev, some nm, some _ =>
    match lwes_hash_get ev.attributes nm with
    | some tmp => (0, some (lwes_value.as_U_INT_64 tmp.value))
    | none => (-1, value)
  | _, _, _ => (-1, value)

/-- Embeds `lwes_event_get_INT_64` (lines 1247-1267). -/
def lwes_event_get_INT_64 (event : Option lwes_event) (name : Option (List Nat))
    (value : Option Int) : Int × Option Int :=
  match event, name, value with
  | some ev, some nm, some _ =>
    match lwes_hash_get ev.attributes nm with
    | some tmp => (0, some (lwes_value.as_INT_64 tmp.value))
    | none => (-1, value)
  | _, _, _ => (-1, value)

/-- Embeds `lwes_event_get_STRING` (lines 1269-1289): the output slot takes the
pointer `(LWES_LONG_STRING) tmp->value` (`some none` for a slot that holds
`NULL`). -/
def lwes_event_get_STRING (event : Option lwes_event) (name : Option (List Nat))
    (value : Option (Option (List Nat))) : Int × Option (Option (List Nat)) :=
  match event, name, value with
  | some ev, some nm, some _ =>
    match lwes_hash_get ev.attributes nm with
    | some tmp => (0, some (lwes_value.as_STRING tmp.value))
    | none => (-1, value)
  | _, _, _ => (-1, value)

/-- Embeds `lwes_event_get_IP_ADDR` (lines 1290-1309). -/
def lwes_event_get_IP_ADDR (event : Option lwes_event) (name : Option (List Nat))
    (value : Option Nat) : Int × Option Nat :=
  match event, name, value with
  | some ev, some nm, some _ =>
    match lwes_hash_get ev.attributes nm with
    | some tmp => (0, some (lwes_value.as_IP_ADDR tmp.value))
    | none => (-1, value)
  | _, _, _ => (-1, value)

/-- Embeds `lwes_event_get_BOOLEAN` (lines 1311-1330). -/
def lwes_event_get_BOOLEAN (event : Option lwes_event) (name : Option (List Nat))
    (value : Option Bool) : Int × Option Bool :=
  match event, name, value with
  | some ev, some nm, some _ =>
    match lwes_hash_get ev.attributes nm with
    | some tmp => (0, some (lwes_value.as_BOOLEAN tmp.value))
    | none => (-1, value)
  | _, _, _ => (-1, value)

/-! ### The hex parsers and the setters from strings

`strtoull` and `inet_addr` belong to the C library.  `strtoull` with the base 16
is embedded as ISO C describes it (7.22.1.4): leading white space, an optional
sign, an optional `0x` or `0X`, and the longest run of hexadecimal digits; the
value is negated in the unsigned type after a minus sign, and a value that does
not fit gives the largest value and `ERANGE`.  `inet_addr` is a parameter of the
one function that calls it. -/

/-- The C library's `isspace` in the C locale: the space and the characters from
`\t` to `\r`. -/
def isspace (c : Nat) : Bool :=
  c = 32 || (9 ≤ c && c ≤ 13)

/-- The value of a hexadecimal digit, `0` to `9`, `a` to `f` or `A` to `F`;
none for another character. -/
def hex_digit (c : Nat) : Option Nat :=
  if 48 ≤ c ∧ c ≤ 57 then some (c - 48)
  else if 97 ≤ c ∧ c ≤ 102 then some (c - 87)
  else if 65 ≤ c ∧ c ≤ 70 then some (c - 55)
  else none

/-- The number that a run of hexadecimal digits denotes. -/
def hex_value (digits : List Nat) : Nat :=
  digits.foldl (fun acc c => acc * 16 + (hex_digit c).getD 0) 0

/-- What a call `strtoull (nptr, &endptr, 16)` leaves: the value returned, the
distance `endptr - nptr`, and whether `errno` is `ERANGE`. -/
structure strtoull_result where
  value : Nat
  endptr : Nat
  erange : Bool
  deriving DecidableEq, Repr

/-- The C library's `strtoull (nptr, &endptr, 16)` for a 64-bit
`unsigned long long`.  Without a digit no conversion is done: the value is 0 and
`endptr` is `nptr`.  A `0x` counts as the prefix only before a digit. -/
def strtoull_16 (nptr : List Nat) : strtoull_result :=
  let space := nptr.takeWhile isspace
  let s1 := nptr.dropWhile isspace
  let sign : Nat := if s1.head? = some 43 ∨ s1.head? = some 45 then 1 else 0
  let s2 := s1.drop sign
  let pre : Nat :=
    if s2.head? = some 48 ∧ (s2[1]? = some 120 ∨ s2[1]? = some 88) ∧
        ((s2[2]?).bind hex_digit).isSome then 2 else 0
  let s3 := s2.drop pre
  let digits := s3.takeWhile (fun c => (hex_digit c).isSome)
  if digits = [] then { value := 0, endptr := 0, erange := false }
  else
    let v := hex_value digits
    let endptr := space.length + sign + pre + digits.length
    if 18446744073709551616 ≤ v then
      { value := 18446744073709551615, endptr := endptr, erange := true }
    else
      { value := if s1.head? = some 45 then (18446744073709551616 - v) % 18446744073709551616
                 else v,
        endptr := endptr, erange := false }

/-- Embeds `lwes_U_INT_64_from_hex_string` (lines 1417-1441): the result and the
contents of `*a_uint64`, which is written in every case.  The test of the
lengths is `(int)strlen (buffer) > (int)(endptr - buffer)`, on the two values
converted to `int`. -/
def lwes_U_INT_64_from_hex_string (buffer : List Nat) : Int × Nat :=
  let r := strtoull_16 buffer
  if r.erange = true ∨ to_int (buffer.length : Int) > to_int (r.endptr : Int) then
    (-1, r.value)
  else (0, r.value)

/-- Embeds `lwes_INT_64_from_hex_string` (lines 1443-1466): the result and the
contents of `*an_int64`, which is written on success only; the cast to
`LWES_INT_64` reads the 64-bit pattern as two's complement. -/
def lwes_INT_64_from_hex_string (buffer : List Nat) (an_int64 : Int) : Int × Int :=
  let r := lwes_U_INT_64_from_hex_string buffer
  if r.1 < 0 then (r.1, an_int64)
  else (0, to_signed 8 r.2)

/-- Embeds `lwes_event_set_U_INT_64_w_string` (lines 964-978): the string goes
through the signed parser, and the signed result is converted to the unsigned
parameter of `lwes_event_set_U_INT_64`.  The local `u_int_64` starts as 0 here;
it is read after a successful parse only. -/
def lwes_event_set_U_INT_64_w_string (event : Option lwes_event)
    (attrName : Option (List Nat)) (uint64_string : Option (List Nat)) :
    Int × Option lwes_event :=
  match event, attrName, uint64_string with
  | some _, some _, some s =>
    let r := lwes_INT_64_from_hex_string s 0
    if r.1 < 0 then (-2, event)
    else lwes_event_set_U_INT_64 event attrName (of_signed 8 r.2)
  | _, _, _ => (-1, event)

/-- Embeds `lwes_event_set_INT_64_w_string` (lines 1008-1024). -/
def lwes_event_set_INT_64_w_string (event : Option lwes_event)
    (attrName : Option (List Nat)) (int64_string : Option (List Nat)) :
    Int × Option lwes_event :=
  match event, attrName, int64_string with
  | some _, some _, some s =>
    let r := lwes_INT_64_from_hex_string s 0
    if r.1 < 0 then (-2, event)
    else lwes_event_set_INT_64 event attrName r.2
  | _, _, _ => (-1, event)

/-- Embeds `lwes_event_set_IP_ADDR_w_string` (lines 1081-1106).  The C library's
`inet_addr` is the parameter `inet_addr`: the function stores what it returns
and checks nothing. -/
def lwes_event_set_IP_ADDR_w_string (inet_addr : List Nat → Nat)
    (event : Option lwes_event) (attrName : Option (List Nat))
    (value : Option (List Nat)) : Int × Option lwes_event :=
  match event, attrName, value with
  | some ev, some nm, some v =>
    let r := lwes_event_add ev nm LWES_IP_ADDR_TOKEN (some (.IP_ADDR (inet_addr v)))
    (r.1, some r.2)
  | _, _, _ => (-1, event)

/-! ## The typed setters as one family -/

/-- A call of one of the nine typed setters, with the value it is given. -/
inductive typed_call where
  | U_INT_16 (v : Nat)
  | INT_16 (v : Int)
  | U_INT_32 (v : Nat)
  | INT_32 (v : Int)
  | U_INT_64 (v : Nat)
  | INT_64 (v : Int)
  | BOOLEAN (v : Bool)
  | IP_ADDR (v : Nat)
  | STRING (v : Option (List Nat))
  deriving DecidableEq, Repr

/-- The typed setter that the call stands for, applied to an event and a name. -/
def typed_call.run (c : typed_call) (event : Option lwes_event)
    (attrName : Option (List Nat)) : Int × Option lwes_event :=
  match c with
  | .U_INT_16 v => lwes_event_set_U_INT_16 event attrName v
  | .INT_16 v => lwes_event_set_INT_16 event attrName v
  | .U_INT_32 v => lwes_event_set_U_INT_32 event attrName v
  | .INT_32 v => lwes_event_set_INT_32 event attrName v
  | .U_INT_64 v => lwes_event_set_U_INT_64 event attrName v
  | .INT_64 v => lwes_event_set_INT_64 event attrName v
  | .BOOLEAN v => lwes_event_set_BOOLEAN event attrName v
  | .IP_ADDR v => lwes_event_set_IP_ADDR event attrName v
  | .STRING v => lwes_event_set_STRING event attrName v

/-- The type tag that the setter of the call hands to `lwes_event_add`. -/
def typed_call.token : typed_call → Nat
  | .U_INT_16 _ => LWES_U_INT_16_TOKEN
  | .INT_16 _ => LWES_INT_16_TOKEN
  | .U_INT_32 _ => LWES_U_INT_32_TOKEN
  | .INT_32 _ => LWES_INT_32_TOKEN
  | .U_INT_64 _ => LWES_U_INT_64_TOKEN
  | .INT_64 _ => LWES_INT_64_TOKEN
  | .BOOLEAN _ => LWES_BOOLEAN_TOKEN
  | .IP_ADDR _ => LWES_IP_ADDR_TOKEN
  | .STRING _ => LWES_STRING_TOKEN

/-- The object that the setter of the call allocates and hands to
`lwes_event_add`; none for the string setter without a value, which allocates
nothing. -/
def typed_call.stored : typed_call → Option lwes_value
  | .U_INT_16 v => some (.U_INT_16 v)
  | .INT_16 v => some (.INT_16 v)
  | .U_INT_32 v => some (.U_INT_32 v)
  | .INT_32 v => some (.INT_32 v)
  | .U_INT_64 v => some (.U_INT_64 v)
  | .INT_64 v => some (.INT_64 v)
  | .BOOLEAN v => some (.BOOLEAN v)
  | .IP_ADDR v => some (.IP_ADDR v)
  | .STRING v => v.map lwes_value.STRING

/-- The contents of a C string: characters, none of them NUL. -/
def valid_string (s : List Nat) : Prop :=
  ∀ c ∈ s, 0 < c ∧ c < 256

/-- The value of the call lies in the range of its C type. -/
def typed_call.valid : typed_call → Prop
  | .U_INT_16 v => v < 65536
  | .INT_16 v => -32768 ≤ v ∧ v < 32768
  | .U_INT_32 v => v < 4294967296
  | .INT_32 v => -2147483648 ≤ v ∧ v < 2147483648
  | .U_INT_64 v => v < 18446744073709551616
  | .INT_64 v => -9223372036854775808 ≤ v ∧ v < 9223372036854775808
  | .BOOLEAN _ => True
  | .IP_ADDR v => v < 4294967296
  | .STRING v => ∀ s, v = some s → valid_string s

/-! ## The typed getters as one family -/

/-- The output slot of a call of one of the nine typed getters, with its
contents (`none` for a `NULL` slot). -/
inductive typed_slot where
  | U_INT_16 (value : Option Nat)
  | INT_16 (value : Option Int)
  | U_INT_32 (value : Option Nat)
  | INT_32 (value : Option Int)
  | U_INT_64 (value : Option Nat)
  | INT_64 (value : Option Int)
  | BOOLEAN (value : Option Bool)
  | IP_ADDR (value : Option Nat)
  | STRING (value : Option (Option (List Nat)))
  deriving DecidableEq, Repr

/-- The typed getter that the slot belongs to, applied to an event and a name:
the result and the slot after the call. -/
def typed_slot.get (s : typed_slot) (event : Option lwes_event) (name : Option (List Nat)) :
    Int × typed_slot :=
  match s with
  | .U_INT_16 value =>
    ((lwes_event_get_U_INT_16 event name value).1,
      .U_INT_16 (lwes_event_get_U_INT_16 event name value).2)
  | .INT_16 value =>
    ((lwes_event_get_INT_16 event name value).1,
      .INT_16 (lwes_event_get_INT_16 event name value).2)
  | .U_INT_32 value =>
    ((lwes_event_get_U_INT_32 event name value).1,
      .U_INT_32 (lwes_event_get_U_INT_32 event name value).2)
  | .INT_32 value =>
    ((lwes_event_get_INT_32 event name value).1,
      .INT_32 (lwes_event_get_INT_32 event name value).2)
  | .U_INT_64 value =>
    ((lwes_event_get_U_INT_64 event name value).1,
      .U_INT_64 (lwes_event_get_U_INT_64 event name value).2)
  | .INT_64 value =>
    ((lwes_event_get_INT_64 event name value).1,
      .INT_64 (lwes_event_get_INT_64 event name value).2)
  | .BOOLEAN value =>
    ((lwes_event_get_BOOLEAN event name value).1,
      .BOOLEAN (lwes_event_get_BOOLEAN event name value).2)
  | .IP_ADDR value =>
    ((lwes_event_get_IP_ADDR event name value).1,
      .IP_ADDR (lwes_event_get_IP_ADDR event name value).2)
  | .STRING value =>
    ((lwes_event_get_STRING event name value).1,
      .STRING (lwes_event_get_STRING event name value).2)

/-- The output slot is present: the pointer `value` of the call is not `NULL`. -/
def typed_slot.present : typed_slot → Bool
  | .U_INT_16 value => value.isSome
  | .INT_16 value => value.isSome
  | .U_INT_32 value => value.isSome
  | .INT_32 value => value.isSome
  | .U_INT_64 value => value.isSome
  | .INT_64 value => value.isSome
  | .BOOLEAN value => value.isSome
  | .IP_ADDR value => value.isSome
  | .STRING value => value.isSome

/-! ## The mutators as one family -/

/-- A call of one of the functions that change an event, with its arguments
other than the event: a typed setter, one of the two setters from a hex string,
the setter from a dotted-decimal string (with the `inet_addr` it calls),
`lwes_event_set_name` or `lwes_event_set_encoding`. -/
inductive mutator where
  | typed (c : typed_call) (attrName : Option (List Nat))
  | U_INT_64_w_string (attrName : Option (List Nat)) (uint64_string : Option (List Nat))
  | INT_64_w_string (attrName : Option (List Nat)) (int64_string : Option (List Nat))
  | IP_ADDR_w_string (inet_addr : List Nat → Nat) (attrName : Option (List Nat))
      (value : Option (List Nat))
  | set_name (name : Option (List Nat))
  | set_encoding (encoding : Int)

/-- The function that the call stands for, applied to an event, when every
allocation of the call succeeds; `mutator.run_alloc` below is the same call with
the outcome of its allocations. -/
def mutator.run (m : mutator) (event : Option lwes_event) : Int × Option lwes_event :=
  match m with
  | .typed c attrName => c.run event attrName
  | .U_INT_64_w_string attrName uint64_string =>
    lwes_event_set_U_INT_64_w_string event attrName uint64_string
  | .INT_64_w_string attrName int64_string =>
    lwes_event_set_INT_64_w_string event attrName int64_string
  | .IP_ADDR_w_string inet_addr attrName value =>
    lwes_event_set_IP_ADDR_w_string inet_addr event attrName value
  | .set_name name => lwes_event_set_name event name
  | .set_encoding encoding => lwes_event_set_encoding event encoding

/-! ## The typed setters with the outcome of their allocations

The embedding above takes `malloc` to succeed.  The definitions of this section
embed the same code with the outcome of each `malloc` of a call as an argument,
for the statements about the value -3 and about the calls that fail. -/

/-- The outcome of the three allocations of a typed setter call, in the order of
the calls: the object for the value in the setter, the copy of the name and the
attribute in `lwes_event_add`; `true` when `malloc` returns memory. -/
structure alloc_outcome where
  value_ok : Bool
  name_ok : Bool
  attribute_ok : Bool
  deriving DecidableEq, Repr

/-- Embeds the static `lwes_event_add` (lines 1355-1415) with the outcome of its
allocations: -3 when the copy of the name or the attribute is not allocated (the
attribute is allocated by `lwes_event_attribute_create`, lines 1336-1352). -/
def lwes_event_add_alloc (m : alloc_outcome) (event : lwes_event) (attrNameIn : List Nat)
    (attrType : Nat) (attrValue : Option lwes_value) : Int × lwes_event :=
  if (match event.type_db with
      | some db =>
        decide (lwes_event_type_db_check_for_attribute db attrNameIn event.eventName = 0)
      | none => false) then (-1, event)
  else if (match event.type_db with
      | some db =>
        decide (lwes_event_type_db_check_for_type db attrType attrNameIn event.eventName = 0)
      | none => false) then (-2, event)
  else if m.name_ok = false then (-3, event)
  else if m.attribute_ok = false then (-3, event)
  else
    let attrName := attrNameIn
    let attr := lwes_event_attribute_create attrType attrValue
    let r := lwes_hash_put event.attributes attrName attr
    if r.1 < 0 then (r.1, event)
    else
      let number_of_attributes := (event.number_of_attributes + 1) % 65536
      ((number_of_attributes : Int),
        { event with attributes := r.2, number_of_attributes := number_of_attributes })

/-- Embeds the nine typed setters (lines 824-1133), which differ in the C type of
the value and in the tag only, with the outcome of their allocations: -1 without
an event or a name (or, for the string setter, a value), -3 when the object for
the value is not allocated, and else the result of `lwes_event_add`. -/
def typed_call.run_alloc (c : typed_call) (m : alloc_outcome) (event : Option lwes_event)
    (attrName : Option (List Nat)) : Int × Option lwes_event :=
  match event, attrName, c.stored with
  | some ev, some nm, some v =>
    if m.value_ok = false then (-3, event)
    else
      let r := lwes_event_add_alloc m ev nm c.token (some v)
      (r.1, some r.2)
  | _, _, _ => (-1, event)

/-- Embeds `lwes_event_set_name` (lines 174-195) with the outcome of its
allocation, the copy of the name: -3 when it is not allocated (line 189); the
name of the event, which was `NULL`, is `NULL` then. -/
def lwes_event_set_name_alloc (m : alloc_outcome) (event : Option lwes_event)
    (name : Option (List Nat)) : Int × Option lwes_event :=
  match event, name with
  | some ev, some nm =>
    if ev.eventName ≠ none then (-1, event)
    else if m.name_ok = false then (-3, event)
    else (0, some { ev with eventName := some nm })
  | _, _ => (-1, event)

/-- The function that the call stands for, applied to an event, with the outcome
of its allocations: the typed setters as in `typed_call.run_alloc`; the setters
from a hex string (lines 964-978, 1008-1024) parse and then call their typed
setter; the setter from a dotted-decimal string (lines 1081-1106) allocates the
value, stores what `inet_addr` returns and calls `lwes_event_add`, as the IP_ADDR
setter does; `lwes_event_set_encoding` (lines 197-214) calls the INT_16 setter. -/
def mutator.run_alloc (mu : mutator) (m : alloc_outcome) (event : Option lwes_event) :
    Int × Option lwes_event :=
  match mu with
  | .typed c attrName => c.run_alloc m event attrName
  | .U_INT_64_w_string attrName uint64_string =>
    match event, attrName, uint64_string with
    | some _, some _, some s =>
      let r := lwes_INT_64_from_hex_string s 0
      if r.1 < 0 then (-2, event)
      else (typed_call.U_INT_64 (of_signed 8 r.2)).run_alloc m event attrName
    | _, _, _ => (-1, event)
  | .INT_64_w_string attrName int64_string =>
    match event, attrName, int64_string with
    | some _, some _, some s =>
      let r := lwes_INT_64_from_hex_string s 0
      if r.1 < 0 then (-2, event)
      else (typed_call.INT_64 r.2).run_alloc m event attrName
    | _, _, _ => (-1, event)
  | .IP_ADDR_w_string inet_addr attrName value =>
    match event, attrName, value with
    | some _, some _, some v => (typed_call.IP_ADDR (inet_addr v)).run_alloc m event attrName
    | _, _, _ => (-1, event)
  | .set_name name => lwes_event_set_name_alloc m event name
  | .set_encoding encoding =>
    match event with
    | none => (-1, event)
    | some _ =>
      if (lwes_event_get_INT_16 event (some LWES_ENCODING) (some 0)).1 = -1 then
        (typed_call.INT_16 encoding).run_alloc m event (some LWES_ENCODING)
      else (-1, event)

/-! ## Setters and getters of the same type -/

/-- The type tag of the C type of the slot: the typed getter of the slot reads
the attributes of this type. -/
def typed_slot.token : typed_slot → Nat
  | .U_INT_16 _ => LWES_U_INT_16_TOKEN
  | .INT_16 _ => LWES_INT_16_TOKEN
  | .U_INT_32 _ => LWES_U_INT_32_TOKEN
  | .INT_32 _ => LWES_INT_32_TOKEN
  | .U_INT_64 _ => LWES_U_INT_64_TOKEN
  | .INT_64 _ => LWES_INT_64_TOKEN
  | .BOOLEAN _ => LWES_BOOLEAN_TOKEN
  | .IP_ADDR _ => LWES_IP_ADDR_TOKEN
  | .STRING _ => LWES_STRING_TOKEN

/-- The output slot of the getter of the type of the call, holding the value of
the call. -/
def typed_call.slot : typed_call → typed_slot
  | .U_INT_16 v => .U_INT_16 (some v)
  | .INT_16 v => .INT_16 (some v)
  | .U_INT_32 v => .U_INT_32 (some v)
  | .INT_32 v => .INT_32 (some v)
  | .U_INT_64 v => .U_INT_64 (some v)
  | .INT_64 v => .INT_64 (some v)
  | .BOOLEAN v => .BOOLEAN (some v)
  | .IP_ADDR v => .IP_ADDR (some v)
  | .STRING v => .STRING (some v)

/-! ## Decoding as a sequence of setter calls

The description of the decoder in the specification: read the records from the
buffer, call `lwes_event_set_name` once, then the typed setter that matches each
record's type tag, in wire order, and stop at the first failure. -/

/-- Reads one attribute record at `offset`: the name (a short string), the type
byte, and the payload of that type.  The result is the name, the typed setter
call that the record asks for, and the offset behind the record, or the error
code of the read that failed (-20 for an unknown type byte). -/
def read_record (bytes : List Nat) (num_bytes offset : Nat) :
    Except Int (List Nat × typed_call × Nat) :=
  match unmarshall_SHORT_STRING (SHORT_STRING_MAX + 1) bytes num_bytes offset with
  | none => .error (-22)
  | some nm =>
    match unmarshall_BYTE bytes num_bytes nm.2 with
    | none => .error (-21)
    | some t =>
      if t.1 = LWES_U_INT_16_TOKEN then
        match unmarshall_U_INT_16 bytes num_bytes t.2 with
        | some v => .ok (nm.1, .U_INT_16 v.1, v.2)
        | none => .error (-3)
      else if t.1 = LWES_INT_16_TOKEN then
        match unmarshall_INT_16 bytes num_bytes t.2 with
        | some v => .ok (nm.1, .INT_16 v.1, v.2)
        | none => .error (-5)
      else if t.1 = LWES_U_INT_32_TOKEN then
        match unmarshall_U_INT_32 bytes num_bytes t.2 with
        | some v => .ok (nm.1, .U_INT_32 v.1, v.2)
        | none => .error (-7)
      else if t.1 = LWES_INT_32_TOKEN then
        match unmarshall_INT_32 bytes num_bytes t.2 with
        | some v => .ok (nm.1, .INT_32 v.1, v.2)
        | none => .error (-9)
      else if t.1 = LWES_U_INT_64_TOKEN then
        match unmarshall_U_INT_64 bytes num_bytes t.2 with
        | some v => .ok (nm.1, .U_INT_64 v.1, v.2)
        | none => .error (-11)
      else if t.1 = LWES_INT_64_TOKEN then
        match unmarshall_INT_64 bytes num_bytes t.2 with
        | some v => .ok (nm.1, .INT_64 v.1, v.2)
        | none => .error (-13)
      else if t.1 = LWES_BOOLEAN_TOKEN then
        match unmarshall_BOOLEAN bytes num_bytes t.2 with
        | some v => .ok (nm.1, .BOOLEAN v.1, v.2)
        | none => .error (-15)
      else if t.1 = LWES_IP_ADDR_TOKEN then
        match unmarshall_IP_ADDR bytes num_bytes t.2 with
        | some v => .ok (nm.1, .IP_ADDR v.1, v.2)
        | none => .error (-17)
      else if t.1 = LWES_STRING_TOKEN then
        match unmarshall_LONG_STRING (LONG_STRING_MAX + 1) bytes num_bytes t.2 with
        | some v => .ok (nm.1, .STRING (some v.1), v.2)
        | none => .error (-19)
      else .error (-20)

/-- The code that `lwes_event_from_bytes` returns when the typed setter of the
call fails. -/
def typed_call.reject_code : typed_call → Int
  | .U_INT_16 _ => -2
  | .INT_16 _ => -4
  | .U_INT_32 _ => -6
  | .INT_32 _ => -8
  | .U_INT_64 _ => -10
  | .INT_64 _ => -12
  | .BOOLEAN _ => -14
  | .IP_ADDR _ => -16
  | .STRING _ => -18

/-- Reads `n` records and calls the typed setter of each one in wire order;
stops at the first read or setter failure.  The result is the error code, or 0,
with the event and the offset reached. -/
def decode_records :
    Nat → Option lwes_event → List Nat → Nat → Nat → Int × Option lwes_event × Nat
  | 0, event, _, _, offset => (0, event, offset)
  | n + 1, event, bytes, num_bytes, offset =>
    match read_record bytes num_bytes offset with
    | .error code => (code, event, offset)
    | .ok (name, call, next) =>
      let r := call.run event (some name)
      if r.1 < 0 then (call.reject_code, r.2, next)
      else decode_records n r.2 bytes num_bytes next

/-- The decoder as the specification describes it: the name is read and set
once, the count is read, and the records are read and installed by the typed
setters. -/
def decode_by_setters (event : Option lwes_event) (bytes : List Nat)
    (num_bytes offset : Nat) : Int × Option lwes_event :=
  match unmarshall_SHORT_STRING (SHORT_STRING_MAX + 1) bytes num_bytes offset with
  | none => (-25, event)
  | some name =>
    let r := lwes_event_set_name event (some name.1)
    if r.1 ≠ 0 then (-24, r.2)
    else
      match unmarshall_U_INT_16 bytes num_bytes name.2 with
      | none => (-23, r.2)
      | some count =>
        let l := decode_records count.1 r.2 bytes num_bytes count.2
        if l.1 < 0 then (l.1, l.2.1)
        else ((l.2.2 : Int) - (offset : Int), l.2.1)

/-! ## The wire layout

The layout of an event on the wire as the specification gives it: the name as a
short string, the count as a big-endian 16-bit field, then one record for each
attribute, the one under the reserved name first. -/

/-- A short string on the wire: the length byte and the raw bytes. -/
def short_string_bytes (s : List Nat) : List Nat :=
  s.length :: s

/-- The payload of an attribute on the wire, by type tag: 2 bytes for U_INT_16
and INT_16, 4 for U_INT_32, INT_32 and IP_ADDR, 8 for U_INT_64 and INT_64, 1 for
BOOLEAN, the 2-byte length and the raw bytes for STRING, and nothing for a tag
outside the nine. -/
def payload_bytes (a : lwes_event_attribute) : List Nat :=
  if a.type = LWES_U_INT_16_TOKEN then be_bytes 2 (lwes_value.as_U_INT_16 a.value)
  else if a.type = LWES_INT_16_TOKEN then
    be_bytes 2 (of_signed 2 (lwes_value.as_INT_16 a.value))
  else if a.type = LWES_U_INT_32_TOKEN then be_bytes 4 (lwes_value.as_U_INT_32 a.value)
  else if a.type = LWES_INT_32_TOKEN then
    be_bytes 4 (of_signed 4 (lwes_value.as_INT_32 a.value))
  else if a.type = LWES_U_INT_64_TOKEN then be_bytes 8 (lwes_value.as_U_INT_64 a.value)
  else if a.type = LWES_INT_64_TOKEN then
    be_bytes 8 (of_signed 8 (lwes_value.as_INT_64 a.value))
  else if a.type = LWES_BOOLEAN_TOKEN then
    [if lwes_value.as_BOOLEAN a.value then 1 else 0]
  else if a.type = LWES_IP_ADDR_TOKEN then be_bytes 4 (lwes_value.as_IP_ADDR a.value)
  else if a.type = LWES_STRING_TOKEN then
    match lwes_value.as_STRING a.value with
    | some s => be_bytes 2 s.length ++ s
    | none => []
  else []

/-- An attribute record on the wire: the name as a short string, the type byte
and the payload. -/
def record_bytes (e : List Nat × lwes_event_attribute) : List Nat :=
  short_string_bytes e.1 ++ be_bytes 1 e.2.type ++ payload_bytes e.2

/-- The attribute that the table gives for a key of its enumeration. -/
def attribute_at (ev : lwes_event) (key : List Nat) : lwes_event_attribute :=
  (lwes_hash_get ev.attributes key).getD ⟨0, none⟩

/-- The records of the attributes other than the encoding, in the enumeration
order of the table. -/
def other_records (ev : lwes_event) : List (List Nat × lwes_event_attribute) :=
  ((lwes_hash_keys ev.attributes).filter (fun k => k ≠ LWES_ENCODING)).map
    (fun k => (k, attribute_at ev k))

/-- The record of the attribute under the reserved encoding name, when there is
one. -/
def encoding_record (ev : lwes_event) : List (List Nat × lwes_event_attribute) :=
  match lwes_hash_get ev.attributes LWES_ENCODING with
  | some a => [(LWES_ENCODING, a)]
  | none => []

/-- The records of an event in wire order: the attribute under the reserved
encoding name first, when there is one, then the others in the enumeration
order of the table. -/
def wire_records (ev : lwes_event) : List (List Nat × lwes_event_attribute) :=
  encoding_record ev ++ other_records ev

/-- The bytes of an event on the wire. -/
def wire_bytes (ev : lwes_event) : List Nat :=
  short_string_bytes (ev.eventName.getD []) ++ be_bytes 2 ev.number_of_attributes ++
    (wire_records ev).flatMap record_bytes

/-- The buffers `a` and `b` have the same length and the same bytes at every
index below `lo` and at every index from `hi` on. -/
def same_outside (lo hi : Nat) (a b : List Nat) : Prop :=
  a.length = b.length ∧ ∀ i, (i < lo ∨ hi ≤ i) → b[i]? = a[i]?

/-- The payload of a stored attribute by type tag, as the wire format lists it:
2 bytes for U_INT_16 and INT_16, 4 bytes for U_INT_32, INT_32 and IP_ADDR,
8 bytes for U_INT_64 and INT_64, 1 byte for BOOLEAN, and the 2-byte length
followed by the raw bytes for STRING. -/
def payload_table (a : lwes_event_attribute) : Prop :=
  ((a.type = LWES_U_INT_16_TOKEN ∨ a.type = LWES_INT_16_TOKEN) ∧
    (payload_bytes a).length = 2) ∨
  ((a.type = LWES_U_INT_32_TOKEN ∨ a.type = LWES_INT_32_TOKEN ∨
    a.type = LWES_IP_ADDR_TOKEN) ∧ (payload_bytes a).length = 4) ∨
  ((a.type = LWES_U_INT_64_TOKEN ∨ a.type = LWES_INT_64_TOKEN) ∧
    (payload_bytes a).length = 8) ∨
  (a.type = LWES_BOOLEAN_TOKEN ∧ (payload_bytes a).length = 1) ∨
  (a.type = LWES_STRING_TOKEN ∧ ∃ s, a.value = some (.STRING s) ∧
    payload_bytes a = be_bytes 2 s.length ++ s)

/-- The record fits the wire format: the name has at most 255 bytes, and the
value of a STRING attribute is a string of at most 65535 bytes. -/
def encodable (e : List Nat × lwes_event_attribute) : Prop :=
  e.1.length ≤ 255 ∧
  (e.2.type = LWES_STRING_TOKEN →
    ∃ s, lwes_value.as_STRING e.2.value = some s ∧ s.length ≤ 65535)

/-- The type database, when there is one, permits the attribute name and the
type for the event name. -/
def db_accepts (db : Option lwes_event_type_db) (event_name : Option (List Nat))
    (attr_name : List Nat) (type_value : Nat) : Prop :=
  ∀ d, db = some d →
    lwes_event_type_db_check_for_attribute d attr_name event_name ≠ 0 ∧
    lwes_event_type_db_check_for_type d type_value attr_name event_name ≠ 0

/-- The outcome `res` (code, buffer, offset) of a step of the encoder that
starts on `bytes` at `offset` and is to write `data`: when the code is not
negative it is 0, the data is written at the offset and the offset is advanced
by its length, not beyond the capacity; in every case the buffer keeps its length and
its bytes outside the range from `offset` to the capacity, and the offset does
not go back nor beyond the capacity. -/
def writes (data bytes : List Nat) (num_bytes offset : Nat) (res : Int × List Nat × Nat) :
    Prop :=
  (0 ≤ res.1 → res.1 = 0 ∧ res.2.1 = put_bytes data bytes offset ∧
    res.2.2 = offset + data.length ∧ (offset ≤ num_bytes → offset + data.length ≤ num_bytes)) ∧
  same_outside offset num_bytes bytes res.2.1 ∧ offset ≤ res.2.2 ∧
  (offset ≤ num_bytes → res.2.2 ≤ num_bytes)

/-! ## Decoding a truncated buffer -/

/-- The codes with which `lwes_event_from_bytes` reports a read that does not
fit below the capacity (lines 626-818): the name, the count, the name, the type
byte and the payload of a record. -/
def truncated_codes : List Int :=
  [-25, -23, -22, -21, -3, -5, -7, -9, -11, -13, -15, -17, -19]

/-- The event after the typed setter calls of those of the next `n` records of
the buffer (read with the capacity `num_bytes`) that end at or before the cut
`cut`: the attributes whose fields lie before the cut. -/
def records_before_cut :
    Nat → Option lwes_event → List Nat → Nat → Nat → Nat → Option lwes_event
  | 0, event, _, _, _, _ => event
  | n + 1, event, bytes, num_bytes, offset, cut =>
    match read_record bytes num_bytes offset with
    | .error _ => event
    | .ok (name, call, next) =>
      if cut < next then event
      else
        let r := call.run event (some name)
        if r.1 < 0 then r.2
        else records_before_cut n r.2 bytes num_bytes next cut

/-- The event that holds the name and the attributes whose fields, in the buffer
read with the capacity `num_bytes`, end at or before the cut, and nothing
else. -/
def fields_before_cut (event : Option lwes_event) (bytes : List Nat)
    (num_bytes offset cut : Nat) : Option lwes_event :=
  match unmarshall_SHORT_STRING (SHORT_STRING_MAX + 1) bytes num_bytes offset with
  | none => event
  | some name =>
    if cut < name.2 then event
    else
      let r := lwes_event_set_name event (some name.1)
      if r.1 ≠ 0 then r.2
      else
        match unmarshall_U_INT_16 bytes num_bytes name.2 with
        | none => r.2
        | some count =>
          if cut < count.2 then r.2
          else records_before_cut count.1 r.2 bytes num_bytes count.2 cut

/-! ## Unknown type tags, buffers that hold an event, hex numbers -/

/-- The nine type tags. -/
def known_tags : List Nat :=
  [LWES_U_INT_16_TOKEN, LWES_INT_16_TOKEN, LWES_U_INT_32_TOKEN, LWES_INT_32_TOKEN,
    LWES_U_INT_64_TOKEN, LWES_INT_64_TOKEN, LWES_BOOLEAN_TOKEN, LWES_IP_ADDR_TOKEN,
    LWES_STRING_TOKEN]

/-- The offset behind the next `k` records of the buffer, when each of them is
read as a record, with a name, one of the nine type bytes and a payload; none
when one of them is not. -/
def skip_records : Nat → List Nat → Nat → Nat → Option Nat
  | 0, _, _, offset => some offset
  | k + 1, bytes, num_bytes, offset =>
    match read_record bytes num_bytes offset with
    | .error _ => none
    | .ok (_, _, next) => skip_records k bytes num_bytes next

/-- The wire form of an event with the name `name` and the records `recs`: the
name as a short string, the number of records as a 16-bit field, and the
records. -/
def event_bytes (name : List Nat) (recs : List (List Nat × lwes_event_attribute)) :
    List Nat :=
  short_string_bytes name ++ be_bytes 2 recs.length ++ recs.flatMap record_bytes

/-- The codes with which `lwes_event_to_bytes` reports a write that does not fit
the buffer (lines 334-538): the name, the count, a part of the encoding
attribute, the name, the type byte and the payload of an attribute. -/
def overflow_codes : List Int :=
  [-17, -16, -2, -5, -6, -7, -8, -9, -10, -11, -12, -13, -14, -15]

/-- The base-16 number that the string is: the value of a string that is made of
hexadecimal digits, at least one, and of nothing else. -/
def hex_number (s : List Nat) : Option Nat :=
  if s ≠ [] ∧ s.all (fun c => (hex_digit c).isSome) = true then some (hex_value s)
  else none

/-! ## The writes of the encoder in wire order -/

/-- A write of the encoder: a call of a marshalling primitive on the buffer, its
capacity and the offset. -/
def marshall_step : Type :=
  List Nat → Nat → Nat → Option (List Nat × Nat)

/-- Runs writes in order, each with the code that reports its failure: the
result is the code of the first write that fails, with the buffer and the offset
that the writes before it have left, or 0 after the last write. -/
def run_steps : List (Int × marshall_step) → List Nat → Nat → Nat → Int × List Nat × Nat
  | [], bytes, _, offset => (0, bytes, offset)
  | (code, step) :: rest, bytes, num_bytes, offset =>
    match step bytes num_bytes offset with
    | none => (code, bytes, offset)
    | some r => run_steps rest r.1 num_bytes r.2

/-- The write of the payload of an attribute with its code, by type tag: -7 for
U_INT_16, -8 for INT_16, -9 for U_INT_32, -10 for INT_32, -11 for U_INT_64, -12
for INT_64, -13 for BOOLEAN, -14 for IP_ADDR and -15 for STRING; no write for
another tag. -/
def payload_steps (a : lwes_event_attribute) : List (Int × marshall_step) :=
  if a.type = LWES_U_INT_16_TOKEN then
    [(-7, marshall_U_INT_16 (lwes_value.as_U_INT_16 a.value))]
  else if a.type = LWES_INT_16_TOKEN then
    [(-8, marshall_INT_16 (lwes_value.as_INT_16 a.value))]
  else if a.type = LWES_U_INT_32_TOKEN then
    [(-9, marshall_U_INT_32 (lwes_value.as_U_INT_32 a.value))]
  else if a.type = LWES_INT_32_TOKEN then
    [(-10, marshall_INT_32 (lwes_value.as_INT_32 a.value))]
  else if a.type = LWES_U_INT_64_TOKEN then
    [(-11, marshall_U_INT_64 (lwes_value.as_U_INT_64 a.value))]
  else if a.type = LWES_INT_64_TOKEN then
    [(-12, marshall_INT_64 (lwes_value.as_INT_64 a.value))]
  else if a.type = LWES_BOOLEAN_TOKEN then
    [(-13, marshall_BOOLEAN (lwes_value.as_BOOLEAN a.value))]
  else if a.type = LWES_IP_ADDR_TOKEN then
    [(-14, marshall_IP_ADDR (lwes_value.as_IP_ADDR a.value))]
  else if a.type = LWES_STRING_TOKEN then
    [(-15, marshall_LONG_STRING (lwes_value.as_STRING a.value))]
  else []

/-- The writes of an attribute record: -5 for the name, -6 for the type tag, and
the payload. -/
def record_steps (e : List Nat × lwes_event_attribute) : List (Int × marshall_step) :=
  (-5, marshall_SHORT_STRING (some e.1)) :: (-6, marshall_BYTE e.2.type) :: payload_steps e.2

/-- The writes of the head of an event: -17 for the name and -16 for the
count. -/
def head_steps (ev : lwes_event) : List (Int × marshall_step) :=
  [(-17, marshall_SHORT_STRING ev.eventName), (-16, marshall_U_INT_16 ev.number_of_attributes)]

/-- The writes of the encoding attribute, each with the code -2: the reserved
name, the type tag and the INT_16 value. -/
def encoding_steps (ev : lwes_event) : List (Int × marshall_step) :=
  (encoding_record ev).flatMap (fun e =>
    [(-2, marshall_SHORT_STRING (some LWES_ENCODING)), (-2, marshall_BYTE e.2.type),
     (-2, marshall_INT_16 (lwes_value.as_INT_16 e.2.value))])

/-- The check of the encoding slot: -4 for an attribute under the reserved name
without a value, -3 for one of another type than INT_16, and else 0. -/
def encoding_slot_check (ev : lwes_event) : Int :=
  match lwes_hash_get ev.attributes LWES_ENCODING with
  | none => 0
  | some a =>
    if a.value = none then -4
    else if a.type = LWES_INT_16_TOKEN then 0
    else -3

/-- The encoder as the table of its codes describes it: the argument checks
(-1), the writes of the head, the check of the encoding slot, and the writes of
the encoding attribute and of the other attributes in the enumeration order of
the table; the result is the code of the first step that fails, or the distance
that the offset has advanced, with the buffer as the writes before the failure
have left it. -/
def encode_by_steps (ev : lwes_event) (bytes : List Nat) (num_bytes offset : Nat) :
    Int × List Nat :=
  if num_bytes = 0 ∨ offset ≥ num_bytes then (-1, bytes)
  else
    let h := run_steps (head_steps ev) bytes num_bytes offset
    if h.1 < 0 then (h.1, h.2.1)
    else if encoding_slot_check ev < 0 then (encoding_slot_check ev, h.2.1)
    else
      let r := run_steps (encoding_steps ev ++ (other_records ev).flatMap record_steps)
        h.2.1 num_bytes h.2.2
      (if r.1 < 0 then r.1 else (r.2.2 : Int) - (offset : Int), r.2.1)

/-! ## The codes of the decoder by type tag -/

/-- The code of a payload that cannot be read, by the type tag of the record: -3
for U_INT_16, -5 for INT_16, -7 for U_INT_32, -9 for INT_32, -11 for U_INT_64,
-13 for INT_64, -15 for BOOLEAN, -17 for IP_ADDR and -19 for STRING; -20 for a
tag that is none of the nine. -/
def payload_read_code (tag : Nat) : Int :=
  if tag = LWES_U_INT_16_TOKEN then -3
  else if tag = LWES_INT_16_TOKEN then -5
  else if tag = LWES_U_INT_32_TOKEN then -7
  else if tag = LWES_INT_32_TOKEN then -9
  else if tag = LWES_U_INT_64_TOKEN then -11
  else if tag = LWES_INT_64_TOKEN then -13
  else if tag = LWES_BOOLEAN_TOKEN then -15
  else if tag = LWES_IP_ADDR_TOKEN then -17
  else if tag = LWES_STRING_TOKEN then -19
  else -20

/-- The code of a typed setter that rejects the record, by the type tag of the
record: -2 for U_INT_16, -4 for INT_16, -6 for U_INT_32, -8 for INT_32, -10 for
U_INT_64, -12 for INT_64, -14 for BOOLEAN, -16 for IP_ADDR and -18 for STRING. -/
def setter_reject_code (tag : Nat) : Int :=
  if tag = LWES_U_INT_16_TOKEN then -2
  else if tag = LWES_INT_16_TOKEN then -4
  else if tag = LWES_U_INT_32_TOKEN then -6
  else if tag = LWES_INT_32_TOKEN then -8
  else if tag = LWES_U_INT_64_TOKEN then -10
  else if tag = LWES_INT_64_TOKEN then -12
  else if tag = LWES_BOOLEAN_TOKEN then -14
  else if tag = LWES_IP_ADDR_TOKEN then -16
  else if tag = LWES_STRING_TOKEN then -18
  else -20

/-- The read of the payload of a record by its type tag: the typed setter call
that the payload asks for and the offset behind it; none when the payload cannot
be read (or the tag is none of the nine). -/
def read_payload (tag : Nat) (bytes : List Nat) (num_bytes offset : Nat) :
    Option (typed_call × Nat) :=
  if tag = LWES_U_INT_16_TOKEN then
    (unmarshall_U_INT_16 bytes num_bytes offset).map (fun v => (.U_INT_16 v.1, v.2))
  else if tag = LWES_INT_16_TOKEN then
    (unmarshall_INT_16 bytes num_bytes offset).map (fun v => (.INT_16 v.1, v.2))
  else if tag = LWES_U_INT_32_TOKEN then
    (unmarshall_U_INT_32 bytes num_bytes offset).map (fun v => (.U_INT_32 v.1, v.2))
  else if tag = LWES_INT_32_TOKEN then
    (unmarshall_INT_32 bytes num_bytes offset).map (fun v => (.INT_32 v.1, v.2))
  else if tag = LWES_U_INT_64_TOKEN then
    (unmarshall_U_INT_64 bytes num_bytes offset).map (fun v => (.U_INT_64 v.1, v.2))
  else if tag = LWES_INT_64_TOKEN then
    (unmarshall_INT_64 bytes num_bytes offset).map (fun v => (.INT_64 v.1, v.2))
  else if tag = LWES_BOOLEAN_TOKEN then
    (unmarshall_BOOLEAN bytes num_bytes offset).map (fun v => (.BOOLEAN v.1, v.2))
  else if tag = LWES_IP_ADDR_TOKEN then
    (unmarshall_IP_ADDR bytes num_bytes offset).map (fun v => (.IP_ADDR v.1, v.2))
  else if tag = LWES_STRING_TOKEN then
    (unmarshall_LONG_STRING (LONG_STRING_MAX + 1) bytes num_bytes offset).map
      (fun v => (.STRING (some v.1), v.2))
  else none

/-! ## Reachable events -/

/-- The event states that a program can reach when every typed setter call it
makes, directly, through `lwes_event_set_encoding` or through a record of a
buffer handed to `lwes_event_from_bytes`, satisfies `Q`: the three
constructors, then any sequence of `lwes_event_set_name`,
`lwes_event_set_encoding`, typed setter and `lwes_event_from_bytes` calls,
successful or failing, on arguments of their C types. -/
inductive ReachableWith (Q : List Nat → typed_call → Prop) : lwes_event → Prop where
  | create_no_name (db : Option lwes_event_type_db)
      (place : List (List Nat) → List Nat → Nat) (ev : lwes_event) :
      lwes_event_create_no_name db place = some ev → ReachableWith Q ev
  | create (db : Option lwes_event_type_db)
      (place : List (List Nat) → List Nat → Nat) (name : List Nat) (ev : lwes_event) :
      valid_string name →
      lwes_event_create db place (some name) = some ev → ReachableWith Q ev
  | create_with_encoding (db : Option lwes_event_type_db)
      (place : List (List Nat) → List Nat → Nat) (name : List Nat) (encoding : Int)
      (ev : lwes_event) :
      valid_string name → (typed_call.INT_16 encoding).valid →
      Q LWES_ENCODING (.INT_16 encoding) →
      lwes_event_create_with_encoding db place (some name) encoding = some ev →
      ReachableWith Q ev
  | set_name (ev ev2 : lwes_event) (name : List Nat) :
      ReachableWith Q ev → valid_string name →
      (lwes_event_set_name (some ev) (some name)).2 = some ev2 → ReachableWith Q ev2
  | set_encoding (ev ev2 : lwes_event) (encoding : Int) :
      ReachableWith Q ev → (typed_call.INT_16 encoding).valid →
      Q LWES_ENCODING (.INT_16 encoding) →
      (lwes_event_set_encoding (some ev) encoding).2 = some ev2 → ReachableWith Q ev2
  | typed_setter (ev ev2 : lwes_event) (c : typed_call) (name : List Nat) :
      ReachableWith Q ev → valid_string name → c.valid → Q name c →
      (c.run (some ev) (some name)).2 = some ev2 → ReachableWith Q ev2
  | from_bytes (ev ev2 : lwes_event) (bytes : List Nat) (num_bytes offset : Nat)
      (dtmp : lwes_event_deserialize_tmp) :
      ReachableWith Q ev → (∀ b ∈ bytes, b < 256) →
      (∀ o name call next, read_record bytes num_bytes o = .ok (name, call, next) →
        Q name call) →
      (lwes_event_from_bytes (some ev) (some bytes) num_bytes offset (some dtmp)).2 = some ev2 →
      ReachableWith Q ev2

/-- The event states that a program can reach: the three constructors, then any
sequence of `lwes_event_set_name`, `lwes_event_set_encoding`, typed setter and
`lwes_event_from_bytes` calls, successful or failing, on arguments of their C
types. -/
def Reachable (ev : lwes_event) : Prop :=
  ReachableWith (fun _ _ => True) ev

/-- The condition of invariant I4 on a typed setter call: under the reserved
name it is the INT_16 setter. -/
def encoding_is_int16 (name : List Nat) (c : typed_call) : Prop :=
  name = LWES_ENCODING → c.token = LWES_INT_16_TOKEN

/-- The event that the three constructors start from (lines 66-69, 99-102,
140-143): no name, no attribute, the given type database and an empty table. -/
def empty_event (db : Option lwes_event_type_db)
    (place : List (List Nat) → List Nat → Nat) : lwes_event :=
  { eventName := none, number_of_attributes := 0, type_db := db,
    attributes := lwes_hash_create place }

/-- The event that `lwes_event_create` builds (lines 80-118): the name of the
argument, no attribute. -/
def named_event (db : Option lwes_event_type_db)
    (place : List (List Nat) → List Nat → Nat) (name : List Nat) : lwes_event :=
  { eventName := some name, number_of_attributes := 0, type_db := db,
    attributes := lwes_hash_create place }

/-- The event with the name of the argument and one attribute, the encoding of
the argument as an INT_16 under the reserved name. -/
def encoded_event (db : Option lwes_event_type_db)
    (place : List (List Nat) → List Nat → Nat) (name : List Nat) (encoding : Int) :
    lwes_event :=
  { eventName := some name, number_of_attributes := 1, type_db := db,
    attributes :=
      { entries := [(LWES_ENCODING, ⟨LWES_INT_16_TOKEN, some (.INT_16 encoding)⟩)],
        place := place } }

/-! ## Well-formed events -/

/-- The attribute is one that a typed setter stores: its tag and its object are
those of a typed setter call on a value of the C type. -/
def attribute_ok (a : lwes_event_attribute) : Prop :=
  ∃ c : typed_call, c.valid ∧ c.stored ≠ none ∧ a = ⟨c.token, c.stored⟩

/-- The invariant of the reachable events: the 16-bit counter is the number of
entries modulo 65536, the keys are pairwise distinct C strings, the name is a C
string, and every attribute is one that a typed setter stores. -/
structure well_formed (ev : lwes_event) : Prop where
  count : ev.number_of_attributes = ev.attributes.entries.length % 65536
  nodup : (lwes_hash_keys ev.attributes).Nodup
  name_ok : ∀ nm, ev.eventName = some nm → valid_string nm
  keys_ok : ∀ k ∈ lwes_hash_keys ev.attributes, valid_string k
  attrs_ok : ∀ e ∈ ev.attributes.entries, attribute_ok e.2

/-! ## Concrete events -/

/-- The placement rule that puts every new key first. -/
def place_first : List (List Nat) → List Nat → Nat :=
  fun _ _ => 0

/-- The event with `n` attributes of type U_INT_16 and value 0 under the names
`a`, `aa`, `aaa`, ..., added in this order to a fresh event without name and
without type database. -/
def many_attributes : Nat → Option lwes_event
  | 0 => lwes_event_create_no_name none place_first
  | n + 1 =>
    (lwes_event_set_U_INT_16 (many_attributes n) (some (List.replicate (n + 1) 97)) 0).2

/-- The fresh event without name and type database. -/
def fresh_event : lwes_event :=
  { eventName := none, number_of_attributes := 0, type_db := none,
    attributes := lwes_hash_create place_first }

/-- The fresh event after `lwes_event_set_U_INT_16 (event, "a", 5)`. -/
def event_a5 : lwes_event :=
  { eventName := none, number_of_attributes := 1, type_db := none,
    attributes := { entries := [([97], ⟨LWES_U_INT_16_TOKEN, some (.U_INT_16 5)⟩)],
                    place := place_first } }

/-- The event named "T" that the constructor with the encoding 1 builds. -/
def event_enc1 : lwes_event :=
  { eventName := some [84], number_of_attributes := 1, type_db := none,
    attributes := { entries := [(LWES_ENCODING, ⟨LWES_INT_16_TOKEN, some (.INT_16 1)⟩)],
                    place := place_first } }

/-- The fresh event after `lwes_event_set_STRING (event, "enc", "x")`. -/
def event_enc_string : lwes_event :=
  { eventName := none, number_of_attributes := 1, type_db := none,
    attributes := { entries := [(LWES_ENCODING, ⟨LWES_STRING_TOKEN, some (.STRING [120])⟩)],
                    place := place_first } }

/-- The event named "Test" with the encoding 1, "count" = 42 (U_INT_32) and
"label" = "ok" (STRING), built by the constructor and the setters. -/
def event_test : Option lwes_event :=
  (lwes_event_set_STRING
    (lwes_event_set_U_INT_32
      (lwes_event_create_with_encoding none place_first (some [84, 101, 115, 116]) 1)
      (some [99, 111, 117, 110, 116]) 42).2
    (some [108, 97, 98, 101, 108]) (some [111, 107])).2

/-- The state of `event_test`: the table enumerates "label", "count" and the
encoding, in this order. -/
def event_test_state : lwes_event :=
  { eventName := some [84, 101, 115, 116], number_of_attributes := 3, type_db := none,
    attributes :=
      { entries := [([108, 97, 98, 101, 108], ⟨LWES_STRING_TOKEN, some (.STRING [111, 107])⟩),
                    ([99, 111, 117, 110, 116], ⟨LWES_U_INT_32_TOKEN, some (.U_INT_32 42)⟩),
                    (LWES_ENCODING, ⟨LWES_INT_16_TOKEN, some (.INT_16 1)⟩)],
        place := place_first } }

/-- The 36 bytes of the event "Test" with the encoding 1, "label" = "ok" and
"count" = 42 on the wire. -/
def test_bytes : List Nat :=
  [4, 84, 101, 115, 116, 0, 3, 3, 101, 110, 99, 2, 0, 1, 5, 108, 97, 98, 101, 108, 5, 0, 2,
    111, 107, 5, 99, 111, 117, 110, 116, 3, 0, 0, 0, 42]

/-- The event named "Test" that the constructor with the encoding 1 builds. -/
def event_enc_test : lwes_event :=
  { eventName := some [84, 101, 115, 116], number_of_attributes := 1, type_db := none,
    attributes := { entries := [(LWES_ENCODING, ⟨LWES_INT_16_TOKEN, some (.INT_16 1)⟩)],
                    place := place_first } }

/-- The event `event_enc_test` after `lwes_event_set_U_INT_32 (event, "count", 42)`. -/
def event_count_test : lwes_event :=
  { eventName := some [84, 101, 115, 116], number_of_attributes := 2, type_db := none,
    attributes :=
      { entries := [([99, 111, 117, 110, 116], ⟨LWES_U_INT_32_TOKEN, some (.U_INT_32 42)⟩),
                    (LWES_ENCODING, ⟨LWES_INT_16_TOKEN, some (.INT_16 1)⟩)],
        place := place_first } }

/-- The event named "T" with "a" = 5 (U_INT_16), built by `lwes_event_create` and
`lwes_event_set_U_INT_16`. -/
def event_named_a5 : lwes_event :=
  { eventName := some [84], number_of_attributes := 1, type_db := none,
    attributes := { entries := [([97], ⟨LWES_U_INT_16_TOKEN, some (.U_INT_16 5)⟩)],
                    place := place_first } }

/-- The three records of `test_bytes`: the encoding 1, "label" = "ok" and
"count" = 42. -/
def test_records : List (List Nat × lwes_event_attribute) :=
  [(LWES_ENCODING, ⟨LWES_INT_16_TOKEN, some (.INT_16 1)⟩),
   ([108, 97, 98, 101, 108], ⟨LWES_STRING_TOKEN, some (.STRING [111, 107])⟩),
   ([99, 111, 117, 110, 116], ⟨LWES_U_INT_32_TOKEN, some (.U_INT_32 42)⟩)]

/-- The event `event_a5` after the decoding of `test_bytes` into it. -/
def event_a5_test : lwes_event :=
  { eventName := some [84, 101, 115, 116], number_of_attributes := 4, type_db := none,
    attributes :=
      { entries := [([99, 111, 117, 110, 116], ⟨LWES_U_INT_32_TOKEN, some (.U_INT_32 42)⟩),
                    ([108, 97, 98, 101, 108], ⟨LWES_STRING_TOKEN, some (.STRING [111, 107])⟩),
                    (LWES_ENCODING, ⟨LWES_INT_16_TOKEN, some (.INT_16 1)⟩),
                    ([97], ⟨LWES_U_INT_16_TOKEN, some (.U_INT_16 5)⟩)],
        place := place_first } }

/-- A buffer with the name "E", the count 3, the record "a" = 7 (U_INT_16), a
record "b" with the type byte 77, which is none of the nine tags, and a record
"c" = 1 (U_INT_16). -/
def unknown_tag_bytes : List Nat :=
  [1, 69, 0, 3, 1, 97, 1, 0, 7, 1, 98, 77, 0, 9, 1, 99, 1, 0, 1]

/-- The fresh event after `lwes_event_set_name (event, "E")` and
`lwes_event_set_U_INT_16 (event, "a", 7)`. -/
def event_E_a7_no_db : lwes_event :=
  { eventName := some [69], number_of_attributes := 1, type_db := none,
    attributes := { entries := [([97], ⟨LWES_U_INT_16_TOKEN, some (.U_INT_16 7)⟩)],
                    place := place_first } }

/-- A type database that permits the attribute "a" of type U_INT_16 on the event
"E", and nothing else. -/
def schema_a_uint16 : lwes_event_type_db :=
  { check_for_attribute := fun attr_name event_name =>
      if attr_name = [97] ∧ event_name = some [69] then 1 else 0,
    check_for_type := fun type_value attr_name event_name =>
      if type_value = LWES_U_INT_16_TOKEN ∧ attr_name = [97] ∧ event_name = some [69]
      then 1 else 0 }

/-- The event named "E" with the type database `schema_a_uint16` and no
attribute, as `lwes_event_create` builds it. -/
def event_E : lwes_event :=
  { eventName := some [69], number_of_attributes := 0, type_db := some schema_a_uint16,
    attributes := lwes_hash_create place_first }

/-- The event `event_E` after `lwes_event_set_U_INT_16 (event, "a", 7)`. -/
def event_E_a7 : lwes_event :=
  { eventName := some [69], number_of_attributes := 1, type_db := some schema_a_uint16,
    attributes := { entries := [([97], ⟨LWES_U_INT_16_TOKEN, some (.U_INT_16 7)⟩)],
                    place := place_first } }

/-- The event named "T" after `lwes_event_set_STRING (event, "enc", "x")`. -/
def event_T_enc_string : lwes_event :=
  { eventName := some [84], number_of_attributes := 1, type_db := none,
    attributes := { entries := [(LWES_ENCODING, ⟨LWES_STRING_TOKEN, some (.STRING [120])⟩)],
                    place := place_first } }

/-- The string "ffffffffffffffff". -/
def hex_all_ones : List Nat :=
  List.replicate 16 102

/-- The string "xyz". -/
def hex_xyz : List Nat :=
  [120, 121, 122]

/-- The string "10000000000000000", of 17 digits. -/
def hex_17_digits : List Nat :=
  49 :: List.replicate 16 48

/-- The fresh event after a setter has put the attribute `a` under the name
"a". -/
def event_a (a : lwes_event_attribute) : lwes_event :=
  { eventName := none, number_of_attributes := 1, type_db := none,
    attributes := { entries := [([97], a)], place := place_first } }

/-! ## Events of more than 2^31 bytes on the wire -/

/-- The name number `i` of a family of names of three characters, none of them
NUL, pairwise distinct for `i` below 255^3. -/
def bulk_name (i : Nat) : List Nat :=
  [i / 65025 + 1, i / 255 % 255 + 1, i % 255 + 1]

/-- A STRING attribute whose value is the string of 65535 characters `x`, the
longest that a long string carries. -/
def bulk_value : lwes_event_attribute :=
  ⟨LWES_STRING_TOKEN, some (.STRING (List.replicate 65535 120))⟩

/-- The records of the attribute `bulk_value` under the names number 0 to
`n - 1`, the last one first; each record takes 65542 bytes on the wire. -/
def bulk_entries : Nat → List (List Nat × lwes_event_attribute)
  | 0 => []
  | n + 1 => (bulk_name n, bulk_value) :: bulk_entries n

/-- The event with a name of `k` characters `n`, without type database, after
`lwes_event_set_STRING` has put the string of `bulk_value` under the names
number 0 to `n - 1`; its wire layout takes `3 + k + n * 65542` bytes. -/
def bulk_event (k n : Nat) : lwes_event :=
  { eventName := some (List.replicate k 110), number_of_attributes := n % 65536,
    type_db := none,
    attributes := { entries := bulk_entries n, place := place_first } }

/-- The wire form of an event with a name of `k` characters `n` and the records
of `bulk_entries n`, of `3 + k + n * 65542` bytes. -/
def bulk_bytes (k n : Nat) : List Nat :=
  event_bytes (List.replicate k 110) (bulk_entries n)

/-! # Theorems -/

/-! ## The attribute table -/

theorem insert_at_length {α : Type} (i : Nat) (x : α) (l : List α) :
    (insert_at i x l).length = l.length + 1 := by
  induction l generalizing i with
  | nil => cases i <;> simp [insert_at]
  | cons y l ih => cases i <;> simp [insert_at, ih]

theorem insert_at_perm {α : Type} (i : Nat) (x : α) (l : List α) :
    (insert_at i x l).Perm (x :: l) := by
  induction l generalizing i with
  | nil => cases i <;> simp [insert_at]
  | cons y l ih =>
    cases i with
    | zero => simp [insert_at]
    | succ i =>
      simp only [insert_at]
      exact ((ih i).cons y).trans (List.Perm.swap x y l)

theorem insert_at_find_self (i : Nat) (k : List Nat) (a : lwes_event_attribute)
    (l : List (List Nat × lwes_event_attribute)) (h : k ∉ l.map Prod.fst) :
    (insert_at i (k, a) l).find? (fun e => e.1 = k) = some (k, a) := by
  induction l generalizing i with
  | nil => cases i <;> simp [insert_at]
  | cons y l ih =>
    simp only [List.map_cons, List.mem_cons, not_or] at h
    cases i with
    | zero => simp [insert_at]
    | succ i =>
      simp only [insert_at]
      rw [List.find?_cons_of_neg]
      · exact ih i h.2
      · simpa using fun hk => h.1 hk.symm

theorem insert_at_find_other (i : Nat) (k k2 : List Nat) (a : lwes_event_attribute)
    (l : List (List Nat × lwes_event_attribute)) (h : k2 ≠ k) :
    (insert_at i (k, a) l).find? (fun e => e.1 = k2) = l.find? (fun e => e.1 = k2) := by
  induction l generalizing i with
  | nil => cases i <;> simp [insert_at, h.symm]
  | cons y l ih =>
    cases i with
    | zero => simp [insert_at, h.symm]
    | succ i =>
      simp only [insert_at, List.find?_cons]
      rw [ih i]

/-- What `lwes_hash_put` does: a key present is rejected with the negative value
of the table and nothing changes, a new key is placed among the entries. -/
theorem lwes_hash_put_cases (hash : lwes_hash) (key : List Nat)
    (value : lwes_event_attribute) :
    (key ∈ lwes_hash_keys hash ∧ (lwes_hash_put hash key value).1 < 0 ∧
      lwes_hash_put hash key value =
        (-((hash.place (lwes_hash_keys hash) key : Nat) : Int) - 1, hash)) ∨
    (key ∉ lwes_hash_keys hash ∧ ∃ i : Nat,
      lwes_hash_put hash key value =
        ((i : Int), { hash with entries := insert_at i (key, value) hash.entries })) := by
  unfold lwes_hash_put
  by_cases h : key ∈ lwes_hash_keys hash
  · left
    simp only [h, if_true, true_and, and_true]
    omega
  · right
    refine ⟨h, min (hash.place (lwes_hash_keys hash) key) hash.entries.length, ?_⟩
    simp only [h, if_false]

/-- The outcome of `lwes_event_add`: a negative result and the event untouched,
or the new counter as result, the attribute placed in the table under a name
that was not in it, and the 16-bit counter incremented. -/
theorem lwes_event_add_cases (event : lwes_event) (attrNameIn : List Nat) (attrType : Nat)
    (attrValue : Option lwes_value) :
    ((lwes_event_add event attrNameIn attrType attrValue).1 < 0 ∧
      (lwes_event_add event attrNameIn attrType attrValue).2 = event) ∨
    (attrNameIn ∉ lwes_hash_keys event.attributes ∧ ∃ i : Nat,
      lwes_event_add event attrNameIn attrType attrValue =
        ((((event.number_of_attributes + 1) % 65536 : Nat) : Int),
          { event with
            attributes := { event.attributes with
              entries := insert_at i (attrNameIn, ⟨attrType, attrValue⟩)
                event.attributes.entries },
            number_of_attributes := (event.number_of_attributes + 1) % 65536 })) := by
  unfold lwes_event_add
  split
  · left; simp
  · split
    · left; simp
    · rcases lwes_hash_put_cases event.attributes attrNameIn
        (lwes_event_attribute_create attrType attrValue) with ⟨_, hneg, h⟩ | ⟨hk, i, h⟩
      · left
        simp only [hneg, if_true, and_self]
      · right
        refine ⟨hk, i, ?_⟩
        simp only [h]
        have : ¬ ((i : Int) < 0) := by omega
        simp only [this, if_false]
        rfl

/-- Every typed setter on a present event and a present name is
`lwes_event_add` with the tag and the object of the call, but for the string
setter without a value, which returns -1. -/
theorem typed_call_run_some (c : typed_call) (ev : lwes_event) (nm : List Nat) :
    (c.stored = none ∧ c.run (some ev) (some nm) = (-1, some ev)) ∨
    (c.stored ≠ none ∧ c.run (some ev) (some nm) =
      ((lwes_event_add ev nm c.token c.stored).1,
        some (lwes_event_add ev nm c.token c.stored).2)) := by
  cases c with
  | STRING v =>
    cases v with
    | none => left; exact ⟨rfl, rfl⟩
    | some s => right; exact ⟨by simp [typed_call.stored], rfl⟩
  | _ => right; exact ⟨by simp [typed_call.stored], rfl⟩

theorem mem_keys_insert_at (hash : lwes_hash) (i : Nat) (k : List Nat)
    (a : lwes_event_attribute) :
    k ∈ lwes_hash_keys { hash with entries := insert_at i (k, a) hash.entries } := by
  simp only [lwes_hash_keys, List.mem_map]
  exact ⟨(k, a), (insert_at_perm i (k, a) hash.entries).mem_iff.mpr (List.mem_cons_self _ _), rfl⟩

theorem lwes_hash_get_insert_at (hash : lwes_hash) (i : Nat) (k : List Nat)
    (a : lwes_event_attribute) (h : k ∉ lwes_hash_keys hash) :
    lwes_hash_get { hash with entries := insert_at i (k, a) hash.entries } k = some a := by
  simp only [lwes_hash_get]
  rw [insert_at_find_self i k a hash.entries h]
  rfl

/-! ## C2 : attribute names are unique -/

/-- C2. After a typed setter call under a name has succeeded, a second typed
setter call under the same name, of the same or another type, returns a negative
value and leaves the event as the first call left it: the attribute under the
name has the first call's type and value, and the counter is that of the first
call. -/
theorem uniqueness (ev ev1 : lwes_event) (name : List Nat) (c1 c2 : typed_call) (r1 : Int)
    (h1 : c1.run (some ev) (some name) = (r1, some ev1)) (hr : 0 ≤ r1) :
    (c2.run (some ev1) (some name)).1 < 0 ∧
    (c2.run (some ev1) (some name)).2 = some ev1 ∧
    lwes_hash_get ev1.attributes name = some ⟨c1.token, c1.stored⟩ ∧
    c1.stored ≠ none ∧
    (∀ ev2, (c2.run (some ev1) (some name)).2 = some ev2 →
      ev2.number_of_attributes = ev1.number_of_attributes ∧
      lwes_hash_get ev2.attributes name = some ⟨c1.token, c1.stored⟩) := by
  have key : name ∈ lwes_hash_keys ev1.attributes ∧
      lwes_hash_get ev1.attributes name = some ⟨c1.token, c1.stored⟩ ∧ c1.stored ≠ none := by
    rcases typed_call_run_some c1 ev name with ⟨_, h⟩ | ⟨hs, h⟩
    · rw [h] at h1
      simp only [Prod.mk.injEq] at h1
      omega
    · rw [h] at h1
      rcases lwes_event_add_cases ev name c1.token c1.stored with ⟨hneg, _⟩ | ⟨hk, i, hadd⟩
      · simp only [Prod.mk.injEq] at h1
        omega
      · rw [hadd] at h1
        simp only [Prod.mk.injEq, Option.some.injEq] at h1
        rw [← h1.2]
        exact ⟨mem_keys_insert_at _ _ _ _, lwes_hash_get_insert_at _ _ _ _ hk, hs⟩
  have second : (c2.run (some ev1) (some name)).1 < 0 ∧
      (c2.run (some ev1) (some name)).2 = some ev1 := by
    rcases typed_call_run_some c2 ev1 name with ⟨_, h⟩ | ⟨_, h⟩
    · rw [h]; simp
    · rw [h]
      rcases lwes_event_add_cases ev1 name c2.token c2.stored with ⟨hneg, hsame⟩ | ⟨hk, _⟩
      · exact ⟨hneg, by rw [hsame]⟩
      · exact absurd key.1 hk
  refine ⟨second.1, second.2, key.2.1, key.2.2, ?_⟩
  intro ev2 h2
  rw [second.2] at h2
  simp only [Option.some.injEq] at h2
  rw [← h2]
  exact ⟨rfl, key.2.1⟩

/-- C2 at a concrete input: after "a" is set to the U_INT_16 5 on a fresh event, the
string setter under "a" fails and the event is unchanged. -/
theorem uniqueness_witness :
    (typed_call.run (.STRING (some [120])) (some event_a5) (some [97])).1 < 0 ∧
    (typed_call.run (.STRING (some [120])) (some event_a5) (some [97])).2 = some event_a5 ∧
    lwes_hash_get event_a5.attributes [97] =
      some ⟨typed_call.token (.U_INT_16 5), typed_call.stored (.U_INT_16 5)⟩ ∧
    typed_call.stored (.U_INT_16 5) ≠ none ∧
    (∀ ev2, (typed_call.run (.STRING (some [120])) (some event_a5) (some [97])).2 = some ev2 →
      ev2.number_of_attributes = event_a5.number_of_attributes ∧
      lwes_hash_get ev2.attributes [97] =
        some ⟨typed_call.token (.U_INT_16 5), typed_call.stored (.U_INT_16 5)⟩) :=
  uniqueness fresh_event event_a5 [97] (.U_INT_16 5) (.STRING (some [120])) 1 rfl (by decide)

/-! ## C3 : the counter after a successful typed setter -/

/-- Without a type database, `lwes_event_add` under a name that the table does
not hold succeeds. -/
theorem lwes_event_add_no_db (event : lwes_event) (attrNameIn : List Nat) (attrType : Nat)
    (attrValue : Option lwes_value) (hdb : event.type_db = none)
    (hk : attrNameIn ∉ lwes_hash_keys event.attributes) :
    ∃ i : Nat, lwes_event_add event attrNameIn attrType attrValue =
        ((((event.number_of_attributes + 1) % 65536 : Nat) : Int),
          { event with
            attributes := { event.attributes with
              entries := insert_at i (attrNameIn, ⟨attrType, attrValue⟩)
                event.attributes.entries },
            number_of_attributes := (event.number_of_attributes + 1) % 65536 }) := by
  rcases lwes_event_add_cases event attrNameIn attrType attrValue with ⟨hneg, _⟩ | ⟨_, h⟩
  · exfalso
    revert hneg
    unfold lwes_event_add
    rcases lwes_hash_put_cases event.attributes attrNameIn
        (lwes_event_attribute_create attrType attrValue) with ⟨hin, _⟩ | ⟨_, i, h⟩
    · exact absurd hin hk
    · simp only [hdb, h]
      have : ¬ ((i : Int) < 0) := by omega
      simp only [this, if_false]
      simp only [Bool.false_eq_true, if_false]
      omega
  · exact h

/-- The event `many_attributes n` exists, is reachable, has no type database,
holds `n` attributes under names of at most `n` characters, and its 16-bit
counter is `n` modulo 65536. -/
theorem many_attributes_spec (n : Nat) :
    ∃ ev, many_attributes n = some ev ∧ Reachable ev ∧ ev.type_db = none ∧
      ev.number_of_attributes = n % 65536 ∧ ev.attributes.entries.length = n ∧
      ∀ k ∈ lwes_hash_keys ev.attributes, k.length ≤ n := by
  induction n with
  | zero =>
    refine ⟨_, rfl, ReachableWith.create_no_name none place_first _ rfl, rfl, rfl, rfl, ?_⟩
    intro k hk
    simp [lwes_hash_keys, lwes_hash_create] at hk
  | succ n ih =>
    obtain ⟨ev, hev, hreach, hdb, hcount, hlen, hkeys⟩ := ih
    have hfresh : List.replicate (n + 1) 97 ∉ lwes_hash_keys ev.attributes := by
      intro hin
      have := hkeys _ hin
      simp at this
    obtain ⟨i, hadd⟩ := lwes_event_add_no_db ev (List.replicate (n + 1) 97)
      LWES_U_INT_16_TOKEN (some (.U_INT_16 0)) hdb hfresh
    have hrun : lwes_event_set_U_INT_16 (some ev) (some (List.replicate (n + 1) 97)) 0 =
        ((lwes_event_add ev (List.replicate (n + 1) 97) LWES_U_INT_16_TOKEN
            (some (.U_INT_16 0))).1,
          some (lwes_event_add ev (List.replicate (n + 1) 97) LWES_U_INT_16_TOKEN
            (some (.U_INT_16 0))).2) := rfl
    refine ⟨(lwes_event_add ev (List.replicate (n + 1) 97) LWES_U_INT_16_TOKEN
        (some (.U_INT_16 0))).2, ?_, ?_, ?_, ?_, ?_, ?_⟩
    · simp only [many_attributes, hev, hrun]
    · refine ReachableWith.typed_setter ev _ (.U_INT_16 0) (List.replicate (n + 1) 97) hreach
        ?_ (by simp [typed_call.valid]) trivial ?_
      · intro c hc
        rw [List.eq_of_mem_replicate hc]
        omega
      · simp only [typed_call.run, hrun]
    · rw [hadd]; exact hdb
    · rw [hadd]; simp only [hcount]; omega
    · rw [hadd]; simp only [insert_at_length, hlen]
    · rw [hadd]
      intro k hk
      simp only [lwes_hash_keys, List.mem_map] at hk
      obtain ⟨e, he, rfl⟩ := hk
      rcases List.mem_cons.mp ((insert_at_perm _ _ _).mem_iff.mp he) with h | h
      · rw [h]; simp
      · have := hkeys e.1 (by simp only [lwes_hash_keys, List.mem_map]; exact ⟨e, h, rfl⟩)
        omega

/-- C3 (amended). For every event whose counter is below 65535 and every typed
setter call that succeeds, `number_of_attributes` after the call is its value
before the call plus one, and the value returned is that new counter. -/
theorem setter_increments_count (ev ev2 : lwes_event) (name : List Nat) (c : typed_call)
    (r : Int) (h : c.run (some ev) (some name) = (r, some ev2)) (hr : 0 ≤ r)
    (hc : ev.number_of_attributes < 65535) :
    ev2.number_of_attributes = ev.number_of_attributes + 1 ∧
    r = (ev2.number_of_attributes : Int) := by
  rcases typed_call_run_some c ev name with ⟨_, h1⟩ | ⟨_, h1⟩
  · rw [h1] at h
    simp only [Prod.mk.injEq] at h
    omega
  · rw [h1] at h
    rcases lwes_event_add_cases ev name c.token c.stored with ⟨hneg, _⟩ | ⟨_, i, hadd⟩
    · simp only [Prod.mk.injEq] at h
      omega
    · rw [hadd] at h
      simp only [Prod.mk.injEq, Option.some.injEq] at h
      obtain ⟨hr1, hev2⟩ := h
      subst hev2
      refine ⟨?_, hr1.symm⟩
      show (ev.number_of_attributes + 1) % 65536 = _
      omega

/-- C3 at a concrete input: on a fresh event the setter of "a" returns 1, the
new counter. -/
theorem setter_increments_count_witness :
    event_a5.number_of_attributes = fresh_event.number_of_attributes + 1 ∧
    (1 : Int) = (event_a5.number_of_attributes : Int) :=
  setter_increments_count fresh_event event_a5 [97] (.U_INT_16 5) 1 rfl (by decide)
    (by decide)

/-- C3 fails as stated: on the reachable event that holds 65535 attributes the
setter of one more attribute succeeds with result 0, and the counter afterwards
is 0, not 65536. -/
theorem setter_increments_count_counterexample :
    (∃ ev, many_attributes 65535 = some ev ∧ Reachable ev ∧
      ev.number_of_attributes = 65535) ∧
    (lwes_event_set_U_INT_16 (many_attributes 65535)
      (some (List.replicate 65536 97)) 0).1 = 0 ∧
    (∃ ev2, (lwes_event_set_U_INT_16 (many_attributes 65535)
      (some (List.replicate 65536 97)) 0).2 = some ev2 ∧
      ev2.number_of_attributes = 0 ∧ ev2.attributes.entries.length = 65536) := by
  obtain ⟨ev, hev, hreach, hdb, hcount, hlen, hkeys⟩ := many_attributes_spec 65535
  have hfresh : List.replicate 65536 97 ∉ lwes_hash_keys ev.attributes := by
    intro hin
    have := hkeys _ hin
    rw [List.length_replicate] at this
    omega
  obtain ⟨i, hadd⟩ := lwes_event_add_no_db ev (List.replicate 65536 97)
    LWES_U_INT_16_TOKEN (some (.U_INT_16 0)) hdb hfresh
  have hrun : lwes_event_set_U_INT_16 (some ev) (some (List.replicate 65536 97)) 0 =
      ((lwes_event_add ev (List.replicate 65536 97) LWES_U_INT_16_TOKEN
          (some (.U_INT_16 0))).1,
        some (lwes_event_add ev (List.replicate 65536 97) LWES_U_INT_16_TOKEN
          (some (.U_INT_16 0))).2) := rfl
  refine ⟨⟨ev, hev, hreach, by omega⟩, ?_, ?_⟩
  · rw [hev, hrun, hadd]
    simp only [hcount]
    rfl
  · rw [hev, hrun, hadd]
    refine ⟨_, rfl, ?_, ?_⟩
    · simp only [hcount]
    · simp only [insert_at_length, hlen]

/-! ## One pass of the decoder is a read and a setter call -/

/-- One pass of the loop of `from_bytes_exact` reads a record and calls the
typed setter of its type: a failed read gives the code of the read and leaves
the event, a record read gives the outcome of the setter. -/
theorem from_bytes_attribute_read (event : Option lwes_event) (bytes : List Nat)
    (num_bytes offset : Nat) :
    match read_record bytes num_bytes offset with
    | .error code => (from_bytes_attribute event bytes num_bytes offset).1 = code ∧
        (from_bytes_attribute event bytes num_bytes offset).2.1 = event
    | .ok (name, call, next) =>
        from_bytes_attribute event bytes num_bytes offset =
          (if (call.run event (some name)).1 < 0 then call.reject_code else 0,
            (call.run event (some name)).2, next) := by
  unfold read_record from_bytes_attribute
  cases unmarshall_SHORT_STRING (SHORT_STRING_MAX + 1) bytes num_bytes offset with
  | none => simp
  | some nm =>
    simp only
    cases unmarshall_BYTE bytes num_bytes nm.2 with
    | none => simp
    | some t =>
      simp only
      by_cases h_U_INT_16 : t.1 = LWES_U_INT_16_TOKEN
      · simp only [if_pos h_U_INT_16]
        cases unmarshall_U_INT_16 bytes num_bytes t.2 <;>
          (simp only [typed_call.run, typed_call.reject_code, and_self]; try (split_ifs <;> rfl))
      simp only [if_neg h_U_INT_16]
      by_cases h_INT_16 : t.1 = LWES_INT_16_TOKEN
      · simp only [if_pos h_INT_16]
        cases unmarshall_INT_16 bytes num_bytes t.2 <;>
          (simp only [typed_call.run, typed_call.reject_code, and_self]; try (split_ifs <;> rfl))
      simp only [if_neg h_INT_16]
      by_cases h_U_INT_32 : t.1 = LWES_U_INT_32_TOKEN
      · simp only [if_pos h_U_INT_32]
        cases unmarshall_U_INT_32 bytes num_bytes t.2 <;>
          (simp only [typed_call.run, typed_call.reject_code, and_self]; try (split_ifs <;> rfl))
      simp only [if_neg h_U_INT_32]
      by_cases h_INT_32 : t.1 = LWES_INT_32_TOKEN
      · simp only [if_pos h_INT_32]
        cases unmarshall_INT_32 bytes num_bytes t.2 <;>
          (simp only [typed_call.run, typed_call.reject_code, and_self]; try (split_ifs <;> rfl))
      simp only [if_neg h_INT_32]
      by_cases h_U_INT_64 : t.1 = LWES_U_INT_64_TOKEN
      · simp only [if_pos h_U_INT_64]
        cases unmarshall_U_INT_64 bytes num_bytes t.2 <;>
          (simp only [typed_call.run, typed_call.reject_code, and_self]; try (split_ifs <;> rfl))
      simp only [if_neg h_U_INT_64]
      by_cases h_INT_64 : t.1 = LWES_INT_64_TOKEN
      · simp only [if_pos h_INT_64]
        cases unmarshall_INT_64 bytes num_bytes t.2 <;>
          (simp only [typed_call.run, typed_call.reject_code, and_self]; try (split_ifs <;> rfl))
      simp only [if_neg h_INT_64]
      by_cases h_BOOLEAN : t.1 = LWES_BOOLEAN_TOKEN
      · simp only [if_pos h_BOOLEAN]
        cases unmarshall_BOOLEAN bytes num_bytes t.2 <;>
          (simp only [typed_call.run, typed_call.reject_code, and_self]; try (split_ifs <;> rfl))
      simp only [if_neg h_BOOLEAN]
      by_cases h_IP_ADDR : t.1 = LWES_IP_ADDR_TOKEN
      · simp only [if_pos h_IP_ADDR]
        cases unmarshall_IP_ADDR bytes num_bytes t.2 <;>
          (simp only [typed_call.run, typed_call.reject_code, and_self]; try (split_ifs <;> rfl))
      simp only [if_neg h_IP_ADDR]
      by_cases h_STRING : t.1 = LWES_STRING_TOKEN
      · simp only [if_pos h_STRING]
        cases unmarshall_LONG_STRING (LONG_STRING_MAX + 1) bytes num_bytes t.2 <;>
          (simp only [typed_call.run, typed_call.reject_code, and_self]; try (split_ifs <;> rfl))
      simp only [if_neg h_STRING]
      simp

theorem read_record_error_neg (bytes : List Nat) (num_bytes offset : Nat) (code : Int)
    (h : read_record bytes num_bytes offset = .error code) : code < 0 := by
  unfold read_record at h
  revert h
  repeat' split
  all_goals first
    | (intro h; cases h; decide)
    | (intro h; cases h)

theorem reject_code_neg (c : typed_call) : c.reject_code < 0 := by
  cases c <;> simp [typed_call.reject_code]

/-- The loop of the decoder and the loop of reads and setter calls give the
same result. -/
theorem from_bytes_attributes_eq (n : Nat) (event : Option lwes_event) (bytes : List Nat)
    (num_bytes offset : Nat) :
    (from_bytes_attributes n event bytes num_bytes offset).1 =
      (decode_records n event bytes num_bytes offset).1 ∧
    (from_bytes_attributes n event bytes num_bytes offset).2.1 =
      (decode_records n event bytes num_bytes offset).2.1 ∧
    (0 ≤ (decode_records n event bytes num_bytes offset).1 →
      (from_bytes_attributes n event bytes num_bytes offset).2.2 =
        (decode_records n event bytes num_bytes offset).2.2) := by
  induction n generalizing event offset with
  | zero => simp [from_bytes_attributes, decode_records]
  | succ n ih =>
    have hpass := from_bytes_attribute_read event bytes num_bytes offset
    simp only [from_bytes_attributes, decode_records]
    cases hr : read_record bytes num_bytes offset with
    | error code =>
      rw [hr] at hpass
      have hneg := read_record_error_neg bytes num_bytes offset code hr
      simp only at hpass
      obtain ⟨h1, h2⟩ := hpass
      have hlt : (from_bytes_attribute event bytes num_bytes offset).1 < 0 := by
        rw [h1]; exact hneg
      simp only [hlt, if_true]
      exact ⟨h1, h2, fun h => by omega⟩
    | ok rec =>
      obtain ⟨name, call, next⟩ := rec
      rw [hr] at hpass
      simp only at hpass
      simp only [hpass]
      by_cases hneg : (call.run event (some name)).1 < 0
      · have hrej := reject_code_neg call
        simp only [hneg, if_true, hrej]
        refine ⟨trivial, trivial, ?_⟩
        intro h
        omega
      · simp only [hneg, if_false]
        have : ¬ ((0 : Int) < 0) := by omega
        simp only [this, if_false]
        exact ih _ _

/-- A typed setter under a name that the table holds fails. -/
theorem typed_call_run_duplicate (c : typed_call) (ev : lwes_event) (name : List Nat)
    (h : name ∈ lwes_hash_keys ev.attributes) :
    (c.run (some ev) (some name)).1 < 0 := by
  rcases typed_call_run_some c ev name with ⟨_, h1⟩ | ⟨_, h1⟩
  · rw [h1]; simp
  · rw [h1]
    rcases lwes_event_add_cases ev name c.token c.stored with ⟨hneg, _⟩ | ⟨hk, _⟩
    · exact hneg
    · exact absurd h hk

/-- A typed setter that the type database of the event rejects, for the name or
for the type, fails. -/
theorem typed_call_run_rejected (c : typed_call) (ev : lwes_event) (name : List Nat)
    (db : lwes_event_type_db) (hdb : ev.type_db = some db)
    (h : lwes_event_type_db_check_for_attribute db name ev.eventName = 0 ∨
      lwes_event_type_db_check_for_type db c.token name ev.eventName = 0) :
    (c.run (some ev) (some name)).1 < 0 := by
  rcases typed_call_run_some c ev name with ⟨_, h1⟩ | ⟨_, h1⟩
  · rw [h1]; simp
  · rw [h1]
    unfold lwes_event_add
    simp only [hdb]
    by_cases ha : lwes_event_type_db_check_for_attribute db name ev.eventName = 0
    · simp [ha]
    · have ht : lwes_event_type_db_check_for_type db c.token name ev.eventName = 0 := by
        rcases h with h | h
        · exact absurd h ha
        · exact h
      simp [ha, ht]

/-- Past its argument checks, `from_bytes_exact` is the decoder of the
specification. -/
theorem from_bytes_eq_decode (ev : lwes_event) (bytes : List Nat) (num_bytes offset : Nat)
    (dtmp : lwes_event_deserialize_tmp) :
    from_bytes_exact (some ev) (some bytes) num_bytes offset (some dtmp) =
      if num_bytes = 0 ∨ offset ≥ num_bytes then (-1, some ev)
      else decode_by_setters (some ev) bytes num_bytes offset := by
  unfold from_bytes_exact decode_by_setters
  by_cases hpre : num_bytes = 0 ∨ offset ≥ num_bytes
  · simp only [hpre, if_true]
  · simp only [hpre, if_false]
    cases unmarshall_SHORT_STRING (SHORT_STRING_MAX + 1) bytes num_bytes offset with
    | none => rfl
    | some nm =>
      simp only
      by_cases hname : (lwes_event_set_name (some ev) (some nm.1)).1 = 0
      · simp only [hname, if_true, ne_eq, not_true_eq_false, if_false]
        cases unmarshall_U_INT_16 bytes num_bytes nm.2 with
        | none => rfl
        | some count =>
          simp only
          have h := from_bytes_attributes_eq count.1
            (lwes_event_set_name (some ev) (some nm.1)).2 bytes num_bytes count.2
          by_cases hneg : (decode_records count.1
              (lwes_event_set_name (some ev) (some nm.1)).2 bytes num_bytes count.2).1 < 0
          · have hneg2 := hneg
            rw [← h.1] at hneg2
            simp only [hneg, hneg2, if_true, h.1, h.2.1]
          · have hneg2 := hneg
            rw [← h.1] at hneg2
            simp only [hneg, hneg2, if_false, h.2.1, h.2.2 (by omega)]
      · simp only [hname, if_false, ne_eq, not_false_eq_true, if_true]

/-! ## The conversion of the result to `int`

`lwes_event_to_bytes` and `lwes_event_from_bytes` differ from `to_bytes_exact`
and `from_bytes_exact` in the result of a success only. -/

/-- The buffer that `lwes_event_to_bytes` leaves is the buffer that
`to_bytes_exact` leaves. -/
theorem to_bytes_buffer (event : Option lwes_event) (bytes : Option (List Nat))
    (num_bytes offset : Nat) :
    (lwes_event_to_bytes event bytes num_bytes offset).2 =
      (to_bytes_exact event bytes num_bytes offset).2 := by
  unfold lwes_event_to_bytes to_bytes_exact
  cases event with
  | none => rfl
  | some ev =>
    cases bytes with
    | none => rfl
    | some bs =>
      simp only
      by_cases hpre : num_bytes = 0 ∨ offset ≥ num_bytes
      · simp only [hpre, if_true]
      · simp only [hpre, if_false]
        cases marshall_SHORT_STRING ev.eventName bs num_bytes offset with
        | none => rfl
        | some r1 =>
          simp only
          cases marshall_U_INT_16 ev.number_of_attributes r1.1 num_bytes r1.2 with
          | none => rfl
          | some r2 =>
            simp only
            by_cases h3 : (to_bytes_encoding ev r2.1 num_bytes r2.2).1 < 0
            · simp only [h3, if_true]
            · simp only [h3, if_false]

/-- The event that `lwes_event_from_bytes` leaves is the event that
`from_bytes_exact` leaves. -/
theorem from_bytes_event (event : Option lwes_event) (bytes : Option (List Nat))
    (num_bytes offset : Nat) (dtmp : Option lwes_event_deserialize_tmp) :
    (lwes_event_from_bytes event bytes num_bytes offset dtmp).2 =
      (from_bytes_exact event bytes num_bytes offset dtmp).2 := by
  unfold lwes_event_from_bytes from_bytes_exact
  cases event with
  | none => rfl
  | some ev =>
    cases bytes with
    | none => rfl
    | some bs =>
      cases dtmp with
      | none => rfl
      | some d =>
        simp only
        by_cases hpre : num_bytes = 0 ∨ offset ≥ num_bytes
        · simp only [hpre, if_true]
        · simp only [hpre, if_false]
          cases unmarshall_SHORT_STRING (SHORT_STRING_MAX + 1) bs num_bytes offset with
          | none => rfl
          | some nm =>
            simp only
            by_cases hn : (lwes_event_set_name (some ev) (some nm.1)).1 = 0
            · simp only [hn, if_true]
              cases unmarshall_U_INT_16 bs num_bytes nm.2 with
              | none => rfl
              | some cnt =>
                simp only
                by_cases hl : (from_bytes_attributes cnt.1
                    (lwes_event_set_name (some ev) (some nm.1)).2 bs num_bytes cnt.2).1 < 0
                · simp only [hl, if_true]
                · simp only [hl, if_false]
            · simp only [hn, if_false]

/-- A record whose name the table holds, or which the type database rejects,
stops the loop of the decoder with a negative code and the event unchanged. -/
theorem from_bytes_rejected_record (n : Nat) (ev : lwes_event) (bytes : List Nat)
    (num_bytes offset : Nat) (name : List Nat) (call : typed_call) (next : Nat)
    (hread : read_record bytes num_bytes offset = .ok (name, call, next))
    (hrej : name ∈ lwes_hash_keys ev.attributes ∨
        ∃ db, ev.type_db = some db ∧
          (lwes_event_type_db_check_for_attribute db name ev.eventName = 0 ∨
            lwes_event_type_db_check_for_type db call.token name ev.eventName = 0)) :
    (from_bytes_attributes (n + 1) (some ev) bytes num_bytes offset).1 < 0 ∧
    (from_bytes_attributes (n + 1) (some ev) bytes num_bytes offset).2.1 = some ev := by
  have hfail : (call.run (some ev) (some name)).1 < 0 := by
    rcases hrej with h | ⟨db, hdb, h⟩
    · exact typed_call_run_duplicate call ev name h
    · exact typed_call_run_rejected call ev name db hdb h
  have hsame : (call.run (some ev) (some name)).2 = some ev := by
    rcases typed_call_run_some call ev name with ⟨_, h1⟩ | ⟨_, h1⟩
    · rw [h1]
    · rw [h1] at hfail ⊢
      rcases lwes_event_add_cases ev name call.token call.stored with ⟨_, hs⟩ | ⟨_, i, ha⟩
      · simp only [hs]
      · rw [ha] at hfail
        simp only at hfail
        omega
  have hpass := from_bytes_attribute_read (some ev) bytes num_bytes offset
  rw [hread] at hpass
  simp only at hpass
  simp only [from_bytes_attributes, hpass, hfail, if_true, hsame, reject_code_neg call,
    and_self]


/-! ## What the reads return -/

theorem unmarshall_generic_some (n : Nat) (bytes : List Nat) (length offset : Nat)
    (r : List Nat × Nat) (h : unmarshall_generic n bytes length offset = some r) :
    r = (get_bytes n bytes offset, offset + n) ∧ offset + n ≤ length := by
  unfold unmarshall_generic at h
  split at h
  · simp only [Option.some.injEq] at h
    exact ⟨h.symm, by assumption⟩
  · cases h

theorem get_bytes_lt (n : Nat) (bytes : List Nat) (offset : Nat)
    (hb : ∀ b ∈ bytes, b < 256) : ∀ b ∈ get_bytes n bytes offset, b < 256 := by
  intro b h
  exact hb b (List.mem_of_mem_drop (List.mem_of_mem_take h))

theorem get_bytes_length_le (n : Nat) (bytes : List Nat) (offset : Nat) :
    (get_bytes n bytes offset).length ≤ n := by
  simp only [get_bytes, List.length_take]
  omega

theorem be_value_foldl_lt (bs : List Nat) (acc : Nat) (hb : ∀ b ∈ bs, b < 256) :
    bs.foldl (fun a b => a * 256 + b) acc < (acc + 1) * 256 ^ bs.length := by
  induction bs generalizing acc with
  | nil => simp
  | cons b bs ih =>
    simp only [List.foldl_cons, List.length_cons]
    have hb0 : b < 256 := hb b (List.mem_cons_self _ _)
    have h := ih (acc * 256 + b) (fun x hx => hb x (List.mem_cons_of_mem _ hx))
    have hle : (acc * 256 + b + 1) * 256 ^ bs.length ≤ (acc + 1) * 256 ^ (bs.length + 1) := by
      rw [pow_succ]
      have : acc * 256 + b + 1 ≤ (acc + 1) * 256 := by omega
      calc (acc * 256 + b + 1) * 256 ^ bs.length
          ≤ ((acc + 1) * 256) * 256 ^ bs.length := Nat.mul_le_mul_right _ this
        _ = (acc + 1) * (256 ^ bs.length * 256) := by ring
    omega

theorem be_value_get_bytes_lt (n : Nat) (bytes : List Nat) (offset : Nat)
    (hb : ∀ b ∈ bytes, b < 256) : be_value (get_bytes n bytes offset) < 256 ^ n := by
  have h := be_value_foldl_lt (get_bytes n bytes offset) 0 (get_bytes_lt n bytes offset hb)
  have hle : 256 ^ (get_bytes n bytes offset).length ≤ 256 ^ n :=
    Nat.pow_le_pow_right (by decide) (get_bytes_length_le n bytes offset)
  unfold be_value
  omega

theorem c_str_valid (s : List Nat) (hb : ∀ b ∈ s, b < 256) : valid_string (c_str s) := by
  intro c hc
  have hmem : c ∈ s := (List.takeWhile_sublist _).subset hc
  have hne := List.mem_takeWhile_imp hc
  simp only [bne_iff_ne, ne_eq] at hne
  exact ⟨by omega, hb c hmem⟩

theorem to_signed_range (w : Nat) (u : Nat) (hu : u < 256 ^ w) (hw : 0 < w) :
    -((256 ^ w / 2 : Nat) : Int) ≤ to_signed w u ∧ to_signed w u < ((256 ^ w / 2 : Nat) : Int) := by
  have heven : 256 ^ w = 2 * (256 ^ w / 2) := by
    obtain ⟨k, rfl⟩ : ∃ k, w = k + 1 := ⟨w - 1, by omega⟩
    rw [pow_succ]
    omega
  unfold to_signed
  generalize 256 ^ w = P at *
  split_ifs with h
  · constructor <;> omega
  · constructor <;> omega

theorem unmarshall_map_some {α : Type} (f : List Nat × Nat → α) (n : Nat) (bytes : List Nat)
    (length offset : Nat) (v : α)
    (h : (unmarshall_generic n bytes length offset).map f = some v) :
    v = f (get_bytes n bytes offset, offset + n) ∧ offset + n ≤ length := by
  cases hg : unmarshall_generic n bytes length offset with
  | none => rw [hg] at h; cases h
  | some r =>
    rw [hg] at h
    obtain ⟨hr, hle⟩ := unmarshall_generic_some n bytes length offset r hg
    simp only [Option.map_some', Option.some.injEq] at h
    rw [← h, hr]
    exact ⟨rfl, hle⟩

theorem unmarshall_SHORT_STRING_some (m : Nat) (bytes : List Nat) (length offset : Nat)
    (r : List Nat × Nat) (hb : ∀ b ∈ bytes, b < 256)
    (h : unmarshall_SHORT_STRING m bytes length offset = some r) :
    valid_string r.1 ∧ offset < r.2 ∧ r.2 ≤ length := by
  unfold unmarshall_SHORT_STRING at h
  cases hl : unmarshall_BYTE bytes length offset with
  | none => rw [hl] at h; cases h
  | some len =>
    rw [hl] at h
    simp only at h
    obtain ⟨hlen, hle1⟩ := unmarshall_map_some _ 1 bytes length offset len hl
    split at h
    · obtain ⟨hr, hle2⟩ := unmarshall_map_some _ len.1 bytes length len.2 r h
      rw [hr, hlen]
      simp only
      exact ⟨c_str_valid _ (get_bytes_lt _ _ _ hb), by omega, by rw [hlen] at hle2; simpa using hle2⟩
    · cases h

theorem unmarshall_LONG_STRING_some (m : Nat) (bytes : List Nat) (length offset : Nat)
    (r : List Nat × Nat) (hb : ∀ b ∈ bytes, b < 256)
    (h : unmarshall_LONG_STRING m bytes length offset = some r) :
    valid_string r.1 ∧ offset < r.2 ∧ r.2 ≤ length := by
  unfold unmarshall_LONG_STRING at h
  cases hl : unmarshall_U_INT_16 bytes length offset with
  | none => rw [hl] at h; cases h
  | some len =>
    rw [hl] at h
    simp only at h
    obtain ⟨hlen, hle1⟩ := unmarshall_map_some _ 2 bytes length offset len hl
    split at h
    · obtain ⟨hr, hle2⟩ := unmarshall_map_some _ len.1 bytes length len.2 r h
      rw [hr, hlen]
      simp only
      exact ⟨c_str_valid _ (get_bytes_lt _ _ _ hb), by omega, by rw [hlen] at hle2; simpa using hle2⟩
    · cases h

/-- A record read from a buffer of bytes asks for a typed setter call on a C
string and a value of the C type, and ends behind its start, below the
capacity. -/
theorem read_record_valid (bytes : List Nat) (num_bytes offset : Nat)
    (hb : ∀ b ∈ bytes, b < 256) (name : List Nat) (call : typed_call) (next : Nat)
    (h : read_record bytes num_bytes offset = .ok (name, call, next)) :
    valid_string name ∧ call.valid ∧ call.stored ≠ none ∧ offset < next ∧
      next ≤ num_bytes := by
  unfold read_record at h
  cases hs : unmarshall_SHORT_STRING (SHORT_STRING_MAX + 1) bytes num_bytes offset with
  | none => rw [hs] at h; cases h
  | some nm =>
    rw [hs] at h
    simp only at h
    obtain ⟨hnm, hlt, _⟩ := unmarshall_SHORT_STRING_some _ bytes num_bytes offset nm hb hs
    cases ht : unmarshall_BYTE bytes num_bytes nm.2 with
    | none => rw [ht] at h; cases h
    | some t =>
      rw [ht] at h
      simp only at h
      obtain ⟨ht2, _⟩ := unmarshall_map_some _ 1 bytes num_bytes nm.2 t ht
      have hoff : t.2 = nm.2 + 1 := by rw [ht2]
      by_cases h_U_INT_16 : t.1 = LWES_U_INT_16_TOKEN
      · simp only [if_pos h_U_INT_16] at h
        cases hv : unmarshall_U_INT_16 bytes num_bytes t.2 with
        | none => rw [hv] at h; cases h
        | some v =>
          rw [hv] at h
          simp only [Except.ok.injEq, Prod.mk.injEq] at h
          obtain ⟨hv1, hle⟩ := unmarshall_map_some _ 2 bytes num_bytes t.2 v hv
          obtain ⟨h1, h2, h3⟩ := h
          subst h1 h2 h3
          rw [hv1]
          refine ⟨hnm, ?_, by simp [typed_call.stored], by simp only; omega, by simpa using hle⟩
          exact by
            have hr := be_value_get_bytes_lt 2 bytes t.2 hb
            simp only [typed_call.valid]
            norm_num at hr
            exact hr
      simp only [if_neg h_U_INT_16] at h
      by_cases h_INT_16 : t.1 = LWES_INT_16_TOKEN
      · simp only [if_pos h_INT_16] at h
        cases hv : unmarshall_INT_16 bytes num_bytes t.2 with
        | none => rw [hv] at h; cases h
        | some v =>
          rw [hv] at h
          simp only [Except.ok.injEq, Prod.mk.injEq] at h
          obtain ⟨hv1, hle⟩ := unmarshall_map_some _ 2 bytes num_bytes t.2 v hv
          obtain ⟨h1, h2, h3⟩ := h
          subst h1 h2 h3
          rw [hv1]
          refine ⟨hnm, ?_, by simp [typed_call.stored], by simp only; omega, by simpa using hle⟩
          exact by
            have hr := to_signed_range 2 _ (be_value_get_bytes_lt 2 bytes t.2 hb) (by decide)
            simp only [typed_call.valid]
            norm_num at hr
            exact hr
      simp only [if_neg h_INT_16] at h
      by_cases h_U_INT_32 : t.1 = LWES_U_INT_32_TOKEN
      · simp only [if_pos h_U_INT_32] at h
        cases hv : unmarshall_U_INT_32 bytes num_bytes t.2 with
        | none => rw [hv] at h; cases h
        | some v =>
          rw [hv] at h
          simp only [Except.ok.injEq, Prod.mk.injEq] at h
          obtain ⟨hv1, hle⟩ := unmarshall_map_some _ 4 bytes num_bytes t.2 v hv
          obtain ⟨h1, h2, h3⟩ := h
          subst h1 h2 h3
          rw [hv1]
          refine ⟨hnm, ?_, by simp [typed_call.stored], by simp only; omega, by simpa using hle⟩
          exact by
            have hr := be_value_get_bytes_lt 4 bytes t.2 hb
            simp only [typed_call.valid]
            norm_num at hr
            exact hr
      simp only [if_neg h_U_INT_32] at h
      by_cases h_INT_32 : t.1 = LWES_INT_32_TOKEN
      · simp only [if_pos h_INT_32] at h
        cases hv : unmarshall_INT_32 bytes num_bytes t.2 with
        | none => rw [hv] at h; cases h
        | some v =>
          rw [hv] at h
          simp only [Except.ok.injEq, Prod.mk.injEq] at h
          obtain ⟨hv1, hle⟩ := unmarshall_map_some _ 4 bytes num_bytes t.2 v hv
          obtain ⟨h1, h2, h3⟩ := h
          subst h1 h2 h3
          rw [hv1]
          refine ⟨hnm, ?_, by simp [typed_call.stored], by simp only; omega, by simpa using hle⟩
          exact by
            have hr := to_signed_range 4 _ (be_value_get_bytes_lt 4 bytes t.2 hb) (by decide)
            simp only [typed_call.valid]
            norm_num at hr
            exact hr
      simp only [if_neg h_INT_32] at h
      by_cases h_U_INT_64 : t.1 = LWES_U_INT_64_TOKEN
      · simp only [if_pos h_U_INT_64] at h
        cases hv : unmarshall_U_INT_64 bytes num_bytes t.2 with
        | none => rw [hv] at h; cases h
        | some v =>
          rw [hv] at h
          simp only [Except.ok.injEq, Prod.mk.injEq] at h
          obtain ⟨hv1, hle⟩ := unmarshall_map_some _ 8 bytes num_bytes t.2 v hv
          obtain ⟨h1, h2, h3⟩ := h
          subst h1 h2 h3
          rw [hv1]
          refine ⟨hnm, ?_, by simp [typed_call.stored], by simp only; omega, by simpa using hle⟩
          exact by
            have hr := be_value_get_bytes_lt 8 bytes t.2 hb
            simp only [typed_call.valid]
            norm_num at hr
            exact hr
      simp only [if_neg h_U_INT_64] at h
      by_cases h_INT_64 : t.1 = LWES_INT_64_TOKEN
      · simp only [if_pos h_INT_64] at h
        cases hv : unmarshall_INT_64 bytes num_bytes t.2 with
        | none => rw [hv] at h; cases h
        | some v =>
          rw [hv] at h
          simp only [Except.ok.injEq, Prod.mk.injEq] at h
          obtain ⟨hv1, hle⟩ := unmarshall_map_some _ 8 bytes num_bytes t.2 v hv
          obtain ⟨h1, h2, h3⟩ := h
          subst h1 h2 h3
          rw [hv1]
          refine ⟨hnm, ?_, by simp [typed_call.stored], by simp only; omega, by simpa using hle⟩
          exact by
            have hr := to_signed_range 8 _ (be_value_get_bytes_lt 8 bytes t.2 hb) (by decide)
            simp only [typed_call.valid]
            norm_num at hr
            exact hr
      simp only [if_neg h_INT_64] at h
      by_cases h_BOOLEAN : t.1 = LWES_BOOLEAN_TOKEN
      · simp only [if_pos h_BOOLEAN] at h
        cases hv : unmarshall_BOOLEAN bytes num_bytes t.2 with
        | none => rw [hv] at h; cases h
        | some v =>
          rw [hv] at h
          simp only [Except.ok.injEq, Prod.mk.injEq] at h
          obtain ⟨hv1, hle⟩ := unmarshall_map_some _ 1 bytes num_bytes t.2 v hv
          obtain ⟨h1, h2, h3⟩ := h
          subst h1 h2 h3
          rw [hv1]
          refine ⟨hnm, ?_, by simp [typed_call.stored], by simp only; omega, by simpa using hle⟩
          exact trivial
      simp only [if_neg h_BOOLEAN] at h
      by_cases h_IP_ADDR : t.1 = LWES_IP_ADDR_TOKEN
      · simp only [if_pos h_IP_ADDR] at h
        cases hv : unmarshall_IP_ADDR bytes num_bytes t.2 with
        | none => rw [hv] at h; cases h
        | some v =>
          rw [hv] at h
          simp only [Except.ok.injEq, Prod.mk.injEq] at h
          obtain ⟨hv1, hle⟩ := unmarshall_map_some _ 4 bytes num_bytes t.2 v hv
          obtain ⟨h1, h2, h3⟩ := h
          subst h1 h2 h3
          rw [hv1]
          refine ⟨hnm, ?_, by simp [typed_call.stored], by simp only; omega, by simpa using hle⟩
          exact by
            have hr := be_value_get_bytes_lt 4 bytes t.2 hb
            simp only [typed_call.valid]
            norm_num at hr
            exact hr
      simp only [if_neg h_IP_ADDR] at h
      by_cases h_STRING : t.1 = LWES_STRING_TOKEN
      · simp only [if_pos h_STRING] at h
        cases hv : unmarshall_LONG_STRING (LONG_STRING_MAX + 1) bytes num_bytes t.2 with
        | none => rw [hv] at h; cases h
        | some v =>
          rw [hv] at h
          simp only [Except.ok.injEq, Prod.mk.injEq] at h
          obtain ⟨hv1, hv2, hv3⟩ := unmarshall_LONG_STRING_some _ bytes num_bytes t.2 v hb hv
          obtain ⟨h1, h2, h3⟩ := h
          subst h1 h2 h3
          refine ⟨hnm, ?_, by simp [typed_call.stored], by omega, hv3⟩
          intro s hs
          simp only [Option.some.injEq] at hs
          rw [← hs]
          exact hv1
      simp only [if_neg h_STRING] at h
      cases h

/-! ## Invariants of the reachable events -/

theorem typed_call_run_isSome (c : typed_call) (ev : lwes_event) (name : List Nat) :
    ∃ ev2, (c.run (some ev) (some name)).2 = some ev2 := by
  rcases typed_call_run_some c ev name with ⟨_, h⟩ | ⟨_, h⟩ <;> rw [h] <;> exact ⟨_, rfl⟩

theorem valid_string_encoding : valid_string LWES_ENCODING := by
  intro c hc
  simp only [LWES_ENCODING, List.mem_cons, List.mem_singleton, List.not_mem_nil, or_false] at hc
  omega

/-- `lwes_event_set_encoding` leaves the event or is the INT_16 setter under the
reserved name. -/
theorem lwes_event_set_encoding_cases (ev : lwes_event) (encoding : Int) :
    lwes_event_set_encoding (some ev) encoding = (-1, some ev) ∨
    lwes_event_set_encoding (some ev) encoding =
      typed_call.run (.INT_16 encoding) (some ev) (some LWES_ENCODING) := by
  unfold lwes_event_set_encoding
  simp only
  split_ifs
  · right; rfl
  · left; rfl

/-- The loop of reads and setter calls keeps every property of the event that
each typed setter call that satisfies `Q`, on arguments of the C types, keeps,
when the records of the buffer satisfy `Q`. -/
theorem decode_records_invariant (P : lwes_event → Prop) (Q : List Nat → typed_call → Prop)
    (hcall : ∀ ev name c ev2, P ev → valid_string name → typed_call.valid c → Q name c →
      (c.run (some ev) (some name)).2 = some ev2 → P ev2)
    (bytes : List Nat) (hb : ∀ b ∈ bytes, b < 256) (num_bytes : Nat)
    (hQ : ∀ o name call next, read_record bytes num_bytes o = .ok (name, call, next) →
      Q name call) :
    ∀ (n : Nat) (ev : lwes_event) (offset : Nat) (ev2 : lwes_event), P ev →
      (decode_records n (some ev) bytes num_bytes offset).2.1 = some ev2 → P ev2 := by
  intro n
  induction n with
  | zero =>
    intro ev offset ev2 hP h
    simp only [decode_records, Option.some.injEq] at h
    rw [← h]; exact hP
  | succ n ih =>
    intro ev offset ev2 hP h
    simp only [decode_records] at h
    cases hr : read_record bytes num_bytes offset with
    | error code =>
      rw [hr] at h
      simp only [Option.some.injEq] at h
      rw [← h]; exact hP
    | ok rec =>
      obtain ⟨name, call, next⟩ := rec
      rw [hr] at h
      simp only at h
      obtain ⟨hn, hc, _, _, _⟩ := read_record_valid bytes num_bytes offset hb name call next hr
      obtain ⟨ev1, hev1⟩ := typed_call_run_isSome call ev name
      have hP1 : P ev1 := hcall ev name call ev1 hP hn hc (hQ offset name call next hr) hev1
      split_ifs at h
      · simp only at h
        rw [hev1, Option.some.injEq] at h
        rw [← h]; exact hP1
      · rw [hev1] at h
        exact ih ev1 next ev2 hP1 h

/-- `from_bytes_exact` keeps every property of the event that
`lwes_event_set_name` and the typed setter calls that satisfy `Q` keep, when the
records of the buffer satisfy `Q`. -/
theorem from_bytes_invariant (P : lwes_event → Prop) (Q : List Nat → typed_call → Prop)
    (hname : ∀ ev name ev2, P ev → valid_string name →
      (lwes_event_set_name (some ev) (some name)).2 = some ev2 → P ev2)
    (hcall : ∀ ev name c ev2, P ev → valid_string name → typed_call.valid c → Q name c →
      (c.run (some ev) (some name)).2 = some ev2 → P ev2)
    (ev ev2 : lwes_event) (bytes : List Nat) (hb : ∀ b ∈ bytes, b < 256)
    (num_bytes offset : Nat) (dtmp : lwes_event_deserialize_tmp)
    (hQ : ∀ o name call next, read_record bytes num_bytes o = .ok (name, call, next) →
      Q name call) (hP : P ev)
    (h : (from_bytes_exact (some ev) (some bytes) num_bytes offset (some dtmp)).2 =
      some ev2) : P ev2 := by
  rw [from_bytes_eq_decode] at h
  split_ifs at h
  · simp only [Option.some.injEq] at h
    rw [← h]; exact hP
  · unfold decode_by_setters at h
    cases hs : unmarshall_SHORT_STRING (SHORT_STRING_MAX + 1) bytes num_bytes offset with
    | none =>
      rw [hs] at h
      simp only [Option.some.injEq] at h
      rw [← h]; exact hP
    | some nm =>
      rw [hs] at h
      simp only at h
      obtain ⟨hnm, _, _⟩ := unmarshall_SHORT_STRING_some _ bytes num_bytes offset nm hb hs
      have hsome : ∃ ev1, (lwes_event_set_name (some ev) (some nm.1)).2 = some ev1 := by
        unfold lwes_event_set_name
        simp only
        split_ifs <;> exact ⟨_, rfl⟩
      obtain ⟨ev1, hev1⟩ := hsome
      have hP1 : P ev1 := hname ev nm.1 ev1 hP hnm hev1
      split_ifs at h
      · simp only at h
        rw [hev1, Option.some.injEq] at h
        rw [← h]; exact hP1
      · cases hc : unmarshall_U_INT_16 bytes num_bytes nm.2 with
        | none =>
          rw [hc] at h
          simp only at h
          rw [hev1, Option.some.injEq] at h
          rw [← h]; exact hP1
        | some count =>
          rw [hc] at h
          simp only at h
          rw [hev1] at h
          have hfin : (decode_records count.1 (some ev1) bytes num_bytes count.2).2.1 =
              some ev2 := by
            split_ifs at h <;> exact h
          exact decode_records_invariant P Q hcall bytes hb num_bytes hQ count.1 ev1 count.2
            ev2 hP1 hfin

/-- Every property that holds of the fresh events and that `lwes_event_set_name`
and the typed setter calls that satisfy `Q` keep holds of all events reachable
with `Q`. -/
theorem reachable_with_invariant (P : lwes_event → Prop) (Q : List Nat → typed_call → Prop)
    (hnew : ∀ db place, P (empty_event db place))
    (hname : ∀ ev name ev2, P ev → valid_string name →
      (lwes_event_set_name (some ev) (some name)).2 = some ev2 → P ev2)
    (hcall : ∀ ev name c ev2, P ev → valid_string name → typed_call.valid c → Q name c →
      (c.run (some ev) (some name)).2 = some ev2 → P ev2)
    (ev : lwes_event) (h : ReachableWith Q ev) : P ev := by
  have henc : ∀ ev encoding ev2, P ev → (typed_call.INT_16 encoding).valid →
      Q LWES_ENCODING (.INT_16 encoding) →
      (lwes_event_set_encoding (some ev) encoding).2 = some ev2 → P ev2 := by
    intro ev encoding ev2 hP hv hq h2
    rcases lwes_event_set_encoding_cases ev encoding with h | h
    · rw [h] at h2
      simp only [Option.some.injEq] at h2
      rw [← h2]; exact hP
    · rw [h] at h2
      exact hcall ev LWES_ENCODING _ ev2 hP valid_string_encoding hv hq h2
  induction h with
  | create_no_name db place ev h =>
    simp only [lwes_event_create_no_name, Option.some.injEq] at h
    rw [← h]; exact hnew db place
  | create db place name ev hv h =>
    simp only [lwes_event_create] at h
    split_ifs at h
    exact hname _ name ev (hnew db place) hv h
  | create_with_encoding db place name encoding ev hv he hq h =>
    simp only [lwes_event_create_with_encoding] at h
    split_ifs at h
    change (lwes_event_set_encoding (lwes_event_set_name (some (empty_event db place))
      (some name)).2 encoding).2 = some ev at h
    have hsome : ∃ ev1, (lwes_event_set_name (some (empty_event db place))
        (some name)).2 = some ev1 := ⟨_, rfl⟩
    obtain ⟨ev1, hev1⟩ := hsome
    rw [hev1] at h
    exact henc ev1 encoding ev (hname _ name ev1 (hnew db place) hv hev1) he hq h
  | set_name ev ev2 name _ hv h ih => exact hname ev name ev2 ih hv h
  | set_encoding ev ev2 encoding _ hv hq h ih => exact henc ev encoding ev2 ih hv hq h
  | typed_setter ev ev2 c name _ hv hc hq h ih => exact hcall ev name c ev2 ih hv hc hq h
  | from_bytes ev ev2 bytes num_bytes offset dtmp _ hb hq h ih =>
    rw [from_bytes_event] at h
    exact from_bytes_invariant P Q hname hcall ev ev2 bytes hb num_bytes offset dtmp hq ih h

/-- Every property that holds of the fresh events and that `lwes_event_set_name`
and the typed setters keep holds of all reachable events. -/
theorem reachable_invariant (P : lwes_event → Prop)
    (hnew : ∀ db place, P (empty_event db place))
    (hname : ∀ ev name ev2, P ev → valid_string name →
      (lwes_event_set_name (some ev) (some name)).2 = some ev2 → P ev2)
    (hcall : ∀ ev name c ev2, P ev → valid_string name → typed_call.valid c →
      (c.run (some ev) (some name)).2 = some ev2 → P ev2)
    (ev : lwes_event) (h : Reachable ev) : P ev :=
  reachable_with_invariant P (fun _ _ => True) hnew hname
    (fun ev name c ev2 hP hv hc _ h2 => hcall ev name c ev2 hP hv hc h2) ev h

/-- An event reachable under a condition on the typed setter calls is
reachable. -/
theorem reachable_of_reachable_with (Q : List Nat → typed_call → Prop) (ev : lwes_event)
    (h : ReachableWith Q ev) : Reachable ev := by
  unfold Reachable
  induction h with
  | create_no_name db place ev h => exact .create_no_name db place ev h
  | create db place name ev hv h => exact .create db place name ev hv h
  | create_with_encoding db place name encoding ev hv he _ h =>
    exact .create_with_encoding db place name encoding ev hv he trivial h
  | set_name ev ev2 name _ hv h ih => exact .set_name ev ev2 name ih hv h
  | set_encoding ev ev2 encoding _ hv _ h ih =>
    exact .set_encoding ev ev2 encoding ih hv trivial h
  | typed_setter ev ev2 c name _ hv hc _ h ih =>
    exact .typed_setter ev ev2 c name ih hv hc trivial h
  | from_bytes ev ev2 bytes num_bytes offset dtmp _ hb _ h ih =>
    exact .from_bytes ev ev2 bytes num_bytes offset dtmp ih hb
      (fun _ _ _ _ _ => trivial) h

theorem well_formed_empty (db : Option lwes_event_type_db)
    (place : List (List Nat) → List Nat → Nat) : well_formed (empty_event db place) := by
  refine ⟨rfl, ?_, ?_, ?_, ?_⟩
  · simp [empty_event, lwes_hash_keys, lwes_hash_create]
  · intro nm h; cases h
  · intro k hk; simp [empty_event, lwes_hash_keys, lwes_hash_create] at hk
  · intro e he; simp [empty_event, lwes_hash_create] at he

theorem well_formed_set_name (ev : lwes_event) (name : List Nat) (ev2 : lwes_event)
    (hw : well_formed ev) (hv : valid_string name)
    (h : (lwes_event_set_name (some ev) (some name)).2 = some ev2) : well_formed ev2 := by
  unfold lwes_event_set_name at h
  simp only at h
  split_ifs at h
  · simp only [Option.some.injEq] at h
    rw [← h]; exact hw
  · simp only [Option.some.injEq] at h
    rw [← h]
    refine ⟨hw.count, hw.nodup, ?_, hw.keys_ok, hw.attrs_ok⟩
    intro nm hnm
    simp only [Option.some.injEq] at hnm
    rw [← hnm]; exact hv

theorem well_formed_call (ev : lwes_event) (name : List Nat) (c : typed_call)
    (ev2 : lwes_event) (hw : well_formed ev) (hv : valid_string name) (hc : c.valid)
    (h : (c.run (some ev) (some name)).2 = some ev2) : well_formed ev2 := by
  rcases typed_call_run_some c ev name with ⟨_, h1⟩ | ⟨hs, h1⟩
  · rw [h1] at h
    simp only [Option.some.injEq] at h
    rw [← h]; exact hw
  · rw [h1] at h
    rcases lwes_event_add_cases ev name c.token c.stored with ⟨_, hsame⟩ | ⟨hk, i, hadd⟩
    · rw [hsame] at h
      simp only [Option.some.injEq] at h
      rw [← h]; exact hw
    · rw [hadd] at h
      simp only [Option.some.injEq] at h
      rw [← h]
      have hperm := insert_at_perm i (name, (⟨c.token, c.stored⟩ : lwes_event_attribute))
        ev.attributes.entries
      have hpermk := hperm.map Prod.fst
      refine ⟨?_, ?_, hw.name_ok, ?_, ?_⟩
      · show (ev.number_of_attributes + 1) % 65536 = (insert_at i _ _).length % 65536
        rw [insert_at_length, hw.count]
        omega
      · show (List.map Prod.fst (insert_at i _ _)).Nodup
        rw [hpermk.nodup_iff]
        simp only [List.map_cons, List.nodup_cons]
        exact ⟨hk, hw.nodup⟩
      · intro k hmem
        have hmem2 : k ∈ List.map Prod.fst (insert_at i (name, (⟨c.token, c.stored⟩ :
            lwes_event_attribute)) ev.attributes.entries) := hmem
        rw [hpermk.mem_iff] at hmem2
        simp only [List.map_cons, List.mem_cons] at hmem2
        rcases hmem2 with rfl | hmem2
        · exact hv
        · exact hw.keys_ok k hmem2
      · intro e hmem
        have hmem2 : e ∈ insert_at i (name, (⟨c.token, c.stored⟩ : lwes_event_attribute))
            ev.attributes.entries := hmem
        rw [hperm.mem_iff] at hmem2
        simp only [List.mem_cons] at hmem2
        rcases hmem2 with rfl | hmem2
        · exact ⟨c, hc, hs, rfl⟩
        · exact hw.attrs_ok e hmem2

/-- Every reachable event is well formed. -/
theorem reachable_well_formed (ev : lwes_event) (h : Reachable ev) : well_formed ev :=
  reachable_invariant well_formed well_formed_empty well_formed_set_name well_formed_call ev h

/-! ## C4 : the counter and the number of entries -/

/-- C4 (amended). In every event state reachable from a constructor by any
sequence of `lwes_event_set_name`, `lwes_event_set_encoding`, typed setter and
`lwes_event_from_bytes` calls, successful or failing, in which the table holds
fewer than 65536 entries, `number_of_attributes` equals the number of entries
of the table. -/
theorem count_matches_store (ev : lwes_event) (h : Reachable ev)
    (hlen : ev.attributes.entries.length < 65536) :
    ev.number_of_attributes = ev.attributes.entries.length := by
  rw [(reachable_well_formed ev h).count]
  exact Nat.mod_eq_of_lt hlen

/-- C4 at a concrete input: the event built by the constructor with an encoding
holds one entry and its counter is 1. -/
theorem count_matches_store_witness :
    event_enc1.number_of_attributes = event_enc1.attributes.entries.length :=
  count_matches_store event_enc1
    (ReachableWith.create_with_encoding none place_first [84] 1 event_enc1
      (by unfold valid_string; decide) (by unfold typed_call.valid; decide) trivial rfl)
    (by decide)

/-- C4 fails as stated: the reachable event with 65536 attributes has the
counter 0. -/
theorem count_matches_store_counterexample :
    ∃ ev, many_attributes 65536 = some ev ∧ Reachable ev ∧
      ev.number_of_attributes = 0 ∧ ev.attributes.entries.length = 65536 := by
  obtain ⟨ev, hev, hreach, _, hcount, hlen, _⟩ := many_attributes_spec 65536
  exact ⟨ev, hev, hreach, by omega, hlen⟩

/-! ## C6 : the type of the attribute under the reserved name -/

theorem lwes_hash_get_insert_at_other (hash : lwes_hash) (i : Nat) (k k2 : List Nat)
    (a : lwes_event_attribute) (h : k2 ≠ k) :
    lwes_hash_get { hash with entries := insert_at i (k, a) hash.entries } k2 =
      lwes_hash_get hash k2 := by
  simp only [lwes_hash_get]
  rw [insert_at_find_other i k k2 a hash.entries h]

/-- A typed setter call that is the INT_16 setter when made under the reserved
name keeps invariant I4. -/
theorem encoding_type_call (ev : lwes_event) (name : List Nat) (c : typed_call)
    (ev2 : lwes_event)
    (hP : ∀ a, lwes_hash_get ev.attributes LWES_ENCODING = some a →
      a.type = LWES_INT_16_TOKEN)
    (hq : encoding_is_int16 name c)
    (h : (c.run (some ev) (some name)).2 = some ev2) :
    ∀ a, lwes_hash_get ev2.attributes LWES_ENCODING = some a →
      a.type = LWES_INT_16_TOKEN := by
  rcases typed_call_run_some c ev name with ⟨_, h1⟩ | ⟨_, h1⟩
  · rw [h1] at h
    simp only [Option.some.injEq] at h
    rw [← h]; exact hP
  · rw [h1] at h
    rcases lwes_event_add_cases ev name c.token c.stored with ⟨_, hsame⟩ | ⟨hk, i, hadd⟩
    · rw [hsame] at h
      simp only [Option.some.injEq] at h
      rw [← h]; exact hP
    · rw [hadd] at h
      simp only [Option.some.injEq] at h
      rw [← h]
      intro a ha
      by_cases hn : name = LWES_ENCODING
      · subst hn
        have hg := lwes_hash_get_insert_at ev.attributes i LWES_ENCODING
          ⟨c.token, c.stored⟩ hk
        simp only at ha
        rw [hg] at ha
        simp only [Option.some.injEq] at ha
        rw [← ha]
        exact hq rfl
      · have hg := lwes_hash_get_insert_at_other ev.attributes i name LWES_ENCODING
          ⟨c.token, c.stored⟩ (fun h => hn h.symm)
        simp only at ha
        rw [hg] at ha
        exact hP a ha

/-- C6 (amended). In every event state reachable through the public
constructors, `lwes_event_set_name`, `lwes_event_set_encoding`, the typed setters
and `lwes_event_from_bytes`, when no typed setter call and no record of a decoded
buffer puts a value of another type than INT_16 under the reserved encoding name,
an attribute stored under the reserved encoding name, if present, has the type tag
INT_16. -/
theorem encoding_attribute_is_int16 (ev : lwes_event)
    (h : ReachableWith encoding_is_int16 ev) (a : lwes_event_attribute)
    (ha : lwes_hash_get ev.attributes LWES_ENCODING = some a) :
    a.type = LWES_INT_16_TOKEN := by
  refine reachable_with_invariant
    (fun ev => ∀ a, lwes_hash_get ev.attributes LWES_ENCODING = some a →
      a.type = LWES_INT_16_TOKEN) encoding_is_int16 ?_ ?_ ?_ ev h a ha
  · intro db place a ha
    simp [empty_event, lwes_hash_get, lwes_hash_create] at ha
  · intro ev name ev2 hP _ h2
    unfold lwes_event_set_name at h2
    simp only at h2
    split_ifs at h2 <;>
    · simp only [Option.some.injEq] at h2
      rw [← h2]; exact hP
  · intro ev name c ev2 hP _ _ hq h2
    exact encoding_type_call ev name c ev2 hP hq h2

/-- C6 at a concrete input: the event built by the constructor with the encoding 1
holds an INT_16 attribute under the reserved name. -/
theorem encoding_attribute_is_int16_witness :
    lwes_hash_get event_enc1.attributes LWES_ENCODING =
      some ⟨LWES_INT_16_TOKEN, some (.INT_16 1)⟩ ∧
    (⟨LWES_INT_16_TOKEN, some (.INT_16 1)⟩ : lwes_event_attribute).type =
      LWES_INT_16_TOKEN :=
  ⟨rfl, encoding_attribute_is_int16 event_enc1
    (ReachableWith.create_with_encoding none place_first [84] 1 event_enc1
      (by unfold valid_string; decide) (by unfold typed_call.valid; decide)
      (fun _ => rfl) rfl)
    ⟨LWES_INT_16_TOKEN, some (.INT_16 1)⟩ rfl⟩

/-- C6 fails as stated: after `lwes_event_set_STRING (event, "enc", "x")` on a
fresh event, which succeeds with result 1, the reachable event holds a STRING
attribute under the reserved name. -/
theorem encoding_attribute_is_int16_counterexample :
    lwes_event_set_STRING (some fresh_event) (some LWES_ENCODING) (some [120]) =
      (1, some event_enc_string) ∧
    Reachable event_enc_string ∧
    lwes_hash_get event_enc_string.attributes LWES_ENCODING =
      some ⟨LWES_STRING_TOKEN, some (.STRING [120])⟩ ∧
    LWES_STRING_TOKEN ≠ LWES_INT_16_TOKEN := by
  refine ⟨rfl, ?_, rfl, by decide⟩
  exact ReachableWith.typed_setter fresh_event event_enc_string (.STRING (some [120]))
    LWES_ENCODING (ReachableWith.create_no_name none place_first fresh_event rfl)
    valid_string_encoding (by simp [typed_call.valid, valid_string]) trivial rfl

/-! ## What the writes do -/

theorem put_bytes_length (data bytes : List Nat) (offset : Nat) :
    (put_bytes data bytes offset).length = bytes.length := by
  induction data generalizing bytes offset with
  | nil => rfl
  | cons d ds ih => simp only [put_bytes, ih, List.length_set]

theorem put_bytes_append (a b bytes : List Nat) (offset : Nat) :
    put_bytes (a ++ b) bytes offset = put_bytes b (put_bytes a bytes offset) (offset + a.length) := by
  induction a generalizing bytes offset with
  | nil => rfl
  | cons d ds ih =>
    show put_bytes (ds ++ b) (bytes.set offset d) (offset + 1) =
      put_bytes b (put_bytes ds (bytes.set offset d) (offset + 1)) (offset + (ds.length + 1))
    rw [ih, show offset + 1 + ds.length = offset + (ds.length + 1) by omega]

theorem put_bytes_getElem_outside (data bytes : List Nat) (offset i : Nat)
    (h : i < offset ∨ offset + data.length ≤ i) :
    (put_bytes data bytes offset)[i]? = bytes[i]? := by
  induction data generalizing bytes offset with
  | nil => rfl
  | cons d ds ih =>
    simp only [put_bytes]
    rw [ih _ _ (by simp only [List.length_cons] at h; omega)]
    rw [List.getElem?_set_ne]
    simp only [List.length_cons] at h
    omega

theorem same_outside_refl (lo hi : Nat) (a : List Nat) : same_outside lo hi a a :=
  ⟨rfl, fun _ _ => rfl⟩

theorem same_outside_trans (lo hi : Nat) (a b c : List Nat) (h1 : same_outside lo hi a b)
    (h2 : same_outside lo hi b c) : same_outside lo hi a c :=
  ⟨h1.1.trans h2.1, fun i hi => (h2.2 i hi).trans (h1.2 i hi)⟩

theorem same_outside_mono (lo hi lo2 hi2 : Nat) (a b : List Nat) (hlo : lo ≤ lo2)
    (hhi : hi2 ≤ hi) (h : same_outside lo2 hi2 a b) : same_outside lo hi a b :=
  ⟨h.1, fun i hi => h.2 i (by omega)⟩

/-- A successful write puts the data at the offset, below the capacity, and
advances the offset by its length. -/
theorem marshall_generic_some (data bytes : List Nat) (length offset : Nat)
    (r : List Nat × Nat) (h : marshall_generic data bytes length offset = some r) :
    r = (put_bytes data bytes offset, offset + data.length) ∧
      offset + data.length ≤ length := by
  unfold marshall_generic at h
  split at h
  · simp only [Option.some.injEq] at h
    exact ⟨h.symm, by assumption⟩
  · cases h

theorem marshall_generic_of_le (data bytes : List Nat) (length offset : Nat)
    (h : offset + data.length ≤ length) :
    marshall_generic data bytes length offset =
      some (put_bytes data bytes offset, offset + data.length) := by
  unfold marshall_generic
  simp only [h, if_true]

theorem marshall_SHORT_STRING_some (aString : Option (List Nat)) (bytes : List Nat)
    (length offset : Nat) (r : List Nat × Nat)
    (h : marshall_SHORT_STRING aString bytes length offset = some r) :
    ∃ s, aString = some s ∧ s.length ≤ 255 ∧
      r = (put_bytes (short_string_bytes s) bytes offset,
        offset + (short_string_bytes s).length) ∧
      offset + (short_string_bytes s).length ≤ length := by
  unfold marshall_SHORT_STRING at h
  cases aString with
  | none => cases h
  | some s =>
    simp only at h
    split at h
    · obtain ⟨h1, h2⟩ := marshall_generic_some _ _ _ _ _ h
      exact ⟨s, rfl, by assumption, h1, h2⟩
    · cases h

theorem marshall_LONG_STRING_some (aString : Option (List Nat)) (bytes : List Nat)
    (length offset : Nat) (r : List Nat × Nat)
    (h : marshall_LONG_STRING aString bytes length offset = some r) :
    ∃ s, aString = some s ∧ s.length ≤ 65535 ∧
      r = (put_bytes (be_bytes 2 s.length ++ s) bytes offset,
        offset + (be_bytes 2 s.length ++ s).length) ∧
      offset + (be_bytes 2 s.length ++ s).length ≤ length := by
  unfold marshall_LONG_STRING at h
  cases aString with
  | none => cases h
  | some s =>
    simp only at h
    split at h
    · obtain ⟨h1, h2⟩ := marshall_generic_some _ _ _ _ _ h
      exact ⟨s, rfl, by assumption, h1, h2⟩
    · cases h

theorem same_outside_put_bytes (data bytes : List Nat) (num_bytes offset : Nat)
    (h : offset + data.length ≤ num_bytes) :
    same_outside offset num_bytes bytes (put_bytes data bytes offset) :=
  ⟨(put_bytes_length data bytes offset).symm,
    fun i hi => put_bytes_getElem_outside data bytes offset i (by omega)⟩

/-- A step that writes nothing and reports no error. -/
theorem writes_nil (bytes : List Nat) (num_bytes offset : Nat) :
    writes [] bytes num_bytes offset (0, bytes, offset) :=
  ⟨fun _ => ⟨rfl, rfl, rfl, fun h => h⟩, same_outside_refl _ _ _, Nat.le_refl _, fun h => h⟩

/-- A step that stops with an error before it writes. -/
theorem writes_error (data bytes : List Nat) (num_bytes offset : Nat) (code : Int)
    (hc : code < 0) : writes data bytes num_bytes offset (code, bytes, offset) :=
  ⟨fun h => absurd h (by simp only; omega), same_outside_refl _ _ _, Nat.le_refl _,
    fun h => h⟩

/-- A primitive write followed by the rest of the encoder: the step writes the
data of the primitive and then what the rest writes. -/
theorem writes_bind (data rest bytes : List Nat) (num_bytes offset : Nat) (code : Int)
    (hc : code < 0) (m : Option (List Nat × Nat)) (f : List Nat × Nat → Int × List Nat × Nat) :
    (∀ r, m = some r → r = (put_bytes data bytes offset, offset + data.length) ∧
      offset + data.length ≤ num_bytes) →
    (∀ r, m = some r → writes rest r.1 num_bytes r.2 (f r)) →
    writes (data ++ rest) bytes num_bytes offset
      (match m with
        | none => (code, bytes, offset)
        | some r => f r) := by
  intro hm hf
  cases m with
  | none => exact writes_error _ _ _ _ _ hc
  | some r =>
    obtain ⟨hr, hle⟩ := hm r rfl
    obtain ⟨hS, hF, hoff, hcap⟩ := hf r rfl
    subst hr
    simp only at hS hF hoff hcap ⊢
    refine ⟨?_, ?_, by omega, fun _ => hcap (by omega)⟩
    · intro h0
      obtain ⟨h1, h2, h3, h4⟩ := hS h0
      refine ⟨h1, ?_, ?_, ?_⟩
      · rw [h2, put_bytes_append]
      · rw [h3, List.length_append]; omega
      · intro _
        have := h4 hle
        rw [List.length_append]; omega
    · exact same_outside_trans _ _ _ _ _ (same_outside_put_bytes data bytes num_bytes offset hle)
        (same_outside_mono _ _ _ _ _ _ (by omega) (Nat.le_refl _) hF)

/-- A step of the encoder followed by another one that runs when the first
reports no error. -/
theorem writes_seq (d1 d2 bytes : List Nat) (num_bytes offset : Nat)
    (res1 res2 : Int × List Nat × Nat) (h1 : writes d1 bytes num_bytes offset res1)
    (h2 : 0 ≤ res1.1 → writes d2 res1.2.1 num_bytes res1.2.2 res2) :
    writes (d1 ++ d2) bytes num_bytes offset (if res1.1 < 0 then res1 else res2) := by
  obtain ⟨hS1, hF1, hoff1, hcap1⟩ := h1
  by_cases hneg : res1.1 < 0
  · simp only [hneg, if_true]
    exact ⟨fun h => absurd h (by omega), hF1, hoff1, hcap1⟩
  · simp only [hneg, if_false]
    obtain ⟨hS2, hF2, hoff2, hcap2⟩ := h2 (by omega)
    obtain ⟨_, hB1, hO1, hC1⟩ := hS1 (by omega)
    refine ⟨?_, ?_, by omega, fun h => hcap2 (hcap1 h)⟩
    · intro h0
      obtain ⟨g1, g2, g3, g4⟩ := hS2 h0
      refine ⟨g1, ?_, ?_, ?_⟩
      · rw [g2, hB1, hO1, put_bytes_append]
      · rw [g3, hO1, List.length_append]; omega
      · intro hle
        have := g4 (by have := hcap1 hle; omega)
        rw [List.length_append]; omega
    · exact same_outside_trans _ _ _ _ _ hF1
        (same_outside_mono _ _ _ _ _ _ hoff1 (Nat.le_refl _) hF2)

/-! ## The encoder writes the wire layout -/

/-- The dispatch on the type writes the payload of the attribute. -/
theorem to_bytes_value_writes (tmp : lwes_event_attribute) (bytes : List Nat)
    (num_bytes offset : Nat) :
    writes (payload_bytes tmp) bytes num_bytes offset
      (to_bytes_value tmp bytes num_bytes offset) := by
  unfold to_bytes_value payload_bytes
  by_cases h_U_INT_16 : tmp.type = LWES_U_INT_16_TOKEN
  · simp only [if_pos h_U_INT_16]
    have h := writes_bind (be_bytes 2 (lwes_value.as_U_INT_16 tmp.value)) [] bytes num_bytes offset (-7) (by decide)
      (marshall_U_INT_16 (lwes_value.as_U_INT_16 tmp.value) bytes num_bytes offset)
      (fun r => (0, r.1, r.2)) (fun r hr => marshall_generic_some _ _ _ _ r hr)
      (fun r _ => writes_nil _ _ _)
    rw [List.append_nil] at h
    exact h
  simp only [if_neg h_U_INT_16]
  by_cases h_INT_16 : tmp.type = LWES_INT_16_TOKEN
  · simp only [if_pos h_INT_16]
    have h := writes_bind (be_bytes 2 (of_signed 2 (lwes_value.as_INT_16 tmp.value))) [] bytes num_bytes offset (-8) (by decide)
      (marshall_INT_16 (lwes_value.as_INT_16 tmp.value) bytes num_bytes offset)
      (fun r => (0, r.1, r.2)) (fun r hr => marshall_generic_some _ _ _ _ r hr)
      (fun r _ => writes_nil _ _ _)
    rw [List.append_nil] at h
    exact h
  simp only [if_neg h_INT_16]
  by_cases h_U_INT_32 : tmp.type = LWES_U_INT_32_TOKEN
  · simp only [if_pos h_U_INT_32]
    have h := writes_bind (be_bytes 4 (lwes_value.as_U_INT_32 tmp.value)) [] bytes num_bytes offset (-9) (by decide)
      (marshall_U_INT_32 (lwes_value.as_U_INT_32 tmp.value) bytes num_bytes offset)
      (fun r => (0, r.1, r.2)) (fun r hr => marshall_generic_some _ _ _ _ r hr)
      (fun r _ => writes_nil _ _ _)
    rw [List.append_nil] at h
    exact h
  simp only [if_neg h_U_INT_32]
  by_cases h_INT_32 : tmp.type = LWES_INT_32_TOKEN
  · simp only [if_pos h_INT_32]
    have h := writes_bind (be_bytes 4 (of_signed 4 (lwes_value.as_INT_32 tmp.value))) [] bytes num_bytes offset (-10) (by decide)
      (marshall_INT_32 (lwes_value.as_INT_32 tmp.value) bytes num_bytes offset)
      (fun r => (0, r.1, r.2)) (fun r hr => marshall_generic_some _ _ _ _ r hr)
      (fun r _ => writes_nil _ _ _)
    rw [List.append_nil] at h
    exact h
  simp only [if_neg h_INT_32]
  by_cases h_U_INT_64 : tmp.type = LWES_U_INT_64_TOKEN
  · simp only [if_pos h_U_INT_64]
    have h := writes_bind (be_bytes 8 (lwes_value.as_U_INT_64 tmp.value)) [] bytes num_bytes offset (-11) (by decide)
      (marshall_U_INT_64 (lwes_value.as_U_INT_64 tmp.value) bytes num_bytes offset)
      (fun r => (0, r.1, r.2)) (fun r hr => marshall_generic_some _ _ _ _ r hr)
      (fun r _ => writes_nil _ _ _)
    rw [List.append_nil] at h
    exact h
  simp only [if_neg h_U_INT_64]
  by_cases h_INT_64 : tmp.type = LWES_INT_64_TOKEN
  · simp only [if_pos h_INT_64]
    have h := writes_bind (be_bytes 8 (of_signed 8 (lwes_value.as_INT_64 tmp.value))) [] bytes num_bytes offset (-12) (by decide)
      (marshall_INT_64 (lwes_value.as_INT_64 tmp.value) bytes num_bytes offset)
      (fun r => (0, r.1, r.2)) (fun r hr => marshall_generic_some _ _ _ _ r hr)
      (fun r _ => writes_nil _ _ _)
    rw [List.append_nil] at h
    exact h
  simp only [if_neg h_INT_64]
  by_cases h_BOOLEAN : tmp.type = LWES_BOOLEAN_TOKEN
  · simp only [if_pos h_BOOLEAN]
    have h := writes_bind ([if lwes_value.as_BOOLEAN tmp.value then 1 else 0]) [] bytes num_bytes offset (-13) (by decide)
      (marshall_BOOLEAN (lwes_value.as_BOOLEAN tmp.value) bytes num_bytes offset)
      (fun r => (0, r.1, r.2)) (fun r hr => marshall_generic_some _ _ _ _ r hr)
      (fun r _ => writes_nil _ _ _)
    rw [List.append_nil] at h
    exact h
  simp only [if_neg h_BOOLEAN]
  by_cases h_IP_ADDR : tmp.type = LWES_IP_ADDR_TOKEN
  · simp only [if_pos h_IP_ADDR]
    have h := writes_bind (be_bytes 4 (lwes_value.as_IP_ADDR tmp.value)) [] bytes num_bytes offset (-14) (by decide)
      (marshall_IP_ADDR (lwes_value.as_IP_ADDR tmp.value) bytes num_bytes offset)
      (fun r => (0, r.1, r.2)) (fun r hr => marshall_generic_some _ _ _ _ r hr)
      (fun r _ => writes_nil _ _ _)
    rw [List.append_nil] at h
    exact h
  simp only [if_neg h_IP_ADDR]
  by_cases h_STRING : tmp.type = LWES_STRING_TOKEN
  · simp only [if_pos h_STRING]
    cases hv : lwes_value.as_STRING tmp.value with
    | none => exact writes_error _ _ _ _ _ (by decide)
    | some s =>
      simp only
      by_cases hlen : s.length ≤ LONG_STRING_MAX
      · have h := writes_bind (be_bytes 2 s.length ++ s) [] bytes num_bytes offset (-15)
          (by decide) (marshall_LONG_STRING (some s) bytes num_bytes offset)
          (fun r => (0, r.1, r.2))
          (fun r hr => by
            obtain ⟨s2, hs2, _, h1, h2⟩ := marshall_LONG_STRING_some _ _ _ _ r hr
            simp only [Option.some.injEq] at hs2
            subst hs2
            exact ⟨h1, h2⟩)
          (fun r _ => writes_nil _ _ _)
        rw [List.append_nil] at h
        exact h
      · have hnone : marshall_LONG_STRING (some s) bytes num_bytes offset = none := by
          simp only [marshall_LONG_STRING, hlen, if_false]
        rw [hnone]
        exact writes_error _ _ _ _ _ (by decide)
  simp only [if_neg h_STRING]
  exact writes_nil _ _ _

/-- The loop over the keys writes the records of the attributes other than
the encoding, in the order of the enumeration. -/
theorem to_bytes_attributes_writes (ev : lwes_event) (keys : List (List Nat)) :
    ∀ (bytes : List Nat) (num_bytes offset : Nat),
    writes (((keys.filter (fun k => k ≠ LWES_ENCODING)).map
        (fun k => (k, attribute_at ev k))).flatMap record_bytes) bytes num_bytes offset
      (to_bytes_attributes ev keys bytes num_bytes offset) := by
  induction keys with
  | nil =>
    intro bytes num_bytes offset
    exact writes_nil _ _ _
  | cons k ks ih =>
    intro bytes num_bytes offset
    unfold to_bytes_attributes
    by_cases hk : k = LWES_ENCODING
    · simp only [if_pos hk, hk, List.filter_cons, ne_eq, not_true_eq_false, decide_False,
        Bool.false_eq_true, if_false]
      exact ih bytes num_bytes offset
    · simp only [if_neg hk, List.filter_cons, ne_eq, hk, not_false_eq_true, decide_True,
        if_true, List.map_cons, List.flatMap_cons]
      have h := writes_bind (short_string_bytes k)
        (be_bytes 1 (attribute_at ev k).type ++ (payload_bytes (attribute_at ev k) ++
          (((ks.filter (fun k => k ≠ LWES_ENCODING)).map
            (fun k => (k, attribute_at ev k))).flatMap record_bytes)))
        bytes num_bytes offset (-5) (by decide)
        (marshall_SHORT_STRING (some k) bytes num_bytes offset)
        (fun r1 =>
          match marshall_BYTE (attribute_at ev k).type r1.1 num_bytes r1.2 with
          | none => (-6, r1.1, r1.2)
          | some r2 =>
            if (to_bytes_value (attribute_at ev k) r2.1 num_bytes r2.2).1 < 0 then
              to_bytes_value (attribute_at ev k) r2.1 num_bytes r2.2
            else to_bytes_attributes ev ks
              (to_bytes_value (attribute_at ev k) r2.1 num_bytes r2.2).2.1 num_bytes
              (to_bytes_value (attribute_at ev k) r2.1 num_bytes r2.2).2.2)
        (fun r hr => by
          obtain ⟨s2, hs2, _, h1, h2⟩ := marshall_SHORT_STRING_some _ _ _ _ r hr
          simp only [Option.some.injEq] at hs2
          subst hs2
          exact ⟨h1, h2⟩)
        (fun r1 _ => writes_bind (be_bytes 1 (attribute_at ev k).type) _ r1.1 num_bytes r1.2
          (-6) (by decide) (marshall_BYTE (attribute_at ev k).type r1.1 num_bytes r1.2) _
          (fun r hr => marshall_generic_some _ _ _ _ r hr)
          (fun r2 _ => writes_seq _ _ r2.1 num_bytes r2.2 _ _
            (to_bytes_value_writes (attribute_at ev k) r2.1 num_bytes r2.2)
            (fun _ => ih _ _ _)))
      simp only [record_bytes, List.append_assoc]
      exact h

theorem payload_bytes_int16 (a : lwes_event_attribute) (h : a.type = LWES_INT_16_TOKEN) :
    payload_bytes a = be_bytes 2 (of_signed 2 (lwes_value.as_INT_16 a.value)) := by
  unfold payload_bytes
  rw [if_neg (by rw [h]; decide), if_pos h]

/-- The encoding block writes the record of the attribute under the reserved
name, and goes on only when that attribute is absent or an INT_16 with a value. -/
theorem to_bytes_encoding_writes (ev : lwes_event) (bytes : List Nat)
    (num_bytes offset : Nat) :
    writes ((encoding_record ev).flatMap record_bytes) bytes num_bytes offset
      (to_bytes_encoding ev bytes num_bytes offset) ∧
    (0 ≤ (to_bytes_encoding ev bytes num_bytes offset).1 →
      ∀ a, lwes_hash_get ev.attributes LWES_ENCODING = some a →
        a.type = LWES_INT_16_TOKEN ∧ a.value ≠ none) := by
  unfold to_bytes_encoding encoding_record
  cases hg : lwes_hash_get ev.attributes LWES_ENCODING with
  | none =>
    simp only
    exact ⟨writes_nil _ _ _, fun _ a ha => by cases ha⟩
  | some a =>
    simp only
    cases hv : a.value with
    | none =>
      simp only
      exact ⟨writes_error _ _ _ _ _ (by decide), fun h => absurd h (by decide)⟩
    | some v =>
      simp only
      by_cases ht : a.type = LWES_INT_16_TOKEN
      · simp only [if_pos ht]
        refine ⟨?_, fun _ a2 ha2 => ?_⟩
        · have h := writes_bind (short_string_bytes LWES_ENCODING)
            (be_bytes 1 a.type ++ (be_bytes 2 (of_signed 2 (lwes_value.as_INT_16 (some v))) ++ []))
            bytes num_bytes offset (-2) (by decide)
            (marshall_SHORT_STRING (some LWES_ENCODING) bytes num_bytes offset)
            (fun r1 =>
              match marshall_BYTE a.type r1.1 num_bytes r1.2 with
              | none => (-2, r1.1, r1.2)
              | some r2 =>
                match marshall_INT_16 (lwes_value.as_INT_16 (some v)) r2.1 num_bytes r2.2 with
                | none => (-2, r2.1, r2.2)
                | some r3 => (0, r3.1, r3.2))
            (fun r hr => by
              obtain ⟨s2, hs2, _, h1, h2⟩ := marshall_SHORT_STRING_some _ _ _ _ r hr
              simp only [Option.some.injEq] at hs2
              subst hs2
              exact ⟨h1, h2⟩)
            (fun r1 _ => writes_bind (be_bytes 1 a.type) _ r1.1 num_bytes r1.2
              (-2) (by decide) (marshall_BYTE a.type r1.1 num_bytes r1.2) _
              (fun r hr => marshall_generic_some _ _ _ _ r hr)
              (fun r2 _ => writes_bind _ [] r2.1 num_bytes r2.2 (-2) (by decide)
                (marshall_INT_16 (lwes_value.as_INT_16 (some v)) r2.1 num_bytes r2.2)
                (fun r3 => (0, r3.1, r3.2))
                (fun r hr => marshall_generic_some _ _ _ _ r hr)
                (fun r3 _ => writes_nil _ _ _)))
          simp only [List.flatMap_cons, List.flatMap_nil, record_bytes, List.append_nil,
            List.append_assoc, payload_bytes_int16 a ht, hv]
          simp only [List.append_nil] at h
          exact h
        · simp only [Option.some.injEq] at ha2
          subst ha2
          exact ⟨ht, by rw [hv]; simp⟩
      · simp only [if_neg ht]
        exact ⟨writes_error _ _ _ _ _ (by decide), fun h => absurd h (by decide)⟩

/-- Past its argument checks `to_bytes_exact` is a sequence of writes of the
wire layout of the event: its result is the code of the first step that fails,
or the distance that the offset has advanced; the sequence does not fail on the
event itself only if the event has a name and any attribute under the reserved name
is an INT_16 with a value. -/
theorem to_bytes_writes (ev : lwes_event) (bytes : List Nat) (num_bytes offset : Nat)
    (hpre : ¬ (num_bytes = 0 ∨ offset ≥ num_bytes)) :
    ∃ res : Int × List Nat × Nat,
      writes (wire_bytes ev) bytes num_bytes offset res ∧
      to_bytes_exact (some ev) (some bytes) num_bytes offset =
        (if res.1 < 0 then res.1 else (res.2.2 : Int) - (offset : Int), some res.2.1) ∧
      (0 ≤ res.1 → ev.eventName ≠ none ∧
        ∀ a, lwes_hash_get ev.attributes LWES_ENCODING = some a →
          a.type = LWES_INT_16_TOKEN ∧ a.value ≠ none) := by
  have hw := writes_bind (short_string_bytes (ev.eventName.getD []))
    (be_bytes 2 ev.number_of_attributes ++ ((encoding_record ev).flatMap record_bytes ++
      (other_records ev).flatMap record_bytes))
    bytes num_bytes offset (-17) (by decide)
    (marshall_SHORT_STRING ev.eventName bytes num_bytes offset)
    (fun r1 =>
      match marshall_U_INT_16 ev.number_of_attributes r1.1 num_bytes r1.2 with
      | none => (-16, r1.1, r1.2)
      | some r2 =>
        if (to_bytes_encoding ev r2.1 num_bytes r2.2).1 < 0 then
          to_bytes_encoding ev r2.1 num_bytes r2.2
        else to_bytes_attributes ev (lwes_hash_keys ev.attributes)
          (to_bytes_encoding ev r2.1 num_bytes r2.2).2.1 num_bytes
          (to_bytes_encoding ev r2.1 num_bytes r2.2).2.2)
    (fun r hr => by
      obtain ⟨s2, hs2, _, h1, h2⟩ := marshall_SHORT_STRING_some _ _ _ _ r hr
      rw [hs2]
      exact ⟨h1, h2⟩)
    (fun r1 _ => writes_bind (be_bytes 2 ev.number_of_attributes) _ r1.1 num_bytes r1.2
      (-16) (by decide) (marshall_U_INT_16 ev.number_of_attributes r1.1 num_bytes r1.2) _
      (fun r hr => marshall_generic_some _ _ _ _ r hr)
      (fun r2 _ => writes_seq _ _ r2.1 num_bytes r2.2 _ _
        (to_bytes_encoding_writes ev r2.1 num_bytes r2.2).1
        (fun _ => to_bytes_attributes_writes ev (lwes_hash_keys ev.attributes) _ _ _)))
  have hdata : short_string_bytes (ev.eventName.getD []) ++
      (be_bytes 2 ev.number_of_attributes ++ ((encoding_record ev).flatMap record_bytes ++
        (other_records ev).flatMap record_bytes)) = wire_bytes ev := by
    simp only [wire_bytes, wire_records, List.flatMap_append, List.append_assoc]
  rw [hdata] at hw
  refine ⟨_, hw, ?_, ?_⟩
  · unfold to_bytes_exact
    simp only [hpre, if_false]
    cases marshall_SHORT_STRING ev.eventName bytes num_bytes offset with
    | none => simp
    | some r1 =>
      simp only
      cases marshall_U_INT_16 ev.number_of_attributes r1.1 num_bytes r1.2 with
      | none => simp
      | some r2 =>
        simp only
        by_cases henc : (to_bytes_encoding ev r2.1 num_bytes r2.2).1 < 0
        · simp only [henc, if_true]
        · simp only [henc, if_false]
  · intro h0
    cases hm1 : marshall_SHORT_STRING ev.eventName bytes num_bytes offset with
    | none => rw [hm1] at h0; simp at h0
    | some r1 =>
      rw [hm1] at h0
      simp only at h0
      obtain ⟨s2, hs2, _⟩ := marshall_SHORT_STRING_some _ _ _ _ r1 hm1
      refine ⟨by rw [hs2]; simp, ?_⟩
      cases hm2 : marshall_U_INT_16 ev.number_of_attributes r1.1 num_bytes r1.2 with
      | none => rw [hm2] at h0; simp at h0
      | some r2 =>
        rw [hm2] at h0
        simp only at h0
        by_cases henc : (to_bytes_encoding ev r2.1 num_bytes r2.2).1 < 0
        · simp only [henc, if_true] at h0
          omega
        · exact (to_bytes_encoding_writes ev r2.1 num_bytes r2.2).2 (by omega)

/-- A successful `to_bytes_exact`: the offset is below the capacity, the
event has a name, any attribute under the reserved name is an INT_16 with a value,
the wire layout of the event fits between the offset and the capacity, the
buffer is the old one with the layout written at the offset, and the result is
the length of the layout. -/
theorem to_bytes_success (ev : lwes_event) (bytes : List Nat) (num_bytes offset : Nat)
    (r : Int) (out : Option (List Nat))
    (h : to_bytes_exact (some ev) (some bytes) num_bytes offset = (r, out))
    (hr : 0 ≤ r) :
    offset < num_bytes ∧ ev.eventName ≠ none ∧
    (∀ a, lwes_hash_get ev.attributes LWES_ENCODING = some a →
      a.type = LWES_INT_16_TOKEN ∧ a.value ≠ none) ∧
    offset + (wire_bytes ev).length ≤ num_bytes ∧
    out = some (put_bytes (wire_bytes ev) bytes offset) ∧
    r = ((wire_bytes ev).length : Int) := by
  by_cases hpre : num_bytes = 0 ∨ offset ≥ num_bytes
  · unfold to_bytes_exact at h
    simp only [hpre, if_true, Prod.mk.injEq] at h
    omega
  · obtain ⟨res, hw, heq, hev⟩ := to_bytes_writes ev bytes num_bytes offset hpre
    rw [heq] at h
    simp only [Prod.mk.injEq] at h
    obtain ⟨h1, h2⟩ := h
    by_cases hneg : res.1 < 0
    · simp only [hneg, if_true] at h1
      omega
    · simp only [hneg, if_false] at h1
      obtain ⟨_, hB, hO, hC⟩ := hw.1 (by omega)
      obtain ⟨hn, he⟩ := hev (by omega)
      have hlt : offset < num_bytes := by omega
      refine ⟨hlt, hn, he, hC (by omega), ?_, ?_⟩
      · rw [← h2, hB]
      · rw [← h1, hO]
        push_cast
        omega


/-! ## The records of a table with distinct keys -/

theorem find_of_nodup (l : List (List Nat × lwes_event_attribute))
    (hn : (l.map Prod.fst).Nodup) (e : List Nat × lwes_event_attribute) (he : e ∈ l) :
    l.find? (fun x => x.1 = e.1) = some e := by
  induction l with
  | nil => cases he
  | cons x l ih =>
    simp only [List.map_cons, List.nodup_cons] at hn
    rcases List.mem_cons.mp he with rfl | hmem
    · simp
    · have hne : x.1 ≠ e.1 := by
        intro hx
        exact hn.1 (by rw [hx]; exact List.mem_map_of_mem _ hmem)
      rw [List.find?_cons_of_neg _ (by simpa using hne)]
      exact ih hn.2 hmem

theorem filter_key_of_nodup (l : List (List Nat × lwes_event_attribute))
    (hn : (l.map Prod.fst).Nodup) (k : List Nat) :
    l.filter (fun x => x.1 = k) = (l.find? (fun x => x.1 = k)).toList := by
  induction l with
  | nil => rfl
  | cons x l ih =>
    simp only [List.map_cons, List.nodup_cons] at hn
    by_cases hx : x.1 = k
    · have hnone : l.filter (fun x => x.1 = k) = [] := by
        rw [List.filter_eq_nil_iff]
        intro y hy
        simp only [decide_eq_true_eq]
        intro hyk
        exact hn.1 (by rw [hx, ← hyk]; exact List.mem_map_of_mem _ hy)
      simp [List.filter_cons, hx, hnone]
    · rw [List.filter_cons_of_neg (by simpa using hx),
        List.find?_cons_of_neg _ (by simpa using hx)]
      exact ih hn.2

theorem attribute_at_of_nodup (ev : lwes_event)
    (hn : (lwes_hash_keys ev.attributes).Nodup) (e : List Nat × lwes_event_attribute)
    (he : e ∈ ev.attributes.entries) : attribute_at ev e.1 = e.2 := by
  unfold attribute_at lwes_hash_get
  rw [find_of_nodup ev.attributes.entries hn e he]
  rfl

theorem map_filter_keys (ev : lwes_event) (l : List (List Nat × lwes_event_attribute))
    (h : ∀ e ∈ l, attribute_at ev e.1 = e.2) :
    (((l.map Prod.fst).filter (fun k => k ≠ LWES_ENCODING)).map
      (fun k => (k, attribute_at ev k))) = l.filter (fun e => e.1 ≠ LWES_ENCODING) := by
  induction l with
  | nil => rfl
  | cons x l ih =>
    have hx := h x (List.mem_cons_self _ _)
    have ih2 := ih (fun e he => h e (List.mem_cons_of_mem _ he))
    by_cases hk : x.1 = LWES_ENCODING
    · simp only [List.map_cons, List.filter_cons, hk, ne_eq, not_true_eq_false,
        decide_False, Bool.false_eq_true, if_false]
      exact ih2
    · simp only [List.map_cons, List.filter_cons, hk, ne_eq, not_false_eq_true,
        decide_True, if_true, List.map_cons, hx]
      rw [← ih2]

/-- In a table with pairwise distinct keys, the records in wire order are the
entries of the table, each one once. -/
theorem wire_records_perm (ev : lwes_event) (hn : (lwes_hash_keys ev.attributes).Nodup) :
    (wire_records ev).Perm ev.attributes.entries := by
  have h1 : encoding_record ev =
      ev.attributes.entries.filter (fun e => e.1 = LWES_ENCODING) := by
    rw [filter_key_of_nodup _ hn]
    unfold encoding_record lwes_hash_get
    cases hf : ev.attributes.entries.find? (fun e => e.1 = LWES_ENCODING) with
    | none => rfl
    | some e =>
      have := List.find?_some hf
      simp only [decide_eq_true_eq] at this
      simp only [Option.map_some', Option.toList_some]
      rw [← this]
  have h2 : other_records ev =
      ev.attributes.entries.filter (fun e => e.1 ≠ LWES_ENCODING) :=
    map_filter_keys ev ev.attributes.entries (fun e he => attribute_at_of_nodup ev hn e he)
  unfold wire_records
  rw [h1, h2]
  have := List.filter_append_perm (fun e : List Nat × lwes_event_attribute =>
    decide (e.1 = LWES_ENCODING)) ev.attributes.entries
  refine List.Perm.trans ?_ this
  apply List.Perm.append_left
  apply List.Perm.of_eq
  apply List.filter_congr
  intro x _
  simp

/-! ## Reading back what was written -/

/-- The data written into a buffer that holds it stands at the offset. -/
theorem put_bytes_head (data bytes : List Nat) (offset : Nat)
    (h : offset + data.length ≤ bytes.length) :
    data <+: (put_bytes data bytes offset).drop offset := by
  induction data generalizing bytes offset with
  | nil => exact List.nil_prefix
  | cons d ds ih =>
    simp only [List.length_cons] at h
    simp only [put_bytes]
    have hlen : offset < (put_bytes ds (bytes.set offset d) (offset + 1)).length := by
      rw [put_bytes_length, List.length_set]; omega
    have hat : (put_bytes ds (bytes.set offset d) (offset + 1))[offset]? = some d := by
      rw [put_bytes_getElem_outside _ _ _ _ (by omega)]
      rw [List.getElem?_set_self (by omega)]
    rw [List.drop_eq_getElem_cons hlen, List.cons_prefix_cons]
    refine ⟨?_, ih _ _ (by rw [List.length_set]; omega)⟩
    have := List.getElem?_eq_getElem hlen
    rw [hat] at this
    exact Option.some.inj this

theorem get_bytes_of_head (data bytes : List Nat) (offset : Nat)
    (h : data <+: bytes.drop offset) : get_bytes data.length bytes offset = data := by
  unfold get_bytes
  exact (List.prefix_iff_eq_take.mp h).symm

theorem prefix_append_split (a b bytes : List Nat) (offset : Nat)
    (h : (a ++ b) <+: bytes.drop offset) :
    a <+: bytes.drop offset ∧ b <+: bytes.drop (offset + a.length) := by
  obtain ⟨t, ht⟩ := h
  refine ⟨⟨b ++ t, by rw [← ht, List.append_assoc]⟩, ⟨t, ?_⟩⟩
  rw [← List.drop_drop, ← ht, List.append_assoc, List.drop_left]

/-- A read of bytes that stand at the offset below the capacity returns them. -/
theorem unmarshall_generic_of_head (data bytes : List Nat) (length offset : Nat)
    (h : data <+: bytes.drop offset) (hle : offset + data.length ≤ length) :
    unmarshall_generic data.length bytes length offset = some (data, offset + data.length) := by
  unfold unmarshall_generic
  simp only [hle, if_true, get_bytes_of_head data bytes offset h]

theorem be_bytes_length (w v : Nat) : (be_bytes w v).length = w := by
  induction w with
  | zero => rfl
  | succ w ih => simp only [be_bytes, List.length_cons, ih]

theorem be_value_foldl_be_bytes (w v acc : Nat) :
    (be_bytes w v).foldl (fun a b => a * 256 + b) acc = acc * 256 ^ w + v % 256 ^ w := by
  induction w generalizing acc with
  | zero => simp [be_bytes, Nat.mod_one]
  | succ w ih =>
    simp only [be_bytes, List.foldl_cons, ih]
    rw [Nat.mod_pow_succ, pow_succ]
    ring

/-- A number below `256 ^ w` is read back from its `w` big-endian bytes. -/
theorem be_value_be_bytes (w v : Nat) (h : v < 256 ^ w) : be_value (be_bytes w v) = v := by
  unfold be_value
  rw [be_value_foldl_be_bytes, Nat.mod_eq_of_lt h]
  omega

theorem c_str_of_valid (s : List Nat) (h : valid_string s) : c_str s = s := by
  unfold c_str
  rw [List.takeWhile_eq_self_iff]
  intro c hc
  have := (h c hc).1
  simp only [bne_iff_ne, ne_eq]
  omega

/-- The bytes between the offset and the end of a successful encoding are the
wire layout of the event. -/
theorem to_bytes_output (ev : lwes_event) (bytes : List Nat) (num_bytes offset : Nat)
    (r : Int) (out : Option (List Nat))
    (h : to_bytes_exact (some ev) (some bytes) num_bytes offset = (r, out))
    (hr : 0 ≤ r) (hcap : num_bytes ≤ bytes.length) :
    ∃ B name, out = some B ∧ ev.eventName = some name ∧
      wire_bytes ev <+: B.drop offset ∧
      get_bytes r.toNat B offset = wire_bytes ev ∧
      r = ((wire_bytes ev).length : Int) ∧
      wire_bytes ev = short_string_bytes name ++ be_bytes 2 ev.number_of_attributes ++
        (wire_records ev).flatMap record_bytes := by
  obtain ⟨_, hn, _, hfit, hout, hlen⟩ := to_bytes_success ev bytes num_bytes offset r out h hr
  cases hname : ev.eventName with
  | none => exact absurd hname hn
  | some name =>
    have hp := put_bytes_head (wire_bytes ev) bytes offset (by omega)
    refine ⟨_, name, hout, rfl, hp, ?_, hlen, ?_⟩
    · rw [hlen, Int.toNat_ofNat]
      exact get_bytes_of_head _ _ _ hp
    · simp only [wire_bytes, hname, Option.getD_some]

theorem other_records_not_encoding (ev : lwes_event) :
    ∀ e ∈ other_records ev, e.1 ≠ LWES_ENCODING := by
  intro e he
  simp only [other_records, List.mem_map, List.mem_filter] at he
  obtain ⟨k, ⟨_, hk⟩, rfl⟩ := he
  simpa using hk


/-- The constructor and the two setters build the state `event_test_state`. -/
theorem event_test_eq : event_test = some event_test_state := rfl

/-! ## The records of the attributes that the typed setters store -/

theorem be_bytes_one (t : Nat) (h : t < 256) : be_bytes 1 t = [t] := by
  simp [be_bytes, Nat.mod_eq_of_lt h]

theorem typed_call_token_lt (c : typed_call) : c.token < 256 := by
  cases c <;>
    simp [typed_call.token, LWES_U_INT_16_TOKEN, LWES_INT_16_TOKEN, LWES_U_INT_32_TOKEN,
      LWES_INT_32_TOKEN, LWES_U_INT_64_TOKEN, LWES_INT_64_TOKEN, LWES_BOOLEAN_TOKEN,
      LWES_IP_ADDR_TOKEN, LWES_STRING_TOKEN]

/-- The record of an attribute that a typed setter stored: the type byte is the
tag and the payload is the one the wire format lists for the tag. -/
theorem payload_table_of_ok (a : lwes_event_attribute) (h : attribute_ok a) :
    be_bytes 1 a.type = [a.type] ∧ payload_table a := by
  obtain ⟨c, _, hs, rfl⟩ := h
  have htag : be_bytes 1 c.token = [c.token] := be_bytes_one _ (typed_call_token_lt c)
  cases c with
  | STRING v =>
    cases v with
    | none => exact absurd rfl hs
    | some s =>
      refine ⟨htag, ?_⟩
      right; right; right; right
      exact ⟨rfl, s, rfl, rfl⟩
  | U_INT_16 v => exact ⟨htag, Or.inl ⟨Or.inl rfl, be_bytes_length _ _⟩⟩
  | INT_16 v => exact ⟨htag, Or.inl ⟨Or.inr rfl, be_bytes_length _ _⟩⟩
  | U_INT_32 v => exact ⟨htag, Or.inr (Or.inl ⟨Or.inl rfl, be_bytes_length _ _⟩)⟩
  | INT_32 v =>
    exact ⟨htag, Or.inr (Or.inl ⟨Or.inr (Or.inl rfl), be_bytes_length _ _⟩)⟩
  | IP_ADDR v =>
    exact ⟨htag, Or.inr (Or.inl ⟨Or.inr (Or.inr rfl), be_bytes_length _ _⟩)⟩
  | U_INT_64 v =>
    exact ⟨htag, Or.inr (Or.inr (Or.inl ⟨Or.inl rfl, be_bytes_length _ _⟩))⟩
  | INT_64 v =>
    exact ⟨htag, Or.inr (Or.inr (Or.inl ⟨Or.inr rfl, be_bytes_length _ _⟩))⟩
  | BOOLEAN v => exact ⟨htag, Or.inr (Or.inr (Or.inr (Or.inl ⟨rfl, rfl⟩)))⟩

/-! ## Reads below a smaller capacity -/

/-- A read that succeeds below the capacity `n` succeeds with the same result below a
smaller capacity `k` when it ends at or before `k`, and fails when it ends beyond
`k`. -/
theorem unmarshall_generic_cut (m : Nat) (bytes : List Nat) (n k offset : Nat)
    (r : List Nat × Nat) (h : unmarshall_generic m bytes n offset = some r) :
    offset ≤ r.2 ∧ (r.2 ≤ k → unmarshall_generic m bytes k offset = some r) ∧
    (k < r.2 → unmarshall_generic m bytes k offset = none) := by
  obtain ⟨hr, _⟩ := unmarshall_generic_some m bytes n offset r h
  subst hr
  unfold unmarshall_generic
  simp only
  refine ⟨by omega, ?_, ?_⟩
  · intro hk
    simp only [hk, if_true]
  · intro hk
    have : ¬ (offset + m ≤ k) := by omega
    simp only [this, if_false]

theorem unmarshall_map_cut {α : Type} (g : List Nat → α) (m : Nat) (bytes : List Nat)
    (n k offset : Nat) (v : α × Nat)
    (h : (unmarshall_generic m bytes n offset).map (fun r => (g r.1, r.2)) = some v) :
    offset ≤ v.2 ∧
    (v.2 ≤ k → (unmarshall_generic m bytes k offset).map (fun r => (g r.1, r.2)) = some v) ∧
    (k < v.2 → (unmarshall_generic m bytes k offset).map (fun r => (g r.1, r.2)) = none) := by
  cases hg : unmarshall_generic m bytes n offset with
  | none => rw [hg] at h; cases h
  | some r =>
    rw [hg] at h
    simp only [Option.map_some', Option.some.injEq] at h
    obtain ⟨h0, h1, h2⟩ := unmarshall_generic_cut m bytes n k offset r hg
    subst h
    simp only
    refine ⟨h0, ?_, ?_⟩
    · intro hk; rw [h1 hk]; rfl
    · intro hk; rw [h2 hk]; rfl

theorem unmarshall_SHORT_STRING_cut (mx : Nat) (bytes : List Nat) (n k offset : Nat)
    (v : List Nat × Nat) (h : unmarshall_SHORT_STRING mx bytes n offset = some v) :
    offset ≤ v.2 ∧ (v.2 ≤ k → unmarshall_SHORT_STRING mx bytes k offset = some v) ∧
    (k < v.2 → unmarshall_SHORT_STRING mx bytes k offset = none) := by
  unfold unmarshall_SHORT_STRING at h ⊢
  cases hl : unmarshall_BYTE bytes n offset with
  | none => rw [hl] at h; cases h
  | some len =>
    rw [hl] at h
    simp only at h
    obtain ⟨a0, a1, a2⟩ := unmarshall_map_cut be_value 1 bytes n k offset len hl
    split at h
    · rename_i hlt
      obtain ⟨b0, b1, b2⟩ := unmarshall_map_cut c_str len.1 bytes n k len.2 v h
      refine ⟨by omega, ?_, ?_⟩
      · intro hk
        have e1 : unmarshall_BYTE bytes k offset = some len := a1 (by omega)
        rw [e1]
        simp only [hlt, if_true]
        exact b1 hk
      · intro hk
        by_cases hk1 : len.2 ≤ k
        · have e1 : unmarshall_BYTE bytes k offset = some len := a1 hk1
          rw [e1]
          simp only [hlt, if_true]
          exact b2 hk
        · have e1 : unmarshall_BYTE bytes k offset = none := a2 (by omega)
          rw [e1]
    · cases h

theorem unmarshall_LONG_STRING_cut (mx : Nat) (bytes : List Nat) (n k offset : Nat)
    (v : List Nat × Nat) (h : unmarshall_LONG_STRING mx bytes n offset = some v) :
    offset ≤ v.2 ∧ (v.2 ≤ k → unmarshall_LONG_STRING mx bytes k offset = some v) ∧
    (k < v.2 → unmarshall_LONG_STRING mx bytes k offset = none) := by
  unfold unmarshall_LONG_STRING at h ⊢
  cases hl : unmarshall_U_INT_16 bytes n offset with
  | none => rw [hl] at h; cases h
  | some len =>
    rw [hl] at h
    simp only at h
    obtain ⟨a0, a1, a2⟩ := unmarshall_map_cut be_value 2 bytes n k offset len hl
    split at h
    · rename_i hlt
      obtain ⟨b0, b1, b2⟩ := unmarshall_map_cut c_str len.1 bytes n k len.2 v h
      refine ⟨by omega, ?_, ?_⟩
      · intro hk
        have e1 : unmarshall_U_INT_16 bytes k offset = some len := a1 (by omega)
        rw [e1]
        simp only [hlt, if_true]
        exact b1 hk
      · intro hk
        by_cases hk1 : len.2 ≤ k
        · have e1 : unmarshall_U_INT_16 bytes k offset = some len := a1 hk1
          rw [e1]
          simp only [hlt, if_true]
          exact b2 hk
        · have e1 : unmarshall_U_INT_16 bytes k offset = none := a2 (by omega)
          rw [e1]
    · cases h

/-- A record read below the capacity `n` is read with the same result below a
smaller capacity `k` when it ends at or before `k`; when it ends beyond `k` the read
fails with one of the codes of a truncated buffer. -/
theorem read_record_cut (bytes : List Nat) (n k offset : Nat) (name : List Nat)
    (call : typed_call) (next : Nat)
    (h : read_record bytes n offset = .ok (name, call, next)) :
    offset ≤ next ∧
    (next ≤ k → read_record bytes k offset = .ok (name, call, next)) ∧
    (k < next → ∃ code, read_record bytes k offset = .error code ∧
      code ∈ truncated_codes) := by
  unfold read_record at h
  cases hs : unmarshall_SHORT_STRING (SHORT_STRING_MAX + 1) bytes n offset with
  | none => rw [hs] at h; cases h
  | some nm =>
    rw [hs] at h
    simp only at h
    obtain ⟨s0, s1, s2⟩ := unmarshall_SHORT_STRING_cut _ bytes n k offset nm hs
    cases ht : unmarshall_BYTE bytes n nm.2 with
    | none => rw [ht] at h; cases h
    | some t =>
      rw [ht] at h
      simp only at h
      obtain ⟨t0, t1, t2⟩ := unmarshall_map_cut be_value 1 bytes n k nm.2 t ht
      have hname : k < nm.2 → ∃ code, read_record bytes k offset = .error code ∧
          code ∈ truncated_codes := by
        intro hk
        refine ⟨-22, ?_, by decide⟩
        unfold read_record
        rw [s2 hk]
      have htag : nm.2 ≤ k → k < t.2 → ∃ code, read_record bytes k offset = .error code ∧
          code ∈ truncated_codes := by
        intro hk1 hk
        refine ⟨-21, ?_, by decide⟩
        unfold read_record
        rw [s1 hk1]
        simp only
        have e : unmarshall_BYTE bytes k nm.2 = none := t2 hk
        rw [e]
      have hhead : t.2 ≤ k → read_record bytes k offset =
          (match (some t : Option (Nat × Nat)) with
            | none => .error (-21)
            | some t =>
              if t.1 = LWES_U_INT_16_TOKEN then
                match unmarshall_U_INT_16 bytes k t.2 with
                | some v => .ok (nm.1, .U_INT_16 v.1, v.2)
                | none => .error (-3)
              else if t.1 = LWES_INT_16_TOKEN then
                match unmarshall_INT_16 bytes k t.2 with
                | some v => .ok (nm.1, .INT_16 v.1, v.2)
                | none => .error (-5)
              else if t.1 = LWES_U_INT_32_TOKEN then
                match unmarshall_U_INT_32 bytes k t.2 with
                | some v => .ok (nm.1, .U_INT_32 v.1, v.2)
                | none => .error (-7)
              else if t.1 = LWES_INT_32_TOKEN then
                match unmarshall_INT_32 bytes k t.2 with
                | some v => .ok (nm.1, .INT_32 v.1, v.2)
                | none => .error (-9)
              else if t.1 = LWES_U_INT_64_TOKEN then
                match unmarshall_U_INT_64 bytes k t.2 with
                | some v => .ok (nm.1, .U_INT_64 v.1, v.2)
                | none => .error (-11)
              else if t.1 = LWES_INT_64_TOKEN then
                match unmarshall_INT_64 bytes k t.2 with
                | some v => .ok (nm.1, .INT_64 v.1, v.2)
                | none => .error (-13)
              else if t.1 = LWES_BOOLEAN_TOKEN then
                match unmarshall_BOOLEAN bytes k t.2 with
                | some v => .ok (nm.1, .BOOLEAN v.1, v.2)
                | none => .error (-15)
              else if t.1 = LWES_IP_ADDR_TOKEN then
                match unmarshall_IP_ADDR bytes k t.2 with
                | some v => .ok (nm.1, .IP_ADDR v.1, v.2)
                | none => .error (-17)
              else if t.1 = LWES_STRING_TOKEN then
                match unmarshall_LONG_STRING (LONG_STRING_MAX + 1) bytes k t.2 with
                | some v => .ok (nm.1, .STRING (some v.1), v.2)
                | none => .error (-19)
              else .error (-20)) := by
        intro hk
        unfold read_record
        rw [s1 (by omega)]
        simp only
        have e : unmarshall_BYTE bytes k nm.2 = some t := t1 hk
        rw [e]
      by_cases h_U_INT_16 : t.1 = LWES_U_INT_16_TOKEN
      · simp only [if_pos h_U_INT_16] at h
        cases hv : unmarshall_U_INT_16 bytes n t.2 with
        | none => rw [hv] at h; cases h
        | some v =>
          rw [hv] at h
          simp only [Except.ok.injEq, Prod.mk.injEq] at h
          obtain ⟨h1, h2, h3⟩ := h
          obtain ⟨v0, v1, v2⟩ := unmarshall_map_cut be_value 2 bytes n k t.2 v hv
          subst h1 h2 h3
          refine ⟨by omega, ?_, ?_⟩
          · intro hk
            rw [hhead (by omega)]
            simp only [if_pos h_U_INT_16]
            have e : unmarshall_U_INT_16 bytes k t.2 = some v := v1 hk
            rw [e]
          · intro hk
            by_cases hk1 : nm.2 ≤ k
            · by_cases hk2 : t.2 ≤ k
              · refine ⟨-3, ?_, by decide⟩
                rw [hhead hk2]
                simp only [if_pos h_U_INT_16]
                have e : unmarshall_U_INT_16 bytes k t.2 = none := v2 hk
                rw [e]
              · exact htag hk1 (by omega)
            · exact hname (by omega)
      simp only [if_neg h_U_INT_16] at h
      by_cases h_INT_16 : t.1 = LWES_INT_16_TOKEN
      · simp only [if_pos h_INT_16] at h
        cases hv : unmarshall_INT_16 bytes n t.2 with
        | none => rw [hv] at h; cases h
        | some v =>
          rw [hv] at h
          simp only [Except.ok.injEq, Prod.mk.injEq] at h
          obtain ⟨h1, h2, h3⟩ := h
          obtain ⟨v0, v1, v2⟩ := unmarshall_map_cut (fun b => to_signed 2 (be_value b)) 2 bytes n k t.2 v hv
          subst h1 h2 h3
          refine ⟨by omega, ?_, ?_⟩
          · intro hk
            rw [hhead (by omega)]
            simp only [if_neg h_U_INT_16, if_pos h_INT_16]
            have e : unmarshall_INT_16 bytes k t.2 = some v := v1 hk
            rw [e]
          · intro hk
            by_cases hk1 : nm.2 ≤ k
            · by_cases hk2 : t.2 ≤ k
              · refine ⟨-5, ?_, by decide⟩
                rw [hhead hk2]
                simp only [if_neg h_U_INT_16, if_pos h_INT_16]
                have e : unmarshall_INT_16 bytes k t.2 = none := v2 hk
                rw [e]
              · exact htag hk1 (by omega)
            · exact hname (by omega)
      simp only [if_neg h_INT_16] at h
      by_cases h_U_INT_32 : t.1 = LWES_U_INT_32_TOKEN
      · simp only [if_pos h_U_INT_32] at h
        cases hv : unmarshall_U_INT_32 bytes n t.2 with
        | none => rw [hv] at h; cases h
        | some v =>
          rw [hv] at h
          simp only [Except.ok.injEq, Prod.mk.injEq] at h
          obtain ⟨h1, h2, h3⟩ := h
          obtain ⟨v0, v1, v2⟩ := unmarshall_map_cut be_value 4 bytes n k t.2 v hv
          subst h1 h2 h3
          refine ⟨by omega, ?_, ?_⟩
          · intro hk
            rw [hhead (by omega)]
            simp only [if_neg h_U_INT_16, if_neg h_INT_16, if_pos h_U_INT_32]
            have e : unmarshall_U_INT_32 bytes k t.2 = some v := v1 hk
            rw [e]
          · intro hk
            by_cases hk1 : nm.2 ≤ k
            · by_cases hk2 : t.2 ≤ k
              · refine ⟨-7, ?_, by decide⟩
                rw [hhead hk2]
                simp only [if_neg h_U_INT_16, if_neg h_INT_16, if_pos h_U_INT_32]
                have e : unmarshall_U_INT_32 bytes k t.2 = none := v2 hk
                rw [e]
              · exact htag hk1 (by omega)
            · exact hname (by omega)
      simp only [if_neg h_U_INT_32] at h
      by_cases h_INT_32 : t.1 = LWES_INT_32_TOKEN
      · simp only [if_pos h_INT_32] at h
        cases hv : unmarshall_INT_32 bytes n t.2 with
        | none => rw [hv] at h; cases h
        | some v =>
          rw [hv] at h
          simp only [Except.ok.injEq, Prod.mk.injEq] at h
          obtain ⟨h1, h2, h3⟩ := h
          obtain ⟨v0, v1, v2⟩ := unmarshall_map_cut (fun b => to_signed 4 (be_value b)) 4 bytes n k t.2 v hv
          subst h1 h2 h3
          refine ⟨by omega, ?_, ?_⟩
          · intro hk
            rw [hhead (by omega)]
            simp only [if_neg h_U_INT_16, if_neg h_INT_16, if_neg h_U_INT_32, if_pos h_INT_32]
            have e : unmarshall_INT_32 bytes k t.2 = some v := v1 hk
            rw [e]
          · intro hk
            by_cases hk1 : nm.2 ≤ k
            · by_cases hk2 : t.2 ≤ k
              · refine ⟨-9, ?_, by decide⟩
                rw [hhead hk2]
                simp only [if_neg h_U_INT_16, if_neg h_INT_16, if_neg h_U_INT_32, if_pos h_INT_32]
                have e : unmarshall_INT_32 bytes k t.2 = none := v2 hk
                rw [e]
              · exact htag hk1 (by omega)
            · exact hname (by omega)
      simp only [if_neg h_INT_32] at h
      by_cases h_U_INT_64 : t.1 = LWES_U_INT_64_TOKEN
      · simp only [if_pos h_U_INT_64] at h
        cases hv : unmarshall_U_INT_64 bytes n t.2 with
        | none => rw [hv] at h; cases h
        | some v =>
          rw [hv] at h
          simp only [Except.ok.injEq, Prod.mk.injEq] at h
          obtain ⟨h1, h2, h3⟩ := h
          obtain ⟨v0, v1, v2⟩ := unmarshall_map_cut be_value 8 bytes n k t.2 v hv
          subst h1 h2 h3
          refine ⟨by omega, ?_, ?_⟩
          · intro hk
            rw [hhead (by omega)]
            simp only [if_neg h_U_INT_16, if_neg h_INT_16, if_neg h_U_INT_32, if_neg h_INT_32, if_pos h_U_INT_64]
            have e : unmarshall_U_INT_64 bytes k t.2 = some v := v1 hk
            rw [e]
          · intro hk
            by_cases hk1 : nm.2 ≤ k
            · by_cases hk2 : t.2 ≤ k
              · refine ⟨-11, ?_, by decide⟩
                rw [hhead hk2]
                simp only [if_neg h_U_INT_16, if_neg h_INT_16, if_neg h_U_INT_32, if_neg h_INT_32, if_pos h_U_INT_64]
                have e : unmarshall_U_INT_64 bytes k t.2 = none := v2 hk
                rw [e]
              · exact htag hk1 (by omega)
            · exact hname (by omega)
      simp only [if_neg h_U_INT_64] at h
      by_cases h_INT_64 : t.1 = LWES_INT_64_TOKEN
      · simp only [if_pos h_INT_64] at h
        cases hv : unmarshall_INT_64 bytes n t.2 with
        | none => rw [hv] at h; cases h
        | some v =>
          rw [hv] at h
          simp only [Except.ok.injEq, Prod.mk.injEq] at h
          obtain ⟨h1, h2, h3⟩ := h
          obtain ⟨v0, v1, v2⟩ := unmarshall_map_cut (fun b => to_signed 8 (be_value b)) 8 bytes n k t.2 v hv
          subst h1 h2 h3
          refine ⟨by omega, ?_, ?_⟩
          · intro hk
            rw [hhead (by omega)]
            simp only [if_neg h_U_INT_16, if_neg h_INT_16, if_neg h_U_INT_32, if_neg h_INT_32, if_neg h_U_INT_64, if_pos h_INT_64]
            have e : unmarshall_INT_64 bytes k t.2 = some v := v1 hk
            rw [e]
          · intro hk
            by_cases hk1 : nm.2 ≤ k
            · by_cases hk2 : t.2 ≤ k
              · refine ⟨-13, ?_, by decide⟩
                rw [hhead hk2]
                simp only [if_neg h_U_INT_16, if_neg h_INT_16, if_neg h_U_INT_32, if_neg h_INT_32, if_neg h_U_INT_64, if_pos h_INT_64]
                have e : unmarshall_INT_64 bytes k t.2 = none := v2 hk
                rw [e]
              · exact htag hk1 (by omega)
            · exact hname (by omega)
      simp only [if_neg h_INT_64] at h
      by_cases h_BOOLEAN : t.1 = LWES_BOOLEAN_TOKEN
      · simp only [if_pos h_BOOLEAN] at h
        cases hv : unmarshall_BOOLEAN bytes n t.2 with
        | none => rw [hv] at h; cases h
        | some v =>
          rw [hv] at h
          simp only [Except.ok.injEq, Prod.mk.injEq] at h
          obtain ⟨h1, h2, h3⟩ := h
          obtain ⟨v0, v1, v2⟩ := unmarshall_map_cut (fun b => be_value b != 0) 1 bytes n k t.2 v hv
          subst h1 h2 h3
          refine ⟨by omega, ?_, ?_⟩
          · intro hk
            rw [hhead (by omega)]
            simp only [if_neg h_U_INT_16, if_neg h_INT_16, if_neg h_U_INT_32, if_neg h_INT_32, if_neg h_U_INT_64, if_neg h_INT_64, if_pos h_BOOLEAN]
            have e : unmarshall_BOOLEAN bytes k t.2 = some v := v1 hk
            rw [e]
          · intro hk
            by_cases hk1 : nm.2 ≤ k
            · by_cases hk2 : t.2 ≤ k
              · refine ⟨-15, ?_, by decide⟩
                rw [hhead hk2]
                simp only [if_neg h_U_INT_16, if_neg h_INT_16, if_neg h_U_INT_32, if_neg h_INT_32, if_neg h_U_INT_64, if_neg h_INT_64, if_pos h_BOOLEAN]
                have e : unmarshall_BOOLEAN bytes k t.2 = none := v2 hk
                rw [e]
              · exact htag hk1 (by omega)
            · exact hname (by omega)
      simp only [if_neg h_BOOLEAN] at h
      by_cases h_IP_ADDR : t.1 = LWES_IP_ADDR_TOKEN
      · simp only [if_pos h_IP_ADDR] at h
        cases hv : unmarshall_IP_ADDR bytes n t.2 with
        | none => rw [hv] at h; cases h
        | some v =>
          rw [hv] at h
          simp only [Except.ok.injEq, Prod.mk.injEq] at h
          obtain ⟨h1, h2, h3⟩ := h
          obtain ⟨v0, v1, v2⟩ := unmarshall_map_cut be_value 4 bytes n k t.2 v hv
          subst h1 h2 h3
          refine ⟨by omega, ?_, ?_⟩
          · intro hk
            rw [hhead (by omega)]
            simp only [if_neg h_U_INT_16, if_neg h_INT_16, if_neg h_U_INT_32, if_neg h_INT_32, if_neg h_U_INT_64, if_neg h_INT_64, if_neg h_BOOLEAN, if_pos h_IP_ADDR]
            have e : unmarshall_IP_ADDR bytes k t.2 = some v := v1 hk
            rw [e]
          · intro hk
            by_cases hk1 : nm.2 ≤ k
            · by_cases hk2 : t.2 ≤ k
              · refine ⟨-17, ?_, by decide⟩
                rw [hhead hk2]
                simp only [if_neg h_U_INT_16, if_neg h_INT_16, if_neg h_U_INT_32, if_neg h_INT_32, if_neg h_U_INT_64, if_neg h_INT_64, if_neg h_BOOLEAN, if_pos h_IP_ADDR]
                have e : unmarshall_IP_ADDR bytes k t.2 = none := v2 hk
                rw [e]
              · exact htag hk1 (by omega)
            · exact hname (by omega)
      simp only [if_neg h_IP_ADDR] at h
      by_cases h_STRING : t.1 = LWES_STRING_TOKEN
      · simp only [if_pos h_STRING] at h
        cases hv : unmarshall_LONG_STRING (LONG_STRING_MAX + 1) bytes n t.2 with
        | none => rw [hv] at h; cases h
        | some v =>
          rw [hv] at h
          simp only [Except.ok.injEq, Prod.mk.injEq] at h
          obtain ⟨h1, h2, h3⟩ := h
          obtain ⟨v0, v1, v2⟩ := unmarshall_LONG_STRING_cut _ bytes n k t.2 v hv
          subst h1 h2 h3
          refine ⟨by omega, ?_, ?_⟩
          · intro hk
            rw [hhead (by omega)]
            simp only [if_neg h_U_INT_16, if_neg h_INT_16, if_neg h_U_INT_32, if_neg h_INT_32,
              if_neg h_U_INT_64, if_neg h_INT_64, if_neg h_BOOLEAN, if_neg h_IP_ADDR,
              if_pos h_STRING]
            rw [v1 hk]
          · intro hk
            by_cases hk1 : nm.2 ≤ k
            · by_cases hk2 : t.2 ≤ k
              · refine ⟨-19, ?_, by decide⟩
                rw [hhead hk2]
                simp only [if_neg h_U_INT_16, if_neg h_INT_16, if_neg h_U_INT_32,
                  if_neg h_INT_32, if_neg h_U_INT_64, if_neg h_INT_64, if_neg h_BOOLEAN,
                  if_neg h_IP_ADDR, if_pos h_STRING]
                rw [v2 hk]
              · exact htag hk1 (by omega)
            · exact hname (by omega)
      simp only [if_neg h_STRING] at h
      cases h

theorem truncated_codes_neg (code : Int) (h : code ∈ truncated_codes) : code < 0 := by
  simp only [truncated_codes, List.mem_cons, List.mem_singleton, List.not_mem_nil,
    or_false] at h
  omega

theorem decode_records_offset_le (bytes : List Nat) (n : Nat) :
    ∀ (m : Nat) (ev : Option lwes_event) (offset : Nat),
      0 ≤ (decode_records m ev bytes n offset).1 →
      offset ≤ (decode_records m ev bytes n offset).2.2 := by
  intro m
  induction m with
  | zero =>
    intro ev offset _
    simp only [decode_records]
    exact Nat.le_refl _
  | succ m ih =>
    intro ev offset h0
    simp only [decode_records] at h0 ⊢
    cases hr : read_record bytes n offset with
    | error code =>
      simp only [hr] at h0
      have := read_record_error_neg bytes n offset code hr
      omega
    | ok rec =>
      obtain ⟨name, call, next⟩ := rec
      rw [hr] at h0
      simp only at h0 ⊢
      obtain ⟨r0, _, _⟩ := read_record_cut bytes n n offset name call next hr
      by_cases hneg : (call.run ev (some name)).1 < 0
      · simp only [hneg, if_true] at h0
        have := reject_code_neg call
        omega
      · simp only [hneg, if_false] at h0 ⊢
        have := ih (call.run ev (some name)).2 next h0
        omega

/-! ## The result of a success and its conversion to `int` -/

/-- The conversion to `int` leaves a value from 0 to 2^31 - 1. -/
theorem to_int_small (d : Int) (h0 : 0 ≤ d) (h : d < 2147483648) : to_int d = d := by
  unfold to_int
  split_ifs <;> omega

/-- The conversion to `int` of a value that is not negative gives a value that is
not greater, and the same value exactly when that value is below 2^31. -/
theorem to_int_le (d : Int) (h0 : 0 ≤ d) :
    to_int d ≤ d ∧ (to_int d = d ↔ d < 2147483648) ∧
    (0 ≤ to_int d → d < 2147483648 ∨ 4294967296 ≤ d) := by
  unfold to_int
  split_ifs <;> omega

/-- The range of `int`. -/
theorem to_int_range (d : Int) : -2147483648 ≤ to_int d ∧ to_int d < 2147483648 := by
  unfold to_int
  split_ifs <;> omega

/-- A short string that is read ends behind the offset. -/
theorem unmarshall_SHORT_STRING_le (m : Nat) (bytes : List Nat) (length offset : Nat)
    (r : List Nat × Nat) (h : unmarshall_SHORT_STRING m bytes length offset = some r) :
    offset < r.2 := by
  unfold unmarshall_SHORT_STRING at h
  cases hl : unmarshall_BYTE bytes length offset with
  | none => rw [hl] at h; cases h
  | some len =>
    rw [hl] at h
    simp only at h
    obtain ⟨hlen, _⟩ := unmarshall_map_some _ 1 bytes length offset len hl
    split at h
    · obtain ⟨hr, _⟩ := unmarshall_map_some _ len.1 bytes length len.2 r h
      rw [hr, hlen]
      simp only
      omega
    · cases h

/-- `lwes_event_to_bytes` is `to_bytes_exact` with the result of a success
converted to `int`. -/
theorem to_bytes_cast (event : Option lwes_event) (bytes : Option (List Nat))
    (num_bytes offset : Nat) :
    lwes_event_to_bytes event bytes num_bytes offset =
      (if (to_bytes_exact event bytes num_bytes offset).1 < 0 then
          (to_bytes_exact event bytes num_bytes offset).1
        else to_int (to_bytes_exact event bytes num_bytes offset).1,
        (to_bytes_exact event bytes num_bytes offset).2) := by
  refine Prod.ext ?_ (to_bytes_buffer event bytes num_bytes offset)
  simp only
  cases event with
  | none => rfl
  | some ev =>
    cases bytes with
    | none => rfl
    | some bs =>
      by_cases hpre : num_bytes = 0 ∨ offset ≥ num_bytes
      · unfold lwes_event_to_bytes to_bytes_exact
        simp only [hpre, if_true]
        rfl
      · obtain ⟨res, hw, heq, _⟩ := to_bytes_writes ev bs num_bytes offset hpre
        have hle : offset ≤ res.2.2 := hw.2.2.1
        rw [heq]
        simp only
        unfold lwes_event_to_bytes
        simp only [hpre, if_false]
        unfold to_bytes_exact at heq
        simp only [hpre, if_false] at heq
        cases hm1 : marshall_SHORT_STRING ev.eventName bs num_bytes offset with
        | none =>
          rw [hm1] at heq
          simp only [Prod.mk.injEq] at heq
          rw [← heq.1]
          rfl
        | some r1 =>
          rw [hm1] at heq
          simp only at heq ⊢
          cases hm2 : marshall_U_INT_16 ev.number_of_attributes r1.1 num_bytes r1.2 with
          | none =>
            rw [hm2] at heq
            simp only [Prod.mk.injEq] at heq
            rw [← heq.1]
            rfl
          | some r2 =>
            rw [hm2] at heq
            simp only at heq ⊢
            by_cases h3 : (to_bytes_encoding ev r2.1 num_bytes r2.2).1 < 0
            · simp only [h3, if_true, Prod.mk.injEq] at heq ⊢
              rw [← heq.1]
              simp only [h3, if_true]
            · simp only [h3, if_false, Prod.mk.injEq] at heq ⊢
              rw [← heq.1]
              by_cases h4 : (to_bytes_attributes ev (lwes_hash_keys ev.attributes)
                  (to_bytes_encoding ev r2.1 num_bytes r2.2).2.1 num_bytes
                  (to_bytes_encoding ev r2.1 num_bytes r2.2).2.2).1 < 0
              · simp only [h4, if_true]
              · simp only [h4, if_false]
                have hd : ¬ (((to_bytes_attributes ev (lwes_hash_keys ev.attributes)
                    (to_bytes_encoding ev r2.1 num_bytes r2.2).2.1 num_bytes
                    (to_bytes_encoding ev r2.1 num_bytes r2.2).2.2).2.2 : Int) -
                    (offset : Int) < 0) := by
                  obtain ⟨s, _, _, hr1, _⟩ := marshall_SHORT_STRING_some _ _ _ _ r1 hm1
                  obtain ⟨hr2, _⟩ := marshall_generic_some _ _ _ _ r2 hm2
                  have hw3 := (to_bytes_encoding_writes ev r2.1 num_bytes r2.2).1.2.2.1
                  have hw4 := (to_bytes_attributes_writes ev (lwes_hash_keys ev.attributes)
                    (to_bytes_encoding ev r2.1 num_bytes r2.2).2.1 num_bytes
                    (to_bytes_encoding ev r2.1 num_bytes r2.2).2.2).2.2.1
                  have h1 : offset ≤ r1.2 := by rw [hr1]; simp
                  have h2 : r1.2 ≤ r2.2 := by rw [hr2]; simp
                  omega
                simp only [hd, if_false]

/-- `lwes_event_from_bytes` is `from_bytes_exact` with the result of a success
converted to `int`. -/
theorem from_bytes_cast (event : Option lwes_event) (bytes : Option (List Nat))
    (num_bytes offset : Nat) (dtmp : Option lwes_event_deserialize_tmp) :
    lwes_event_from_bytes event bytes num_bytes offset dtmp =
      (if (from_bytes_exact event bytes num_bytes offset dtmp).1 < 0 then
          (from_bytes_exact event bytes num_bytes offset dtmp).1
        else to_int (from_bytes_exact event bytes num_bytes offset dtmp).1,
        (from_bytes_exact event bytes num_bytes offset dtmp).2) := by
  refine Prod.ext ?_ (from_bytes_event event bytes num_bytes offset dtmp)
  simp only
  unfold lwes_event_from_bytes from_bytes_exact
  cases event with
  | none => rfl
  | some ev =>
    cases bytes with
    | none => rfl
    | some bs =>
      cases dtmp with
      | none => rfl
      | some d =>
        simp only
        by_cases hpre : num_bytes = 0 ∨ offset ≥ num_bytes
        · simp only [hpre, if_true]
          rfl
        · simp only [hpre, if_false]
          cases hs : unmarshall_SHORT_STRING (SHORT_STRING_MAX + 1) bs num_bytes offset with
          | none => rfl
          | some nm =>
            simp only
            have hnm := unmarshall_SHORT_STRING_le _ bs num_bytes offset nm hs
            by_cases hn : (lwes_event_set_name (some ev) (some nm.1)).1 = 0
            · simp only [hn, if_true]
              cases hc : unmarshall_U_INT_16 bs num_bytes nm.2 with
              | none => rfl
              | some cnt =>
                simp only
                obtain ⟨hcnt, _⟩ := unmarshall_map_some _ 2 bs num_bytes nm.2 cnt hc
                have hcnt2 : cnt.2 = nm.2 + 2 := by rw [hcnt]
                have heq := from_bytes_attributes_eq cnt.1
                  (lwes_event_set_name (some ev) (some nm.1)).2 bs num_bytes cnt.2
                by_cases hl : (from_bytes_attributes cnt.1
                    (lwes_event_set_name (some ev) (some nm.1)).2 bs num_bytes cnt.2).1 < 0
                · simp only [hl, if_true]
                · simp only [hl, if_false]
                  have h0 : 0 ≤ (decode_records cnt.1
                      (lwes_event_set_name (some ev) (some nm.1)).2 bs num_bytes cnt.2).1 := by
                    rw [← heq.1]
                    omega
                  have hle := decode_records_offset_le bs num_bytes cnt.1 _ cnt.2 h0
                  rw [← heq.2.2 h0] at hle
                  have hd : ¬ (((from_bytes_attributes cnt.1
                      (lwes_event_set_name (some ev) (some nm.1)).2 bs num_bytes cnt.2).2.2 :
                      Int) - (offset : Int) < 0) := by omega
                  simp only [hd, if_false]
            · simp only [hn, if_false]
              rfl

/-- A result of `lwes_event_to_bytes` that is not negative is the conversion of
the result of `to_bytes_exact`, which is not negative. -/
theorem to_bytes_cast_success (event : Option lwes_event) (bytes : Option (List Nat))
    (num_bytes offset : Nat) (h : 0 ≤ (lwes_event_to_bytes event bytes num_bytes offset).1) :
    0 ≤ (to_bytes_exact event bytes num_bytes offset).1 ∧
    (lwes_event_to_bytes event bytes num_bytes offset).1 =
      to_int (to_bytes_exact event bytes num_bytes offset).1 := by
  rw [to_bytes_cast] at h ⊢
  simp only at h ⊢
  by_cases hneg : (to_bytes_exact event bytes num_bytes offset).1 < 0
  · rw [if_pos hneg] at h
    omega
  · rw [if_neg hneg]
    exact ⟨by omega, rfl⟩

/-- A negative result of `to_bytes_exact` is the result of
`lwes_event_to_bytes`. -/
theorem to_bytes_cast_failure (event : Option lwes_event) (bytes : Option (List Nat))
    (num_bytes offset : Nat) (h : (to_bytes_exact event bytes num_bytes offset).1 < 0) :
    lwes_event_to_bytes event bytes num_bytes offset =
      to_bytes_exact event bytes num_bytes offset := by
  rw [to_bytes_cast, if_pos h]

/-- A result of `lwes_event_from_bytes` that is not negative is the conversion of
the result of `from_bytes_exact`, which is not negative. -/
theorem from_bytes_cast_success (event : Option lwes_event) (bytes : Option (List Nat))
    (num_bytes offset : Nat) (dtmp : Option lwes_event_deserialize_tmp)
    (h : 0 ≤ (lwes_event_from_bytes event bytes num_bytes offset dtmp).1) :
    0 ≤ (from_bytes_exact event bytes num_bytes offset dtmp).1 ∧
    (lwes_event_from_bytes event bytes num_bytes offset dtmp).1 =
      to_int (from_bytes_exact event bytes num_bytes offset dtmp).1 := by
  rw [from_bytes_cast] at h ⊢
  simp only at h ⊢
  by_cases hneg : (from_bytes_exact event bytes num_bytes offset dtmp).1 < 0
  · rw [if_pos hneg] at h
    omega
  · rw [if_neg hneg]
    exact ⟨by omega, rfl⟩

/-- A negative result of `from_bytes_exact` is the result of
`lwes_event_from_bytes`. -/
theorem from_bytes_cast_failure (event : Option lwes_event) (bytes : Option (List Nat))
    (num_bytes offset : Nat) (dtmp : Option lwes_event_deserialize_tmp)
    (h : (from_bytes_exact event bytes num_bytes offset dtmp).1 < 0) :
    lwes_event_from_bytes event bytes num_bytes offset dtmp =
      from_bytes_exact event bytes num_bytes offset dtmp := by
  rw [from_bytes_cast, if_pos h]

/-- A result of `lwes_event_to_bytes` that is not negative: the encoder without
the conversion has written the wire layout of the event and gives its length,
and the result is that length converted to `int`. -/
theorem to_bytes_result (ev : lwes_event) (bytes : List Nat) (num_bytes offset : Nat)
    (r : Int) (out : Option (List Nat))
    (h : lwes_event_to_bytes (some ev) (some bytes) num_bytes offset = (r, out))
    (hr : 0 ≤ r) :
    to_bytes_exact (some ev) (some bytes) num_bytes offset =
      (((wire_bytes ev).length : Int), out) ∧
    r = to_int ((wire_bytes ev).length : Int) := by
  have h1 : (lwes_event_to_bytes (some ev) (some bytes) num_bytes offset).1 = r := by rw [h]
  have h2 : (lwes_event_to_bytes (some ev) (some bytes) num_bytes offset).2 = out := by rw [h]
  obtain ⟨hnn, hc⟩ := to_bytes_cast_success (some ev) (some bytes) num_bytes offset
    (by rw [h1]; exact hr)
  rw [to_bytes_buffer] at h2
  obtain ⟨_, _, _, _, _, hlen⟩ := to_bytes_success ev bytes num_bytes offset
    (to_bytes_exact (some ev) (some bytes) num_bytes offset).1
    (to_bytes_exact (some ev) (some bytes) num_bytes offset).2 rfl hnn
  refine ⟨Prod.ext hlen h2, ?_⟩
  rw [← h1, hc, hlen]

/-- The loop of reads and setter calls below a smaller capacity: it gives the same
result when it ends at or before the cut, and otherwise stops with a code of a
truncated buffer on the event that holds the records before the cut. -/
theorem decode_records_cut (bytes : List Nat) (n k : Nat) :
    ∀ (m : Nat) (ev : Option lwes_event) (offset : Nat), offset ≤ k →
      0 ≤ (decode_records m ev bytes n offset).1 →
      ((decode_records m ev bytes n offset).2.2 ≤ k →
        decode_records m ev bytes k offset = decode_records m ev bytes n offset) ∧
      (k < (decode_records m ev bytes n offset).2.2 →
        (decode_records m ev bytes k offset).1 ∈ truncated_codes ∧
        (decode_records m ev bytes k offset).2.1 =
          records_before_cut m ev bytes n offset k) := by
  intro m
  induction m with
  | zero =>
    intro ev offset hoff _
    simp only [decode_records, records_before_cut]
    exact ⟨fun _ => trivial, fun h => absurd h (by omega)⟩
  | succ m ih =>
    intro ev offset hoff h0
    have hmono := decode_records_offset_le bytes n (m + 1) ev offset h0
    simp only [decode_records] at h0 hmono ⊢
    simp only [records_before_cut]
    cases hr : read_record bytes n offset with
    | error code =>
      rw [hr] at h0
      have := read_record_error_neg bytes n offset code hr
      simp only at h0
      omega
    | ok rec =>
      obtain ⟨name, call, next⟩ := rec
      rw [hr] at h0 hmono
      simp only at h0 hmono ⊢
      obtain ⟨r0, r1, r2⟩ := read_record_cut bytes n k offset name call next hr
      by_cases hneg : (call.run ev (some name)).1 < 0
      · simp only [hneg, if_true] at h0
        have := reject_code_neg call
        omega
      · simp only [hneg, if_false] at h0 hmono ⊢
        have hnext := decode_records_offset_le bytes n m (call.run ev (some name)).2 next h0
        by_cases hk : next ≤ k
        · obtain ⟨i1, i2⟩ := ih (call.run ev (some name)).2 next hk h0
          have hnk : ¬ (k < next) := by omega
          simp only [r1 hk, hneg, if_false, hnk]
          exact ⟨i1, i2⟩
        · have hk2 : k < next := by omega
          obtain ⟨code, hc1, hc2⟩ := r2 hk2
          simp only [hc1, hk2, if_true]
          exact ⟨fun h => absurd h (by omega), fun _ => ⟨hc2, trivial⟩⟩

/-- The decoder of the specification on a buffer cut inside the bytes that a
successful decode consumes: it fails with a code of a truncated buffer, and the
event holds the name and the attributes whose fields end before the cut, and
nothing else. -/
theorem decode_by_setters_cut (ev : Option lwes_event) (bytes : List Nat) (n k offset : Nat)
    (hw : 0 ≤ (decode_by_setters ev bytes n offset).1)
    (hk : (k : Int) < (offset : Int) + (decode_by_setters ev bytes n offset).1) :
    (decode_by_setters ev bytes k offset).1 ∈ truncated_codes ∧
    (decode_by_setters ev bytes k offset).2 = fields_before_cut ev bytes n offset k := by
  unfold decode_by_setters at hw hk ⊢
  unfold fields_before_cut
  cases hs : unmarshall_SHORT_STRING (SHORT_STRING_MAX + 1) bytes n offset with
  | none => rw [hs] at hw; simp at hw
  | some nm =>
    simp only [hs] at hw hk
    obtain ⟨s0, s1, s2⟩ := unmarshall_SHORT_STRING_cut _ bytes n k offset nm hs
    by_cases hname0 : (lwes_event_set_name ev (some nm.1)).1 = 0
    swap
    · have hname : (lwes_event_set_name ev (some nm.1)).1 ≠ 0 := hname0
      rw [if_pos hname] at hw
      simp only at hw
      omega
    · have hname : ¬ (lwes_event_set_name ev (some nm.1)).1 ≠ 0 := fun h => h hname0
      rw [if_neg hname] at hw hk
      simp only [if_neg hname]
      cases hc : unmarshall_U_INT_16 bytes n nm.2 with
      | none => rw [hc] at hw; simp at hw
      | some count =>
        simp only [hc] at hw hk
        obtain ⟨c0, c1, c2⟩ := unmarshall_map_cut be_value 2 bytes n k nm.2 count hc
        by_cases hneg : (decode_records count.1 (lwes_event_set_name ev (some nm.1)).2
            bytes n count.2).1 < 0
        · simp only [hneg, if_true] at hw
          omega
        · simp only [hneg, if_false] at hw hk
          by_cases hk1 : k < nm.2
          · simp only [s2 hk1, hk1, if_true]
            exact ⟨by decide, trivial⟩
          · simp only [s1 (by omega), hk1, if_false, hname]
            by_cases hk2 : k < count.2
            · have e : unmarshall_U_INT_16 bytes k nm.2 = none := c2 hk2
              simp only [e, hk2, if_true]
              exact ⟨by decide, trivial⟩
            · have e : unmarshall_U_INT_16 bytes k nm.2 = some count := c1 (by omega)
              simp only [e, hk2, if_false]
              obtain ⟨_, d2⟩ := decode_records_cut bytes n k count.1
                (lwes_event_set_name ev (some nm.1)).2 count.2 (by omega) (by omega)
              obtain ⟨e1, e2⟩ := d2 (by omega)
              have := truncated_codes_neg _ e1
              simp only [this, if_true]
              exact ⟨e1, e2⟩

/-! ## C9 : decoding a truncated buffer -/

/-- C9. For every buffer that `lwes_event_from_bytes` decodes successfully into an
event, consuming `w` bytes from the start offset, and every capacity `k` with
`offset < k < offset + w`, `lwes_event_from_bytes` with the capacity `k` returns a
negative code, one of those of a read that does not fit, and the event afterwards
holds the name and the attributes whose fields end at or before `k`, and nothing
else. -/
theorem truncation_detection (ev : lwes_event) (bytes : List Nat) (num_bytes offset : Nat)
    (dtmp : lwes_event_deserialize_tmp) (w : Int) (evw : Option lwes_event)
    (h : lwes_event_from_bytes (some ev) (some bytes) num_bytes offset (some dtmp) = (w, evw))
    (hw : 0 ≤ w) (k : Nat) (hk1 : offset < k) (hk2 : (k : Int) < (offset : Int) + w) :
    (lwes_event_from_bytes (some ev) (some bytes) k offset (some dtmp)).1 < 0 ∧
    (lwes_event_from_bytes (some ev) (some bytes) k offset (some dtmp)).1 ∈ truncated_codes ∧
    (lwes_event_from_bytes (some ev) (some bytes) k offset (some dtmp)).2 =
      fields_before_cut (some ev) bytes num_bytes offset k := by
  have h1 : (lwes_event_from_bytes (some ev) (some bytes) num_bytes offset (some dtmp)).1 = w := by
    rw [h]
  obtain ⟨hnn, hc⟩ := from_bytes_cast_success (some ev) (some bytes) num_bytes offset
    (some dtmp) (by rw [h1]; exact hw)
  have hle := (to_int_le _ hnn).1
  rw [from_bytes_eq_decode] at hnn hle hc
  have hpre : ¬ (k = 0 ∨ offset ≥ k) := by omega
  by_cases hpre2 : num_bytes = 0 ∨ offset ≥ num_bytes
  · simp only [hpre2, if_true] at hnn
    omega
  · simp only [hpre2, if_false] at hnn hle hc
    have hk3 : (k : Int) < (offset : Int) +
        (decode_by_setters (some ev) bytes num_bytes offset).1 := by omega
    obtain ⟨e1, e2⟩ := decode_by_setters_cut (some ev) bytes num_bytes k offset hnn hk3
    have hex : from_bytes_exact (some ev) (some bytes) k offset (some dtmp) =
        decode_by_setters (some ev) bytes k offset := by
      rw [from_bytes_eq_decode, if_neg hpre]
    have hneg := truncated_codes_neg _ e1
    rw [from_bytes_cast_failure _ _ _ _ _ (by rw [hex]; exact hneg), hex]
    exact ⟨hneg, e1, e2⟩

/-- C9 at a concrete input: the 36 bytes of the event "Test" cut at 30, inside
the record of "count"; the decode fails and the event holds the name, the encoding
and "label". -/
theorem truncation_detection_witness :
    (lwes_event_from_bytes (some fresh_event) (some test_bytes) 30 0 (some ⟨[], []⟩)).1 < 0 ∧
    (lwes_event_from_bytes (some fresh_event) (some test_bytes) 30 0 (some ⟨[], []⟩)).1 ∈
      truncated_codes ∧
    (lwes_event_from_bytes (some fresh_event) (some test_bytes) 30 0 (some ⟨[], []⟩)).2 =
      fields_before_cut (some fresh_event) test_bytes 36 0 30 :=
  truncation_detection fresh_event test_bytes 36 0 ⟨[], []⟩ 36 _ rfl (by decide) 30
    (by decide) (by decide)

/-! ## What a successful encode says of the event -/

theorem to_bytes_value_encodable (tmp : lwes_event_attribute) (bytes : List Nat)
    (num_bytes offset : Nat) (h : 0 ≤ (to_bytes_value tmp bytes num_bytes offset).1)
    (ht : tmp.type = LWES_STRING_TOKEN) :
    ∃ s, lwes_value.as_STRING tmp.value = some s ∧ s.length ≤ 65535 := by
  unfold to_bytes_value at h
  rw [if_neg (by rw [ht]; decide), if_neg (by rw [ht]; decide), if_neg (by rw [ht]; decide),
    if_neg (by rw [ht]; decide), if_neg (by rw [ht]; decide), if_neg (by rw [ht]; decide),
    if_neg (by rw [ht]; decide), if_neg (by rw [ht]; decide), if_pos ht] at h
  cases hm : marshall_LONG_STRING (lwes_value.as_STRING tmp.value) bytes num_bytes offset with
  | none => rw [hm] at h; simp at h
  | some r =>
    obtain ⟨s, hs, hlen, _⟩ := marshall_LONG_STRING_some _ _ _ _ r hm
    exact ⟨s, hs, hlen⟩

theorem to_bytes_attributes_encodable (ev : lwes_event) (keys : List (List Nat)) :
    ∀ (bytes : List Nat) (num_bytes offset : Nat),
      0 ≤ (to_bytes_attributes ev keys bytes num_bytes offset).1 →
      ∀ k ∈ keys, k ≠ LWES_ENCODING → encodable (k, attribute_at ev k) := by
  induction keys with
  | nil => intro _ _ _ _ k hk; cases hk
  | cons key ks ih =>
    intro bytes num_bytes offset h k hk hne
    unfold to_bytes_attributes at h
    by_cases hkey : key = LWES_ENCODING
    · simp only [if_pos hkey] at h
      rcases List.mem_cons.mp hk with rfl | hmem
      · exact absurd hkey hne
      · exact ih bytes num_bytes offset h k hmem hne
    · simp only [if_neg hkey] at h
      cases hm1 : marshall_SHORT_STRING (some key) bytes num_bytes offset with
      | none => rw [hm1] at h; simp at h
      | some r1 =>
        rw [hm1] at h
        simp only at h
        obtain ⟨s, hs, hlen, _⟩ := marshall_SHORT_STRING_some _ _ _ _ r1 hm1
        simp only [Option.some.injEq] at hs
        subst hs
        cases hm2 : marshall_BYTE ((lwes_hash_get ev.attributes key).getD ⟨0, none⟩).type
            r1.1 num_bytes r1.2 with
        | none => rw [hm2] at h; simp at h
        | some r2 =>
          rw [hm2] at h
          simp only at h
          by_cases hneg : (to_bytes_value ((lwes_hash_get ev.attributes key).getD ⟨0, none⟩)
              r2.1 num_bytes r2.2).1 < 0
          · simp only [hneg, if_true] at h
            omega
          · simp only [hneg, if_false] at h
            have hv : 0 ≤ (to_bytes_value ((lwes_hash_get ev.attributes key).getD ⟨0, none⟩)
                r2.1 num_bytes r2.2).1 := by omega
            rcases List.mem_cons.mp hk with rfl | hmem
            · exact ⟨hlen, fun ht => to_bytes_value_encodable _ _ _ _ hv ht⟩
            · exact ih _ _ _ h k hmem hne

/-- After a successful `to_bytes_exact` the name of the event has at most
255 bytes and every record fits the wire format. -/
theorem to_bytes_encodable (ev : lwes_event) (bytes : List Nat) (num_bytes offset : Nat)
    (r : Int) (out : Option (List Nat))
    (h : to_bytes_exact (some ev) (some bytes) num_bytes offset = (r, out))
    (hr : 0 ≤ r) :
    (∀ name, ev.eventName = some name → name.length ≤ 255) ∧
    ∀ e ∈ wire_records ev, encodable e := by
  obtain ⟨_, _, henc, _⟩ := to_bytes_success ev bytes num_bytes offset r out h hr
  unfold to_bytes_exact at h
  by_cases hpre : num_bytes = 0 ∨ offset ≥ num_bytes
  · simp only [hpre, if_true, Prod.mk.injEq] at h
    omega
  · simp only [hpre, if_false] at h
    cases hm1 : marshall_SHORT_STRING ev.eventName bytes num_bytes offset with
    | none => rw [hm1] at h; simp only [Prod.mk.injEq] at h; omega
    | some r1 =>
      rw [hm1] at h
      simp only at h
      obtain ⟨s, hs, hlen, _⟩ := marshall_SHORT_STRING_some _ _ _ _ r1 hm1
      cases hm2 : marshall_U_INT_16 ev.number_of_attributes r1.1 num_bytes r1.2 with
      | none => rw [hm2] at h; simp only [Prod.mk.injEq] at h; omega
      | some r2 =>
        rw [hm2] at h
        simp only at h
        by_cases hneg : (to_bytes_encoding ev r2.1 num_bytes r2.2).1 < 0
        · simp only [hneg, if_true, Prod.mk.injEq] at h
          omega
        · simp only [hneg, if_false, Prod.mk.injEq] at h
          by_cases hneg2 : (to_bytes_attributes ev (lwes_hash_keys ev.attributes)
              (to_bytes_encoding ev r2.1 num_bytes r2.2).2.1 num_bytes
              (to_bytes_encoding ev r2.1 num_bytes r2.2).2.2).1 < 0
          · simp only [hneg2, if_true] at h
            omega
          · refine ⟨fun name hname => ?_, ?_⟩
            · rw [hs] at hname
              simp only [Option.some.injEq] at hname
              rw [← hname]; exact hlen
            · intro e he
              simp only [wire_records, List.mem_append] at he
              rcases he with he | he
              · unfold encoding_record at he
                cases hg : lwes_hash_get ev.attributes LWES_ENCODING with
                | none => rw [hg] at he; cases he
                | some a =>
                  rw [hg] at he
                  simp only [List.mem_singleton] at he
                  subst he
                  refine ⟨by show LWES_ENCODING.length ≤ 255; decide, fun ht => ?_⟩
                  have := (henc a hg).1
                  rw [this] at ht
                  exact absurd ht (by decide)
              · simp only [other_records, List.mem_map, List.mem_filter] at he
                obtain ⟨k, ⟨hk, hne⟩, rfl⟩ := he
                have hnn : 0 ≤ (to_bytes_attributes ev (lwes_hash_keys ev.attributes)
                    (to_bytes_encoding ev r2.1 num_bytes r2.2).2.1 num_bytes
                    (to_bytes_encoding ev r2.1 num_bytes r2.2).2.2).1 := by omega
                exact to_bytes_attributes_encodable ev _ _ _ _ hnn k hk
                  (by simpa using hne)

/-! ## Reading a record that the encoder wrote -/

theorem unmarshall_be_of_head {α : Type} (g : List Nat → α) (w v : Nat) (bytes : List Nat)
    (n offset : Nat) (hp : be_bytes w v <+: bytes.drop offset) (hle : offset + w ≤ n) :
    (unmarshall_generic w bytes n offset).map (fun r => (g r.1, r.2)) =
      some (g (be_bytes w v), offset + w) := by
  have h := unmarshall_generic_of_head (be_bytes w v) bytes n offset hp
    (by rw [be_bytes_length]; exact hle)
  rw [be_bytes_length] at h
  rw [h]
  rfl

theorem unmarshall_SHORT_STRING_of_head (s bytes : List Nat) (n offset : Nat)
    (hp : short_string_bytes s <+: bytes.drop offset) (hlen : s.length ≤ 255)
    (hv : valid_string s) (hle : offset + (short_string_bytes s).length ≤ n) :
    unmarshall_SHORT_STRING (SHORT_STRING_MAX + 1) bytes n offset =
      some (s, offset + (short_string_bytes s).length) := by
  have hsplit : short_string_bytes s = be_bytes 1 s.length ++ s := by
    rw [be_bytes_one _ (by omega)]; rfl
  rw [hsplit] at hp
  simp only [short_string_bytes, List.length_cons] at hle ⊢
  obtain ⟨hp1, hp2⟩ := prefix_append_split _ _ _ _ hp
  rw [be_bytes_length] at hp2
  unfold unmarshall_SHORT_STRING
  have h1 : unmarshall_BYTE bytes n offset = some (s.length, offset + 1) := by
    have := unmarshall_be_of_head be_value 1 s.length bytes n offset hp1 (by omega)
    rw [be_value_be_bytes 1 s.length (by omega)] at this
    exact this
  rw [h1]
  simp only
  have hlt : s.length < SHORT_STRING_MAX + 1 := by unfold SHORT_STRING_MAX; omega
  simp only [hlt, if_true]
  rw [unmarshall_generic_of_head s bytes n (offset + 1) hp2 (by omega)]
  simp only [Option.map_some', c_str_of_valid s hv]
  rw [show offset + 1 + s.length = offset + (s.length + 1) by omega]

theorem unmarshall_LONG_STRING_of_head (s bytes : List Nat) (n offset : Nat)
    (hp : (be_bytes 2 s.length ++ s) <+: bytes.drop offset) (hlen : s.length ≤ 65535)
    (hv : valid_string s) (hle : offset + (be_bytes 2 s.length ++ s).length ≤ n) :
    unmarshall_LONG_STRING (LONG_STRING_MAX + 1) bytes n offset =
      some (s, offset + (be_bytes 2 s.length ++ s).length) := by
  simp only [List.length_append, be_bytes_length] at hle ⊢
  obtain ⟨hp1, hp2⟩ := prefix_append_split _ _ _ _ hp
  rw [be_bytes_length] at hp2
  unfold unmarshall_LONG_STRING
  have h1 : unmarshall_U_INT_16 bytes n offset = some (s.length, offset + 2) := by
    have := unmarshall_be_of_head be_value 2 s.length bytes n offset hp1 (by omega)
    rw [be_value_be_bytes 2 s.length (by norm_num; omega)] at this
    exact this
  rw [h1]
  simp only
  have hlt : s.length < LONG_STRING_MAX + 1 := by unfold LONG_STRING_MAX; omega
  simp only [hlt, if_true]
  rw [unmarshall_generic_of_head s bytes n (offset + 2) hp2 (by omega)]
  simp only [Option.map_some', c_str_of_valid s hv]
  rw [show offset + 2 + s.length = offset + (2 + s.length) by omega]

theorem signed_roundtrip_2 (v : Int) (h : -32768 ≤ v ∧ v < 32768) :
    to_signed 2 (be_value (be_bytes 2 (of_signed 2 v))) = v := by
  have hlt : of_signed 2 v < 256 ^ 2 := by
    unfold of_signed; norm_num; omega
  rw [be_value_be_bytes _ _ hlt]
  unfold to_signed of_signed
  norm_num
  split_ifs <;> omega

theorem signed_roundtrip_4 (v : Int) (h : -2147483648 ≤ v ∧ v < 2147483648) :
    to_signed 4 (be_value (be_bytes 4 (of_signed 4 v))) = v := by
  have hlt : of_signed 4 v < 256 ^ 4 := by
    unfold of_signed; norm_num; omega
  rw [be_value_be_bytes _ _ hlt]
  unfold to_signed of_signed
  norm_num
  split_ifs <;> omega

theorem signed_roundtrip_8 (v : Int)
    (h : -9223372036854775808 ≤ v ∧ v < 9223372036854775808) :
    to_signed 8 (be_value (be_bytes 8 (of_signed 8 v))) = v := by
  have hlt : of_signed 8 v < 256 ^ 8 := by
    unfold of_signed; norm_num; omega
  rw [be_value_be_bytes _ _ hlt]
  unfold to_signed of_signed
  norm_num
  split_ifs <;> omega

/-- A record that the encoder wrote for an attribute stored by a typed setter is
read back as the name and the call of that setter. -/
theorem read_record_written (k : List Nat) (c : typed_call) (bytes : List Nat)
    (n offset : Nat)
    (hp : record_bytes (k, ⟨c.token, c.stored⟩) <+: bytes.drop offset)
    (hle : offset + (record_bytes (k, ⟨c.token, c.stored⟩)).length ≤ n)
    (hk : valid_string k) (hc : c.valid) (hs : c.stored ≠ none)
    (henc : encodable (k, ⟨c.token, c.stored⟩)) :
    read_record bytes n offset =
      .ok (k, c, offset + (record_bytes (k, ⟨c.token, c.stored⟩)).length) := by
  obtain ⟨hklen, hstr⟩ := henc
  simp only at hklen hstr
  simp only [record_bytes, List.length_append, be_bytes_length] at hp hle ⊢
  obtain ⟨hp12, hp3⟩ := prefix_append_split _ _ _ _ hp
  obtain ⟨hp1, hp2⟩ := prefix_append_split _ _ _ _ hp12
  simp only [List.length_append, be_bytes_length] at hp3
  rw [← Nat.add_assoc] at hp3
  have hname := unmarshall_SHORT_STRING_of_head k bytes n offset hp1 hklen hk (by omega)
  have htag : unmarshall_BYTE bytes n (offset + (short_string_bytes k).length) =
      some (c.token, offset + (short_string_bytes k).length + 1) := by
    have := unmarshall_be_of_head be_value 1 c.token bytes n _ hp2 (by omega)
    rw [be_value_be_bytes 1 c.token (by have := typed_call_token_lt c; omega)] at this
    exact this
  unfold read_record
  rw [hname]
  simp only
  rw [htag]
  simp only
  cases c with
  | U_INT_16 v =>
    have hpl : payload_bytes ⟨(typed_call.U_INT_16 v).token, (typed_call.U_INT_16 v).stored⟩ =
        be_bytes 2 v := rfl
    rw [hpl] at hp3 hle ⊢
    simp only [typed_call.token]
    rw [if_pos trivial]
    have hrd : unmarshall_U_INT_16 bytes n (offset + (short_string_bytes k).length + 1) =
        some (v, offset + (short_string_bytes k).length + 1 + 2) := by
      have := unmarshall_be_of_head be_value 2 v bytes n _ hp3
        (by rw [be_bytes_length] at hle; omega)
      simp only at this
      rw [be_value_be_bytes 2 v (by simp only [typed_call.valid] at hc; norm_num; omega)] at this
      exact this
    rw [hrd]
    simp only [be_bytes_length, Except.ok.injEq, Prod.mk.injEq, true_and]
    omega
  | INT_16 v =>
    have hpl : payload_bytes ⟨(typed_call.INT_16 v).token, (typed_call.INT_16 v).stored⟩ =
        be_bytes 2 (of_signed 2 v) := rfl
    rw [hpl] at hp3 hle ⊢
    simp only [typed_call.token]
    rw [if_neg (by decide)]
    rw [if_pos trivial]
    have hrd : unmarshall_INT_16 bytes n (offset + (short_string_bytes k).length + 1) =
        some (v, offset + (short_string_bytes k).length + 1 + 2) := by
      have := unmarshall_be_of_head (fun b => to_signed 2 (be_value b)) 2 (of_signed 2 v) bytes n _ hp3
        (by rw [be_bytes_length] at hle; omega)
      simp only at this
      rw [signed_roundtrip_2 v hc] at this
      exact this
    rw [hrd]
    simp only [be_bytes_length, Except.ok.injEq, Prod.mk.injEq, true_and]
    omega
  | U_INT_32 v =>
    have hpl : payload_bytes ⟨(typed_call.U_INT_32 v).token, (typed_call.U_INT_32 v).stored⟩ =
        be_bytes 4 v := rfl
    rw [hpl] at hp3 hle ⊢
    simp only [typed_call.token]
    rw [if_neg (by decide)]
    rw [if_neg (by decide)]
    rw [if_pos trivial]
    have hrd : unmarshall_U_INT_32 bytes n (offset + (short_string_bytes k).length + 1) =
        some (v, offset + (short_string_bytes k).length + 1 + 4) := by
      have := unmarshall_be_of_head be_value 4 v bytes n _ hp3
        (by rw [be_bytes_length] at hle; omega)
      simp only at this
      rw [be_value_be_bytes 4 v (by simp only [typed_call.valid] at hc; norm_num; omega)] at this
      exact this
    rw [hrd]
    simp only [be_bytes_length, Except.ok.injEq, Prod.mk.injEq, true_and]
    omega
  | INT_32 v =>
    have hpl : payload_bytes ⟨(typed_call.INT_32 v).token, (typed_call.INT_32 v).stored⟩ =
        be_bytes 4 (of_signed 4 v) := rfl
    rw [hpl] at hp3 hle ⊢
    simp only [typed_call.token]
    rw [if_neg (by decide)]
    rw [if_neg (by decide)]
    rw [if_neg (by decide)]
    rw [if_pos trivial]
    have hrd : unmarshall_INT_32 bytes n (offset + (short_string_bytes k).length + 1) =
        some (v, offset + (short_string_bytes k).length + 1 + 4) := by
      have := unmarshall_be_of_head (fun b => to_signed 4 (be_value b)) 4 (of_signed 4 v) bytes n _ hp3
        (by rw [be_bytes_length] at hle; omega)
      simp only at this
      rw [signed_roundtrip_4 v hc] at this
      exact this
    rw [hrd]
    simp only [be_bytes_length, Except.ok.injEq, Prod.mk.injEq, true_and]
    omega
  | U_INT_64 v =>
    have hpl : payload_bytes ⟨(typed_call.U_INT_64 v).token, (typed_call.U_INT_64 v).stored⟩ =
        be_bytes 8 v := rfl
    rw [hpl] at hp3 hle ⊢
    simp only [typed_call.token]
    rw [if_neg (by decide)]
    rw [if_neg (by decide)]
    rw [if_neg (by decide)]
    rw [if_neg (by decide)]
    rw [if_pos trivial]
    have hrd : unmarshall_U_INT_64 bytes n (offset + (short_string_bytes k).length + 1) =
        some (v, offset + (short_string_bytes k).length + 1 + 8) := by
      have := unmarshall_be_of_head be_value 8 v bytes n _ hp3
        (by rw [be_bytes_length] at hle; omega)
      simp only at this
      rw [be_value_be_bytes 8 v (by simp only [typed_call.valid] at hc; norm_num; omega)] at this
      exact this
    rw [hrd]
    simp only [be_bytes_length, Except.ok.injEq, Prod.mk.injEq, true_and]
    omega
  | INT_64 v =>
    have hpl : payload_bytes ⟨(typed_call.INT_64 v).token, (typed_call.INT_64 v).stored⟩ =
        be_bytes 8 (of_signed 8 v) := rfl
    rw [hpl] at hp3 hle ⊢
    simp only [typed_call.token]
    rw [if_neg (by decide)]
    rw [if_neg (by decide)]
    rw [if_neg (by decide)]
    rw [if_neg (by decide)]
    rw [if_neg (by decide)]
    rw [if_pos trivial]
    have hrd : unmarshall_INT_64 bytes n (offset + (short_string_bytes k).length + 1) =
        some (v, offset + (short_string_bytes k).length + 1 + 8) := by
      have := unmarshall_be_of_head (fun b => to_signed 8 (be_value b)) 8 (of_signed 8 v) bytes n _ hp3
        (by rw [be_bytes_length] at hle; omega)
      simp only at this
      rw [signed_roundtrip_8 v hc] at this
      exact this
    rw [hrd]
    simp only [be_bytes_length, Except.ok.injEq, Prod.mk.injEq, true_and]
    omega
  | BOOLEAN v =>
    have hpl : payload_bytes ⟨(typed_call.BOOLEAN v).token, (typed_call.BOOLEAN v).stored⟩ =
        [if v then 1 else 0] := rfl
    rw [hpl] at hp3 hle ⊢
    simp only [typed_call.token]
    rw [if_neg (by decide)]
    rw [if_neg (by decide)]
    rw [if_neg (by decide)]
    rw [if_neg (by decide)]
    rw [if_neg (by decide)]
    rw [if_neg (by decide)]
    rw [if_pos trivial]
    have hrd : unmarshall_BOOLEAN bytes n (offset + (short_string_bytes k).length + 1) =
        some (v, offset + (short_string_bytes k).length + 1 + 1) := by
      unfold unmarshall_BOOLEAN
      have := unmarshall_generic_of_head [if v then 1 else 0] bytes n _ hp3
        (by simp only [List.length_singleton] at hle ⊢; omega)
      simp only [List.length_singleton] at this
      rw [this]
      cases v <;> rfl
    rw [hrd]
    simp only [List.length_singleton, Except.ok.injEq, Prod.mk.injEq, true_and]
    omega
  | IP_ADDR v =>
    have hpl : payload_bytes ⟨(typed_call.IP_ADDR v).token, (typed_call.IP_ADDR v).stored⟩ =
        be_bytes 4 v := rfl
    rw [hpl] at hp3 hle ⊢
    simp only [typed_call.token]
    rw [if_neg (by decide)]
    rw [if_neg (by decide)]
    rw [if_neg (by decide)]
    rw [if_neg (by decide)]
    rw [if_neg (by decide)]
    rw [if_neg (by decide)]
    rw [if_neg (by decide)]
    rw [if_pos trivial]
    have hrd : unmarshall_IP_ADDR bytes n (offset + (short_string_bytes k).length + 1) =
        some (v, offset + (short_string_bytes k).length + 1 + 4) := by
      have := unmarshall_be_of_head be_value 4 v bytes n _ hp3
        (by rw [be_bytes_length] at hle; omega)
      simp only at this
      rw [be_value_be_bytes 4 v (by simp only [typed_call.valid] at hc; norm_num; omega)] at this
      exact this
    rw [hrd]
    simp only [be_bytes_length, Except.ok.injEq, Prod.mk.injEq, true_and]
    omega
  | STRING sv =>
    cases sv with
    | none => exact absurd rfl hs
    | some s =>
      obtain ⟨s2, hs2, hs2len⟩ := hstr rfl
      simp only [typed_call.stored, Option.map_some', lwes_value.as_STRING,
        Option.some.injEq] at hs2
      subst hs2
      have hvs : valid_string s := hc s rfl
      have hpl : payload_bytes ⟨(typed_call.STRING (some s)).token,
          (typed_call.STRING (some s)).stored⟩ = be_bytes 2 s.length ++ s := rfl
      rw [hpl] at hp3 hle ⊢
      simp only [typed_call.token]
      rw [if_neg (by decide)]
      rw [if_neg (by decide)]
      rw [if_neg (by decide)]
      rw [if_neg (by decide)]
      rw [if_neg (by decide)]
      rw [if_neg (by decide)]
      rw [if_neg (by decide)]
      rw [if_neg (by decide)]
      rw [if_pos trivial]
      have hrd := unmarshall_LONG_STRING_of_head s bytes n _ hp3 hs2len hvs (by omega)
      rw [hrd]
      simp only [Except.ok.injEq, Prod.mk.injEq, true_and]
      omega

/-- `lwes_event_add` under a name that the table does not hold, and that the type
database (when there is one) permits with the type, succeeds. -/
theorem lwes_event_add_accepted (event : lwes_event) (attrNameIn : List Nat) (attrType : Nat)
    (attrValue : Option lwes_value)
    (hdb : db_accepts event.type_db event.eventName attrNameIn attrType)
    (hk : attrNameIn ∉ lwes_hash_keys event.attributes) :
    ∃ i : Nat, lwes_event_add event attrNameIn attrType attrValue =
        ((((event.number_of_attributes + 1) % 65536 : Nat) : Int),
          { event with
            attributes := { event.attributes with
              entries := insert_at i (attrNameIn, ⟨attrType, attrValue⟩)
                event.attributes.entries },
            number_of_attributes := (event.number_of_attributes + 1) % 65536 }) := by
  rcases lwes_event_add_cases event attrNameIn attrType attrValue with ⟨hneg, _⟩ | ⟨_, h⟩
  · exfalso
    revert hneg
    unfold lwes_event_add
    rcases lwes_hash_put_cases event.attributes attrNameIn
        (lwes_event_attribute_create attrType attrValue) with ⟨hin, _⟩ | ⟨_, i, h⟩
    · exact absurd hin hk
    · have hi : ¬ ((i : Int) < 0) := by omega
      cases hd : event.type_db with
      | none =>
        simp only [h, hi, if_false, Bool.false_eq_true]
        omega
      | some d =>
        obtain ⟨h1, h2⟩ := hdb d hd
        simp only [h, hi, if_false, h1, h2, decide_False, Bool.false_eq_true]
        omega
  · exact h

/-- The loop of reads and setter calls on the records that the encoder wrote:
every record is installed, the offset ends behind the last record, the name and
the type database stay, the counter advances by the number of records modulo
65536, and the table holds the records next to what it held. -/
theorem decode_records_written (bytes : List Nat) (n : Nat) :
    ∀ (recs : List (List Nat × lwes_event_attribute)) (ev : lwes_event) (offset : Nat),
      (recs.flatMap record_bytes) <+: bytes.drop offset →
      offset + (recs.flatMap record_bytes).length ≤ n →
      (∀ e ∈ recs, valid_string e.1 ∧ attribute_ok e.2 ∧ encodable e ∧
        db_accepts ev.type_db ev.eventName e.1 e.2.type) →
      (recs.map Prod.fst).Nodup →
      (∀ e ∈ recs, e.1 ∉ lwes_hash_keys ev.attributes) →
      ev.number_of_attributes < 65536 →
      ∃ ev2, decode_records recs.length (some ev) bytes n offset =
          (0, some ev2, offset + (recs.flatMap record_bytes).length) ∧
        ev2.eventName = ev.eventName ∧ ev2.type_db = ev.type_db ∧
        ev2.number_of_attributes = (ev.number_of_attributes + recs.length) % 65536 ∧
        ev2.attributes.entries.Perm (recs ++ ev.attributes.entries) := by
  intro recs
  induction recs with
  | nil =>
    intro ev offset _ _ _ _ _ hcount
    refine ⟨ev, rfl, rfl, rfl, ?_, List.Perm.refl _⟩
    simp only [List.length_nil, Nat.add_zero]
    omega
  | cons e rs ih =>
    intro ev offset hp hle hall hnd hfresh hcount
    obtain ⟨hv, hok, henc, hdb⟩ := hall e (List.mem_cons_self _ _)
    obtain ⟨c, hc, hs, hce⟩ := hok
    simp only [List.flatMap_cons, List.length_append] at hp hle ⊢
    obtain ⟨hp1, hp2⟩ := prefix_append_split _ _ _ _ hp
    have he : e = (e.1, (⟨c.token, c.stored⟩ : lwes_event_attribute)) := by
      rw [← hce]
    have hread : read_record bytes n offset =
        .ok (e.1, c, offset + (record_bytes e).length) := by
      have := read_record_written e.1 c bytes n offset (by rw [← he]; exact hp1)
        (by rw [← he]; omega) hv hc hs (by rw [← he]; exact henc)
      rw [← he] at this
      exact this
    have hk : e.1 ∉ lwes_hash_keys ev.attributes := hfresh e (List.mem_cons_self _ _)
    obtain ⟨i, hadd⟩ := lwes_event_add_accepted ev e.1 c.token c.stored
      (by rw [hce] at hdb; exact hdb) hk
    have hrun : c.run (some ev) (some e.1) =
        ((lwes_event_add ev e.1 c.token c.stored).1,
          some (lwes_event_add ev e.1 c.token c.stored).2) := by
      rcases typed_call_run_some c ev e.1 with ⟨h1, _⟩ | ⟨_, h1⟩
      · exact absurd h1 hs
      · exact h1
    rw [hadd] at hrun
    simp only [List.map_cons, List.nodup_cons] at hnd
    have hperm1 := insert_at_perm i (e.1, (⟨c.token, c.stored⟩ : lwes_event_attribute))
      ev.attributes.entries
    rw [← he] at hperm1
    obtain ⟨ev2, hloop, hn2, hd2, hc2, hp2'⟩ := ih
      { ev with
        attributes := { ev.attributes with
          entries := insert_at i (e.1, ⟨c.token, c.stored⟩) ev.attributes.entries },
        number_of_attributes := (ev.number_of_attributes + 1) % 65536 }
      (offset + (record_bytes e).length) hp2 (by omega)
      (fun e2 he2 => hall e2 (List.mem_cons_of_mem _ he2)) hnd.2
      (by
        intro e2 he2 hmem
        simp only [lwes_hash_keys] at hmem
        have hmem2 := (hperm1.map Prod.fst).mem_iff.mp (by rw [he]; exact hmem)
        simp only [List.map_cons, List.mem_cons] at hmem2
        rcases hmem2 with h1 | h1
        · exact hnd.1 (by rw [← h1]; exact List.mem_map_of_mem _ he2)
        · exact hfresh e2 (List.mem_cons_of_mem _ he2) h1)
      (by simp only; omega)
    refine ⟨ev2, ?_, hn2, hd2, ?_, ?_⟩
    · simp only [List.length_cons, decode_records, hread, hrun]
      have hnn : ¬ ((((ev.number_of_attributes + 1) % 65536 : Nat) : Int) < 0) := by omega
      simp only [hnn, if_false]
      rw [hloop, Nat.add_assoc]
    · rw [hc2]
      simp only [List.length_cons]
      omega
    · have hins : (insert_at i (e.1, (⟨c.token, c.stored⟩ : lwes_event_attribute))
          ev.attributes.entries).Perm (e :: ev.attributes.entries) := by
        have h := insert_at_perm i (e.1, (⟨c.token, c.stored⟩ : lwes_event_attribute))
          ev.attributes.entries
        exact h.trans (List.Perm.of_eq (by rw [← he]))
      exact hp2'.trans ((List.Perm.append_left rs hins).trans List.perm_middle)

/-! ## C1 : the round trip -/

/-- C1 (amended). For every reachable event, with or without a type database and
with or without an encoding attribute, that holds fewer than 65536 attributes,
and every buffer into which `lwes_event_to_bytes` encodes it (which needs the event
to have a name), `lwes_event_from_bytes` applied to the output on a fresh event,
whose type database, if it has one, permits each attribute of the event under the
name of the event, succeeds, consumes exactly the number of bytes written, and
yields an event with the same name, the same counter and the same attributes
(name, type tag and value) up to their order. -/
theorem round_trip (ev : lwes_event) (hreach : Reachable ev) (bytes : List Nat)
    (num_bytes offset : Nat) (w : Int) (out : Option (List Nat))
    (henc : lwes_event_to_bytes (some ev) (some bytes) num_bytes offset = (w, out))
    (hw : 0 ≤ w) (hcap : num_bytes ≤ bytes.length)
    (hlen : ev.attributes.entries.length < 65536)
    (db2 : Option lwes_event_type_db) (place2 : List (List Nat) → List Nat → Nat)
    (hdb : ∀ e ∈ ev.attributes.entries, db_accepts db2 ev.eventName e.1 e.2.type)
    (dtmp : lwes_event_deserialize_tmp) :
    ∃ B ev2, out = some B ∧
      lwes_event_from_bytes (lwes_event_create_no_name db2 place2) (some B) num_bytes offset
        (some dtmp) = (w, some ev2) ∧
      ev2.eventName = ev.eventName ∧
      ev2.number_of_attributes = ev.number_of_attributes ∧
      ev2.attributes.entries.Perm ev.attributes.entries := by
  have hwf := reachable_well_formed ev hreach
  obtain ⟨hex, hw2⟩ := to_bytes_result ev bytes num_bytes offset w out henc hw
  obtain ⟨B, name, hout, hname, hpre, _, _, hW⟩ :=
    to_bytes_output ev bytes num_bytes offset _ out hex (by omega) hcap
  obtain ⟨hlt, _, _, hfit, _, _⟩ := to_bytes_success ev bytes num_bytes offset _ out hex
    (by omega)
  obtain ⟨hnlen, hrecs⟩ := to_bytes_encodable ev bytes num_bytes offset _ out hex (by omega)
  have hperm := wire_records_perm ev hwf.nodup
  have hcount : ev.number_of_attributes = (wire_records ev).length := by
    rw [hwf.count, hperm.length_eq]
    exact Nat.mod_eq_of_lt hlen
  rw [hW] at hpre hfit hw2
  simp only [List.length_append, be_bytes_length] at hfit hw2
  obtain ⟨hp12, hp3⟩ := prefix_append_split _ _ _ _ hpre
  obtain ⟨hp1, hp2⟩ := prefix_append_split _ _ _ _ hp12
  simp only [List.length_append, be_bytes_length] at hp3
  rw [← Nat.add_assoc] at hp3
  have hrd1 := unmarshall_SHORT_STRING_of_head name B num_bytes offset hp1
    (hnlen name hname) (hwf.name_ok name hname) (by omega)
  have hrd2 : unmarshall_U_INT_16 B num_bytes (offset + (short_string_bytes name).length) =
      some (ev.number_of_attributes, offset + (short_string_bytes name).length + 2) := by
    have := unmarshall_be_of_head be_value 2 ev.number_of_attributes B num_bytes _ hp2
      (by omega)
    rw [be_value_be_bytes 2 ev.number_of_attributes (by
      have := hperm.length_eq
      norm_num
      omega)] at this
    exact this
  obtain ⟨ev2, hloop, hn2, _, hc2, hp2'⟩ := decode_records_written B num_bytes
    (wire_records ev)
    { empty_event db2 place2 with eventName := some name }
    (offset + (short_string_bytes name).length + 2) hp3 (by omega)
    (by
      intro e he
      have hmem := hperm.mem_iff.mp he
      refine ⟨hwf.keys_ok e.1 (List.mem_map_of_mem _ hmem), hwf.attrs_ok e hmem,
        hrecs e he, ?_⟩
      have := hdb e hmem
      rw [hname] at this
      exact this)
    ((hperm.map Prod.fst).nodup_iff.mpr hwf.nodup)
    (by
      intro e _ hmem
      simp [empty_event, lwes_hash_keys, lwes_hash_create] at hmem)
    (by simp [empty_event])
  refine ⟨B, ev2, hout, ?_, by rw [hn2, hname], ?_, ?_⟩
  · have hfresh : lwes_event_create_no_name db2 place2 = some (empty_event db2 place2) := rfl
    have hexact : from_bytes_exact (some (empty_event db2 place2)) (some B) num_bytes offset
        (some dtmp) =
          ((((short_string_bytes name).length + 2 +
            ((wire_records ev).flatMap record_bytes).length : Nat) : Int), some ev2) := by
      rw [from_bytes_eq_decode]
      have hpre2 : ¬ (num_bytes = 0 ∨ offset ≥ num_bytes) := by omega
      simp only [hpre2, if_false]
      unfold decode_by_setters
      rw [hrd1]
      have hset : lwes_event_set_name (some (empty_event db2 place2)) (some name) =
          (0, some { empty_event db2 place2 with eventName := some name }) := rfl
      simp only [hset, ne_eq, not_true_eq_false, if_false, hrd2]
      rw [hcount, hloop]
      simp only [Int.lt_irrefl, if_false, Prod.mk.injEq, and_true]
      push_cast
      omega
    rw [hfresh, from_bytes_cast, hexact]
    simp only
    rw [if_neg (by omega), hw2]
  · rw [hc2, hcount]
    simp only [empty_event, Nat.zero_add]
    have := hperm.length_eq
    omega
  · refine hp2'.trans ?_
    simp only [empty_event, lwes_hash_create, List.append_nil]
    exact hperm

theorem db_accepts_none (event_name : Option (List Nat)) (attr_name : List Nat)
    (type_value : Nat) : db_accepts none event_name attr_name type_value := by
  intro d hd
  cases hd

theorem reachable_event_test_state : Reachable event_test_state := by
  have h1 : Reachable event_enc_test :=
    ReachableWith.create_with_encoding none place_first [84, 101, 115, 116] 1 event_enc_test
      (by unfold valid_string; decide) (by unfold typed_call.valid; decide) trivial rfl
  have h2 : Reachable event_count_test :=
    ReachableWith.typed_setter event_enc_test event_count_test (.U_INT_32 42)
      [99, 111, 117, 110, 116] h1 (by unfold valid_string; decide)
      (by unfold typed_call.valid; decide) trivial rfl
  exact ReachableWith.typed_setter event_count_test event_test_state (.STRING (some [111, 107]))
    [108, 97, 98, 101, 108] h2 (by unfold valid_string; decide)
    (by
      intro s hs
      cases hs
      unfold valid_string
      decide) trivial rfl

/-- C1 at a concrete input: the event "Test" with the encoding 1, "count" = 42
and "label" = "ok", encoded at the offset 2 of a buffer of 40 bytes and decoded
into a fresh event. -/
theorem round_trip_witness :
    ∃ B ev2,
      (lwes_event_to_bytes (some event_test_state) (some (List.replicate 40 0)) 40 2).2 =
        some B ∧
      lwes_event_from_bytes (lwes_event_create_no_name none place_first) (some B) 40 2
        (some ⟨[], []⟩) = (36, some ev2) ∧
      ev2.eventName = event_test_state.eventName ∧
      ev2.number_of_attributes = event_test_state.number_of_attributes ∧
      ev2.attributes.entries.Perm event_test_state.attributes.entries :=
  round_trip event_test_state reachable_event_test_state (List.replicate 40 0) 40 2 36 _ rfl
    (by decide) (by decide) (by decide) none place_first
    (fun _ _ => db_accepts_none _ _ _) ⟨[], []⟩

/-- C1 fails as stated: the event without a name, built by
`lwes_event_create_no_name`, is not encoded into any buffer: `lwes_event_to_bytes`
returns -17 and leaves the buffer, so there is no output to decode. -/
theorem round_trip_counterexample :
    lwes_event_create_no_name none place_first = some fresh_event ∧
    Reachable fresh_event ∧ fresh_event.eventName = none ∧
    lwes_event_to_bytes (some fresh_event) (some (List.replicate 64 0)) 64 0 =
      (-17, some (List.replicate 64 0)) ∧
    ∀ (bytes : List Nat) (num_bytes offset : Nat),
      (lwes_event_to_bytes (some fresh_event) (some bytes) num_bytes offset).1 < 0 := by
  refine ⟨rfl, ReachableWith.create_no_name none place_first fresh_event rfl, rfl, rfl, ?_⟩
  intro bytes num_bytes offset
  by_contra hneg
  have hnn : 0 ≤ (lwes_event_to_bytes (some fresh_event) (some bytes) num_bytes offset).1 := by
    omega
  have h := to_bytes_success fresh_event bytes num_bytes offset _ _ rfl hnn
  exact h.2.1 rfl


/-! ## C11 : an unknown type tag -/

/-- A record whose name and type byte are read and whose type byte is none of
the nine tags is not a record: the read reports -20. -/
theorem read_record_unknown_tag (bytes : List Nat) (num_bytes offset : Nat)
    (nm : List Nat × Nat) (t : Nat × Nat)
    (hnm : unmarshall_SHORT_STRING (SHORT_STRING_MAX + 1) bytes num_bytes offset = some nm)
    (ht : unmarshall_BYTE bytes num_bytes nm.2 = some t) (hu : t.1 ∉ known_tags) :
    read_record bytes num_bytes offset = .error (-20) := by
  simp only [known_tags, List.mem_cons, List.mem_singleton, List.not_mem_nil, or_false,
    not_or] at hu
  obtain ⟨h1, h2, h3, h4, h5, h6, h7, h8, h9⟩ := hu
  unfold read_record
  simp only [hnm, ht, if_neg h1, if_neg h2, if_neg h3, if_neg h4, if_neg h5, if_neg h6,
    if_neg h7, if_neg h8, if_neg h9]

/-- The loop of reads and setter calls, run for more passes than succeed: when
the first `k` passes succeed and the next read fails, the loop stops there with
the code of the read and the event that the `k` passes have built. -/
theorem decode_records_stop (bytes : List Nat) (num_bytes : Nat) (code : Int) :
    ∀ (k m : Nat) (ev : Option lwes_event) (offset : Nat) (evk : Option lwes_event)
      (o : Nat),
      decode_records k ev bytes num_bytes offset = (0, evk, o) →
      read_record bytes num_bytes o = .error code →
      decode_records (k + 1 + m) ev bytes num_bytes offset = (code, evk, o) := by
  intro k
  induction k with
  | zero =>
    intro m ev offset evk o hk hbad
    simp only [decode_records, Prod.mk.injEq] at hk
    obtain ⟨_, h1, h2⟩ := hk
    subst h1 h2
    have : 0 + 1 + m = m + 1 := by omega
    rw [this]
    simp only [decode_records, hbad]
  | succ k ih =>
    intro m ev offset evk o hk hbad
    have e1 : k + 1 + 1 + m = (k + 1 + m) + 1 := by omega
    rw [e1]
    simp only [decode_records] at hk ⊢
    cases hr : read_record bytes num_bytes offset with
    | error c =>
      rw [hr] at hk
      simp only [Prod.mk.injEq] at hk
      have := read_record_error_neg bytes num_bytes offset c hr
      omega
    | ok v =>
      obtain ⟨name, call, next⟩ := v
      rw [hr] at hk
      simp only at hk ⊢
      by_cases hneg : (call.run ev (some name)).1 < 0
      · simp only [hneg, if_true, Prod.mk.injEq] at hk
        have := reject_code_neg call
        omega
      · simp only [hneg, if_false] at hk ⊢
        exact ih m _ next evk o hk hbad

/-- The loop of reads and setter calls on a buffer whose first `k` records are
read as records and whose next record has a type byte that is none of the nine
tags, run for more than `k` passes: the result is negative, and the event is the
one that the first `j` passes build, for some `j` up to `k`. -/
theorem decode_records_unknown (bytes : List Nat) (num_bytes : Nat) :
    ∀ (k m : Nat) (ev : Option lwes_event) (offset o : Nat),
      skip_records k bytes num_bytes offset = some o →
      read_record bytes num_bytes o = .error (-20) →
      (decode_records (k + 1 + m) ev bytes num_bytes offset).1 < 0 ∧
      ∃ j, j ≤ k ∧ (decode_records (k + 1 + m) ev bytes num_bytes offset).2.1 =
        (decode_records j ev bytes num_bytes offset).2.1 := by
  intro k
  induction k with
  | zero =>
    intro m ev offset o hskip hbad
    simp only [skip_records, Option.some.injEq] at hskip
    subst hskip
    have : 0 + 1 + m = m + 1 := by omega
    rw [this]
    simp only [decode_records, hbad]
    exact ⟨by decide, 0, Nat.le_refl 0, rfl⟩
  | succ k ih =>
    intro m ev offset o hskip hbad
    have e1 : k + 1 + 1 + m = (k + 1 + m) + 1 := by omega
    rw [e1]
    simp only [skip_records] at hskip
    cases hr : read_record bytes num_bytes offset with
    | error c =>
      rw [hr] at hskip
      cases hskip
    | ok v =>
      obtain ⟨name, call, next⟩ := v
      rw [hr] at hskip
      simp only at hskip
      simp only [decode_records, hr]
      by_cases hneg : (call.run ev (some name)).1 < 0
      · simp only [hneg, if_true]
        refine ⟨reject_code_neg call, 1, by omega, ?_⟩
        simp only [decode_records, hr, hneg, if_true]
      · simp only [hneg, if_false]
        obtain ⟨h1, j, hj, h2⟩ := ih m (call.run ev (some name)).2 next o hskip hbad
        refine ⟨h1, j + 1, by omega, ?_⟩
        rw [h2]
        simp only [decode_records, hr, hneg, if_false]

/-- A record with a type byte that is none of the nine tags stops the decoder
without the conversion with a negative value; when the name is set and the
setters install the records before it, the value is -20. -/
theorem from_bytes_exact_unknown_tag (ev : lwes_event) (bytes : List Nat) (num_bytes offset : Nat)
    (dtmp : lwes_event_deserialize_tmp) (name : List Nat × Nat) (count : Nat × Nat)
    (k m o : Nat) (nm : List Nat × Nat) (t : Nat × Nat)
    (hname : unmarshall_SHORT_STRING (SHORT_STRING_MAX + 1) bytes num_bytes offset = some name)
    (hcount : unmarshall_U_INT_16 bytes num_bytes name.2 = some count)
    (hk : count.1 = k + 1 + m)
    (hskip : skip_records k bytes num_bytes count.2 = some o)
    (hnm : unmarshall_SHORT_STRING (SHORT_STRING_MAX + 1) bytes num_bytes o = some nm)
    (ht : unmarshall_BYTE bytes num_bytes nm.2 = some t) (hu : t.1 ∉ known_tags) :
    (from_bytes_exact (some ev) (some bytes) num_bytes offset (some dtmp)).1 < 0 ∧
    (∃ j, j ≤ k ∧
      (from_bytes_exact (some ev) (some bytes) num_bytes offset (some dtmp)).2 =
        (decode_records j (lwes_event_set_name (some ev) (some name.1)).2 bytes num_bytes
          count.2).2.1) ∧
    (∀ (ev1 evk : Option lwes_event),
      lwes_event_set_name (some ev) (some name.1) = (0, ev1) →
      decode_records k ev1 bytes num_bytes count.2 = (0, evk, o) →
      from_bytes_exact (some ev) (some bytes) num_bytes offset (some dtmp) =
        (-20, evk)) := by
  have hbad := read_record_unknown_tag bytes num_bytes o nm t hnm ht hu
  have hpre2 : ¬ (num_bytes = 0 ∨ offset ≥ num_bytes) := by
    unfold unmarshall_SHORT_STRING unmarshall_BYTE unmarshall_generic at hname
    by_cases hle : offset + 1 ≤ num_bytes
    · omega
    · simp only [hle, if_false, Option.map_none'] at hname
      cases hname
  rw [from_bytes_eq_decode]
  simp only [hpre2, if_false]
  unfold decode_by_setters
  simp only [hname, hcount, hk]
  by_cases hset : (lwes_event_set_name (some ev) (some name.1)).1 ≠ 0
  · rw [if_pos hset]
    refine ⟨show (-24 : Int) < 0 by decide, ⟨0, Nat.zero_le k, rfl⟩, ?_⟩
    intro ev1 evk h1 _
    rw [h1] at hset
    exact absurd rfl hset
  · rw [if_neg hset]
    obtain ⟨hneg, j, hj, hev⟩ := decode_records_unknown bytes num_bytes k m
      (lwes_event_set_name (some ev) (some name.1)).2 count.2 o hskip hbad
    rw [if_pos hneg]
    refine ⟨hneg, ⟨j, hj, hev⟩, ?_⟩
    intro ev1 evk h1 hearlier
    have hloop := decode_records_stop bytes num_bytes (-20) k m ev1 count.2 evk o hearlier hbad
    rw [h1]
    simp only
    rw [hloop]

/-- C11. In a buffer whose name and count are read and whose first `k` attribute
records are read as records, a next record (one of the `N` that the count
announces) whose name and type byte are read and whose type byte is none of the
nine tags makes `lwes_event_from_bytes` return a negative value on every event:
the record is not skipped, and the event after the call holds what the name and
the first `j` records have built, for some `j` up to `k`, so no attribute for that
record or a later one.  When the name is set on the event and the setters install
the first `k` records, the value is -20 and the event is the one that the name
and these `k` records have built. -/
theorem unknown_tag_rejected (ev : lwes_event) (bytes : List Nat) (num_bytes offset : Nat)
    (dtmp : lwes_event_deserialize_tmp) (name : List Nat × Nat) (count : Nat × Nat)
    (k m o : Nat) (nm : List Nat × Nat) (t : Nat × Nat)
    (hname : unmarshall_SHORT_STRING (SHORT_STRING_MAX + 1) bytes num_bytes offset = some name)
    (hcount : unmarshall_U_INT_16 bytes num_bytes name.2 = some count)
    (hk : count.1 = k + 1 + m)
    (hskip : skip_records k bytes num_bytes count.2 = some o)
    (hnm : unmarshall_SHORT_STRING (SHORT_STRING_MAX + 1) bytes num_bytes o = some nm)
    (ht : unmarshall_BYTE bytes num_bytes nm.2 = some t) (hu : t.1 ∉ known_tags) :
    (lwes_event_from_bytes (some ev) (some bytes) num_bytes offset (some dtmp)).1 < 0 ∧
    (∃ j, j ≤ k ∧
      (lwes_event_from_bytes (some ev) (some bytes) num_bytes offset (some dtmp)).2 =
        (decode_records j (lwes_event_set_name (some ev) (some name.1)).2 bytes num_bytes
          count.2).2.1) ∧
    (∀ (ev1 evk : Option lwes_event),
      lwes_event_set_name (some ev) (some name.1) = (0, ev1) →
      decode_records k ev1 bytes num_bytes count.2 = (0, evk, o) →
      lwes_event_from_bytes (some ev) (some bytes) num_bytes offset (some dtmp) =
        (-20, evk)) := by
  have hx := from_bytes_exact_unknown_tag ev bytes num_bytes offset dtmp name count k m o nm t
    hname hcount hk hskip hnm ht hu
  rw [from_bytes_cast_failure _ _ _ _ _ hx.1]
  exact hx

/-- C11 at a concrete input: the buffer `unknown_tag_bytes` decoded into a fresh
event; the record "a" is installed, the record "b" with the type byte 77 stops
the decoding with -20, and the record "c" behind it is not installed. -/
theorem unknown_tag_rejected_witness :
    lwes_event_from_bytes (some fresh_event) (some unknown_tag_bytes) 19 0 (some ⟨[], []⟩) =
      (-20, some event_E_a7_no_db) :=
  (unknown_tag_rejected fresh_event unknown_tag_bytes 19 0 ⟨[], []⟩ ([69], 2) (3, 4) 1 1 9
    ([98], 11) (77, 12) rfl rfl rfl rfl rfl rfl (by decide)).2.2
    (some { fresh_event with eventName := some [69] }) (some event_E_a7_no_db) rfl rfl

/-! ## C12 : decoding into an event that holds attributes -/

/-- A name for which the table gives an attribute is a key of the table. -/
theorem mem_keys_of_get (hash : lwes_hash) (key : List Nat) (a : lwes_event_attribute)
    (h : lwes_hash_get hash key = some a) : key ∈ lwes_hash_keys hash := by
  unfold lwes_hash_get at h
  cases hf : hash.entries.find? (fun e => e.1 = key) with
  | none => rw [hf] at h; cases h
  | some e =>
    have h1 := List.find?_some hf
    have h2 := List.mem_of_find?_eq_some hf
    simp only [decide_eq_true_eq] at h1
    rw [← h1]
    exact List.mem_map_of_mem _ h2

/-- A typed setter call, successful or failing, keeps every attribute that the
table holds. -/
theorem typed_call_run_kept (c : typed_call) (ev ev2 : lwes_event) (name key : List Nat)
    (a : lwes_event_attribute) (hget : lwes_hash_get ev.attributes key = some a)
    (h : (c.run (some ev) (some name)).2 = some ev2) :
    lwes_hash_get ev2.attributes key = some a := by
  rcases typed_call_run_some c ev name with ⟨_, h1⟩ | ⟨_, h1⟩
  · rw [h1] at h
    cases h
    exact hget
  · rw [h1] at h
    simp only [Option.some.injEq] at h
    rcases lwes_event_add_cases ev name c.token c.stored with ⟨_, h2⟩ | ⟨hk, i, h2⟩
    · rw [h2] at h
      rw [← h]
      exact hget
    · rw [h2] at h
      rw [← h]
      have hne : key ≠ name := by
        intro he
        rw [he] at hget
        exact hk (mem_keys_of_get _ _ _ hget)
      simp only
      rw [lwes_hash_get_insert_at_other ev.attributes i name key _ hne]
      exact hget

/-- The loop of reads and setter calls keeps every attribute that the table
holds. -/
theorem decode_records_kept (bytes : List Nat) (num_bytes : Nat) (key : List Nat)
    (a : lwes_event_attribute) :
    ∀ (n : Nat) (ev : lwes_event) (offset : Nat) (ev2 : lwes_event),
      lwes_hash_get ev.attributes key = some a →
      (decode_records n (some ev) bytes num_bytes offset).2.1 = some ev2 →
      lwes_hash_get ev2.attributes key = some a := by
  intro n
  induction n with
  | zero =>
    intro ev offset ev2 hget h
    simp only [decode_records, Option.some.injEq] at h
    rw [← h]
    exact hget
  | succ n ih =>
    intro ev offset ev2 hget h
    simp only [decode_records] at h
    cases hr : read_record bytes num_bytes offset with
    | error c =>
      rw [hr] at h
      simp only [Option.some.injEq] at h
      rw [← h]
      exact hget
    | ok v =>
      obtain ⟨name, call, next⟩ := v
      rw [hr] at h
      simp only at h
      obtain ⟨ev1, h1⟩ := typed_call_run_isSome call ev name
      have hkept := typed_call_run_kept call ev ev1 name key a hget h1
      by_cases hneg : (call.run (some ev) (some name)).1 < 0
      · simp only [hneg, if_true] at h
        rw [h1] at h
        cases h
        exact hkept
      · simp only [hneg, if_false] at h
        rw [h1] at h
        exact ih ev1 next ev2 hkept h

/-- The decoding of a buffer that holds the wire form of a name and of records
into an event without a name: the records are installed next to the attributes
that the event holds. -/
theorem from_bytes_written (ev : lwes_event) (hname : ev.eventName = none)
    (name : List Nat) (recs : List (List Nat × lwes_event_attribute))
    (bytes : List Nat) (num_bytes offset : Nat) (dtmp : lwes_event_deserialize_tmp)
    (hv : valid_string name) (hlen : name.length ≤ 255)
    (hall : ∀ e ∈ recs, valid_string e.1 ∧ attribute_ok e.2 ∧ encodable e ∧
      db_accepts ev.type_db (some name) e.1 e.2.type)
    (hnd : (recs.map Prod.fst).Nodup)
    (hfresh : ∀ e ∈ recs, e.1 ∉ lwes_hash_keys ev.attributes)
    (hcount : ev.number_of_attributes + recs.length < 65536)
    (hp : event_bytes name recs <+: bytes.drop offset)
    (hle : offset + (event_bytes name recs).length ≤ num_bytes) :
    ∃ ev2, from_bytes_exact (some ev) (some bytes) num_bytes offset (some dtmp) =
        (((event_bytes name recs).length : Int), some ev2) ∧
      ev2.eventName = some name ∧
      ev2.number_of_attributes = ev.number_of_attributes + recs.length ∧
      ev2.attributes.entries.Perm (recs ++ ev.attributes.entries) ∧
      ∀ key a, lwes_hash_get ev.attributes key = some a →
        lwes_hash_get ev2.attributes key = some a := by
  unfold event_bytes at hp hle ⊢
  simp only [List.length_append, be_bytes_length] at hle ⊢
  obtain ⟨hp12, hp3⟩ := prefix_append_split _ _ _ _ hp
  obtain ⟨hp1, hp2⟩ := prefix_append_split _ _ _ _ hp12
  simp only [List.length_append, be_bytes_length] at hp3
  rw [← Nat.add_assoc] at hp3
  have hrd1 := unmarshall_SHORT_STRING_of_head name bytes num_bytes offset hp1 hlen hv
    (by omega)
  have hrd2 : unmarshall_U_INT_16 bytes num_bytes (offset + (short_string_bytes name).length) =
      some (recs.length, offset + (short_string_bytes name).length + 2) := by
    have := unmarshall_be_of_head be_value 2 recs.length bytes num_bytes _ hp2 (by omega)
    rw [be_value_be_bytes 2 recs.length (by norm_num; omega)] at this
    exact this
  obtain ⟨ev2, hloop, hn2, _, hc2, hperm⟩ := decode_records_written bytes num_bytes recs
    { ev with eventName := some name }
    (offset + (short_string_bytes name).length + 2) hp3 (by omega)
    hall hnd hfresh (by simp only; omega)
  refine ⟨ev2, ?_, hn2, ?_, hperm, ?_⟩
  · rw [from_bytes_eq_decode]
    have hpre2 : ¬ (num_bytes = 0 ∨ offset ≥ num_bytes) := by
      simp only [short_string_bytes, List.length_cons] at hle
      omega
    simp only [hpre2, if_false]
    unfold decode_by_setters
    rw [hrd1]
    have hset : lwes_event_set_name (some ev) (some name) =
        (0, some { ev with eventName := some name }) := by
      simp [lwes_event_set_name, hname]
    simp only [hset, ne_eq, not_true_eq_false, if_false, hrd2]
    rw [hloop]
    simp only [Int.lt_irrefl, if_false, Prod.mk.injEq, and_true]
    push_cast
    omega
  · rw [hc2]
    simp only
    omega
  · intro key a hget
    have h2 : (decode_records recs.length (some { ev with eventName := some name }) bytes
        num_bytes (offset + (short_string_bytes name).length + 2)).2.1 = some ev2 := by
      rw [hloop]
    exact decode_records_kept bytes num_bytes key a recs.length
      { ev with eventName := some name } _ ev2 hget h2

/-! ## Events of more than 2^31 bytes on the wire -/

theorem bulk_name_inj (i j : Nat) (hi : i < 16581375) (hj : j < 16581375)
    (h : bulk_name i = bulk_name j) : i = j := by
  simp only [bulk_name, List.cons.injEq, and_true] at h
  omega

theorem bulk_name_valid (i : Nat) (h : i < 16581375) : valid_string (bulk_name i) := by
  intro c hc
  simp only [bulk_name, List.mem_cons, List.mem_singleton, List.not_mem_nil, or_false] at hc
  rcases hc with rfl | rfl | rfl <;> omega

theorem bulk_name_not_encoding (i : Nat) (h : i < 6502500) : bulk_name i ≠ LWES_ENCODING := by
  intro he
  simp only [bulk_name, LWES_ENCODING, List.cons.injEq, and_true] at he
  omega

theorem bulk_name_length (i : Nat) : (bulk_name i).length = 3 := rfl

theorem bulk_entries_mem (n : Nat) (e : List Nat × lwes_event_attribute)
    (h : e ∈ bulk_entries n) : ∃ i, i < n ∧ e = (bulk_name i, bulk_value) := by
  induction n with
  | zero => simp [bulk_entries] at h
  | succ n ih =>
    simp only [bulk_entries, List.mem_cons] at h
    rcases h with h | h
    · exact ⟨n, by omega, h⟩
    · obtain ⟨i, hi, he⟩ := ih h
      exact ⟨i, by omega, he⟩

theorem bulk_entries_length (n : Nat) : (bulk_entries n).length = n := by
  induction n with
  | zero => rfl
  | succ n ih => simp only [bulk_entries, List.length_cons, ih]

theorem bulk_entries_nodup (n : Nat) (h : n ≤ 16581375) :
    ((bulk_entries n).map Prod.fst).Nodup := by
  induction n with
  | zero => simp [bulk_entries]
  | succ n ih =>
    simp only [bulk_entries, List.map_cons, List.nodup_cons]
    refine ⟨?_, ih (by omega)⟩
    intro hin
    simp only [List.mem_map] at hin
    obtain ⟨e, he, hk⟩ := hin
    obtain ⟨i, hi, hei⟩ := bulk_entries_mem n e he
    rw [hei] at hk
    have := bulk_name_inj i n (by omega) (by omega) hk
    omega

/-- The table of a bulk event gives `bulk_value` for every key that it holds, and
nothing for the reserved name. -/
theorem bulk_get (n : Nat) (place : List (List Nat) → List Nat → Nat) (key : List Nat)
    (h : key ∈ (bulk_entries n).map Prod.fst) :
    lwes_hash_get { entries := bulk_entries n, place := place } key = some bulk_value := by
  unfold lwes_hash_get
  simp only
  cases hf : (bulk_entries n).find? (fun e => e.1 = key) with
  | none =>
    exfalso
    simp only [List.mem_map] at h
    obtain ⟨e, he, hk⟩ := h
    have := List.find?_eq_none.mp hf e he
    simp [hk] at this
  | some e =>
    obtain ⟨i, _, hei⟩ := bulk_entries_mem n e (List.mem_of_find?_eq_some hf)
    rw [hei]
    rfl

theorem bulk_get_encoding (n : Nat) (h : n ≤ 6502500)
    (place : List (List Nat) → List Nat → Nat) :
    lwes_hash_get { entries := bulk_entries n, place := place } LWES_ENCODING = none := by
  unfold lwes_hash_get
  simp only
  cases hf : (bulk_entries n).find? (fun e => e.1 = LWES_ENCODING) with
  | none => rfl
  | some e =>
    exfalso
    obtain ⟨i, hi, hei⟩ := bulk_entries_mem n e (List.mem_of_find?_eq_some hf)
    have hp := List.find?_some hf
    rw [hei] at hp
    simp only [decide_eq_true_eq] at hp
    exact bulk_name_not_encoding i (by omega) hp

/-- The payload of a STRING attribute of 65535 bytes is written when it fits. -/
theorem to_bytes_value_long (a : lwes_event_attribute) (s : List Nat)
    (ht : a.type = LWES_STRING_TOKEN) (hv : a.value = some (.STRING s))
    (hs : s.length = 65535) (bytes : List Nat) (num_bytes offset : Nat)
    (h : offset + 65537 ≤ num_bytes) :
    (to_bytes_value a bytes num_bytes offset).1 = 0 ∧
    (to_bytes_value a bytes num_bytes offset).2.2 = offset + 65537 := by
  have hm : marshall_LONG_STRING (some s) bytes num_bytes offset =
      some (put_bytes (be_bytes 2 s.length ++ s) bytes offset, offset + 65537) := by
    unfold marshall_LONG_STRING
    simp only [hs, LONG_STRING_MAX, Nat.le_refl, if_true]
    rw [marshall_generic_of_le _ _ _ _ (by
      simp only [List.length_append, be_bytes_length, hs]
      omega)]
    simp only [List.length_append, be_bytes_length, hs]
  have hval : to_bytes_value a bytes num_bytes offset =
      match marshall_LONG_STRING (some s) bytes num_bytes offset with
      | none => (-15, bytes, offset)
      | some r => (0, r.1, r.2) := by
    unfold to_bytes_value
    simp [ht, hv, LWES_STRING_TOKEN, LWES_U_INT_16_TOKEN, LWES_INT_16_TOKEN,
      LWES_U_INT_32_TOKEN, LWES_INT_32_TOKEN, LWES_U_INT_64_TOKEN, LWES_INT_64_TOKEN,
      LWES_BOOLEAN_TOKEN, LWES_IP_ADDR_TOKEN, lwes_value.as_STRING]
  rw [hval, hm]
  exact ⟨rfl, rfl⟩

/-- The loop of the encoder over keys of three characters, none the reserved
name, under each of which the table holds the same STRING attribute of 65535
bytes: every record is written when all of them fit, and each one takes 65542
bytes. -/
theorem to_bytes_attributes_long (ev : lwes_event) (a : lwes_event_attribute) (s : List Nat)
    (ht : a.type = LWES_STRING_TOKEN) (hv : a.value = some (.STRING s))
    (hs : s.length = 65535) (num_bytes : Nat) :
    ∀ (keys : List (List Nat)) (bytes : List Nat) (offset : Nat),
      (∀ key ∈ keys, key ≠ LWES_ENCODING ∧ key.length = 3 ∧
        lwes_hash_get ev.attributes key = some a) →
      offset + keys.length * 65542 ≤ num_bytes →
      (to_bytes_attributes ev keys bytes num_bytes offset).1 = 0 ∧
      (to_bytes_attributes ev keys bytes num_bytes offset).2.2 =
        offset + keys.length * 65542 := by
  intro keys
  induction keys with
  | nil =>
    intro bytes offset _ _
    simp [to_bytes_attributes]
  | cons key rest ih =>
    intro bytes offset hkeys hfit
    obtain ⟨hne, hlen, hget⟩ := hkeys key (List.mem_cons_self _ _)
    simp only [List.length_cons] at hfit
    have h1 : marshall_SHORT_STRING (some key) bytes num_bytes offset =
        some (put_bytes (key.length :: key) bytes offset, offset + 4) := by
      unfold marshall_SHORT_STRING
      simp only [hlen, SHORT_STRING_MAX]
      rw [if_pos (by decide), marshall_generic_of_le _ _ _ _ (by
        simp only [List.length_cons, hlen]
        omega)]
      simp only [List.length_cons, hlen]
    have h2 : ∀ b : List Nat, marshall_BYTE a.type b num_bytes (offset + 4) =
        some (put_bytes (be_bytes 1 a.type) b (offset + 4), offset + 4 + 1) := by
      intro b
      unfold marshall_BYTE
      rw [marshall_generic_of_le _ _ _ _ (by
        simp only [be_bytes_length]
        omega)]
      simp only [be_bytes_length]
    simp only [to_bytes_attributes, if_neg hne, hget, Option.getD_some, h1, h2]
    obtain ⟨hv1, hv2⟩ := to_bytes_value_long a s ht hv hs
      (put_bytes (be_bytes 1 a.type) (put_bytes (key.length :: key) bytes offset)
        (offset + 4)) num_bytes (offset + 4 + 1) (by omega)
    have hneg : ¬ ((to_bytes_value a
        (put_bytes (be_bytes 1 a.type) (put_bytes (key.length :: key) bytes offset)
          (offset + 4)) num_bytes (offset + 4 + 1)).1 < 0) := by
      rw [hv1]
      decide
    rw [if_neg hneg, hv2]
    obtain ⟨i1, i2⟩ := ih _ (offset + 4 + 1 + 65537)
      (fun k hk => hkeys k (List.mem_cons_of_mem _ hk)) (by omega)
    refine ⟨i1, ?_⟩
    rw [i2]
    simp only [List.length_cons]
    omega

/-- The encoder without the conversion on a bulk event and a buffer that has
room: every byte of the layout is written and the result is its length,
`3 + k + n * 65542`. -/
theorem to_bytes_exact_bulk (k n : Nat) (hk : k ≤ 255) (hn : n ≤ 65536) (bytes : List Nat)
    (num_bytes offset : Nat) (hfit : offset + (3 + k + n * 65542) ≤ num_bytes) :
    to_bytes_exact (some (bulk_event k n)) (some bytes) num_bytes offset =
      (((3 + k + n * 65542 : Nat) : Int),
        some (put_bytes (wire_bytes (bulk_event k n)) bytes offset)) ∧
    (wire_bytes (bulk_event k n)).length = 3 + k + n * 65542 := by
  have hpre : ¬ (num_bytes = 0 ∨ offset ≥ num_bytes) := by omega
  have h1 : marshall_SHORT_STRING (bulk_event k n).eventName bytes num_bytes offset =
      some (put_bytes (k :: List.replicate k 110) bytes offset, offset + (k + 1)) := by
    unfold marshall_SHORT_STRING
    simp only [bulk_event, List.length_replicate, SHORT_STRING_MAX]
    rw [if_pos hk, marshall_generic_of_le _ _ _ _ (by
      simp only [List.length_cons, List.length_replicate]
      omega)]
    simp only [List.length_cons, List.length_replicate]
  have h2 : ∀ b : List Nat, marshall_U_INT_16 (bulk_event k n).number_of_attributes b
      num_bytes (offset + (k + 1)) =
        some (put_bytes (be_bytes 2 (bulk_event k n).number_of_attributes) b
          (offset + (k + 1)), offset + (k + 1) + 2) := by
    intro b
    unfold marshall_U_INT_16
    rw [marshall_generic_of_le _ _ _ _ (by
      simp only [be_bytes_length]
      omega)]
    simp only [be_bytes_length]
  have h3 : ∀ (b : List Nat) (o : Nat),
      to_bytes_encoding (bulk_event k n) b num_bytes o = (0, b, o) := by
    intro b o
    unfold to_bytes_encoding
    have := bulk_get_encoding n (by omega) place_first
    simp only [bulk_event, this]
  have hkeys : ∀ key ∈ lwes_hash_keys (bulk_event k n).attributes,
      key ≠ LWES_ENCODING ∧ key.length = 3 ∧
        lwes_hash_get (bulk_event k n).attributes key = some bulk_value := by
    intro key hkey
    have hget := bulk_get n place_first key hkey
    simp only [lwes_hash_keys, bulk_event, List.mem_map] at hkey
    obtain ⟨e, he, hek⟩ := hkey
    obtain ⟨i, hi, hei⟩ := bulk_entries_mem n e he
    rw [hei] at hek
    simp only at hek
    refine ⟨?_, ?_, hget⟩
    · rw [← hek]
      exact bulk_name_not_encoding i (by omega)
    · rw [← hek]
      rfl
  have hlen : (lwes_hash_keys (bulk_event k n).attributes).length = n := by
    simp only [lwes_hash_keys, bulk_event, List.length_map, bulk_entries_length]
  have h4 := to_bytes_attributes_long (bulk_event k n) bulk_value (List.replicate 65535 120)
    rfl rfl (List.length_replicate _ _) num_bytes
    (lwes_hash_keys (bulk_event k n).attributes)
    (put_bytes (be_bytes 2 (bulk_event k n).number_of_attributes)
      (put_bytes (k :: List.replicate k 110) bytes offset) (offset + (k + 1)))
    (offset + (k + 1) + 2) hkeys (by rw [hlen]; omega)
  rw [hlen] at h4
  have hres : to_bytes_exact (some (bulk_event k n)) (some bytes) num_bytes offset =
      (((3 + k + n * 65542 : Nat) : Int),
        (to_bytes_exact (some (bulk_event k n)) (some bytes) num_bytes offset).2) := by
    refine Prod.ext ?_ rfl
    unfold to_bytes_exact
    simp only [hpre, if_false, h1, h2, h3, Int.lt_irrefl, h4.1, h4.2]
    push_cast
    omega
  have hs := to_bytes_success (bulk_event k n) bytes num_bytes offset _ _ hres (by omega)
  obtain ⟨_, _, _, _, hout, hl⟩ := hs
  refine ⟨?_, by omega⟩
  rw [hres, hout]

/-- The encoder on a bulk event and a buffer that has room: the result is the
length of the layout converted to `int`. -/
theorem to_bytes_bulk (k n : Nat) (hk : k ≤ 255) (hn : n ≤ 65536) (bytes : List Nat)
    (num_bytes offset : Nat) (hfit : offset + (3 + k + n * 65542) ≤ num_bytes) :
    lwes_event_to_bytes (some (bulk_event k n)) (some bytes) num_bytes offset =
      (to_int ((3 + k + n * 65542 : Nat) : Int),
        some (put_bytes (wire_bytes (bulk_event k n)) bytes offset)) := by
  rw [to_bytes_cast, (to_bytes_exact_bulk k n hk hn bytes num_bytes offset hfit).1]
  simp only
  rw [if_neg (by omega)]


/-- The record of a STRING attribute of 65535 bytes under a name of three
characters takes 65542 bytes. -/
theorem record_bytes_long (key : List Nat) (a : lwes_event_attribute) (s : List Nat)
    (hk : key.length = 3) (ht : a.type = LWES_STRING_TOKEN) (hv : a.value = some (.STRING s))
    (hs : s.length = 65535) : (record_bytes (key, a)).length = 65542 := by
  have hp : payload_bytes a = be_bytes 2 s.length ++ s := by
    unfold payload_bytes
    simp [ht, hv, LWES_STRING_TOKEN, LWES_U_INT_16_TOKEN, LWES_INT_16_TOKEN,
      LWES_U_INT_32_TOKEN, LWES_INT_32_TOKEN, LWES_U_INT_64_TOKEN, LWES_INT_64_TOKEN,
      LWES_BOOLEAN_TOKEN, LWES_IP_ADDR_TOKEN, lwes_value.as_STRING]
  simp only [record_bytes, short_string_bytes, hp, List.length_append, List.length_cons,
    be_bytes_length, hk, hs]

theorem flatMap_length_const {α : Type} (f : α → List Nat) (c : Nat) (l : List α)
    (h : ∀ x ∈ l, (f x).length = c) : (l.flatMap f).length = l.length * c := by
  induction l with
  | nil => simp
  | cons x l ih =>
    simp only [List.flatMap_cons, List.length_append, List.length_cons,
      h x (List.mem_cons_self _ _), ih (fun y hy => h y (List.mem_cons_of_mem _ hy))]
    rw [Nat.add_mul, Nat.one_mul, Nat.add_comm]

/-- The wire form `bulk_bytes k n` takes `3 + k + n * 65542` bytes. -/
theorem bulk_bytes_length (k n : Nat) : (bulk_bytes k n).length = 3 + k + n * 65542 := by
  have hrec : ∀ e ∈ bulk_entries n, (record_bytes e).length = 65542 := by
    intro e he
    obtain ⟨i, _, hei⟩ := bulk_entries_mem n e he
    rw [hei]
    exact record_bytes_long (bulk_name i) bulk_value (List.replicate 65535 120) rfl rfl rfl
      (List.length_replicate _ _)
  simp only [bulk_bytes, event_bytes, short_string_bytes, List.length_append, List.length_cons,
    List.length_replicate, be_bytes_length,
    flatMap_length_const record_bytes 65542 (bulk_entries n) hrec, bulk_entries_length]
  omega

/-- Without a type database and with the placement rule that puts every new key
first, the string setter under a name that the table does not hold puts the
attribute first and advances the 16-bit counter. -/
theorem set_STRING_first (ev : lwes_event) (nm s : List Nat) (hdb : ev.type_db = none)
    (hp : ev.attributes.place = place_first) (hk : nm ∉ lwes_hash_keys ev.attributes) :
    lwes_event_set_STRING (some ev) (some nm) (some s) =
      ((((ev.number_of_attributes + 1) % 65536 : Nat) : Int),
        some { ev with
          attributes := { ev.attributes with
            entries := (nm, ⟨LWES_STRING_TOKEN, some (.STRING s)⟩) :: ev.attributes.entries },
          number_of_attributes := (ev.number_of_attributes + 1) % 65536 }) := by
  have hput : lwes_hash_put ev.attributes nm
      (lwes_event_attribute_create LWES_STRING_TOKEN (some (.STRING s))) =
        (0, { ev.attributes with
          entries := (nm, ⟨LWES_STRING_TOKEN, some (.STRING s)⟩) :: ev.attributes.entries }) := by
    have h0 : ev.attributes.place (lwes_hash_keys ev.attributes) nm = 0 := by
      rw [hp]
      rfl
    unfold lwes_hash_put
    rw [if_neg hk]
    simp only [h0, Nat.zero_min, insert_at, lwes_event_attribute_create]
    rfl
  unfold lwes_event_set_STRING lwes_event_add
  simp only [hdb, hput, Bool.false_eq_true, if_false, Int.lt_irrefl]

/-- The bulk events are reachable: the named constructor and then one call of
the string setter for each attribute. -/
theorem bulk_event_reachable (k n : Nat) (hn : n ≤ 16581375) : Reachable (bulk_event k n) := by
  induction n with
  | zero =>
    exact ReachableWith.create none place_first (List.replicate k 110) _
      (by
        intro c hc
        rw [List.eq_of_mem_replicate hc]
        omega) rfl
  | succ n ih =>
    have hfresh : bulk_name n ∉ lwes_hash_keys (bulk_event k n).attributes := by
      intro hin
      simp only [lwes_hash_keys, bulk_event, List.mem_map] at hin
      obtain ⟨e, he, hek⟩ := hin
      obtain ⟨i, hi, hei⟩ := bulk_entries_mem n e he
      rw [hei] at hek
      have := bulk_name_inj i n (by omega) (by omega) hek
      omega
    have hset := set_STRING_first (bulk_event k n) (bulk_name n) (List.replicate 65535 120)
      rfl rfl hfresh
    have hc : ((bulk_event k n).number_of_attributes + 1) % 65536 = (n + 1) % 65536 := by
      show (n % 65536 + 1) % 65536 = (n + 1) % 65536
      omega
    rw [hc] at hset
    refine ReachableWith.typed_setter (bulk_event k n) (bulk_event k (n + 1))
      (.STRING (some (List.replicate 65535 120))) (bulk_name n) (ih (by omega))
      (bulk_name_valid n (by omega)) ?_ trivial ?_
    · intro s hs
      simp only [Option.some.injEq] at hs
      rw [← hs]
      intro c hc
      rw [List.eq_of_mem_replicate hc]
      omega
    · show (lwes_event_set_STRING (some (bulk_event k n)) (some (bulk_name n))
        (some (List.replicate 65535 120))).2 = some (bulk_event k (n + 1))
      rw [hset]
      rfl

/-- The decoder without the conversion on the wire form `bulk_bytes k n` and an
event without a name and without type database that holds none of the names of
the records: every record is installed and the result is the number of bytes
read, `3 + k + n * 65542`. -/
theorem from_bytes_exact_bulk (k n : Nat) (hk : k ≤ 255) (hn : n ≤ 65535) (ev : lwes_event)
    (hname : ev.eventName = none) (hdb : ev.type_db = none)
    (hfresh : ∀ i, i < n → bulk_name i ∉ lwes_hash_keys ev.attributes)
    (hcount : ev.number_of_attributes + n < 65536) (num_bytes : Nat)
    (hcap : 3 + k + n * 65542 ≤ num_bytes) (dtmp : lwes_event_deserialize_tmp) :
    ∃ ev2, from_bytes_exact (some ev) (some (bulk_bytes k n)) num_bytes 0 (some dtmp) =
        (((3 + k + n * 65542 : Nat) : Int), some ev2) ∧
      ev2.number_of_attributes = ev.number_of_attributes + n ∧
      ev2.attributes.entries.Perm (bulk_entries n ++ ev.attributes.entries) := by
  obtain ⟨ev2, h, _, hc, hp, _⟩ := from_bytes_written ev hname (List.replicate k 110)
    (bulk_entries n) (bulk_bytes k n) num_bytes 0 dtmp
    (by
      intro c hc
      rw [List.eq_of_mem_replicate hc]
      omega)
    (by simp only [List.length_replicate]; exact hk)
    (by
      intro e he
      obtain ⟨i, hi, hei⟩ := bulk_entries_mem n e he
      rw [hei]
      refine ⟨bulk_name_valid i (by omega),
        ⟨.STRING (some (List.replicate 65535 120)), ?_, (by intro h; cases h), rfl⟩,
        ⟨by simp [bulk_name], fun _ => ⟨List.replicate 65535 120, rfl, by
          simp only [List.length_replicate]
          omega⟩⟩, ?_⟩
      · intro s hs
        simp only [Option.some.injEq] at hs
        rw [← hs]
        intro c hc
        rw [List.eq_of_mem_replicate hc]
        omega
      · rw [hdb]
        exact db_accepts_none _ _ _)
    (bulk_entries_nodup n (by omega))
    (by
      intro e he
      obtain ⟨i, hi, hei⟩ := bulk_entries_mem n e he
      rw [hei]
      exact hfresh i hi)
    (by rw [bulk_entries_length]; exact hcount)
    (by
      show bulk_bytes k n <+: (bulk_bytes k n).drop 0
      rw [List.drop_zero])
    (by
      show 0 + (bulk_bytes k n).length ≤ num_bytes
      rw [bulk_bytes_length]
      omega)
  refine ⟨ev2, ?_, ?_, hp⟩
  · rw [h]
    have := bulk_bytes_length k n
    unfold bulk_bytes at this
    rw [this]
  · rw [hc, bulk_entries_length]


/-! ## C8 : a buffer that is too small -/

/-- C8. For every event and every buffer whose capacity is smaller than the
offset plus the length of the wire layout of the event, `lwes_event_to_bytes`
returns a negative value; and whatever the capacity, the buffer after the call has
the same length and the same bytes before the start offset and from the capacity
on. -/
theorem bounds_rejection (ev : lwes_event) (bytes : List Nat) (num_bytes offset : Nat) :
    (num_bytes < offset + (wire_bytes ev).length →
      (lwes_event_to_bytes (some ev) (some bytes) num_bytes offset).1 < 0) ∧
    ∃ out, (lwes_event_to_bytes (some ev) (some bytes) num_bytes offset).2 = some out ∧
      same_outside offset num_bytes bytes out := by
  constructor
  · intro hsmall
    by_contra hneg
    have hnn : 0 ≤ (lwes_event_to_bytes (some ev) (some bytes) num_bytes offset).1 := by
      omega
    obtain ⟨he, _⟩ := to_bytes_result ev bytes num_bytes offset _ _ rfl hnn
    have h := to_bytes_success ev bytes num_bytes offset _ _ he (by omega)
    omega
  · rw [to_bytes_buffer]
    by_cases hpre : num_bytes = 0 ∨ offset ≥ num_bytes
    · refine ⟨bytes, ?_, same_outside_refl _ _ _⟩
      unfold to_bytes_exact
      simp only [hpre, if_true]
    · obtain ⟨res, hw, heq, _⟩ := to_bytes_writes ev bytes num_bytes offset hpre
      rw [heq]
      exact ⟨res.2.1, rfl, hw.2.1⟩

/-- C8 at a concrete input: the event named "T" with the encoding 1 takes 11 bytes;
with a capacity of 10 the encoder fails. -/
theorem bounds_rejection_witness :
    (lwes_event_to_bytes (some event_enc1) (some (List.replicate 12 0)) 10 0).1 < 0 :=
  (bounds_rejection event_enc1 (List.replicate 12 0) 10 0).1 (by decide)

/-! ## C5 : the encoding attribute goes first -/

/-- C5. For every event that holds an attribute under the reserved encoding name
and every successful `lwes_event_to_bytes`, whatever the enumeration order of the
table, the bytes written from the start offset are the name, the 2-byte count,
then the record of the encoding attribute (the short string `enc`, the INT_16 tag
and the 2-byte value), then the records of the other attributes, none of which
carries the reserved name: the encoding attribute is the first record and is
written once.  The result is the number of these bytes, converted to `int`. -/
theorem encoding_first (ev : lwes_event) (bytes : List Nat) (num_bytes offset : Nat)
    (r : Int) (out : Option (List Nat)) (a : lwes_event_attribute)
    (h : lwes_event_to_bytes (some ev) (some bytes) num_bytes offset = (r, out))
    (hr : 0 ≤ r) (hcap : num_bytes ≤ bytes.length)
    (ha : lwes_hash_get ev.attributes LWES_ENCODING = some a) :
    ∃ B name W, out = some B ∧ ev.eventName = some name ∧
      W = short_string_bytes name ++ be_bytes 2 ev.number_of_attributes ++
          record_bytes (LWES_ENCODING, a) ++ (other_records ev).flatMap record_bytes ∧
      get_bytes W.length B offset = W ∧
      r = to_int (W.length : Int) ∧
      record_bytes (LWES_ENCODING, a) =
        [3, 101, 110, 99, 2] ++ be_bytes 2 (of_signed 2 (lwes_value.as_INT_16 a.value)) ∧
      (∀ e ∈ other_records ev, e.1 ≠ LWES_ENCODING) := by
  obtain ⟨he, hr2⟩ := to_bytes_result ev bytes num_bytes offset r out h hr
  obtain ⟨B, name, hout, hname, _, hget, _, hw⟩ :=
    to_bytes_output ev bytes num_bytes offset _ out he (by omega) hcap
  obtain ⟨_, _, henc, _⟩ := to_bytes_success ev bytes num_bytes offset _ out he (by omega)
  have ht := (henc a ha).1
  rw [Int.toNat_ofNat] at hget
  have hW : wire_bytes ev = short_string_bytes name ++ be_bytes 2 ev.number_of_attributes ++
      record_bytes (LWES_ENCODING, a) ++ (other_records ev).flatMap record_bytes := by
    rw [hw]
    simp only [wire_records, encoding_record, ha, List.flatMap_append, List.flatMap_cons,
      List.flatMap_nil, List.append_nil, List.append_assoc]
  refine ⟨B, name, wire_bytes ev, hout, hname, hW, hget, hr2, ?_, other_records_not_encoding ev⟩
  simp only [record_bytes, payload_bytes_int16 a ht, ht]
  rfl

/-- C5 at a concrete input: the event "Test" with the encoding 1, "count" and
"label", whose table enumerates "label" and "count" before the encoding. -/
theorem encoding_first_witness :
    ∃ B name W, (some [4, 84, 101, 115, 116, 0, 3, 3, 101, 110, 99, 2, 0, 1, 5, 108, 97, 98,
        101, 108, 5, 0, 2, 111, 107, 5, 99, 111, 117, 110, 116, 3, 0, 0, 0, 42] :
        Option (List Nat)) = some B ∧ event_test_state.eventName = some name ∧
      W = short_string_bytes name ++ be_bytes 2 event_test_state.number_of_attributes ++
          record_bytes (LWES_ENCODING, ⟨LWES_INT_16_TOKEN, some (.INT_16 1)⟩) ++
          (other_records event_test_state).flatMap record_bytes ∧
      get_bytes W.length B 0 = W ∧
      (36 : Int) = to_int (W.length : Int) ∧
      record_bytes (LWES_ENCODING, ⟨LWES_INT_16_TOKEN, some (.INT_16 1)⟩) =
        [3, 101, 110, 99, 2] ++ be_bytes 2 (of_signed 2
          (lwes_value.as_INT_16 (some (.INT_16 1)))) ∧
      (∀ e ∈ other_records event_test_state, e.1 ≠ LWES_ENCODING) :=
  encoding_first event_test_state (List.replicate 36 0) 36 0 36 _
    ⟨LWES_INT_16_TOKEN, some (.INT_16 1)⟩ rfl (by decide) (by decide) rfl

/-! ## C7 : the wire layout and the size -/

/-- C7 (amended). For every event on which `lwes_event_to_bytes` succeeds, the
bytes written from the start offset are the event name as a short string, the
counter as a big-endian 16-bit field, and the records in wire order, and the
result is the total length of these fields converted to `int`: the total length
itself when that is below 2^31.  For a reachable event the records are the
attributes of the table, one record each: the name as a short string, the tag
byte, and the payload that the wire format lists for the tag.  For the event
"Test" with the encoding 1, "count" = 42 and "label" = "ok", the output begins
with the short string "Test", the count 3, and the name, the tag and the value 1
of the encoding attribute. -/
theorem wire_layout_and_size :
    (∀ (ev : lwes_event) (bytes : List Nat) (num_bytes offset : Nat) (r : Int)
        (out : Option (List Nat)),
      lwes_event_to_bytes (some ev) (some bytes) num_bytes offset = (r, out) → 0 ≤ r →
      num_bytes ≤ bytes.length →
      ∃ B name W, out = some B ∧ ev.eventName = some name ∧
        W = short_string_bytes name ++ be_bytes 2 ev.number_of_attributes ++
            (wire_records ev).flatMap record_bytes ∧
        get_bytes W.length B offset = W ∧
        r = to_int (W.length : Int) ∧
        (W.length < 2147483648 → r = (W.length : Int) ∧ get_bytes r.toNat B offset = W)) ∧
    (∀ ev : lwes_event, Reachable ev →
      (wire_records ev).Perm ev.attributes.entries ∧
      ∀ e ∈ wire_records ev,
        record_bytes e = short_string_bytes e.1 ++ [e.2.type] ++ payload_bytes e.2 ∧
        payload_table e.2) ∧
    lwes_event_to_bytes event_test (some (List.replicate 36 0)) 36 0 =
      (36, some ([4, 84, 101, 115, 116] ++ [0, 3] ++ [3, 101, 110, 99, 2, 0, 1] ++
        [5, 108, 97, 98, 101, 108, 5, 0, 2, 111, 107] ++
        [5, 99, 111, 117, 110, 116, 3, 0, 0, 0, 42])) := by
  refine ⟨?_, ?_, rfl⟩
  · intro ev bytes num_bytes offset r out h hr hcap
    obtain ⟨he, hr2⟩ := to_bytes_result ev bytes num_bytes offset r out h hr
    obtain ⟨B, name, hout, hname, _, hget, _, hw⟩ :=
      to_bytes_output ev bytes num_bytes offset _ out he (by omega) hcap
    rw [Int.toNat_ofNat] at hget
    refine ⟨B, name, wire_bytes ev, hout, hname, hw, hget, hr2, ?_⟩
    intro hsmall
    have hs : r = ((wire_bytes ev).length : Int) := by
      rw [hr2]
      exact to_int_small _ (by omega) (by omega)
    refine ⟨hs, ?_⟩
    rw [hs, Int.toNat_ofNat]
    exact hget
  · intro ev hreach
    have hwf := reachable_well_formed ev hreach
    have hperm := wire_records_perm ev hwf.nodup
    refine ⟨hperm, ?_⟩
    intro e he
    have hok := hwf.attrs_ok e (hperm.mem_iff.mp he)
    obtain ⟨h1, h2⟩ := payload_table_of_ok e.2 hok
    exact ⟨by simp only [record_bytes, h1], h2⟩

/-- C7 at a concrete input: the event "Test" in a buffer of 40 bytes at the
offset 2, and the records of the event with the encoding 1. -/
theorem wire_layout_and_size_witness :
    (∃ B name W, (lwes_event_to_bytes (some event_test_state)
          (some (List.replicate 40 0)) 40 2).2 = some B ∧
        event_test_state.eventName = some name ∧
        W = short_string_bytes name ++ be_bytes 2 event_test_state.number_of_attributes ++
            (wire_records event_test_state).flatMap record_bytes ∧
        get_bytes W.length B 2 = W ∧
        (36 : Int) = to_int (W.length : Int) ∧
        (W.length < 2147483648 →
          (36 : Int) = (W.length : Int) ∧ get_bytes (36 : Int).toNat B 2 = W)) ∧
    ((wire_records event_enc1).Perm event_enc1.attributes.entries ∧
      ∀ e ∈ wire_records event_enc1,
        record_bytes e = short_string_bytes e.1 ++ [e.2.type] ++ payload_bytes e.2 ∧
        payload_table e.2) :=
  ⟨wire_layout_and_size.1 event_test_state (List.replicate 40 0) 40 2 36 _ rfl
      (by decide) (by decide),
    wire_layout_and_size.2.1 event_enc1
      (ReachableWith.create_with_encoding none place_first [84] 1 event_enc1
        (by unfold valid_string; decide) (by unfold typed_call.valid; decide) trivial rfl)⟩

/-- C7 fails as stated: the reachable event `bulk_event 34 65530`, with a name of
34 characters and 65530 STRING attributes of 65535 bytes, takes 4294967297 bytes
on the wire; `lwes_event_to_bytes` writes them into a buffer of that size and
returns 1, not the total length. -/
theorem wire_layout_and_size_counterexample :
    Reachable (bulk_event 34 65530) ∧
    (wire_bytes (bulk_event 34 65530)).length = 4294967297 ∧
    lwes_event_to_bytes (some (bulk_event 34 65530)) (some (List.replicate 4294967297 0))
        4294967297 0 =
      (1, some (put_bytes (wire_bytes (bulk_event 34 65530)) (List.replicate 4294967297 0)
        0)) := by
  refine ⟨bulk_event_reachable 34 65530 (by decide), ?_, ?_⟩
  · rw [(to_bytes_exact_bulk 34 65530 (by decide) (by decide) [] 4294967297 0
      (by decide)).2]
  · rw [to_bytes_bulk 34 65530 (by decide) (by decide) _ 4294967297 0 (by decide)]
    rfl

/-! ## C10 : the decoder is the sequence of setter calls -/

/-- C10 (amended). For every buffer, offset and event, `lwes_event_from_bytes`
ends in the same event state as reading the name and calling
`lwes_event_set_name` once, reading the count, and then reading each record and
calling the typed setter of its type tag in wire order, stopping at the first
read or setter failure; its result is the code of that sequence when the
sequence fails and the number of bytes read, converted to `int`, when it
succeeds, so the two have the same result for every decode that reads fewer than
2^31 bytes.  In particular, when the loop comes to a record whose name is already
in the table, or which the type database of the event rejects, the decode fails
with a negative result. -/
theorem decode_is_setter_sequence :
    (∀ (ev : lwes_event) (bytes : List Nat) (num_bytes offset : Nat)
        (dtmp : lwes_event_deserialize_tmp),
      (lwes_event_from_bytes (some ev) (some bytes) num_bytes offset (some dtmp)).2 =
        (if num_bytes = 0 ∨ offset ≥ num_bytes then (-1, some ev)
          else decode_by_setters (some ev) bytes num_bytes offset).2 ∧
      (lwes_event_from_bytes (some ev) (some bytes) num_bytes offset (some dtmp)).1 =
        (if (if num_bytes = 0 ∨ offset ≥ num_bytes then (-1, some ev)
              else decode_by_setters (some ev) bytes num_bytes offset).1 < 0 then
            (if num_bytes = 0 ∨ offset ≥ num_bytes then (-1, some ev)
              else decode_by_setters (some ev) bytes num_bytes offset).1
          else to_int (if num_bytes = 0 ∨ offset ≥ num_bytes then (-1, some ev)
              else decode_by_setters (some ev) bytes num_bytes offset).1) ∧
      ((if num_bytes = 0 ∨ offset ≥ num_bytes then (-1, some ev)
          else decode_by_setters (some ev) bytes num_bytes offset).1 < 2147483648 →
        lwes_event_from_bytes (some ev) (some bytes) num_bytes offset (some dtmp) =
          if num_bytes = 0 ∨ offset ≥ num_bytes then (-1, some ev)
          else decode_by_setters (some ev) bytes num_bytes offset)) ∧
    (∀ (n : Nat) (ev : lwes_event) (bytes : List Nat) (num_bytes offset : Nat)
        (name : List Nat) (call : typed_call) (next : Nat),
      read_record bytes num_bytes offset = .ok (name, call, next) →
      (name ∈ lwes_hash_keys ev.attributes ∨
        ∃ db, ev.type_db = some db ∧
          (lwes_event_type_db_check_for_attribute db name ev.eventName = 0 ∨
            lwes_event_type_db_check_for_type db call.token name ev.eventName = 0)) →
      (from_bytes_attributes (n + 1) (some ev) bytes num_bytes offset).1 < 0 ∧
      (from_bytes_attributes (n + 1) (some ev) bytes num_bytes offset).2.1 = some ev) := by
  refine ⟨?_, from_bytes_rejected_record⟩
  intro ev bytes num_bytes offset dtmp
  have hc := from_bytes_cast (some ev) (some bytes) num_bytes offset (some dtmp)
  rw [from_bytes_eq_decode] at hc
  refine ⟨by rw [hc], by rw [hc], ?_⟩
  intro hsmall
  rw [hc]
  generalize (if num_bytes = 0 ∨ offset ≥ num_bytes then ((-1 : Int), some ev)
    else decode_by_setters (some ev) bytes num_bytes offset) = S at hsmall ⊢
  refine Prod.ext ?_ rfl
  simp only
  by_cases hneg : S.1 < 0
  · rw [if_pos hneg]
  · rw [if_neg hneg]
    exact to_int_small _ (by omega) hsmall

/-- C10 at a concrete input: on the event that holds "a", a buffer with one
record named "a" makes the loop of the decoder fail and leaves the event. -/
theorem decode_is_setter_sequence_witness :
    (from_bytes_attributes (0 + 1) (some event_a5) [1, 97, 1, 0, 7] 5 0).1 < 0 ∧
    (from_bytes_attributes (0 + 1) (some event_a5) [1, 97, 1, 0, 7] 5 0).2.1 =
      some event_a5 :=
  decode_is_setter_sequence.2 0 event_a5 [1, 97, 1, 0, 7] 5 0 [97] (.U_INT_16 7) 5 rfl
    (Or.inl (by decide))

/-- C10 fails as stated: on the 4294967264 bytes of `bulk_bytes 1 65530`, a name
and 65530 STRING records, every read and every setter call of the sequence
succeeds on a fresh event and 4294967264 bytes are read, and
`lwes_event_from_bytes` returns -32, a failure. -/
theorem decode_is_setter_sequence_counterexample :
    (bulk_bytes 1 65530).length = 4294967264 ∧
    (decode_by_setters (some fresh_event) (bulk_bytes 1 65530) 4294967264 0).1 =
      4294967264 ∧
    (lwes_event_from_bytes (some fresh_event) (some (bulk_bytes 1 65530)) 4294967264 0
      (some ⟨[], []⟩)).1 = -32 := by
  obtain ⟨ev2, h, _, _⟩ := from_bytes_exact_bulk 1 65530 (by decide) (by decide) fresh_event
    rfl rfl (by
      intro i _ hin
      simp [fresh_event, lwes_hash_keys, lwes_hash_create] at hin)
    (by decide) 4294967264 (by decide) ⟨[], []⟩
  refine ⟨bulk_bytes_length 1 65530, ?_, ?_⟩
  · rw [from_bytes_eq_decode] at h
    rw [if_neg (by decide)] at h
    rw [h]
    rfl
  · rw [from_bytes_cast, h]
    rfl

/-- The records of `test_bytes` are records of typed setter values that fit the
wire format. -/
theorem test_records_ok (db : Option lwes_event_type_db) (hdb : db = none)
    (event_name : Option (List Nat)) :
    ∀ e ∈ test_records, valid_string e.1 ∧ attribute_ok e.2 ∧ encodable e ∧
      db_accepts db event_name e.1 e.2.type := by
  subst hdb
  intro e he
  simp only [test_records, List.mem_cons, List.mem_singleton, List.not_mem_nil,
    or_false] at he
  rcases he with rfl | rfl | rfl
  · refine ⟨valid_string_encoding, ⟨.INT_16 1, by unfold typed_call.valid; decide,
      by simp [typed_call.stored], rfl⟩, ⟨by decide, ?_⟩, db_accepts_none _ _ _⟩
    intro h
    exact absurd h (by decide)
  · refine ⟨by unfold valid_string; decide, ⟨.STRING (some [111, 107]), ?_,
      by simp [typed_call.stored], rfl⟩, ⟨by decide, ?_⟩, db_accepts_none _ _ _⟩
    · intro s hs
      cases hs
      unfold valid_string
      decide
    · intro _
      exact ⟨[111, 107], rfl, by decide⟩
  · refine ⟨by unfold valid_string; decide, ⟨.U_INT_32 42, by unfold typed_call.valid; decide,
      by simp [typed_call.stored], rfl⟩, ⟨by decide, ?_⟩, db_accepts_none _ _ _⟩
    intro h
    exact absurd h (by decide)

theorem reachable_event_named_a5 : Reachable event_named_a5 := by
  have h1 : Reachable { fresh_event with eventName := some [84] } :=
    ReachableWith.create none place_first [84] _ (by unfold valid_string; decide) rfl
  exact ReachableWith.typed_setter _ event_named_a5 (.U_INT_16 5) [97] h1
    (by unfold valid_string; decide) (by unfold typed_call.valid; decide) trivial rfl

/-- C12 (amended). For every event without a name that holds attributes, and
every buffer that holds the wire form of an event (a name and records of typed
setter values, with pairwise distinct attribute names) whose attribute names the
event does not hold, whose records the type database of the event, when it has
one, permits, and whose count together with the counter of the event stays below
65536, `lwes_event_from_bytes` consumes the wire form, sets the name, keeps every
attribute that the event held, adds the decoded attributes, and leaves the
counter at the sum of the prior counter and the decoded count; its result is the
length of the wire form converted to `int`, so it succeeds, with that length as
the result, when the wire form is shorter than 2^31 bytes. -/
theorem aggregation (ev : lwes_event) (hname : ev.eventName = none)
    (name : List Nat) (recs : List (List Nat × lwes_event_attribute))
    (bytes : List Nat) (num_bytes offset : Nat) (dtmp : lwes_event_deserialize_tmp)
    (hv : valid_string name) (hlen : name.length ≤ 255)
    (hall : ∀ e ∈ recs, valid_string e.1 ∧ attribute_ok e.2 ∧ encodable e ∧
      db_accepts ev.type_db (some name) e.1 e.2.type)
    (hnd : (recs.map Prod.fst).Nodup)
    (hfresh : ∀ e ∈ recs, e.1 ∉ lwes_hash_keys ev.attributes)
    (hcount : ev.number_of_attributes + recs.length < 65536)
    (hp : event_bytes name recs <+: bytes.drop offset)
    (hle : offset + (event_bytes name recs).length ≤ num_bytes) :
    ∃ ev2, lwes_event_from_bytes (some ev) (some bytes) num_bytes offset (some dtmp) =
        (to_int ((event_bytes name recs).length : Int), some ev2) ∧
      ((event_bytes name recs).length < 2147483648 →
        lwes_event_from_bytes (some ev) (some bytes) num_bytes offset (some dtmp) =
          (((event_bytes name recs).length : Int), some ev2)) ∧
      ev2.eventName = some name ∧
      ev2.number_of_attributes = ev.number_of_attributes + recs.length ∧
      ev2.attributes.entries.Perm (recs ++ ev.attributes.entries) ∧
      ∀ key a, lwes_hash_get ev.attributes key = some a →
        lwes_hash_get ev2.attributes key = some a := by
  obtain ⟨ev2, h, h1, h2, h3, h4⟩ := from_bytes_written ev hname name recs bytes num_bytes
    offset dtmp hv hlen hall hnd hfresh hcount hp hle
  have hr : lwes_event_from_bytes (some ev) (some bytes) num_bytes offset (some dtmp) =
      (to_int ((event_bytes name recs).length : Int), some ev2) := by
    rw [from_bytes_cast, h]
    simp only
    rw [if_neg (by omega)]
  refine ⟨ev2, hr, ?_, h1, h2, h3, h4⟩
  intro hsmall
  rw [hr, to_int_small _ (by omega) (by omega)]

/-- C12 at a concrete input: the buffer `test_bytes` decoded into the event
without a name that holds "a" = 5. -/
theorem aggregation_witness :
    ∃ ev2, lwes_event_from_bytes (some event_a5) (some test_bytes) 36 0 (some ⟨[], []⟩) =
        (to_int ((event_bytes [84, 101, 115, 116] test_records).length : Int), some ev2) ∧
      ((event_bytes [84, 101, 115, 116] test_records).length < 2147483648 →
        lwes_event_from_bytes (some event_a5) (some test_bytes) 36 0 (some ⟨[], []⟩) =
          (((event_bytes [84, 101, 115, 116] test_records).length : Int), some ev2)) ∧
      ev2.eventName = some [84, 101, 115, 116] ∧
      ev2.number_of_attributes = event_a5.number_of_attributes + test_records.length ∧
      ev2.attributes.entries.Perm (test_records ++ event_a5.attributes.entries) ∧
      ∀ key a, lwes_hash_get event_a5.attributes key = some a →
        lwes_hash_get ev2.attributes key = some a :=
  aggregation event_a5 rfl [84, 101, 115, 116] test_records test_bytes 36 0 ⟨[], []⟩
    (by unfold valid_string; decide) (by decide) (test_records_ok none rfl _) (by decide)
    (by decide) (by decide) ⟨[], rfl⟩ (by decide)

/-- C12 fails as stated.  The event named "T" that holds "a" = 5, built by
`lwes_event_create` and `lwes_event_set_U_INT_16`, does not take the well-formed
buffer `test_bytes`, none of whose attribute names it holds: the name of the
buffer cannot be set on an event that has a name, and `lwes_event_from_bytes`
returns -24 and adds nothing.  And the event without a name that holds "a" = 5
takes the 65530 STRING records of the well-formed buffer `bulk_bytes 2 65530`,
none of whose attribute names it holds, yet `lwes_event_from_bytes` returns -31,
a failure: the 4294967265 bytes read do not fit the `int`. -/
theorem aggregation_counterexample :
    (Reachable event_named_a5 ∧
      event_bytes [84, 101, 115, 116] test_records = test_bytes ∧
      (∀ e ∈ test_records, e.1 ∉ lwes_hash_keys event_named_a5.attributes) ∧
      lwes_event_from_bytes (some event_named_a5) (some test_bytes) 36 0 (some ⟨[], []⟩) =
        (-24, some event_named_a5)) ∧
    (event_a5.eventName = none ∧
      (∀ e ∈ bulk_entries 65530, e.1 ∉ lwes_hash_keys event_a5.attributes) ∧
      event_a5.number_of_attributes + (bulk_entries 65530).length < 65536 ∧
      (bulk_bytes 2 65530).length = 4294967265 ∧
      (lwes_event_from_bytes (some event_a5) (some (bulk_bytes 2 65530)) 4294967265 0
        (some ⟨[], []⟩)).1 = -31) := by
  have hfresh : ∀ i, i < 65530 → bulk_name i ∉ lwes_hash_keys event_a5.attributes := by
    intro i _ hin
    simp [event_a5, lwes_hash_keys, bulk_name] at hin
  refine ⟨⟨reachable_event_named_a5, rfl, by decide, rfl⟩, rfl, ?_, ?_,
    bulk_bytes_length 2 65530, ?_⟩
  · intro e he
    obtain ⟨i, hi, hei⟩ := bulk_entries_mem 65530 e he
    rw [hei]
    exact hfresh i hi
  · rw [bulk_entries_length]
    decide
  · obtain ⟨ev2, h, _, _⟩ := from_bytes_exact_bulk 2 65530 (by decide) (by decide) event_a5
      rfl rfl hfresh (by decide) 4294967265 (by decide) ⟨[], []⟩
    rw [from_bytes_cast, h]
    rfl

/-! ## C13 : the type database -/

/-- A typed setter call that fails leaves the event. -/
theorem typed_call_run_failed (c : typed_call) (ev : lwes_event) (name : List Nat)
    (h : (c.run (some ev) (some name)).1 < 0) :
    (c.run (some ev) (some name)).2 = some ev := by
  rcases typed_call_run_some c ev name with ⟨_, h1⟩ | ⟨_, h1⟩
  · rw [h1]
  · rw [h1] at h ⊢
    rcases lwes_event_add_cases ev name c.token c.stored with ⟨_, h2⟩ | ⟨_, i, h2⟩
    · simp only [h2]
    · rw [h2] at h
      simp only at h
      omega

/-- A typed setter call with a value, under a name that the table does not hold
and that the type database, when there is one, permits with the type, succeeds
and stores the attribute. -/
theorem typed_call_run_accepted (c : typed_call) (ev : lwes_event) (name : List Nat)
    (hdb : db_accepts ev.type_db ev.eventName name c.token)
    (hk : name ∉ lwes_hash_keys ev.attributes) (hs : c.stored ≠ none) :
    0 ≤ (c.run (some ev) (some name)).1 ∧
    ∃ ev2, (c.run (some ev) (some name)).2 = some ev2 ∧
      lwes_hash_get ev2.attributes name = some ⟨c.token, c.stored⟩ := by
  rcases typed_call_run_some c ev name with ⟨h0, _⟩ | ⟨_, h1⟩
  · exact absurd h0 hs
  · obtain ⟨i, hadd⟩ := lwes_event_add_accepted ev name c.token c.stored hdb hk
    rw [h1, hadd]
    refine ⟨by simp only; omega, _, rfl, ?_⟩
    exact lwes_hash_get_insert_at ev.attributes i name _ hk

/-- C13. On an event with a type database, a typed setter call whose attribute
name the database does not permit for the name of the event, or whose type tag
is not the one that the database has for the attribute, returns a negative value
and leaves the event, its table and its counter as they were; a call with a
value that the database permits, under a name that the table does not hold,
succeeds and stores the attribute.  With the database that permits "a" as
U_INT_16 on the event "E", setting "a" as INT_32 returns -2 and setting "a" as
U_INT_16 returns 1.  Without a type database a typed setter call fails only
under a name that the table holds or, for the string setter, without a value. -/
theorem schema_enforcement :
    (∀ (ev : lwes_event) (db : lwes_event_type_db) (name : List Nat) (c : typed_call),
      ev.type_db = some db →
      (lwes_event_type_db_check_for_attribute db name ev.eventName = 0 ∨
        lwes_event_type_db_check_for_type db c.token name ev.eventName = 0) →
      (c.run (some ev) (some name)).1 < 0 ∧ (c.run (some ev) (some name)).2 = some ev) ∧
    (∀ (ev : lwes_event) (name : List Nat) (c : typed_call),
      db_accepts ev.type_db ev.eventName name c.token →
      name ∉ lwes_hash_keys ev.attributes → c.stored ≠ none →
      0 ≤ (c.run (some ev) (some name)).1 ∧
      ∃ ev2, (c.run (some ev) (some name)).2 = some ev2 ∧
        lwes_hash_get ev2.attributes name = some ⟨c.token, c.stored⟩) ∧
    (lwes_event_create (some schema_a_uint16) place_first (some [69]) = some event_E ∧
      lwes_event_set_INT_32 (some event_E) (some [97]) 7 = (-2, some event_E) ∧
      lwes_event_set_U_INT_16 (some event_E) (some [97]) 7 = (1, some event_E_a7)) ∧
    (∀ (ev : lwes_event) (name : List Nat) (c : typed_call),
      ev.type_db = none → (c.run (some ev) (some name)).1 < 0 →
      name ∈ lwes_hash_keys ev.attributes ∨ c.stored = none) := by
  refine ⟨?_, ?_, ⟨rfl, rfl, rfl⟩, ?_⟩
  · intro ev db name c hdb h
    have hneg := typed_call_run_rejected c ev name db hdb h
    exact ⟨hneg, typed_call_run_failed c ev name hneg⟩
  · intro ev name c hdb hk hs
    exact typed_call_run_accepted c ev name hdb hk hs
  · intro ev name c hdb hneg
    by_contra hcon
    simp only [not_or] at hcon
    have := (typed_call_run_accepted c ev name
      (by rw [hdb]; exact db_accepts_none _ _ _) hcon.1 hcon.2).1
    omega

/-- C13 at a concrete input: on the event "E" with the database that permits "a"
as U_INT_16, the INT_32 setter under "a" is rejected for the type, the U_INT_16
setter under "b" is rejected for the name, and the U_INT_16 setter under "a" is
accepted. -/
theorem schema_enforcement_witness :
    ((typed_call.run (.INT_32 7) (some event_E) (some [97])).1 < 0 ∧
      (typed_call.run (.INT_32 7) (some event_E) (some [97])).2 = some event_E) ∧
    ((typed_call.run (.U_INT_16 7) (some event_E) (some [98])).1 < 0 ∧
      (typed_call.run (.U_INT_16 7) (some event_E) (some [98])).2 = some event_E) ∧
    (0 ≤ (typed_call.run (.U_INT_16 7) (some event_E) (some [97])).1 ∧
      ∃ ev2, (typed_call.run (.U_INT_16 7) (some event_E) (some [97])).2 = some ev2 ∧
        lwes_hash_get ev2.attributes [97] =
          some ⟨typed_call.token (.U_INT_16 7), typed_call.stored (.U_INT_16 7)⟩) :=
  ⟨schema_enforcement.1 event_E schema_a_uint16 [97] (.INT_32 7) rfl (Or.inr rfl),
    schema_enforcement.1 event_E schema_a_uint16 [98] (.U_INT_16 7) rfl (Or.inl rfl),
    schema_enforcement.2.1 event_E [97] (.U_INT_16 7)
      (by
        intro d hd
        cases hd
        exact ⟨by decide, by decide⟩)
      (by decide) (by simp [typed_call.stored])⟩

/-! ## C14 : a mutator that fails leaves the event -/

/-- A typed setter without an event or without a name returns -1 and leaves the
event pointer. -/
theorem typed_call_run_absent (c : typed_call) (event : Option lwes_event)
    (attrName : Option (List Nat)) (h : event = none ∨ attrName = none) :
    c.run event attrName = (-1, event) := by
  rcases h with h | h
  · subst h
    cases c <;> rfl
  · subst h
    cases event <;> cases c <;> rfl

/-- A typed setter call, on any arguments, that fails leaves the event. -/
theorem typed_call_run_atomic (c : typed_call) (event : Option lwes_event)
    (attrName : Option (List Nat)) (h : (c.run event attrName).1 < 0) :
    (c.run event attrName).2 = event := by
  cases event with
  | none => rw [typed_call_run_absent c none attrName (Or.inl rfl)]
  | some ev =>
    cases attrName with
    | none => rw [typed_call_run_absent c (some ev) none (Or.inr rfl)]
    | some nm => exact typed_call_run_failed c ev nm h

/-- `lwes_event_set_name` leaves the event when it fails. -/
theorem lwes_event_set_name_atomic (event : Option lwes_event) (name : Option (List Nat))
    (h : (lwes_event_set_name event name).1 < 0) :
    (lwes_event_set_name event name).2 = event := by
  unfold lwes_event_set_name at h ⊢
  cases event with
  | none => rfl
  | some ev =>
    cases name with
    | none => rfl
    | some nm =>
      simp only at h ⊢
      by_cases hn : ev.eventName ≠ none
      · rw [if_pos hn]
      · rw [if_neg hn] at h
        simp only at h
        omega

/-- `lwes_event_set_encoding` leaves the event when it fails. -/
theorem lwes_event_set_encoding_atomic (event : Option lwes_event) (encoding : Int)
    (h : (lwes_event_set_encoding event encoding).1 < 0) :
    (lwes_event_set_encoding event encoding).2 = event := by
  cases event with
  | none => rfl
  | some ev =>
    rcases lwes_event_set_encoding_cases ev encoding with h1 | h1
    · rw [h1]
    · rw [h1] at h ⊢
      exact typed_call_run_failed _ ev LWES_ENCODING h

/-- With every allocation successful, the typed setters with the outcome of their
allocations are the typed setters. -/
theorem run_alloc_ok (c : typed_call) (event : Option lwes_event)
    (attrName : Option (List Nat)) :
    c.run_alloc ⟨true, true, true⟩ event attrName = c.run event attrName := by
  have hadd : ∀ ev nm t v, lwes_event_add_alloc ⟨true, true, true⟩ ev nm t v =
      lwes_event_add ev nm t v := by
    intro ev nm t v
    simp [lwes_event_add_alloc, lwes_event_add]
  cases event with
  | none => cases attrName <;> cases c <;> rfl
  | some ev =>
    cases attrName with
    | none => cases c <;> rfl
    | some nm =>
      cases c with
      | STRING v =>
        cases v with
        | none => rfl
        | some s =>
          simp only [typed_call.run_alloc, typed_call.stored, Option.map_some', hadd,
            typed_call.run, lwes_event_set_STRING, typed_call.token]
          rfl
      | _ =>
        simp only [typed_call.run_alloc, typed_call.stored, hadd, typed_call.run,
          lwes_event_set_U_INT_16, lwes_event_set_INT_16, lwes_event_set_U_INT_32,
          lwes_event_set_INT_32, lwes_event_set_U_INT_64, lwes_event_set_INT_64,
          lwes_event_set_BOOLEAN, lwes_event_set_IP_ADDR, typed_call.token]
        rfl

/-- The static `lwes_event_add` with the outcome of its allocations leaves the
event when it fails. -/
theorem lwes_event_add_alloc_failed (m : alloc_outcome) (ev : lwes_event) (nm : List Nat)
    (t : Nat) (v : Option lwes_value) (h : (lwes_event_add_alloc m ev nm t v).1 < 0) :
    (lwes_event_add_alloc m ev nm t v).2 = ev := by
  unfold lwes_event_add_alloc at h ⊢
  split_ifs at h ⊢ with h1 h2 h3 h4
  · rfl
  · rfl
  · rfl
  · rfl
  · simp only at h ⊢
    split_ifs at h ⊢ with h5
    · rfl
    · exfalso
      simp only at h
      omega
/-- A typed setter call with the outcome of its allocations, on any arguments,
that fails leaves the event. -/
theorem typed_call_run_alloc_atomic (c : typed_call) (m : alloc_outcome)
    (event : Option lwes_event) (attrName : Option (List Nat))
    (h : (c.run_alloc m event attrName).1 < 0) : (c.run_alloc m event attrName).2 = event := by
  unfold typed_call.run_alloc at h ⊢
  cases event with
  | none => rfl
  | some ev =>
    cases attrName with
    | none => rfl
    | some nm =>
      cases hs : c.stored with
      | none => rfl
      | some v =>
        simp only [hs] at h ⊢
        by_cases hv : m.value_ok = false
        · rw [if_pos hv]
        · rw [if_neg hv] at h ⊢
          simp only at h ⊢
          rw [lwes_event_add_alloc_failed m ev nm c.token (some v) h]
/-- With every allocation successful, a call with the outcome of its allocations
is the call. -/
theorem mutator_run_alloc_ok (mu : mutator) (event : Option lwes_event) :
    mu.run_alloc ⟨true, true, true⟩ event = mu.run event := by
  cases mu with
  | typed c attrName => exact run_alloc_ok c event attrName
  | U_INT_64_w_string attrName uint64_string =>
    simp only [mutator.run_alloc, mutator.run, lwes_event_set_U_INT_64_w_string, run_alloc_ok]
    rfl
  | INT_64_w_string attrName int64_string =>
    simp only [mutator.run_alloc, mutator.run, lwes_event_set_INT_64_w_string, run_alloc_ok]
    rfl
  | IP_ADDR_w_string inet_addr attrName value =>
    simp only [mutator.run_alloc, mutator.run, run_alloc_ok]
    cases event with
    | none => rfl
    | some ev =>
      cases attrName with
      | none => rfl
      | some nm =>
        cases value with
        | none => rfl
        | some v => rfl
  | set_name name =>
    simp only [mutator.run_alloc, mutator.run, lwes_event_set_name_alloc, lwes_event_set_name]
    cases event with
    | none => rfl
    | some ev =>
      cases name with
      | none => rfl
      | some nm => simp
  | set_encoding encoding =>
    simp only [mutator.run_alloc, mutator.run, lwes_event_set_encoding, run_alloc_ok]
    rfl
/-- C14. For every event, every outcome of the allocations and every call of a
typed setter, of a setter from a hex string, of the setter from a
dotted-decimal string, of `lwes_event_set_name` or of `lwes_event_set_encoding`
that returns a negative value, the event after the call is the event before the
call: its name, its counter and its table, with the names, the type tags and
the values; so it is for the calls whose allocations all succeed. -/
theorem mutator_failure_atomic :
    (∀ (mu : mutator) (m : alloc_outcome) (event : Option lwes_event),
      (mu.run_alloc m event).1 < 0 → (mu.run_alloc m event).2 = event) ∧
    (∀ (mu : mutator) (event : Option lwes_event),
      mu.run_alloc ⟨true, true, true⟩ event = mu.run event) ∧
    (∀ (mu : mutator) (event : Option lwes_event),
      (mu.run event).1 < 0 → (mu.run event).2 = event) := by
  have hall : ∀ (mu : mutator) (m : alloc_outcome) (event : Option lwes_event),
      (mu.run_alloc m event).1 < 0 → (mu.run_alloc m event).2 = event := by
    intro mu m event h
    cases mu with
    | typed c attrName => exact typed_call_run_alloc_atomic c m event attrName h
    | U_INT_64_w_string attrName uint64_string =>
      simp only [mutator.run_alloc] at h ⊢
      cases event with
      | none => rfl
      | some ev =>
        cases attrName with
        | none => rfl
        | some nm =>
          cases uint64_string with
          | none => rfl
          | some s =>
            simp only at h ⊢
            by_cases hp : (lwes_INT_64_from_hex_string s 0).1 < 0
            · simp only [hp, if_true]
            · simp only [hp, if_false] at h ⊢
              exact typed_call_run_alloc_atomic _ m (some ev) (some nm) h
    | INT_64_w_string attrName int64_string =>
      simp only [mutator.run_alloc] at h ⊢
      cases event with
      | none => rfl
      | some ev =>
        cases attrName with
        | none => rfl
        | some nm =>
          cases int64_string with
          | none => rfl
          | some s =>
            simp only at h ⊢
            by_cases hp : (lwes_INT_64_from_hex_string s 0).1 < 0
            · simp only [hp, if_true]
            · simp only [hp, if_false] at h ⊢
              exact typed_call_run_alloc_atomic _ m (some ev) (some nm) h
    | IP_ADDR_w_string inet_addr attrName value =>
      simp only [mutator.run_alloc] at h ⊢
      cases event with
      | none => rfl
      | some ev =>
        cases attrName with
        | none => rfl
        | some nm =>
          cases value with
          | none => rfl
          | some v => exact typed_call_run_alloc_atomic _ m (some ev) (some nm) h
    | set_name name =>
      simp only [mutator.run_alloc, lwes_event_set_name_alloc] at h ⊢
      cases event with
      | none => rfl
      | some ev =>
        cases name with
        | none => rfl
        | some nm =>
          simp only at h ⊢
          split_ifs at h ⊢ with h1 h2
          · rfl
          · rfl
          · simp at h
    | set_encoding encoding =>
      simp only [mutator.run_alloc] at h ⊢
      cases event with
      | none => rfl
      | some ev =>
        simp only at h ⊢
        split_ifs at h ⊢ with h1
        · exact typed_call_run_alloc_atomic _ m (some ev) (some LWES_ENCODING) h
        · rfl
  refine ⟨hall, mutator_run_alloc_ok, ?_⟩
  intro mu event h
  rw [← mutator_run_alloc_ok] at h ⊢
  exact hall mu _ event h
/-- C14 at concrete inputs: the INT_64 setter from the string "xyz" on the event
that holds "a" = 5, which returns -2; the U_INT_16 setter under a new name on
that event when the copy of the name is not allocated, and
`lwes_event_set_name` on the fresh event when the name is not allocated, which
return -3. -/
theorem mutator_failure_atomic_witness :
    ((mutator.run (.INT_64_w_string (some [98]) (some hex_xyz)) (some event_a5)).1 = -2 ∧
      (mutator.run (.INT_64_w_string (some [98]) (some hex_xyz)) (some event_a5)).2 =
        some event_a5) ∧
    ((mutator.run_alloc (.typed (.U_INT_16 7) (some [98])) ⟨true, false, true⟩
        (some event_a5)).1 = -3 ∧
      (mutator.run_alloc (.typed (.U_INT_16 7) (some [98])) ⟨true, false, true⟩
        (some event_a5)).2 = some event_a5) ∧
    ((mutator.run_alloc (.set_name (some [69])) ⟨true, false, true⟩ (some fresh_event)).1 =
        -3 ∧
      (mutator.run_alloc (.set_name (some [69])) ⟨true, false, true⟩ (some fresh_event)).2 =
        some fresh_event) :=
  ⟨⟨by decide,
      mutator_failure_atomic.2.2 (.INT_64_w_string (some [98]) (some hex_xyz)) (some event_a5)
        (by decide)⟩,
    ⟨by decide,
      mutator_failure_atomic.1 (.typed (.U_INT_16 7) (some [98])) ⟨true, false, true⟩
        (some event_a5) (by decide)⟩,
    ⟨by decide,
      mutator_failure_atomic.1 (.set_name (some [69])) ⟨true, false, true⟩ (some fresh_event)
        (by decide)⟩⟩

/-! ## C15 : the name is set once -/

/-- A typed setter call keeps the name of the event. -/
theorem typed_call_run_name (c : typed_call) (ev ev2 : lwes_event)
    (attrName : Option (List Nat)) (h : (c.run (some ev) attrName).2 = some ev2) :
    ev2.eventName = ev.eventName := by
  cases attrName with
  | none =>
    rw [typed_call_run_absent c (some ev) none (Or.inr rfl)] at h
    cases h
    rfl
  | some nm =>
    rcases typed_call_run_some c ev nm with ⟨_, h1⟩ | ⟨_, h1⟩
    · rw [h1] at h
      cases h
      rfl
    · rw [h1] at h
      simp only [Option.some.injEq] at h
      rcases lwes_event_add_cases ev nm c.token c.stored with ⟨_, h2⟩ | ⟨_, i, h2⟩
      · rw [h2] at h
        rw [← h]
      · rw [h2] at h
        rw [← h]

/-- `lwes_event_set_encoding` keeps the name of the event. -/
theorem lwes_event_set_encoding_name (ev ev2 : lwes_event) (encoding : Int)
    (h : (lwes_event_set_encoding (some ev) encoding).2 = some ev2) :
    ev2.eventName = ev.eventName := by
  rcases lwes_event_set_encoding_cases ev encoding with h1 | h1
  · rw [h1] at h
    cases h
    rfl
  · rw [h1] at h
    exact typed_call_run_name _ ev ev2 _ h

/-- Every mutator other than `lwes_event_set_name` keeps the name of the
event. -/
theorem mutator_run_name (m : mutator) (ev ev2 : lwes_event)
    (hm : ∀ name, m ≠ .set_name name) (h : (m.run (some ev)).2 = some ev2) :
    ev2.eventName = ev.eventName := by
  cases m with
  | typed c attrName => exact typed_call_run_name c ev ev2 attrName h
  | U_INT_64_w_string attrName uint64_string =>
    simp only [mutator.run] at h
    unfold lwes_event_set_U_INT_64_w_string at h
    cases attrName with
    | none => cases h; rfl
    | some nm =>
      cases uint64_string with
      | none => cases h; rfl
      | some s =>
        simp only at h
        by_cases hp : (lwes_INT_64_from_hex_string s 0).1 < 0
        · simp only [hp, if_true] at h
          cases h
          rfl
        · simp only [hp, if_false] at h
          exact typed_call_run_name (.U_INT_64 _) ev ev2 (some nm) h
  | INT_64_w_string attrName int64_string =>
    simp only [mutator.run] at h
    unfold lwes_event_set_INT_64_w_string at h
    cases attrName with
    | none => cases h; rfl
    | some nm =>
      cases int64_string with
      | none => cases h; rfl
      | some s =>
        simp only at h
        by_cases hp : (lwes_INT_64_from_hex_string s 0).1 < 0
        · simp only [hp, if_true] at h
          cases h
          rfl
        · simp only [hp, if_false] at h
          exact typed_call_run_name (.INT_64 _) ev ev2 (some nm) h
  | IP_ADDR_w_string inet_addr attrName value =>
    simp only [mutator.run] at h
    cases attrName with
    | none => cases h; rfl
    | some nm =>
      cases value with
      | none => cases h; rfl
      | some v => exact typed_call_run_name (.IP_ADDR (inet_addr v)) ev ev2 (some nm) h
  | set_name name => exact absurd rfl (hm name)
  | set_encoding encoding => exact lwes_event_set_encoding_name ev ev2 encoding h

/-- C15. On an event that has a name, `lwes_event_set_name` returns a negative
value and leaves the event with its name; on an event without a name it returns
0 for every present name, and `lwes_event_get_name` then puts that name into its
output slot; and no typed setter, no setter from a string and no
`lwes_event_set_encoding` call, successful or failing, changes the name of the
event.  (`lwes_event_to_bytes` only reads the event: it returns no event.) -/
theorem name_set_once :
    (∀ (ev : lwes_event) (name : Option (List Nat)) (nm0 : List Nat),
      ev.eventName = some nm0 →
      (lwes_event_set_name (some ev) name).1 < 0 ∧
      (lwes_event_set_name (some ev) name).2 = some ev) ∧
    (∀ (ev : lwes_event) (nm : List Nat) (slot : Option (List Nat)),
      ev.eventName = none →
      ∃ ev2, lwes_event_set_name (some ev) (some nm) = (0, some ev2) ∧
        lwes_event_get_name (some ev2) (some slot) = (0, some (some nm))) ∧
    (∀ (c : typed_call) (ev ev2 : lwes_event) (attrName : Option (List Nat)),
      (c.run (some ev) attrName).2 = some ev2 → ev2.eventName = ev.eventName) ∧
    (∀ (m : mutator) (ev ev2 : lwes_event), (∀ name, m ≠ .set_name name) →
      (m.run (some ev)).2 = some ev2 → ev2.eventName = ev.eventName) := by
  refine ⟨?_, ?_, ?_, ?_⟩
  · intro ev name nm0 h
    cases name with
    | none => exact ⟨show (-1 : Int) < 0 by decide, rfl⟩
    | some nm =>
      have hn : ev.eventName ≠ none := by rw [h]; simp
      simp only [lwes_event_set_name]
      rw [if_pos hn]
      exact ⟨show (-1 : Int) < 0 by decide, rfl⟩
  · intro ev nm slot h
    have hn : ¬ (ev.eventName ≠ none) := by rw [h]; simp
    refine ⟨{ ev with eventName := some nm }, ?_, rfl⟩
    simp only [lwes_event_set_name]
    rw [if_neg hn]
  · intro c ev ev2 attrName h
    exact typed_call_run_name c ev ev2 attrName h
  · intro m ev ev2 hm h
    exact mutator_run_name m ev ev2 hm h

/-- C15 at a concrete input: a second `lwes_event_set_name` on the event named
"T", and a typed setter call on it. -/
theorem name_set_once_witness :
    ((lwes_event_set_name (some event_enc1) (some [85])).1 < 0 ∧
      (lwes_event_set_name (some event_enc1) (some [85])).2 = some event_enc1) ∧
    (∃ ev2, lwes_event_set_name (some fresh_event) (some [84]) = (0, some ev2) ∧
      lwes_event_get_name (some ev2) (some none) = (0, some (some [84]))) ∧
    event_named_a5.eventName = ({ fresh_event with eventName := some [84] } : lwes_event).eventName :=
  ⟨name_set_once.1 event_enc1 (some [85]) [84] rfl,
    name_set_once.2.1 fresh_event [84] none rfl,
    name_set_once.2.2.1 (.U_INT_16 5) { fresh_event with eventName := some [84] }
      event_named_a5 (some [97]) rfl⟩

/-! ## C16 : the encoding is set once -/

/-- A typed setter call that succeeds has a value and stores the attribute with
the tag and the value of the call under the name. -/
theorem typed_call_run_succeeded (c : typed_call) (ev : lwes_event) (name : List Nat)
    (h : 0 ≤ (c.run (some ev) (some name)).1) :
    c.stored ≠ none ∧ name ∉ lwes_hash_keys ev.attributes ∧
    ∃ ev2, (c.run (some ev) (some name)).2 = some ev2 ∧
      lwes_hash_get ev2.attributes name = some ⟨c.token, c.stored⟩ := by
  rcases typed_call_run_some c ev name with ⟨_, h1⟩ | ⟨hs, h1⟩
  · rw [h1] at h
    simp only at h
    omega
  · rw [h1] at h ⊢
    rcases lwes_event_add_cases ev name c.token c.stored with ⟨hneg, _⟩ | ⟨hk, i, h2⟩
    · simp only at h
      omega
    · refine ⟨hs, hk, _, rfl, ?_⟩
      rw [h2]
      exact lwes_hash_get_insert_at ev.attributes i name _ hk

/-- C16 (amended). On an event that holds an attribute under the reserved
encoding name, of whatever type, `lwes_event_set_encoding` returns -1 and leaves
the event, with the stored encoding and the counter; on an event that holds none
it returns the result and leaves the event state of the INT_16 setter called
with the reserved name and the value; and when that result is not negative,
`lwes_event_get_encoding` then returns the value. -/
theorem set_encoding_once :
    (∀ (ev : lwes_event) (a : lwes_event_attribute) (encoding : Int),
      lwes_hash_get ev.attributes LWES_ENCODING = some a →
      lwes_event_set_encoding (some ev) encoding = (-1, some ev)) ∧
    (∀ (ev : lwes_event) (encoding : Int),
      lwes_hash_get ev.attributes LWES_ENCODING = none →
      lwes_event_set_encoding (some ev) encoding =
        lwes_event_set_INT_16 (some ev) (some LWES_ENCODING) encoding) ∧
    (∀ (ev : lwes_event) (encoding : Int) (r : Int) (ev2 : lwes_event) (slot : Int),
      lwes_hash_get ev.attributes LWES_ENCODING = none →
      lwes_event_set_encoding (some ev) encoding = (r, some ev2) → 0 ≤ r →
      lwes_event_get_encoding (some ev2) (some slot) = (0, some encoding)) := by
  refine ⟨?_, ?_, ?_⟩
  · intro ev a encoding h
    simp [lwes_event_set_encoding, lwes_event_get_INT_16, h]
  · intro ev encoding h
    simp [lwes_event_set_encoding, lwes_event_get_INT_16, h]
  · intro ev encoding r ev2 slot h hset hr
    have heq : lwes_event_set_encoding (some ev) encoding =
        typed_call.run (.INT_16 encoding) (some ev) (some LWES_ENCODING) := by
      simp [lwes_event_set_encoding, lwes_event_get_INT_16, h, typed_call.run]
    rw [heq] at hset
    obtain ⟨_, _, ev3, h3, hget⟩ := typed_call_run_succeeded (.INT_16 encoding) ev
      LWES_ENCODING (by rw [hset]; exact hr)
    rw [hset] at h3
    simp only [Option.some.injEq] at h3
    subst h3
    simp only [lwes_event_get_encoding, lwes_event_get_INT_16, hget]
    rfl

/-- C16 at a concrete input: `lwes_event_set_encoding` on the event that holds
the encoding 1, and on the fresh event. -/
theorem set_encoding_once_witness :
    lwes_event_set_encoding (some event_enc1) 2 = (-1, some event_enc1) ∧
    lwes_event_set_encoding (some fresh_event) 1 =
      lwes_event_set_INT_16 (some fresh_event) (some LWES_ENCODING) 1 ∧
    lwes_event_get_encoding (some { event_enc1 with eventName := none }) (some 0) =
      (0, some 1) :=
  ⟨set_encoding_once.1 event_enc1 ⟨LWES_INT_16_TOKEN, some (.INT_16 1)⟩ 2 rfl,
    set_encoding_once.2.1 fresh_event 1 rfl,
    set_encoding_once.2.2 fresh_event 1 1 { event_enc1 with eventName := none } 0 rfl rfl
      (by decide)⟩

/-- C16 fails as stated: the event "E" that `lwes_event_create` builds with the
type database that permits only "a" holds no encoding attribute; on it
`lwes_event_set_encoding` returns what the INT_16 setter returns, -1, since the
database rejects the reserved name, and `lwes_event_get_encoding` then returns -1
and leaves its output slot, instead of returning the value. -/
theorem set_encoding_once_counterexample :
    lwes_event_create (some schema_a_uint16) place_first (some [69]) = some event_E ∧
    lwes_hash_get event_E.attributes LWES_ENCODING = none ∧
    lwes_event_set_INT_16 (some event_E) (some LWES_ENCODING) 1 = (-1, some event_E) ∧
    lwes_event_set_encoding (some event_E) 1 = (-1, some event_E) ∧
    lwes_event_get_encoding (some event_E) (some 0) = (-1, some 0) :=
  ⟨rfl, rfl, rfl, rfl, rfl⟩

/-! ## The codes of `lwes_event_to_bytes` -/

/-- The dispatch on the type returns 0 or one of the codes from -15 to -7. -/
theorem to_bytes_value_code (tmp : lwes_event_attribute) (bytes : List Nat)
    (num_bytes offset : Nat) :
    (to_bytes_value tmp bytes num_bytes offset).1 = 0 ∨
    (-15 ≤ (to_bytes_value tmp bytes num_bytes offset).1 ∧
      (to_bytes_value tmp bytes num_bytes offset).1 ≤ -7) := by
  unfold to_bytes_value
  split_ifs <;> (try split) <;> simp

/-- The loop over the attributes returns 0 or one of the codes from -15 to -5. -/
theorem to_bytes_attributes_code (ev : lwes_event) (keys : List (List Nat)) :
    ∀ (bytes : List Nat) (num_bytes offset : Nat),
      (to_bytes_attributes ev keys bytes num_bytes offset).1 = 0 ∨
      (-15 ≤ (to_bytes_attributes ev keys bytes num_bytes offset).1 ∧
        (to_bytes_attributes ev keys bytes num_bytes offset).1 ≤ -5) := by
  induction keys with
  | nil =>
    intro bytes num_bytes offset
    left
    rfl
  | cons k ks ih =>
    intro bytes num_bytes offset
    simp only [to_bytes_attributes]
    by_cases hk : k = LWES_ENCODING
    · rw [if_pos hk]
      exact ih _ _ _
    · rw [if_neg hk]
      cases marshall_SHORT_STRING (some k) bytes num_bytes offset with
      | none => right; simp
      | some r1 =>
        simp only
        cases marshall_BYTE ((lwes_hash_get ev.attributes k).getD ⟨0, none⟩).type r1.1
            num_bytes r1.2 with
        | none => right; simp
        | some r2 =>
          simp only
          by_cases hneg : (to_bytes_value ((lwes_hash_get ev.attributes k).getD ⟨0, none⟩)
              r2.1 num_bytes r2.2).1 < 0
          · rw [if_pos hneg]
            rcases to_bytes_value_code ((lwes_hash_get ev.attributes k).getD ⟨0, none⟩)
                r2.1 num_bytes r2.2 with h | h
            · omega
            · right; omega
          · rw [if_neg hneg]
            exact ih _ _ _

/-- The encoding block: with an attribute under the reserved name that has a
value and another type than INT_16 it returns -3 and writes nothing; it returns
-3 in no other case, and never -1. -/
theorem to_bytes_encoding_code (ev : lwes_event) (bytes : List Nat)
    (num_bytes offset : Nat) :
    (∀ a, lwes_hash_get ev.attributes LWES_ENCODING = some a → a.value ≠ none →
      a.type ≠ LWES_INT_16_TOKEN →
      to_bytes_encoding ev bytes num_bytes offset = (-3, bytes, offset)) ∧
    ((to_bytes_encoding ev bytes num_bytes offset).1 = -3 →
      ∃ a, lwes_hash_get ev.attributes LWES_ENCODING = some a ∧
        a.type ≠ LWES_INT_16_TOKEN) ∧
    (to_bytes_encoding ev bytes num_bytes offset).1 ≠ -1 := by
  unfold to_bytes_encoding
  cases hg : lwes_hash_get ev.attributes LWES_ENCODING with
  | none =>
    simp
  | some a =>
    simp only
    cases hv : a.value with
    | none =>
      simp only
      refine ⟨fun a2 ha2 hv2 => ?_, ?_, ?_⟩
      · simp only [Option.some.injEq] at ha2
        subst ha2
        exact absurd hv hv2
      · simp
      · simp
    | some v =>
      simp only
      by_cases ht : a.type = LWES_INT_16_TOKEN
      · simp only [if_pos ht]
        refine ⟨fun a2 ha2 _ ht2 => ?_, ?_, ?_⟩
        · simp only [Option.some.injEq] at ha2
          subst ha2
          exact absurd ht ht2
        · intro h
          exfalso
          revert h
          repeat' split
          all_goals simp
        · repeat' split
          all_goals simp
      · simp only [if_neg ht]
        refine ⟨fun _ _ _ _ => trivial, fun _ => ⟨a, rfl, ht⟩, ?_⟩
        simp

/-- Past its argument checks `to_bytes_exact` returns the number of bytes
written, which is not negative, or -17, -16, -2, -4, a code from -15 to -5, or
-3, the last one only with an attribute under the reserved name that is no
INT_16. -/
theorem to_bytes_code (ev : lwes_event) (bytes : List Nat) (num_bytes offset : Nat)
    (hpre : ¬ (num_bytes = 0 ∨ offset ≥ num_bytes)) :
    (to_bytes_exact (some ev) (some bytes) num_bytes offset).1 ≠ -1 ∧
    ((to_bytes_exact (some ev) (some bytes) num_bytes offset).1 = -3 →
      ∃ a, lwes_hash_get ev.attributes LWES_ENCODING = some a ∧
        a.type ≠ LWES_INT_16_TOKEN) := by
  unfold to_bytes_exact
  simp only [hpre, if_false]
  cases hm1 : marshall_SHORT_STRING ev.eventName bytes num_bytes offset with
  | none => simp
  | some r1 =>
    simp only
    obtain ⟨s, _, _, hr1, _⟩ := marshall_SHORT_STRING_some _ _ _ _ r1 hm1
    cases hm2 : marshall_U_INT_16 ev.number_of_attributes r1.1 num_bytes r1.2 with
    | none => simp
    | some r2 =>
      simp only
      obtain ⟨hr2, _⟩ := marshall_generic_some _ _ _ _ r2 hm2
      obtain ⟨_, henc3, henc1⟩ := to_bytes_encoding_code ev r2.1 num_bytes r2.2
      have hw3 := (to_bytes_encoding_writes ev r2.1 num_bytes r2.2).1
      by_cases hneg : (to_bytes_encoding ev r2.1 num_bytes r2.2).1 < 0
      · simp only [hneg, if_true]
        exact ⟨henc1, henc3⟩
      · simp only [hneg, if_false]
        have hw4 := to_bytes_attributes_writes ev (lwes_hash_keys ev.attributes)
          (to_bytes_encoding ev r2.1 num_bytes r2.2).2.1 num_bytes
          (to_bytes_encoding ev r2.1 num_bytes r2.2).2.2
        have hcode := to_bytes_attributes_code ev (lwes_hash_keys ev.attributes)
          (to_bytes_encoding ev r2.1 num_bytes r2.2).2.1 num_bytes
          (to_bytes_encoding ev r2.1 num_bytes r2.2).2.2
        have h3 := hw3.2.2.1
        have h4 := hw4.2.2.1
        have h1 : offset ≤ r1.2 := by rw [hr1]; simp
        have h2 : r1.2 ≤ r2.2 := by rw [hr2]; simp
        by_cases hneg4 : (to_bytes_attributes ev (lwes_hash_keys ev.attributes)
            (to_bytes_encoding ev r2.1 num_bytes r2.2).2.1 num_bytes
            (to_bytes_encoding ev r2.1 num_bytes r2.2).2.2).1 < 0
        · simp only [hneg4, if_true]
          constructor
          · omega
          · intro h
            omega
        · simp only [hneg4, if_false]
          constructor
          · omega
          · intro h
            omega

/-! ## C17 : an encoding attribute that is no INT_16 -/

/-- An attribute that the table of a reachable event gives has a value. -/
theorem reachable_value (ev : lwes_event) (h : Reachable ev) (key : List Nat)
    (a : lwes_event_attribute) (ha : lwes_hash_get ev.attributes key = some a) :
    a.value ≠ none := by
  have hwf := reachable_well_formed ev h
  unfold lwes_hash_get at ha
  cases hf : ev.attributes.entries.find? (fun e => e.1 = key) with
  | none => rw [hf] at ha; cases ha
  | some e =>
    rw [hf] at ha
    simp only [Option.map_some', Option.some.injEq] at ha
    obtain ⟨c, _, hs, hc⟩ := hwf.attrs_ok e (List.mem_of_find?_eq_some hf)
    rw [← ha, hc]
    exact hs

/-- The outcomes of `to_bytes_exact` on an event whose attribute under the
reserved name has a value and another type than INT_16: -1 for arguments that
fail the checks, -17 when the name is not written, -16 when the count is not
written, and else -3 with the name and the count written. -/
theorem to_bytes_malformed (ev : lwes_event) (a : lwes_event_attribute)
    (ha : lwes_hash_get ev.attributes LWES_ENCODING = some a)
    (ht : a.type ≠ LWES_INT_16_TOKEN) (hv : a.value ≠ none) (bytes : List Nat)
    (num_bytes offset : Nat) :
    ((num_bytes = 0 ∨ offset ≥ num_bytes) ∧
      to_bytes_exact (some ev) (some bytes) num_bytes offset = (-1, some bytes)) ∨
    (marshall_SHORT_STRING ev.eventName bytes num_bytes offset = none ∧
      to_bytes_exact (some ev) (some bytes) num_bytes offset = (-17, some bytes)) ∨
    (∃ s, ev.eventName = some s ∧
      marshall_U_INT_16 ev.number_of_attributes (put_bytes (short_string_bytes s) bytes offset)
        num_bytes (offset + (short_string_bytes s).length) = none ∧
      to_bytes_exact (some ev) (some bytes) num_bytes offset =
        (-16, some (put_bytes (short_string_bytes s) bytes offset))) ∨
    (∃ s, ev.eventName = some s ∧
      to_bytes_exact (some ev) (some bytes) num_bytes offset =
        (-3, some (put_bytes (short_string_bytes s ++ be_bytes 2 ev.number_of_attributes)
          bytes offset))) := by
  unfold to_bytes_exact
  by_cases hpre : num_bytes = 0 ∨ offset ≥ num_bytes
  · left
    simp only [hpre, if_true]
    exact ⟨trivial, trivial⟩
  · right
    simp only [hpre, if_false]
    cases hm1 : marshall_SHORT_STRING ev.eventName bytes num_bytes offset with
    | none =>
      left
      exact ⟨rfl, rfl⟩
    | some r1 =>
      right
      obtain ⟨s, hs, _, hr1, _⟩ := marshall_SHORT_STRING_some _ _ _ _ r1 hm1
      subst hr1
      simp only
      cases hm2 : marshall_U_INT_16 ev.number_of_attributes
          (put_bytes (short_string_bytes s) bytes offset) num_bytes
          (offset + (short_string_bytes s).length) with
      | none =>
        left
        exact ⟨s, hs, hm2, rfl⟩
      | some r2 =>
        right
        obtain ⟨hr2, _⟩ := marshall_generic_some _ _ _ _ r2 hm2
        subst hr2
        simp only
        rw [(to_bytes_encoding_code ev _ num_bytes _).1 a ha hv ht]
        refine ⟨s, hs, ?_⟩
        simp only [put_bytes_append]
        rfl

/-- C17 (amended). For every reachable event whose attribute under the reserved
encoding name has a type tag other than INT_16, `lwes_event_to_bytes` returns a
negative value for every buffer and writes at most the name and the count, no
attribute record; when the event has a name of at most 255 bytes and the buffer
has room for the name and the count behind the start offset, the value is -3 and
the name and the count are written.  The code -3 is none of the codes that report
a write that does not fit, and for an event whose wire layout is shorter than
2^31 bytes `lwes_event_to_bytes` returns it only when the attribute under the
reserved name is no INT_16. -/
theorem malformed_encoding_slot :
    (∀ (ev : lwes_event) (a : lwes_event_attribute) (bytes : List Nat)
        (num_bytes offset : Nat), Reachable ev →
      lwes_hash_get ev.attributes LWES_ENCODING = some a → a.type ≠ LWES_INT_16_TOKEN →
      (lwes_event_to_bytes (some ev) (some bytes) num_bytes offset).1 < 0 ∧
      (∃ hdr, hdr <+: short_string_bytes (ev.eventName.getD []) ++
          be_bytes 2 ev.number_of_attributes ∧
        (lwes_event_to_bytes (some ev) (some bytes) num_bytes offset).2 =
          some (put_bytes hdr bytes offset)) ∧
      (∀ name, ev.eventName = some name → name.length ≤ 255 →
        offset + (short_string_bytes name).length + 2 ≤ num_bytes →
        lwes_event_to_bytes (some ev) (some bytes) num_bytes offset =
          (-3, some (put_bytes (short_string_bytes name ++
            be_bytes 2 ev.number_of_attributes) bytes offset)))) ∧
    -3 ∉ overflow_codes ∧
    (∀ (ev : lwes_event) (bytes : List Nat) (num_bytes offset : Nat),
      (wire_bytes ev).length < 2147483648 →
      (lwes_event_to_bytes (some ev) (some bytes) num_bytes offset).1 = -3 →
      ∃ a, lwes_hash_get ev.attributes LWES_ENCODING = some a ∧
        a.type ≠ LWES_INT_16_TOKEN) := by
  refine ⟨?_, by decide, ?_⟩
  · intro ev a bytes num_bytes offset hreach ha ht
    have hv := reachable_value ev hreach LWES_ENCODING a ha
    rcases to_bytes_malformed ev a ha ht hv bytes num_bytes offset with
      ⟨hpre, h⟩ | ⟨hm, h⟩ | ⟨s, hs, hm, h⟩ | ⟨s, hs, h⟩
    · rw [to_bytes_cast_failure _ _ _ _ (by rw [h]; simp), h]
      refine ⟨show (-1 : Int) < 0 by decide, ⟨[], List.nil_prefix, rfl⟩, ?_⟩
      intro name _ _ hfit
      simp only [short_string_bytes, List.length_cons] at hfit
      omega
    · rw [to_bytes_cast_failure _ _ _ _ (by rw [h]; simp), h]
      refine ⟨show (-17 : Int) < 0 by decide, ⟨[], List.nil_prefix, rfl⟩, ?_⟩
      intro name hn hlen hfit
      exfalso
      rw [hn] at hm
      simp only [marshall_SHORT_STRING, SHORT_STRING_MAX, hlen, if_true] at hm
      rw [marshall_generic_of_le _ _ _ _ (by
        simp only [short_string_bytes, List.length_cons] at hfit ⊢
        omega)] at hm
      cases hm
    · rw [to_bytes_cast_failure _ _ _ _ (by rw [h]; simp), h]
      refine ⟨show (-16 : Int) < 0 by decide, ⟨short_string_bytes s, ?_, rfl⟩, ?_⟩
      · rw [hs]
        exact List.prefix_append _ _
      · intro name hn hlen hfit
        exfalso
        rw [hs] at hn
        simp only [Option.some.injEq] at hn
        subst hn
        unfold marshall_U_INT_16 at hm
        rw [marshall_generic_of_le _ _ _ _ (by rw [be_bytes_length]; omega)] at hm
        cases hm
    · rw [to_bytes_cast_failure _ _ _ _ (by rw [h]; simp), h]
      refine ⟨show (-3 : Int) < 0 by decide, ⟨_, ?_, rfl⟩, ?_⟩
      · rw [hs]
        exact List.prefix_refl _
      · intro name hn _ _
        rw [hs] at hn
        simp only [Option.some.injEq] at hn
        subst hn
        rfl
  · intro ev bytes num_bytes offset hsmall h
    by_cases hpre : num_bytes = 0 ∨ offset ≥ num_bytes
    · exfalso
      unfold lwes_event_to_bytes at h
      simp only [hpre, if_true] at h
      exact absurd h (by decide)
    · rw [to_bytes_cast] at h
      simp only at h
      by_cases hneg : (to_bytes_exact (some ev) (some bytes) num_bytes offset).1 < 0
      · rw [if_pos hneg] at h
        exact (to_bytes_code ev bytes num_bytes offset hpre).2 h
      · exfalso
        rw [if_neg hneg] at h
        obtain ⟨_, _, _, _, _, hlen⟩ := to_bytes_success ev bytes num_bytes offset
          (to_bytes_exact (some ev) (some bytes) num_bytes offset).1
          (to_bytes_exact (some ev) (some bytes) num_bytes offset).2 rfl (not_lt.mp hneg)
        rw [hlen, to_int_small _ (by omega) (by omega)] at h
        omega

theorem reachable_event_T_enc_string : Reachable event_T_enc_string := by
  have h1 : Reachable { fresh_event with eventName := some [84] } :=
    ReachableWith.create none place_first [84] _ (by unfold valid_string; decide) rfl
  exact ReachableWith.typed_setter _ event_T_enc_string (.STRING (some [120])) LWES_ENCODING h1
    valid_string_encoding
    (by
      intro s hs
      cases hs
      unfold valid_string
      decide) trivial rfl

theorem reachable_event_enc_string : Reachable event_enc_string := by
  have h1 : Reachable fresh_event :=
    ReachableWith.create_no_name none place_first fresh_event rfl
  exact ReachableWith.typed_setter _ event_enc_string (.STRING (some [120])) LWES_ENCODING h1
    valid_string_encoding
    (by
      intro s hs
      cases hs
      unfold valid_string
      decide) trivial rfl

/-- C17 at a concrete input: the event named "T" that holds the string "x" under
the reserved name, encoded into a buffer of 16 bytes. -/
theorem malformed_encoding_slot_witness :
    (lwes_event_to_bytes (some event_T_enc_string) (some (List.replicate 16 0)) 16 0).1 < 0 ∧
    (∃ hdr, hdr <+: short_string_bytes (event_T_enc_string.eventName.getD []) ++
        be_bytes 2 event_T_enc_string.number_of_attributes ∧
      (lwes_event_to_bytes (some event_T_enc_string) (some (List.replicate 16 0)) 16 0).2 =
        some (put_bytes hdr (List.replicate 16 0) 0)) ∧
    (∀ name, event_T_enc_string.eventName = some name → name.length ≤ 255 →
      0 + (short_string_bytes name).length + 2 ≤ 16 →
      lwes_event_to_bytes (some event_T_enc_string) (some (List.replicate 16 0)) 16 0 =
        (-3, some (put_bytes (short_string_bytes name ++
          be_bytes 2 event_T_enc_string.number_of_attributes) (List.replicate 16 0) 0))) :=
  malformed_encoding_slot.1 event_T_enc_string ⟨LWES_STRING_TOKEN, some (.STRING [120])⟩
    (List.replicate 16 0) 16 0 reachable_event_T_enc_string rfl (by decide)

/-- C17 fails as stated: the event without a name that holds the string "x" under
the reserved name, built by `lwes_event_create_no_name` and
`lwes_event_set_STRING`, gets -17, the code of a name that is not written, and
the event named "T" with the same attribute gets -16 in a buffer of 3 bytes, the
code of a count that does not fit: both are codes of writes that do not fit, and
neither is -3.  And the reachable event `bulk_event 30 65530`, which holds no
attribute under the reserved name and takes 4294967293 bytes on the wire, gets
-3 in a buffer that has room for it: the number of bytes written, converted to
`int`. -/
theorem malformed_encoding_slot_counterexample :
    Reachable event_enc_string ∧
    lwes_hash_get event_enc_string.attributes LWES_ENCODING =
      some ⟨LWES_STRING_TOKEN, some (.STRING [120])⟩ ∧
    LWES_STRING_TOKEN ≠ LWES_INT_16_TOKEN ∧
    lwes_event_to_bytes (some event_enc_string) (some (List.replicate 64 0)) 64 0 =
      (-17, some (List.replicate 64 0)) ∧
    Reachable event_T_enc_string ∧
    lwes_hash_get event_T_enc_string.attributes LWES_ENCODING =
      some ⟨LWES_STRING_TOKEN, some (.STRING [120])⟩ ∧
    lwes_event_to_bytes (some event_T_enc_string) (some [0, 0, 0]) 3 0 =
      (-16, some [1, 84, 0]) ∧
    (-17 : Int) ∈ overflow_codes ∧ (-16 : Int) ∈ overflow_codes ∧
    Reachable (bulk_event 30 65530) ∧
    lwes_hash_get (bulk_event 30 65530).attributes LWES_ENCODING = none ∧
    (wire_bytes (bulk_event 30 65530)).length = 4294967293 ∧
    (lwes_event_to_bytes (some (bulk_event 30 65530)) (some (List.replicate 4294967293 0))
      4294967293 0).1 = -3 := by
  refine ⟨reachable_event_enc_string, rfl, by decide, rfl, reachable_event_T_enc_string, rfl,
    rfl, by decide, by decide, bulk_event_reachable 30 65530 (by decide),
    bulk_get_encoding 65530 (by decide) place_first, ?_, ?_⟩
  · rw [(to_bytes_exact_bulk 30 65530 (by decide) (by decide) [] 4294967293 0
      (by decide)).2]
  · rw [to_bytes_bulk 30 65530 (by decide) (by decide) _ 4294967293 0 (by decide)]
    rfl

/-! ## C18 : the argument checks of the encoder -/

/-- C18 (amended). `lwes_event_to_bytes` returns -1 and leaves the buffer as it
is whenever the event or the buffer is absent, the capacity is 0, or the start
offset is not below the capacity; on a present event whose wire layout is
shorter than 2^31 bytes and a present buffer with a capacity above 0 and a start
offset below the capacity it never returns -1. -/
theorem encode_preconditions :
    (∀ (event : Option lwes_event) (bytes : Option (List Nat)) (num_bytes offset : Nat),
      (event = none ∨ bytes = none ∨ num_bytes = 0 ∨ offset ≥ num_bytes) →
      lwes_event_to_bytes event bytes num_bytes offset = (-1, bytes)) ∧
    (∀ (ev : lwes_event) (bs : List Nat) (num_bytes offset : Nat),
      0 < num_bytes → offset < num_bytes → (wire_bytes ev).length < 2147483648 →
      (lwes_event_to_bytes (some ev) (some bs) num_bytes offset).1 ≠ -1) := by
  constructor
  · intro event bytes num_bytes offset h
    cases event with
    | none => rfl
    | some ev =>
      cases bytes with
      | none => rfl
      | some bs =>
        have hpre : num_bytes = 0 ∨ offset ≥ num_bytes := by
          rcases h with h | h | h | h
          · cases h
          · cases h
          · exact Or.inl h
          · exact Or.inr h
        unfold lwes_event_to_bytes
        simp only [hpre, if_true]
  · intro ev bs num_bytes offset h1 h2 hsmall h
    rw [to_bytes_cast] at h
    simp only at h
    by_cases hneg : (to_bytes_exact (some ev) (some bs) num_bytes offset).1 < 0
    · rw [if_pos hneg] at h
      exact (to_bytes_code ev bs num_bytes offset (by omega)).1 h
    · rw [if_neg hneg] at h
      obtain ⟨_, _, _, _, _, hlen⟩ := to_bytes_success ev bs num_bytes offset
        (to_bytes_exact (some ev) (some bs) num_bytes offset).1
        (to_bytes_exact (some ev) (some bs) num_bytes offset).2 rfl (not_lt.mp hneg)
      rw [hlen, to_int_small _ (by omega) (by omega)] at h
      omega

/-- C18 at concrete inputs: an absent buffer, a start offset at the capacity, and
a call that passes the checks and fails later, on the count that does not fit. -/
theorem encode_preconditions_witness :
    lwes_event_to_bytes (some event_enc1) none 8 0 = (-1, none) ∧
    lwes_event_to_bytes (some event_enc1) (some [7, 7, 7, 7]) 4 4 = (-1, some [7, 7, 7, 7]) ∧
    (lwes_event_to_bytes (some event_enc1) (some [7, 7, 7, 7]) 3 0).1 ≠ -1 :=
  ⟨encode_preconditions.1 (some event_enc1) none 8 0 (Or.inr (Or.inl rfl)),
    encode_preconditions.1 (some event_enc1) (some [7, 7, 7, 7]) 4 4
      (Or.inr (Or.inr (Or.inr (by decide)))),
    encode_preconditions.2 event_enc1 [7, 7, 7, 7] 3 0 (by decide) (by decide) (by decide)⟩

/-- C18 fails as stated: the reachable event `bulk_event 32 65530` takes
4294967295 bytes on the wire; with a buffer of that size and the start offset 0
all four preconditions hold, every byte is written, and `lwes_event_to_bytes`
returns -1, the number of bytes written converted to `int`. -/
theorem encode_preconditions_counterexample :
    Reachable (bulk_event 32 65530) ∧
    0 < 4294967295 ∧
    (wire_bytes (bulk_event 32 65530)).length = 4294967295 ∧
    lwes_event_to_bytes (some (bulk_event 32 65530)) (some (List.replicate 4294967295 0))
        4294967295 0 =
      (-1, some (put_bytes (wire_bytes (bulk_event 32 65530)) (List.replicate 4294967295 0)
        0)) := by
  refine ⟨bulk_event_reachable 32 65530 (by decide), by decide, ?_, ?_⟩
  · rw [(to_bytes_exact_bulk 32 65530 (by decide) (by decide) [] 4294967295 0
      (by decide)).2]
  · rw [to_bytes_bulk 32 65530 (by decide) (by decide) _ 4294967295 0 (by decide)]
    rfl

/-! ## C19 : the hex parsers -/

/-- A hexadecimal digit is no white space, no sign and no `x`. -/
theorem hex_digit_some (c : Nat) (h : (hex_digit c).isSome = true) :
    isspace c = false ∧ c ≠ 43 ∧ c ≠ 45 ∧ c ≠ 120 ∧ c ≠ 88 := by
  unfold hex_digit at h
  have hr : (48 ≤ c ∧ c ≤ 57) ∨ (97 ≤ c ∧ c ≤ 102) ∨ (65 ≤ c ∧ c ≤ 70) := by
    by_cases h1 : 48 ≤ c ∧ c ≤ 57
    · exact Or.inl h1
    · rw [if_neg h1] at h
      by_cases h2 : 97 ≤ c ∧ c ≤ 102
      · exact Or.inr (Or.inl h2)
      · rw [if_neg h2] at h
        by_cases h3 : 65 ≤ c ∧ c ≤ 70
        · exact Or.inr (Or.inr h3)
        · rw [if_neg h3] at h
          cases h
  refine ⟨?_, by omega, by omega, by omega, by omega⟩
  simp only [isspace, Bool.or_eq_false_iff, decide_eq_false_iff_not, Bool.and_eq_false_imp,
    decide_eq_true_eq]
  omega

/-- `strtoull` on a run of hexadecimal digits, at least one, that the end of the
string or a character that is no digit and no `x` follows: the run is converted
and `endptr` is behind it. -/
theorem strtoull_16_digits (digits rest : List Nat) (hd : digits ≠ [])
    (hall : ∀ c ∈ digits, (hex_digit c).isSome = true)
    (hrest : ∀ c, rest.head? = some c → (hex_digit c).isSome = false ∧ c ≠ 120 ∧ c ≠ 88) :
    strtoull_16 (digits ++ rest) =
      if 18446744073709551616 ≤ hex_value digits then
        { value := 18446744073709551615, endptr := digits.length, erange := true }
      else { value := hex_value digits, endptr := digits.length, erange := false } := by
  cases digits with
  | nil => exact absurd rfl hd
  | cons d ds =>
    obtain ⟨hsp, h43, h45, _, _⟩ := hex_digit_some d (hall d (List.mem_cons_self _ _))
    have htw : ((d :: ds) ++ rest).takeWhile isspace = [] := by
      rw [List.cons_append, List.takeWhile_cons_of_neg (by rw [hsp]; simp)]
    have hdw : ((d :: ds) ++ rest).dropWhile isspace = (d :: ds) ++ rest := by
      rw [List.cons_append, List.dropWhile_cons_of_neg (by rw [hsp]; simp)]
    have hhead : ((d :: ds) ++ rest).head? = some d := rfl
    have hsign : ¬ (((d :: ds) ++ rest).head? = some 43 ∨
        ((d :: ds) ++ rest).head? = some 45) := by
      rw [hhead]
      simp only [Option.some.injEq]
      omega
    have hneg : ¬ (((d :: ds) ++ rest).head? = some 45) := by
      rw [hhead]
      simp only [Option.some.injEq]
      omega
    have hx : ¬ (((d :: ds) ++ rest)[1]? = some 120 ∨ ((d :: ds) ++ rest)[1]? = some 88) := by
      cases ds with
      | nil =>
        cases rest with
        | nil => simp
        | cons c t =>
          have := hrest c rfl
          simp only [List.singleton_append, List.getElem?_cons_succ, List.getElem?_cons_zero,
            Option.some.injEq]
          omega
      | cons d2 t =>
        have := hex_digit_some d2 (hall d2 (by simp))
        simp only [List.cons_append, List.getElem?_cons_succ, List.getElem?_cons_zero,
          Option.some.injEq]
        omega
    have hpre : ¬ (((d :: ds) ++ rest).head? = some 48 ∧
        (((d :: ds) ++ rest)[1]? = some 120 ∨ ((d :: ds) ++ rest)[1]? = some 88) ∧
        ((((d :: ds) ++ rest)[2]?).bind hex_digit).isSome = true) :=
      fun h => hx h.2.1
    have htd : ((d :: ds) ++ rest).takeWhile (fun c => (hex_digit c).isSome) = d :: ds := by
      rw [List.takeWhile_append_of_pos hall]
      cases rest with
      | nil => simp
      | cons c t =>
        have := (hrest c rfl).1
        rw [List.takeWhile_cons_of_neg (by rw [this]; simp)]
        simp
    unfold strtoull_16
    simp only [htw, hdw, if_neg hsign, List.drop_zero, if_neg hpre, htd, if_neg hneg,
      List.length_nil, Nat.zero_add, Nat.add_zero]
    rw [if_neg (by simp)]

/-- The 64-bit pattern of the two's complement reading of a 64-bit pattern is
that pattern. -/
theorem of_signed_to_signed_8 (u : Nat) (h : u < 18446744073709551616) :
    of_signed 8 (to_signed 8 u) = u := by
  unfold of_signed to_signed
  norm_num
  split_ifs <;> omega

/-- A string that is a base-16 number is a run of hexadecimal digits, at least
one, with the value of the run. -/
theorem hex_number_some (s : List Nat) (v : Nat) (h : hex_number s = some v) :
    s ≠ [] ∧ (∀ c ∈ s, (hex_digit c).isSome = true) ∧ v = hex_value s := by
  unfold hex_number at h
  by_cases hc : s ≠ [] ∧ s.all (fun c => (hex_digit c).isSome) = true
  · rw [if_pos hc] at h
    simp only [Option.some.injEq] at h
    exact ⟨hc.1, List.all_eq_true.mp hc.2, h.symm⟩
  · rw [if_neg hc] at h
    cases h

/-- The two setters from a hex string after a parse that fails: -2, and the event
as it was. -/
theorem w_string_rejected (ev : lwes_event) (nm s : List Nat)
    (h : (lwes_U_INT_64_from_hex_string s).1 < 0) :
    lwes_event_set_U_INT_64_w_string (some ev) (some nm) (some s) = (-2, some ev) ∧
    lwes_event_set_INT_64_w_string (some ev) (some nm) (some s) = (-2, some ev) := by
  have hp : (lwes_INT_64_from_hex_string s 0).1 < 0 := by
    unfold lwes_INT_64_from_hex_string
    simp only [h, if_true]
  unfold lwes_event_set_U_INT_64_w_string lwes_event_set_INT_64_w_string
  simp only [hp, if_true, and_self]

/-- The two setters from a hex string after a parse that yields `v`: the typed
setter on `v`, read as two's complement by the signed one. -/
theorem w_string_accepted (ev : lwes_event) (nm s : List Nat) (v : Nat)
    (h : lwes_U_INT_64_from_hex_string s = (0, v)) (hv : v < 18446744073709551616) :
    lwes_event_set_U_INT_64_w_string (some ev) (some nm) (some s) =
      lwes_event_set_U_INT_64 (some ev) (some nm) v ∧
    lwes_event_set_INT_64_w_string (some ev) (some nm) (some s) =
      lwes_event_set_INT_64 (some ev) (some nm) (to_signed 8 v) := by
  have hp : lwes_INT_64_from_hex_string s 0 = (0, to_signed 8 v) := by
    unfold lwes_INT_64_from_hex_string
    simp only [h, Int.lt_irrefl, if_false]
  unfold lwes_event_set_U_INT_64_w_string lwes_event_set_INT_64_w_string
  simp only [hp, Int.lt_irrefl, if_false, of_signed_to_signed_8 v hv, and_self]

/-- The unsigned parser on a run of hexadecimal digits that the end of the string
or a character that is no digit and no `x` follows: it compares the length of
the string with the number of characters consumed, both converted to `int`. -/
theorem from_hex_string_digits (digits rest : List Nat) (v : Nat)
    (h : hex_number digits = some v)
    (hrest : ∀ c, rest.head? = some c → (hex_digit c).isSome = false ∧ c ≠ 120 ∧ c ≠ 88) :
    lwes_U_INT_64_from_hex_string (digits ++ rest) =
      if 18446744073709551616 ≤ v ∨
          to_int (((digits ++ rest).length : Nat) : Int) > to_int ((digits.length : Nat) : Int) then
        (-1, if 18446744073709551616 ≤ v then 18446744073709551615 else v)
      else (0, v) := by
  obtain ⟨hd, hall, hv⟩ := hex_number_some digits v h
  unfold lwes_U_INT_64_from_hex_string
  rw [strtoull_16_digits digits rest hd hall hrest, ← hv]
  by_cases hov : 18446744073709551616 ≤ v
  · simp [hov]
  · simp only [hov, if_false, Bool.false_eq_true, false_or]
/-- `strtoull` converts nothing of a string whose first character is no white
space, no sign and no hexadecimal digit, and the unsigned parser fails on it
when the string is shorter than 2^31 characters. -/
theorem from_hex_string_no_number (c : Nat) (t : List Nat)
    (hc : (hex_digit c).isSome = false) (hsp : isspace c = false) (h43 : c ≠ 43)
    (h45 : c ≠ 45) (hlen : (c :: t).length < 2147483648) :
    lwes_U_INT_64_from_hex_string (c :: t) = (-1, 0) := by
  have htw : (c :: t).takeWhile isspace = [] := by
    rw [List.takeWhile_cons_of_neg (by rw [hsp]; simp)]
  have hdw : (c :: t).dropWhile isspace = c :: t := by
    rw [List.dropWhile_cons_of_neg (by rw [hsp]; simp)]
  have hsign : ¬ ((c :: t).head? = some 43 ∨ (c :: t).head? = some 45) := by
    simp only [List.head?_cons, Option.some.injEq]
    omega
  have h48 : c ≠ 48 := by
    intro h
    rw [h] at hc
    exact absurd hc (by decide)
  have hpre : ¬ ((c :: t).head? = some 48 ∧
      ((c :: t)[1]? = some 120 ∨ (c :: t)[1]? = some 88) ∧
      (((c :: t)[2]?).bind hex_digit).isSome = true) := by
    intro h
    simp only [List.head?_cons, Option.some.injEq] at h
    exact h48 h.1
  have htd : (c :: t).takeWhile (fun c => (hex_digit c).isSome) = [] := by
    rw [List.takeWhile_cons_of_neg (by rw [hc]; simp)]
  have hgt : to_int (((c :: t).length : Nat) : Int) > to_int ((0 : Nat) : Int) := by
    rw [to_int_small _ (by omega) (by omega), to_int_small _ (by omega) (by omega)]
    simp only [List.length_cons]
    omega
  unfold lwes_U_INT_64_from_hex_string strtoull_16
  simp only [htw, hdw, if_neg hsign, List.drop_zero, if_neg hpre, htd, if_true]
  simp only [List.length_cons, Nat.cast_add, Nat.cast_one, Nat.cast_zero] at hgt
  simp
  intro hle
  omega

/-- The string of the digit "1" and `n` characters "g" behind it, of 2^31
characters in all: its length converted to `int` is negative, the test for
unconsumed characters does not fire, and the parsers and the setter accept it as
the number 1. -/
theorem from_hex_string_long (n : Nat) (hn : n = 2147483647) :
    ([49] ++ List.replicate n 103).length = 2147483648 ∧
    lwes_U_INT_64_from_hex_string ([49] ++ List.replicate n 103) = (0, 1) ∧
    lwes_INT_64_from_hex_string ([49] ++ List.replicate n 103) 7 = (0, 1) ∧
    lwes_event_set_U_INT_64_w_string (some fresh_event) (some [97])
        (some ([49] ++ List.replicate n 103)) =
      (1, some (event_a ⟨LWES_U_INT_64_TOKEN, some (.U_INT_64 1)⟩)) := by
  have hl : ([49] ++ List.replicate n 103).length = 2147483648 := by
    rw [List.length_append, List.length_replicate, hn]
    rfl
  have hp : lwes_U_INT_64_from_hex_string ([49] ++ List.replicate n 103) = (0, 1) := by
    rw [from_hex_string_digits [49] (List.replicate n 103) 1 rfl (by
      intro c hc
      rw [List.head?_replicate] at hc
      split_ifs at hc
      simp only [Option.some.injEq] at hc
      subst hc
      exact ⟨rfl, by decide, by decide⟩)]
    rw [if_neg]
    rw [hl]
    unfold to_int
    norm_num
  refine ⟨hl, hp, ?_, ?_⟩
  · unfold lwes_INT_64_from_hex_string
    simp only [hp]
    rfl
  · rw [(w_string_accepted fresh_event [97] _ 1 hp (by decide)).1]
    rfl

/-- C19 (amended). For every string that is a base-16 number, made of
hexadecimal digits and of nothing else, the parser behind the two setters from a
hex string succeeds exactly when the number fits in 64 bits: it then yields that
number, read as two's complement by the signed parser, and each setter is the
typed setter on it; on a number that does not fit it fails, and each setter
returns -2 and leaves the event; so it does on a string shorter than 2^31
characters that is a number with a character behind it which is no digit and
no `x`, or that starts with a character which is no white space, no sign and no
digit.  The string "ffffffffffffffff" gives the all-ones pattern through both
setters, and "xyz" and "10000000000000000" make them return -2 without an
attribute. -/
theorem hex_parsing :
    (∀ (s : List Nat) (v : Nat), hex_number s = some v → v < 18446744073709551616 →
      lwes_U_INT_64_from_hex_string s = (0, v) ∧
      (∀ x, lwes_INT_64_from_hex_string s x = (0, to_signed 8 v)) ∧
      ∀ (ev : lwes_event) (nm : List Nat),
        lwes_event_set_U_INT_64_w_string (some ev) (some nm) (some s) =
          lwes_event_set_U_INT_64 (some ev) (some nm) v ∧
        lwes_event_set_INT_64_w_string (some ev) (some nm) (some s) =
          lwes_event_set_INT_64 (some ev) (some nm) (to_signed 8 v)) ∧
    (∀ (s : List Nat) (v : Nat), hex_number s = some v → 18446744073709551616 ≤ v →
      (lwes_U_INT_64_from_hex_string s).1 < 0 ∧
      (∀ x, lwes_INT_64_from_hex_string s x = (-1, x)) ∧
      ∀ (ev : lwes_event) (nm : List Nat),
        lwes_event_set_U_INT_64_w_string (some ev) (some nm) (some s) = (-2, some ev) ∧
        lwes_event_set_INT_64_w_string (some ev) (some nm) (some s) = (-2, some ev)) ∧
    (∀ (digits : List Nat) (v c : Nat) (t : List Nat), hex_number digits = some v →
      (hex_digit c).isSome = false → c ≠ 120 → c ≠ 88 →
      (digits ++ c :: t).length < 2147483648 →
      (lwes_U_INT_64_from_hex_string (digits ++ c :: t)).1 < 0 ∧
      (∀ x, lwes_INT_64_from_hex_string (digits ++ c :: t) x = (-1, x)) ∧
      ∀ (ev : lwes_event) (nm : List Nat),
        lwes_event_set_U_INT_64_w_string (some ev) (some nm) (some (digits ++ c :: t)) =
          (-2, some ev) ∧
        lwes_event_set_INT_64_w_string (some ev) (some nm) (some (digits ++ c :: t)) =
          (-2, some ev)) ∧
    (∀ (c : Nat) (t : List Nat), (hex_digit c).isSome = false → isspace c = false →
      c ≠ 43 → c ≠ 45 → (c :: t).length < 2147483648 →
      (lwes_U_INT_64_from_hex_string (c :: t)).1 < 0 ∧
      (∀ x, lwes_INT_64_from_hex_string (c :: t) x = (-1, x)) ∧
      ∀ (ev : lwes_event) (nm : List Nat),
        lwes_event_set_U_INT_64_w_string (some ev) (some nm) (some (c :: t)) =
          (-2, some ev) ∧
        lwes_event_set_INT_64_w_string (some ev) (some nm) (some (c :: t)) =
          (-2, some ev)) ∧
    (lwes_event_set_U_INT_64_w_string (some fresh_event) (some [97]) (some hex_all_ones) =
        (1, some (event_a ⟨LWES_U_INT_64_TOKEN, some (.U_INT_64 18446744073709551615)⟩)) ∧
      lwes_event_set_INT_64_w_string (some fresh_event) (some [97]) (some hex_all_ones) =
        (1, some (event_a ⟨LWES_INT_64_TOKEN, some (.INT_64 (-1))⟩)) ∧
      lwes_event_set_U_INT_64_w_string (some fresh_event) (some [97]) (some hex_xyz) =
        (-2, some fresh_event) ∧
      lwes_event_set_INT_64_w_string (some fresh_event) (some [97]) (some hex_xyz) =
        (-2, some fresh_event) ∧
      lwes_event_set_U_INT_64_w_string (some fresh_event) (some [97]) (some hex_17_digits) =
        (-2, some fresh_event) ∧
      lwes_event_set_INT_64_w_string (some fresh_event) (some [97]) (some hex_17_digits) =
        (-2, some fresh_event)) := by
  refine ⟨?_, ?_, ?_, ?_, ⟨rfl, rfl, rfl, rfl, rfl, rfl⟩⟩
  · intro s v h hv
    have hp := from_hex_string_digits s [] v h (by simp)
    rw [List.append_nil] at hp
    have hnot : ¬ (18446744073709551616 ≤ v ∨
        to_int ((s.length : Nat) : Int) > to_int ((s.length : Nat) : Int)) := by
      simp only [gt_iff_lt, lt_self_iff_false, or_false]
      omega
    rw [if_neg hnot] at hp
    refine ⟨hp, ?_, fun ev nm => w_string_accepted ev nm s v hp hv⟩
    intro x
    unfold lwes_INT_64_from_hex_string
    simp only [hp, Int.lt_irrefl, if_false]
  · intro s v h hv
    have hp := from_hex_string_digits s [] v h (by simp)
    rw [List.append_nil] at hp
    rw [if_pos (Or.inl hv)] at hp
    have hneg : (lwes_U_INT_64_from_hex_string s).1 < 0 := by
      rw [hp]
      exact show (-1 : Int) < 0 by decide
    refine ⟨hneg, ?_, fun ev nm => w_string_rejected ev nm s hneg⟩
    intro x
    unfold lwes_INT_64_from_hex_string
    simp only [hp]
    rfl
  · intro digits v c t h hc h120 h88 hlen
    have hp := from_hex_string_digits digits (c :: t) v h (by
      intro c2 hc2
      simp only [List.head?_cons, Option.some.injEq] at hc2
      subst hc2
      exact ⟨hc, h120, h88⟩)
    have hgt : to_int (((digits ++ c :: t).length : Nat) : Int) >
        to_int ((digits.length : Nat) : Int) := by
      have hl : digits.length < (digits ++ c :: t).length := by
        simp only [List.length_append, List.length_cons]
        omega
      rw [to_int_small _ (by omega) (by omega), to_int_small _ (by omega) (by omega)]
      omega
    rw [if_pos (Or.inr hgt)] at hp
    have hneg : (lwes_U_INT_64_from_hex_string (digits ++ c :: t)).1 < 0 := by
      rw [hp]
      exact show (-1 : Int) < 0 by decide
    refine ⟨hneg, ?_, fun ev nm => w_string_rejected ev nm _ hneg⟩
    intro x
    unfold lwes_INT_64_from_hex_string
    simp only [hp]
    rfl
  · intro c t hc hsp h43 h45 hlen
    have hp := from_hex_string_no_number c t hc hsp h43 h45 hlen
    have hneg : (lwes_U_INT_64_from_hex_string (c :: t)).1 < 0 := by
      rw [hp]
      exact show (-1 : Int) < 0 by decide
    refine ⟨hneg, ?_, fun ev nm => w_string_rejected ev nm _ hneg⟩
    intro x
    unfold lwes_INT_64_from_hex_string
    simp only [hp]
    rfl

/-- C19 at concrete inputs: the string "ffffffffffffffff" is a base-16 number
that fits in 64 bits, the string "10000000000000000" is one that does not, the
string "12g" is the number "12" and a character behind it, and the string "xyz"
starts with a character that begins no number. -/
theorem hex_parsing_witness :
    (lwes_U_INT_64_from_hex_string hex_all_ones = (0, 18446744073709551615) ∧
      (∀ x, lwes_INT_64_from_hex_string hex_all_ones x =
        (0, to_signed 8 18446744073709551615)) ∧
      ∀ (ev : lwes_event) (nm : List Nat),
        lwes_event_set_U_INT_64_w_string (some ev) (some nm) (some hex_all_ones) =
          lwes_event_set_U_INT_64 (some ev) (some nm) 18446744073709551615 ∧
        lwes_event_set_INT_64_w_string (some ev) (some nm) (some hex_all_ones) =
          lwes_event_set_INT_64 (some ev) (some nm) (to_signed 8 18446744073709551615)) ∧
    ((lwes_U_INT_64_from_hex_string hex_17_digits).1 < 0 ∧
      (∀ x, lwes_INT_64_from_hex_string hex_17_digits x = (-1, x)) ∧
      ∀ (ev : lwes_event) (nm : List Nat),
        lwes_event_set_U_INT_64_w_string (some ev) (some nm) (some hex_17_digits) =
          (-2, some ev) ∧
        lwes_event_set_INT_64_w_string (some ev) (some nm) (some hex_17_digits) =
          (-2, some ev)) ∧
    ((lwes_U_INT_64_from_hex_string ([49, 50] ++ 103 :: [])).1 < 0 ∧
      (∀ x, lwes_INT_64_from_hex_string ([49, 50] ++ 103 :: []) x = (-1, x)) ∧
      ∀ (ev : lwes_event) (nm : List Nat),
        lwes_event_set_U_INT_64_w_string (some ev) (some nm) (some ([49, 50] ++ 103 :: [])) =
          (-2, some ev) ∧
        lwes_event_set_INT_64_w_string (some ev) (some nm) (some ([49, 50] ++ 103 :: [])) =
          (-2, some ev)) ∧
    ((lwes_U_INT_64_from_hex_string (120 :: [121, 122])).1 < 0 ∧
      (∀ x, lwes_INT_64_from_hex_string (120 :: [121, 122]) x = (-1, x)) ∧
      ∀ (ev : lwes_event) (nm : List Nat),
        lwes_event_set_U_INT_64_w_string (some ev) (some nm) (some (120 :: [121, 122])) =
          (-2, some ev) ∧
        lwes_event_set_INT_64_w_string (some ev) (some nm) (some (120 :: [121, 122])) =
          (-2, some ev)) :=
  ⟨hex_parsing.1 hex_all_ones 18446744073709551615 rfl (by decide),
    hex_parsing.2.1 hex_17_digits 18446744073709551616 rfl (by decide),
    hex_parsing.2.2.1 [49, 50] 18 103 [] rfl rfl (by decide) (by decide) (by decide),
    hex_parsing.2.2.2.1 120 [121, 122] rfl rfl (by decide) (by decide) (by decide)⟩

/-- C19 fails as stated: the empty string is no base-16 number, and the parsers
accept it, as 0, since `strtoull` converts nothing and leaves nothing
unconsumed; the setter then adds an attribute of value 0.  The strings "-1",
" 1" and "0x1f", with a sign, a leading space and a prefix, are accepted as
`strtoull` reads them, "-1" as the all-ones pattern.  The string of "1" and
2^31 - 1 characters "g" is a number with a character behind it that is no digit,
and the parsers and the setter accept it as 1: its length is negative once
converted to `int`, and the test for unconsumed characters does not fire. -/
theorem hex_parsing_counterexample :
    (hex_number [49] = some 1 ∧ (hex_digit 103).isSome = false ∧
      ([49] ++ List.replicate 2147483647 103).length = 2147483648 ∧
      lwes_U_INT_64_from_hex_string ([49] ++ List.replicate 2147483647 103) = (0, 1) ∧
      lwes_INT_64_from_hex_string ([49] ++ List.replicate 2147483647 103) 7 = (0, 1) ∧
      lwes_event_set_U_INT_64_w_string (some fresh_event) (some [97])
          (some ([49] ++ List.replicate 2147483647 103)) =
        (1, some (event_a ⟨LWES_U_INT_64_TOKEN, some (.U_INT_64 1)⟩))) ∧
    hex_number [] = none ∧
    lwes_U_INT_64_from_hex_string [] = (0, 0) ∧
    lwes_INT_64_from_hex_string [] 7 = (0, 0) ∧
    lwes_event_set_U_INT_64_w_string (some fresh_event) (some [97]) (some []) =
      (1, some (event_a ⟨LWES_U_INT_64_TOKEN, some (.U_INT_64 0)⟩)) ∧
    lwes_event_set_INT_64_w_string (some fresh_event) (some [97]) (some []) =
      (1, some (event_a ⟨LWES_INT_64_TOKEN, some (.INT_64 0)⟩)) ∧
    hex_number [45, 49] = none ∧
    lwes_U_INT_64_from_hex_string [45, 49] = (0, 18446744073709551615) ∧
    hex_number [32, 49] = none ∧
    lwes_U_INT_64_from_hex_string [32, 49] = (0, 1) ∧
    hex_number [48, 120, 49, 102] = none ∧
    lwes_U_INT_64_from_hex_string [48, 120, 49, 102] = (0, 31) :=
  ⟨⟨rfl, rfl, from_hex_string_long 2147483647 rfl⟩,
    rfl, rfl, rfl, rfl, rfl, rfl, rfl, rfl, rfl, rfl, rfl⟩

/-! ## C20 : the typed getters -/

/-- C20. For every event, name and typed getter, the call returns 0 exactly when
the event, the name and the output slot are present and the table gives an
attribute for the name, whatever the type tag of that attribute; in every other
case it returns -1 and leaves the output slot as it was.  (A getter only reads
the event: it returns no event.) -/
theorem getter_outcome (s : typed_slot) (event : Option lwes_event)
    (name : Option (List Nat)) :
    ((s.get event name).1 = 0 ↔
      ∃ ev nm a, event = some ev ∧ name = some nm ∧ s.present = true ∧
        lwes_hash_get ev.attributes nm = some a) ∧
    ((s.get event name).1 ≠ 0 → s.get event name = (-1, s)) := by
  cases s <;> rename_i value <;> cases event <;> cases name <;> cases value <;>
    simp [typed_slot.get, typed_slot.present, lwes_event_get_U_INT_16, lwes_event_get_INT_16,
      lwes_event_get_U_INT_32, lwes_event_get_INT_32, lwes_event_get_U_INT_64,
      lwes_event_get_INT_64, lwes_event_get_BOOLEAN, lwes_event_get_IP_ADDR,
      lwes_event_get_STRING] <;>
    split <;> simp_all

/-- C20 at concrete inputs: the INT_16 getter on the attribute under the reserved
name that is a STRING returns 0, and the U_INT_32 getter under a name that the
fresh event does not hold returns -1 and leaves its slot. -/
theorem getter_outcome_witness :
    (typed_slot.get (.INT_16 (some 5)) (some event_enc_string) (some LWES_ENCODING)).1 = 0 ∧
    typed_slot.get (.U_INT_32 (some 5)) (some fresh_event) (some [97]) =
      (-1, .U_INT_32 (some 5)) :=
  ⟨(getter_outcome (.INT_16 (some 5)) (some event_enc_string) (some LWES_ENCODING)).1.mpr
      ⟨event_enc_string, LWES_ENCODING, ⟨LWES_STRING_TOKEN, some (.STRING [120])⟩, rfl, rfl,
        rfl, rfl⟩,
    (getter_outcome (.U_INT_32 (some 5)) (some fresh_event) (some [97])).2 (by decide)⟩

/-! ## C21 : the reads of the name, the count and the encoding -/

/-- C21 (amended). `lwes_event_get_name` and
`lwes_event_get_number_of_attributes` fail exactly when the event or the output
slot is absent, and else put the name and the counter into the slot;
`lwes_event_get_encoding` fails exactly when the event or the output slot is
absent or the event holds no attribute under the reserved encoding name, and
then leaves its slot.  (The three functions only read the event: they return no
event.) -/
theorem metadata_reads :
    (∀ (event : Option lwes_event) (name : Option (Option (List Nat))),
      ((lwes_event_get_name event name).1 ≠ 0 ↔ event = none ∨ name = none) ∧
      ((lwes_event_get_name event name).1 ≠ 0 → lwes_event_get_name event name = (-1, name)) ∧
      (∀ ev, event = some ev → name ≠ none →
        lwes_event_get_name event name = (0, some ev.eventName))) ∧
    (∀ (event : Option lwes_event) (number : Option Nat),
      ((lwes_event_get_number_of_attributes event number).1 ≠ 0 ↔
        event = none ∨ number = none) ∧
      ((lwes_event_get_number_of_attributes event number).1 ≠ 0 →
        lwes_event_get_number_of_attributes event number = (-1, number)) ∧
      (∀ ev, event = some ev → number ≠ none →
        lwes_event_get_number_of_attributes event number =
          (0, some ev.number_of_attributes))) ∧
    (∀ (event : Option lwes_event) (encoding : Option Int),
      ((lwes_event_get_encoding event encoding).1 ≠ 0 ↔
        event = none ∨ encoding = none ∨
          ∃ ev, event = some ev ∧ lwes_hash_get ev.attributes LWES_ENCODING = none) ∧
      ((lwes_event_get_encoding event encoding).1 ≠ 0 →
        lwes_event_get_encoding event encoding = (-1, encoding))) := by
  refine ⟨?_, ?_, ?_⟩
  · intro event name
    cases event <;> cases name <;> simp [lwes_event_get_name]
  · intro event number
    cases event <;> cases number <;> simp [lwes_event_get_number_of_attributes]
  · intro event encoding
    cases event with
    | none => cases encoding <;> simp [lwes_event_get_encoding]
    | some ev =>
      cases encoding with
      | none => simp [lwes_event_get_encoding]
      | some slot =>
        cases hg : lwes_hash_get ev.attributes LWES_ENCODING <;>
          simp [lwes_event_get_encoding, lwes_event_get_INT_16, hg]

/-- C21 at concrete inputs: the three reads on the event named "T" with the
encoding 1. -/
theorem metadata_reads_witness :
    lwes_event_get_name (some event_enc1) (some none) = (0, some event_enc1.eventName) ∧
    lwes_event_get_number_of_attributes (some event_enc1) (some 0) =
      (0, some event_enc1.number_of_attributes) ∧
    lwes_event_get_encoding none (some 0) = (-1, some 0) :=
  ⟨(metadata_reads.1 (some event_enc1) (some none)).2.2 event_enc1 rfl (by simp),
    (metadata_reads.2.1 (some event_enc1) (some 0)).2.2 event_enc1 rfl (by simp),
    (metadata_reads.2.2 none (some 0)).2 (by decide)⟩

/-- C21 fails as stated: on the fresh event, which holds no encoding attribute,
`lwes_event_get_encoding` returns -1 with the event and the output slot
present. -/
theorem metadata_reads_counterexample :
    lwes_event_create_no_name none place_first = some fresh_event ∧
    lwes_event_get_encoding (some fresh_event) (some 0) = (-1, some 0) :=
  ⟨rfl, rfl⟩

/-! ## C22 : the constructors -/

/-- `lwes_event_set_encoding` on the event that `lwes_event_create` has built:
it stores the encoding when the type database, if there is one, permits the
reserved name with the type INT_16 for the name of the event, and fails when it
does not. -/
theorem set_encoding_on_named (db : Option lwes_event_type_db)
    (place : List (List Nat) → List Nat → Nat) (name : List Nat) (encoding : Int) :
    (db_accepts db (some name) LWES_ENCODING LWES_INT_16_TOKEN →
      lwes_event_set_encoding (some (named_event db place name)) encoding =
        (1, some (encoded_event db place name encoding))) ∧
    (¬ db_accepts db (some name) LWES_ENCODING LWES_INT_16_TOKEN →
      (lwes_event_set_encoding (some (named_event db place name)) encoding).1 < 0) := by
  constructor
  · intro hdb
    have hk : LWES_ENCODING ∉ lwes_hash_keys (named_event db place name).attributes := by
      simp [named_event, lwes_hash_keys, lwes_hash_create]
    obtain ⟨i, hadd⟩ := lwes_event_add_accepted (named_event db place name) LWES_ENCODING
      LWES_INT_16_TOKEN (some (.INT_16 encoding)) hdb hk
    have hget : lwes_hash_get (named_event db place name).attributes LWES_ENCODING = none := rfl
    simp only [lwes_event_set_encoding, lwes_event_get_INT_16, hget, if_true,
      lwes_event_set_INT_16, hadd]
    cases i <;> rfl
  · intro hdb
    by_contra hcon
    rcases lwes_event_set_encoding_cases (named_event db place name) encoding with h | h
    · rw [h] at hcon
      exact hcon (show (-1 : Int) < 0 by decide)
    · rw [h] at hcon
      apply hdb
      intro d hd
      by_contra hrej
      have hr := typed_call_run_rejected (.INT_16 encoding) (named_event db place name)
        LWES_ENCODING d hd (by
          by_contra hboth
          simp only [not_or] at hboth
          exact hrej ⟨hboth.1, hboth.2⟩)
      exact hcon hr

/-- C22. `lwes_event_create_no_name` yields an event without a name, with the
counter 0 and an empty table; `lwes_event_create` yields the same with the name
of the argument, and no event without a name argument;
`lwes_event_create_with_encoding` yields no event without a name argument or
when the type database rejects the reserved name or the type INT_16 for it, and
else the event with the name, the counter 1 and one attribute, under the
reserved name, of type INT_16 and with the given encoding. -/
theorem constructors :
    (∀ (db : Option lwes_event_type_db) (place : List (List Nat) → List Nat → Nat),
      ∃ ev, lwes_event_create_no_name db place = some ev ∧ ev.eventName = none ∧
        ev.number_of_attributes = 0 ∧ ev.attributes.entries = [] ∧ ev.type_db = db) ∧
    (∀ (db : Option lwes_event_type_db) (place : List (List Nat) → List Nat → Nat),
      lwes_event_create db place none = none ∧
      ∀ name, ∃ ev, lwes_event_create db place (some name) = some ev ∧
        ev.eventName = some name ∧ ev.number_of_attributes = 0 ∧
        ev.attributes.entries = [] ∧ ev.type_db = db) ∧
    (∀ (db : Option lwes_event_type_db) (place : List (List Nat) → List Nat → Nat)
        (encoding : Int),
      lwes_event_create_with_encoding db place none encoding = none ∧
      ∀ name,
        (db_accepts db (some name) LWES_ENCODING LWES_INT_16_TOKEN →
          ∃ ev, lwes_event_create_with_encoding db place (some name) encoding = some ev ∧
            ev.eventName = some name ∧ ev.number_of_attributes = 1 ∧
            ev.attributes.entries =
              [(LWES_ENCODING, ⟨LWES_INT_16_TOKEN, some (.INT_16 encoding)⟩)] ∧
            ev.type_db = db) ∧
        (¬ db_accepts db (some name) LWES_ENCODING LWES_INT_16_TOKEN →
          lwes_event_create_with_encoding db place (some name) encoding = none)) := by
  refine ⟨fun db place => ⟨_, rfl, rfl, rfl, rfl, rfl⟩, fun db place => ⟨rfl, fun name => ?_⟩,
    fun db place encoding => ⟨rfl, fun name => ⟨?_, ?_⟩⟩⟩
  · exact ⟨named_event db place name, rfl, rfl, rfl, rfl, rfl⟩
  · intro hdb
    have hset := (set_encoding_on_named db place name encoding).1 hdb
    refine ⟨encoded_event db place name encoding, ?_, rfl, rfl, rfl, rfl⟩
    show (if (lwes_event_set_encoding (some (named_event db place name)) encoding).1 < 0
      then none
      else (lwes_event_set_encoding (some (named_event db place name)) encoding).2) = _
    rw [hset]
    rfl
  · intro hdb
    have hneg := (set_encoding_on_named db place name encoding).2 hdb
    show (if (lwes_event_set_encoding (some (named_event db place name)) encoding).1 < 0
      then none
      else (lwes_event_set_encoding (some (named_event db place name)) encoding).2) = none
    rw [if_pos hneg]

/-- C22 at concrete inputs: the constructor with the encoding 1 without a type
database, and with the type database that permits only "a". -/
theorem constructors_witness :
    (∃ ev, lwes_event_create_with_encoding none place_first (some [84]) 1 = some ev ∧
      ev.eventName = some [84] ∧ ev.number_of_attributes = 1 ∧
      ev.attributes.entries = [(LWES_ENCODING, ⟨LWES_INT_16_TOKEN, some (.INT_16 1)⟩)] ∧
      ev.type_db = none) ∧
    lwes_event_create_with_encoding (some schema_a_uint16) place_first (some [69]) 1 = none :=
  ⟨((constructors.2.2 none place_first 1).2 [84]).1 (db_accepts_none _ _ _),
    ((constructors.2.2 (some schema_a_uint16) place_first 1).2 [69]).2 (by
      intro h
      exact (h schema_a_uint16 rfl).1 rfl)⟩

/-! ## C23 : the setter from a dotted-decimal string -/

/-- C24 (amended). For every typed setter, the value returned for a rejection of
the attribute type by the type database is -2 and the value returned for an
allocation that fails is -3; the value returned for an absent event or name (or,
for the string setter, value) is -1, and so is the value returned for a
rejection of the attribute name by the type database.  The three values are
pairwise distinct. -/
theorem setter_failure_codes :
    (∀ (c : typed_call) (m : alloc_outcome) (event : Option lwes_event)
        (attrName : Option (List Nat)),
      event = none ∨ attrName = none ∨ c.stored = none →
      c.run_alloc m event attrName = (-1, event)) ∧
    (∀ (c : typed_call) (m : alloc_outcome) (ev : lwes_event) (nm : List Nat)
        (db : lwes_event_type_db),
      c.stored ≠ none → m.value_ok = true → ev.type_db = some db →
      lwes_event_type_db_check_for_attribute db nm ev.eventName = 0 →
      c.run_alloc m (some ev) (some nm) = (-1, some ev)) ∧
    (∀ (c : typed_call) (m : alloc_outcome) (ev : lwes_event) (nm : List Nat)
        (db : lwes_event_type_db),
      c.stored ≠ none → m.value_ok = true → ev.type_db = some db →
      lwes_event_type_db_check_for_attribute db nm ev.eventName ≠ 0 →
      lwes_event_type_db_check_for_type db c.token nm ev.eventName = 0 →
      c.run_alloc m (some ev) (some nm) = (-2, some ev)) ∧
    (∀ (c : typed_call) (m : alloc_outcome) (ev : lwes_event) (nm : List Nat),
      c.stored ≠ none →
      (m.value_ok = false ∨
        (db_accepts ev.type_db ev.eventName nm c.token ∧
          (m.name_ok = false ∨ m.attribute_ok = false))) →
      c.run_alloc m (some ev) (some nm) = (-3, some ev)) ∧
    ((-1 : Int) ≠ -2 ∧ (-1 : Int) ≠ -3 ∧ (-2 : Int) ≠ -3) := by
  refine ⟨?_, ?_, ?_, ?_, by decide⟩
  · intro c m event attrName h
    unfold typed_call.run_alloc
    rcases h with h | h | h
    · subst h
      rfl
    · subst h
      cases event <;> rfl
    · rw [h]
      cases event <;> cases attrName <;> rfl
  · intro c m ev nm db hs hv hdb ha
    cases hst : c.stored with
    | none => exact absurd hst hs
    | some v =>
      simp [typed_call.run_alloc, hst, hv, lwes_event_add_alloc, hdb, ha]
  · intro c m ev nm db hs hv hdb ha ht
    cases hst : c.stored with
    | none => exact absurd hst hs
    | some v =>
      simp [typed_call.run_alloc, hst, hv, lwes_event_add_alloc, hdb, ha, ht]
  · intro c m ev nm hs h
    cases hst : c.stored with
    | none => exact absurd hst hs
    | some v =>
      rcases h with h | ⟨hacc, h⟩
      · simp [typed_call.run_alloc, hst, h]
      · by_cases hv : m.value_ok = false
        · simp [typed_call.run_alloc, hst, hv]
        · have hv2 : m.value_ok = true := by simpa using hv
          cases hd : ev.type_db with
          | none =>
            rcases h with h | h
            · simp [typed_call.run_alloc, hst, hv2, lwes_event_add_alloc, hd, h]
            · by_cases hn : m.name_ok = false
              · simp [typed_call.run_alloc, hst, hv2, lwes_event_add_alloc, hd, hn]
              · have hn2 : m.name_ok = true := by simpa using hn
                simp [typed_call.run_alloc, hst, hv2, lwes_event_add_alloc, hd, hn2, h]
          | some d =>
            obtain ⟨h1, h2⟩ := hacc d hd
            rcases h with h | h
            · simp [typed_call.run_alloc, hst, hv2, lwes_event_add_alloc, hd, h1, h2, h]
            · by_cases hn : m.name_ok = false
              · simp [typed_call.run_alloc, hst, hv2, lwes_event_add_alloc, hd, h1, h2, hn]
              · have hn2 : m.name_ok = true := by simpa using hn
                simp [typed_call.run_alloc, hst, hv2, lwes_event_add_alloc, hd, h1, h2, hn2, h]

/-- C24 at concrete inputs: on the event "E" with the type database that permits
"a" as U_INT_16, the INT_32 setter under "a" returns -2, and the U_INT_16 setter
under "a" returns -3 when the object for the value is not allocated. -/
theorem setter_failure_codes_witness :
    typed_call.run_alloc (.INT_32 7) ⟨true, true, true⟩ (some event_E) (some [97]) =
      (-2, some event_E) ∧
    typed_call.run_alloc (.U_INT_16 7) ⟨false, true, true⟩ (some event_E) (some [97]) =
      (-3, some event_E) :=
  ⟨setter_failure_codes.2.2.1 (.INT_32 7) ⟨true, true, true⟩ event_E [97] schema_a_uint16
      (by simp [typed_call.stored]) rfl rfl (by decide) rfl,
    setter_failure_codes.2.2.2.1 (.U_INT_16 7) ⟨false, true, true⟩ event_E [97]
      (by simp [typed_call.stored]) (Or.inl rfl)⟩

/-- C24 fails as stated: the U_INT_16 setter returns -1 without an event, and it
returns -1 on the event "E" under the name "b", which the type database of the
event rejects: the two failure sites give the same value. -/
theorem setter_failure_codes_counterexample :
    lwes_event_set_U_INT_16 none (some [98]) 7 = (-1, none) ∧
    lwes_event_type_db_check_for_attribute schema_a_uint16 [98] event_E.eventName = 0 ∧
    lwes_event_set_U_INT_16 (some event_E) (some [98]) 7 = (-1, some event_E) :=
  ⟨rfl, rfl, rfl⟩

/-! ## C25 : the codes of the encoder -/

/-- Writes run in order stop at the first one that fails: when the writes `pre`
succeed and the next write fails, the result is the code of that write, with the
buffer and the offset that `pre` has left. -/
theorem run_steps_first_failure (pre post : List (Int × marshall_step)) (code : Int)
    (step : marshall_step) :
    ∀ (bytes : List Nat) (num_bytes offset : Nat) (r : List Nat × Nat),
      run_steps pre bytes num_bytes offset = (0, r.1, r.2) →
      (∀ f ∈ pre, f.1 < 0) →
      step r.1 num_bytes r.2 = none →
      run_steps (pre ++ (code, step) :: post) bytes num_bytes offset = (code, r.1, r.2) := by
  induction pre with
  | nil =>
    intro bytes num_bytes offset r h _ hs
    simp only [run_steps, Prod.mk.injEq, true_and] at h
    obtain ⟨h1, h2⟩ := h
    simp only [List.nil_append, run_steps, h1, h2, hs]
  | cons f fs ih =>
    intro bytes num_bytes offset r h hneg hs
    obtain ⟨c, s⟩ := f
    simp only [List.cons_append, run_steps] at h ⊢
    cases hstep : s bytes num_bytes offset with
    | none =>
      rw [hstep] at h
      simp only [Prod.mk.injEq] at h
      have := hneg (c, s) (List.mem_cons_self _ _)
      simp only at this
      omega
    | some r1 =>
      rw [hstep] at h
      simp only at h ⊢
      exact ih r1.1 num_bytes r1.2 r h (fun f hf => hneg f (List.mem_cons_of_mem _ hf)) hs

/-- Writes run in order: a list of writes followed by another. -/
theorem run_steps_append (a b : List (Int × marshall_step)) (ha : ∀ f ∈ a, f.1 < 0) :
    ∀ (bytes : List Nat) (num_bytes offset : Nat),
      run_steps (a ++ b) bytes num_bytes offset =
        if (run_steps a bytes num_bytes offset).1 < 0 then run_steps a bytes num_bytes offset
        else run_steps b (run_steps a bytes num_bytes offset).2.1 num_bytes
          (run_steps a bytes num_bytes offset).2.2 := by
  induction a with
  | nil =>
    intro bytes num_bytes offset
    simp [run_steps]
  | cons f fs ih =>
    intro bytes num_bytes offset
    obtain ⟨c, s⟩ := f
    simp only [List.cons_append, run_steps]
    cases hstep : s bytes num_bytes offset with
    | none =>
      have := ha (c, s) (List.mem_cons_self _ _)
      simp only at this ⊢
      rw [if_pos this]
    | some r1 =>
      simp only
      exact ih (fun f hf => ha f (List.mem_cons_of_mem _ hf)) r1.1 num_bytes r1.2

/-- The codes of the writes of a payload are negative. -/
theorem payload_steps_neg (a : lwes_event_attribute) : ∀ f ∈ payload_steps a, f.1 < 0 := by
  intro f hf
  unfold payload_steps at hf
  split_ifs at hf <;> simp at hf <;> rw [hf] <;> simp

/-- The codes of the writes of a record are negative. -/
theorem record_steps_neg (e : List Nat × lwes_event_attribute) :
    ∀ f ∈ record_steps e, f.1 < 0 := by
  intro f hf
  unfold record_steps at hf
  simp only [List.mem_cons] at hf
  rcases hf with h | h | h
  · rw [h]; simp
  · rw [h]; simp
  · exact payload_steps_neg e.2 f h

/-- The dispatch on the type is the write of the payload with its code. -/
theorem to_bytes_value_steps (tmp : lwes_event_attribute) (bytes : List Nat)
    (num_bytes offset : Nat) :
    to_bytes_value tmp bytes num_bytes offset =
      run_steps (payload_steps tmp) bytes num_bytes offset := by
  unfold to_bytes_value payload_steps
  by_cases h1 : tmp.type = LWES_U_INT_16_TOKEN
  · simp only [if_pos h1]
    rfl
  · simp only [if_neg h1]
    by_cases h2 : tmp.type = LWES_INT_16_TOKEN
    · simp only [if_pos h2]
      rfl
    · simp only [if_neg h2]
      by_cases h3 : tmp.type = LWES_U_INT_32_TOKEN
      · simp only [if_pos h3]
        rfl
      · simp only [if_neg h3]
        by_cases h4 : tmp.type = LWES_INT_32_TOKEN
        · simp only [if_pos h4]
          rfl
        · simp only [if_neg h4]
          by_cases h5 : tmp.type = LWES_U_INT_64_TOKEN
          · simp only [if_pos h5]
            rfl
          · simp only [if_neg h5]
            by_cases h6 : tmp.type = LWES_INT_64_TOKEN
            · simp only [if_pos h6]
              rfl
            · simp only [if_neg h6]
              by_cases h7 : tmp.type = LWES_BOOLEAN_TOKEN
              · simp only [if_pos h7]
                rfl
              · simp only [if_neg h7]
                by_cases h8 : tmp.type = LWES_IP_ADDR_TOKEN
                · simp only [if_pos h8]
                  rfl
                · simp only [if_neg h8]
                  by_cases h9 : tmp.type = LWES_STRING_TOKEN
                  · simp only [if_pos h9]
                    rfl
                  · simp only [if_neg h9]
                    rfl

/-- The loop over the attributes is the run of the writes of the records other
than the encoding, in the order of the enumeration. -/
theorem to_bytes_attributes_steps (ev : lwes_event) (keys : List (List Nat)) :
    ∀ (bytes : List Nat) (num_bytes offset : Nat),
      to_bytes_attributes ev keys bytes num_bytes offset =
        run_steps (((keys.filter (fun k => k ≠ LWES_ENCODING)).map
          (fun k => (k, attribute_at ev k))).flatMap record_steps) bytes num_bytes offset := by
  induction keys with
  | nil =>
    intro bytes num_bytes offset
    rfl
  | cons k ks ih =>
    intro bytes num_bytes offset
    simp only [to_bytes_attributes]
    by_cases hk : k = LWES_ENCODING
    · rw [if_pos hk, ih]
      simp [hk]
    · rw [if_neg hk]
      have hf : (k :: ks).filter (fun k => k ≠ LWES_ENCODING) =
          k :: ks.filter (fun k => k ≠ LWES_ENCODING) := by
        simp [hk]
      rw [hf]
      simp only [List.map_cons, List.flatMap_cons]
      rw [run_steps_append _ _ (record_steps_neg _)]
      simp only [record_steps, run_steps, attribute_at]
      cases marshall_SHORT_STRING (some k) bytes num_bytes offset with
      | none => simp
      | some r1 =>
        simp only
        cases marshall_BYTE ((lwes_hash_get ev.attributes k).getD ⟨0, none⟩).type r1.1
            num_bytes r1.2 with
        | none => simp
        | some r2 =>
          simp only
          rw [to_bytes_value_steps, ih]
          rfl

/-- The codes of the writes of the encoding attribute are negative. -/
theorem encoding_steps_neg (ev : lwes_event) : ∀ f ∈ encoding_steps ev, f.1 < 0 := by
  intro f hf
  unfold encoding_steps encoding_record at hf
  cases hg : lwes_hash_get ev.attributes LWES_ENCODING with
  | none =>
    rw [hg] at hf
    simp at hf
  | some a =>
    rw [hg] at hf
    simp only [List.flatMap_cons, List.flatMap_nil, List.append_nil, List.mem_cons,
      List.not_mem_nil, or_false] at hf
    rcases hf with h | h | h <;> rw [h] <;> simp

/-- The encoding block is the check of the encoding slot followed by the writes
of the encoding attribute. -/
theorem to_bytes_encoding_steps (ev : lwes_event) (bytes : List Nat)
    (num_bytes offset : Nat) :
    to_bytes_encoding ev bytes num_bytes offset =
      if encoding_slot_check ev < 0 then (encoding_slot_check ev, bytes, offset)
      else run_steps (encoding_steps ev) bytes num_bytes offset := by
  unfold to_bytes_encoding encoding_slot_check encoding_steps encoding_record
  cases hg : lwes_hash_get ev.attributes LWES_ENCODING with
  | none => simp [run_steps]
  | some a =>
    simp only
    cases hv : a.value with
    | none => simp
    | some v =>
      simp only
      by_cases ht : a.type = LWES_INT_16_TOKEN
      · simp only [if_pos ht, reduceCtorEq, if_false, Int.lt_irrefl, List.flatMap_cons,
          List.flatMap_nil, List.append_nil, run_steps, hv]
      · simp only [if_neg ht, reduceCtorEq, if_false]
        rw [if_pos (by decide)]

/-- `to_bytes_exact` is the encoder that the table of its codes
describes. -/
theorem to_bytes_steps (ev : lwes_event) (bytes : List Nat) (num_bytes offset : Nat) :
    to_bytes_exact (some ev) (some bytes) num_bytes offset =
      ((encode_by_steps ev bytes num_bytes offset).1,
        some (encode_by_steps ev bytes num_bytes offset).2) := by
  unfold to_bytes_exact encode_by_steps
  by_cases hpre : num_bytes = 0 ∨ offset ≥ num_bytes
  · simp only [hpre, if_true]
  · simp only [hpre, if_false, head_steps, run_steps]
    cases marshall_SHORT_STRING ev.eventName bytes num_bytes offset with
    | none => simp
    | some r1 =>
      simp only
      cases marshall_U_INT_16 ev.number_of_attributes r1.1 num_bytes r1.2 with
      | none => simp
      | some r2 =>
        simp only [Int.lt_irrefl, if_false]
        rw [to_bytes_encoding_steps, run_steps_append _ _ (encoding_steps_neg ev),
          to_bytes_attributes_steps]
        by_cases hc : encoding_slot_check ev < 0
        · simp only [hc, if_true]
        · simp only [hc, if_false]
          by_cases hn : (run_steps (encoding_steps ev) r2.1 num_bytes r2.2).1 < 0
          · simp only [hn, if_true]
          · simp only [hn, if_false]
            rfl

/-- The encoder of the table reports a negative code exactly when an argument
check, a write or the check of the encoding slot fails. -/
theorem encode_by_steps_negative (ev : lwes_event) (bytes : List Nat)
    (num_bytes offset : Nat) :
    (encode_by_steps ev bytes num_bytes offset).1 < 0 ↔
      ((num_bytes = 0 ∨ offset ≥ num_bytes) ∨
        (run_steps (head_steps ev) bytes num_bytes offset).1 < 0 ∨
        encoding_slot_check ev < 0 ∨
        (run_steps (encoding_steps ev ++ (other_records ev).flatMap record_steps)
          (run_steps (head_steps ev) bytes num_bytes offset).2.1 num_bytes
          (run_steps (head_steps ev) bytes num_bytes offset).2.2).1 < 0) := by
  unfold encode_by_steps
  by_cases hpre : num_bytes = 0 ∨ offset ≥ num_bytes
  · simp only [hpre, if_true, true_or, iff_true]
    decide
  · simp only [hpre, if_false, false_or]
    by_cases hh : (run_steps (head_steps ev) bytes num_bytes offset).1 < 0
    · simp only [hh, if_true, true_or]
    · simp only [hh, if_false, false_or]
      by_cases hc : encoding_slot_check ev < 0
      · simp only [hc, if_true, true_or]
      · simp only [hc, if_false, false_or]
        by_cases hr : (run_steps (encoding_steps ev ++ (other_records ev).flatMap
            record_steps) (run_steps (head_steps ev) bytes num_bytes offset).2.1 num_bytes
            (run_steps (head_steps ev) bytes num_bytes offset).2.2).1 < 0
        · simp only [hr, if_true]
        · simp only [hr, if_false, iff_false, not_lt]
          have h1 : offset ≤ (run_steps (head_steps ev) bytes num_bytes offset).2.2 := by
            simp only [head_steps, run_steps]
            cases hm1 : marshall_SHORT_STRING ev.eventName bytes num_bytes offset with
            | none => simp
            | some r1 =>
              obtain ⟨s, _, _, hr1, _⟩ := marshall_SHORT_STRING_some _ _ _ _ r1 hm1
              simp only
              cases hm2 : marshall_U_INT_16 ev.number_of_attributes r1.1 num_bytes r1.2 with
              | none =>
                simp only
                rw [hr1]
                simp
              | some r2 =>
                obtain ⟨hr2, _⟩ := marshall_generic_some _ _ _ _ r2 hm2
                simp only
                rw [hr2, hr1]
                simp only
                omega
          rw [run_steps_append _ _ (encoding_steps_neg ev)] at hr ⊢
          have henc := to_bytes_encoding_steps ev
            (run_steps (head_steps ev) bytes num_bytes offset).2.1 num_bytes
            (run_steps (head_steps ev) bytes num_bytes offset).2.2
          rw [if_neg hc] at henc
          have hw3 := (to_bytes_encoding_writes ev
            (run_steps (head_steps ev) bytes num_bytes offset).2.1 num_bytes
            (run_steps (head_steps ev) bytes num_bytes offset).2.2).1.2.2.1
          rw [henc] at hw3
          by_cases hn : (run_steps (encoding_steps ev)
              (run_steps (head_steps ev) bytes num_bytes offset).2.1 num_bytes
              (run_steps (head_steps ev) bytes num_bytes offset).2.2).1 < 0
          · rw [if_pos hn] at hr
            exact absurd hn hr
          · rw [if_neg hn]
            have hw4 := (to_bytes_attributes_writes ev (lwes_hash_keys ev.attributes)
              (run_steps (encoding_steps ev)
                (run_steps (head_steps ev) bytes num_bytes offset).2.1 num_bytes
                (run_steps (head_steps ev) bytes num_bytes offset).2.2).2.1 num_bytes
              (run_steps (encoding_steps ev)
                (run_steps (head_steps ev) bytes num_bytes offset).2.1 num_bytes
                (run_steps (head_steps ev) bytes num_bytes offset).2.2).2.2).2.2.1
            rw [to_bytes_attributes_steps] at hw4
            have hw4' : (run_steps (encoding_steps ev)
                (run_steps (head_steps ev) bytes num_bytes offset).2.1 num_bytes
                (run_steps (head_steps ev) bytes num_bytes offset).2.2).2.2 ≤
              (run_steps ((other_records ev).flatMap record_steps)
                (run_steps (encoding_steps ev)
                  (run_steps (head_steps ev) bytes num_bytes offset).2.1 num_bytes
                  (run_steps (head_steps ev) bytes num_bytes offset).2.2).2.1 num_bytes
                (run_steps (encoding_steps ev)
                  (run_steps (head_steps ev) bytes num_bytes offset).2.1 num_bytes
                  (run_steps (head_steps ev) bytes num_bytes offset).2.2).2.2).2.2 := hw4
            omega
/-- C25 (amended). `lwes_event_to_bytes` is the encoder of the table of codes:
after the argument checks (-1) it runs the writes of the name (-17) and of the
count (-16), the check of the encoding slot (-3, -4), the writes of the encoding
attribute (-2 for each part) and, for every other attribute in the order of the
enumeration, the writes of the name (-5), of the type tag (-6) and of the payload
(-7 to -15 by type), and returns the code of the first write that fails, with
the buffer as the writes before that one have left it, so nothing behind the
failing write is written; when every check and write succeeds it returns the
number of bytes written converted to `int`.  A failing argument check, write or
check of the encoding slot makes the result negative, and when fewer than 2^31
bytes are written the result is negative exactly then. -/
theorem encode_error_codes :
    (∀ (ev : lwes_event) (bytes : List Nat) (num_bytes offset : Nat),
      lwes_event_to_bytes (some ev) (some bytes) num_bytes offset =
        (if (encode_by_steps ev bytes num_bytes offset).1 < 0 then
            (encode_by_steps ev bytes num_bytes offset).1
          else to_int (encode_by_steps ev bytes num_bytes offset).1,
          some (encode_by_steps ev bytes num_bytes offset).2)) ∧
    (∀ (pre post : List (Int × marshall_step)) (code : Int) (step : marshall_step)
        (bytes : List Nat) (num_bytes offset : Nat) (r : List Nat × Nat),
      run_steps pre bytes num_bytes offset = (0, r.1, r.2) → (∀ f ∈ pre, f.1 < 0) →
      step r.1 num_bytes r.2 = none →
      run_steps (pre ++ (code, step) :: post) bytes num_bytes offset = (code, r.1, r.2)) ∧
    (∀ (ev : lwes_event) (bytes : List Nat) (num_bytes offset : Nat),
      ((num_bytes = 0 ∨ offset ≥ num_bytes) ∨
          (run_steps (head_steps ev) bytes num_bytes offset).1 < 0 ∨
          encoding_slot_check ev < 0 ∨
          (run_steps (encoding_steps ev ++ (other_records ev).flatMap record_steps)
            (run_steps (head_steps ev) bytes num_bytes offset).2.1 num_bytes
            (run_steps (head_steps ev) bytes num_bytes offset).2.2).1 < 0) →
        (lwes_event_to_bytes (some ev) (some bytes) num_bytes offset).1 < 0 ∧
        lwes_event_to_bytes (some ev) (some bytes) num_bytes offset =
          ((encode_by_steps ev bytes num_bytes offset).1,
            some (encode_by_steps ev bytes num_bytes offset).2)) ∧
    (∀ (ev : lwes_event) (bytes : List Nat) (num_bytes offset : Nat),
      (encode_by_steps ev bytes num_bytes offset).1 < 2147483648 →
      (lwes_event_to_bytes (some ev) (some bytes) num_bytes offset =
          ((encode_by_steps ev bytes num_bytes offset).1,
            some (encode_by_steps ev bytes num_bytes offset).2) ∧
        ((lwes_event_to_bytes (some ev) (some bytes) num_bytes offset).1 < 0 ↔
          ((num_bytes = 0 ∨ offset ≥ num_bytes) ∨
            (run_steps (head_steps ev) bytes num_bytes offset).1 < 0 ∨
            encoding_slot_check ev < 0 ∨
            (run_steps (encoding_steps ev ++ (other_records ev).flatMap record_steps)
              (run_steps (head_steps ev) bytes num_bytes offset).2.1 num_bytes
              (run_steps (head_steps ev) bytes num_bytes offset).2.2).1 < 0)))) := by
  have hcast : ∀ (ev : lwes_event) (bytes : List Nat) (num_bytes offset : Nat),
      lwes_event_to_bytes (some ev) (some bytes) num_bytes offset =
        (if (encode_by_steps ev bytes num_bytes offset).1 < 0 then
            (encode_by_steps ev bytes num_bytes offset).1
          else to_int (encode_by_steps ev bytes num_bytes offset).1,
          some (encode_by_steps ev bytes num_bytes offset).2) := by
    intro ev bytes num_bytes offset
    rw [to_bytes_cast, to_bytes_steps]
  refine ⟨hcast, ?_, ?_, ?_⟩
  · intro pre post code step bytes num_bytes offset r h hneg hs
    exact run_steps_first_failure pre post code step bytes num_bytes offset r h hneg hs
  · intro ev bytes num_bytes offset hfail
    have hneg := (encode_by_steps_negative ev bytes num_bytes offset).mpr hfail
    rw [hcast, if_pos hneg]
    exact ⟨hneg, rfl⟩
  · intro ev bytes num_bytes offset hsmall
    rw [← encode_by_steps_negative, hcast]
    by_cases hneg : (encode_by_steps ev bytes num_bytes offset).1 < 0
    · rw [if_pos hneg]
      exact ⟨rfl, Iff.rfl⟩
    · rw [if_neg hneg, to_int_small _ (by omega) hsmall]
      exact ⟨rfl, Iff.rfl⟩
/-- C25 fails as stated: the reachable event `bulk_event 3 65530` takes
4294967266 bytes on the wire; in a buffer of that size every argument check,
the check of the encoding slot and every write succeeds, every byte is written,
and `lwes_event_to_bytes` returns -30, the number of bytes written converted to
`int`, which is negative and no code of the table. -/
theorem encode_error_codes_counterexample :
    Reachable (bulk_event 3 65530) ∧
    lwes_event_to_bytes (some (bulk_event 3 65530)) (some (List.replicate 4294967266 0))
        4294967266 0 =
      (-30, some (put_bytes (wire_bytes (bulk_event 3 65530)) (List.replicate 4294967266 0)
        0)) ∧
    (wire_bytes (bulk_event 3 65530)).length = 4294967266 ∧
    ¬ ((4294967266 = 0 ∨ 0 ≥ 4294967266) ∨
      (run_steps (head_steps (bulk_event 3 65530)) (List.replicate 4294967266 0)
        4294967266 0).1 < 0 ∨
      encoding_slot_check (bulk_event 3 65530) < 0 ∨
      (run_steps (encoding_steps (bulk_event 3 65530) ++
          (other_records (bulk_event 3 65530)).flatMap record_steps)
        (run_steps (head_steps (bulk_event 3 65530)) (List.replicate 4294967266 0)
          4294967266 0).2.1 4294967266
        (run_steps (head_steps (bulk_event 3 65530)) (List.replicate 4294967266 0)
          4294967266 0).2.2).1 < 0) := by
  have hx := to_bytes_exact_bulk 3 65530 (by decide) (by decide)
    (List.replicate 4294967266 0) 4294967266 0 (by decide)
  refine ⟨bulk_event_reachable 3 65530 (by decide), ?_, ?_, ?_⟩
  · rw [to_bytes_bulk 3 65530 (by decide) (by decide) _ 4294967266 0 (by decide)]
    rfl
  · rw [hx.2]
  · rw [← encode_by_steps_negative]
    have h1 := hx.1
    rw [to_bytes_steps] at h1
    rw [(Prod.mk.inj h1).1]
    decide
/-- C25 at a concrete input: the event "Test" in a buffer of 20 bytes, which the
name, the count, the encoding attribute and the name "label" fill; the write of
the type tag of "label" is the first that fails, and the result is -6. -/
theorem encode_error_codes_witness :
    (encode_by_steps event_test_state (List.replicate 20 0) 20 0).1 < 2147483648 ∧
    lwes_event_to_bytes (some event_test_state) (some (List.replicate 20 0)) 20 0 =
      ((encode_by_steps event_test_state (List.replicate 20 0) 20 0).1,
        some (encode_by_steps event_test_state (List.replicate 20 0) 20 0).2) ∧
    encode_by_steps event_test_state (List.replicate 20 0) 20 0 =
      (-6, [4, 84, 101, 115, 116, 0, 3, 3, 101, 110, 99, 2, 0, 1, 5, 108, 97, 98, 101, 108]) :=
  ⟨by decide,
    (encode_error_codes.2.2.2 event_test_state (List.replicate 20 0) 20 0 (by decide)).1, rfl⟩

/-! ## C26 : the codes of the decoder -/

/-- One pass of the loop of the decoder on a record whose name and type byte are
read and whose type byte is one of the nine tags: the code of the tag for a
payload that cannot be read, the code of the tag for a setter that rejects the
record, and else 0 with the event that the setter has left. -/
theorem from_bytes_attribute_table (event : Option lwes_event) (bytes : List Nat)
    (num_bytes offset : Nat) (nm : List Nat × Nat) (t : Nat × Nat)
    (hnm : unmarshall_SHORT_STRING (SHORT_STRING_MAX + 1) bytes num_bytes offset = some nm)
    (ht : unmarshall_BYTE bytes num_bytes nm.2 = some t) (hk : t.1 ∈ known_tags) :
    from_bytes_attribute event bytes num_bytes offset =
      match read_payload t.1 bytes num_bytes t.2 with
      | none => (payload_read_code t.1, event, t.2)
      | some r =>
        (if (r.1.run event (some nm.1)).1 < 0 then setter_reject_code t.1 else 0,
          (r.1.run event (some nm.1)).2, r.2) := by
  simp only [known_tags, List.mem_cons, List.mem_singleton, List.not_mem_nil, or_false] at hk
  unfold from_bytes_attribute read_payload payload_read_code setter_reject_code
  rw [hnm]
  simp only
  rw [ht]
  simp only
  rcases hk with hx | hx | hx | hx | hx | hx | hx | hx | hx
  · -- U_INT_16
    simp only [if_pos hx]
    cases unmarshall_U_INT_16 bytes num_bytes t.2 with
    | none => rfl
    | some v =>
      simp only [Option.map_some', typed_call.run]
      split_ifs <;> rfl
  · -- INT_16
    have hn1 : ¬ t.1 = LWES_U_INT_16_TOKEN := by rw [hx]; decide
    simp only [if_neg hn1, if_pos hx]
    cases unmarshall_INT_16 bytes num_bytes t.2 with
    | none => rfl
    | some v =>
      simp only [Option.map_some', typed_call.run]
      split_ifs <;> rfl
  · -- U_INT_32
    have hn1 : ¬ t.1 = LWES_U_INT_16_TOKEN := by rw [hx]; decide
    have hn2 : ¬ t.1 = LWES_INT_16_TOKEN := by rw [hx]; decide
    simp only [if_neg hn1, if_neg hn2, if_pos hx]
    cases unmarshall_U_INT_32 bytes num_bytes t.2 with
    | none => rfl
    | some v =>
      simp only [Option.map_some', typed_call.run]
      split_ifs <;> rfl
  · -- INT_32
    have hn1 : ¬ t.1 = LWES_U_INT_16_TOKEN := by rw [hx]; decide
    have hn2 : ¬ t.1 = LWES_INT_16_TOKEN := by rw [hx]; decide
    have hn3 : ¬ t.1 = LWES_U_INT_32_TOKEN := by rw [hx]; decide
    simp only [if_neg hn1, if_neg hn2, if_neg hn3, if_pos hx]
    cases unmarshall_INT_32 bytes num_bytes t.2 with
    | none => rfl
    | some v =>
      simp only [Option.map_some', typed_call.run]
      split_ifs <;> rfl
  · -- U_INT_64
    have hn1 : ¬ t.1 = LWES_U_INT_16_TOKEN := by rw [hx]; decide
    have hn2 : ¬ t.1 = LWES_INT_16_TOKEN := by rw [hx]; decide
    have hn3 : ¬ t.1 = LWES_U_INT_32_TOKEN := by rw [hx]; decide
    have hn4 : ¬ t.1 = LWES_INT_32_TOKEN := by rw [hx]; decide
    simp only [if_neg hn1, if_neg hn2, if_neg hn3, if_neg hn4, if_pos hx]
    cases unmarshall_U_INT_64 bytes num_bytes t.2 with
    | none => rfl
    | some v =>
      simp only [Option.map_some', typed_call.run]
      split_ifs <;> rfl
  · -- INT_64
    have hn1 : ¬ t.1 = LWES_U_INT_16_TOKEN := by rw [hx]; decide
    have hn2 : ¬ t.1 = LWES_INT_16_TOKEN := by rw [hx]; decide
    have hn3 : ¬ t.1 = LWES_U_INT_32_TOKEN := by rw [hx]; decide
    have hn4 : ¬ t.1 = LWES_INT_32_TOKEN := by rw [hx]; decide
    have hn5 : ¬ t.1 = LWES_U_INT_64_TOKEN := by rw [hx]; decide
    simp only [if_neg hn1, if_neg hn2, if_neg hn3, if_neg hn4, if_neg hn5, if_pos hx]
    cases unmarshall_INT_64 bytes num_bytes t.2 with
    | none => rfl
    | some v =>
      simp only [Option.map_some', typed_call.run]
      split_ifs <;> rfl
  · -- BOOLEAN
    have hn1 : ¬ t.1 = LWES_U_INT_16_TOKEN := by rw [hx]; decide
    have hn2 : ¬ t.1 = LWES_INT_16_TOKEN := by rw [hx]; decide
    have hn3 : ¬ t.1 = LWES_U_INT_32_TOKEN := by rw [hx]; decide
    have hn4 : ¬ t.1 = LWES_INT_32_TOKEN := by rw [hx]; decide
    have hn5 : ¬ t.1 = LWES_U_INT_64_TOKEN := by rw [hx]; decide
    have hn6 : ¬ t.1 = LWES_INT_64_TOKEN := by rw [hx]; decide
    simp only [if_neg hn1, if_neg hn2, if_neg hn3, if_neg hn4, if_neg hn5, if_neg hn6, if_pos hx]
    cases unmarshall_BOOLEAN bytes num_bytes t.2 with
    | none => rfl
    | some v =>
      simp only [Option.map_some', typed_call.run]
      split_ifs <;> rfl
  · -- IP_ADDR
    have hn1 : ¬ t.1 = LWES_U_INT_16_TOKEN := by rw [hx]; decide
    have hn2 : ¬ t.1 = LWES_INT_16_TOKEN := by rw [hx]; decide
    have hn3 : ¬ t.1 = LWES_U_INT_32_TOKEN := by rw [hx]; decide
    have hn4 : ¬ t.1 = LWES_INT_32_TOKEN := by rw [hx]; decide
    have hn5 : ¬ t.1 = LWES_U_INT_64_TOKEN := by rw [hx]; decide
    have hn6 : ¬ t.1 = LWES_INT_64_TOKEN := by rw [hx]; decide
    have hn7 : ¬ t.1 = LWES_BOOLEAN_TOKEN := by rw [hx]; decide
    simp only [if_neg hn1, if_neg hn2, if_neg hn3, if_neg hn4, if_neg hn5, if_neg hn6, if_neg hn7, if_pos hx]
    cases unmarshall_IP_ADDR bytes num_bytes t.2 with
    | none => rfl
    | some v =>
      simp only [Option.map_some', typed_call.run]
      split_ifs <;> rfl
  · -- STRING
    have hn1 : ¬ t.1 = LWES_U_INT_16_TOKEN := by rw [hx]; decide
    have hn2 : ¬ t.1 = LWES_INT_16_TOKEN := by rw [hx]; decide
    have hn3 : ¬ t.1 = LWES_U_INT_32_TOKEN := by rw [hx]; decide
    have hn4 : ¬ t.1 = LWES_INT_32_TOKEN := by rw [hx]; decide
    have hn5 : ¬ t.1 = LWES_U_INT_64_TOKEN := by rw [hx]; decide
    have hn6 : ¬ t.1 = LWES_INT_64_TOKEN := by rw [hx]; decide
    have hn7 : ¬ t.1 = LWES_BOOLEAN_TOKEN := by rw [hx]; decide
    have hn8 : ¬ t.1 = LWES_IP_ADDR_TOKEN := by rw [hx]; decide
    simp only [if_neg hn1, if_neg hn2, if_neg hn3, if_neg hn4, if_neg hn5, if_neg hn6, if_neg hn7, if_neg hn8, if_pos hx]
    cases unmarshall_LONG_STRING (LONG_STRING_MAX + 1) bytes num_bytes t.2 with
    | none => rfl
    | some v =>
      simp only [Option.map_some', typed_call.run]
      split_ifs <;> rfl

/-- The loop of the decoder stops at the first pass that fails: when the first
`k` passes succeed and the next one fails, the loop returns what that pass
returns. -/
theorem from_bytes_attributes_stop (bytes : List Nat) (num_bytes : Nat) :
    ∀ (k m : Nat) (ev : Option lwes_event) (offset : Nat) (evk : Option lwes_event)
      (o : Nat),
      from_bytes_attributes k ev bytes num_bytes offset = (0, evk, o) →
      (from_bytes_attribute evk bytes num_bytes o).1 < 0 →
      from_bytes_attributes (k + 1 + m) ev bytes num_bytes offset =
        from_bytes_attribute evk bytes num_bytes o := by
  intro k
  induction k with
  | zero =>
    intro m ev offset evk o hk hbad
    simp only [from_bytes_attributes, Prod.mk.injEq, true_and] at hk
    obtain ⟨h1, h2⟩ := hk
    subst h1 h2
    have : 0 + 1 + m = m + 1 := by omega
    rw [this]
    simp only [from_bytes_attributes, hbad, if_true]
  | succ k ih =>
    intro m ev offset evk o hk hbad
    have e1 : k + 1 + 1 + m = (k + 1 + m) + 1 := by omega
    rw [e1]
    simp only [from_bytes_attributes] at hk ⊢
    by_cases hneg : (from_bytes_attribute ev bytes num_bytes offset).1 < 0
    · rw [if_pos hneg] at hk
      rw [hk] at hneg
      exact absurd hneg (show ¬ ((0 : Int) < 0) by decide)
    · rw [if_neg hneg] at hk ⊢
      exact ih m _ _ evk o hk hbad

/-- C26. `lwes_event_from_bytes` returns -1 and leaves the event when the event,
the buffer or the scratch is absent, the size is 0 or the offset is not below the
size; past these checks it returns -25 when the name is not read, -24 when the
name is not set, -23 when the count is not read, and else the code of the loop
over the records, or after a loop without a failure the number of bytes
consumed converted to `int`; the loop returns what its first failing pass
returns; and a pass returns -22 when the name of the record is not read, -21 when the type byte
is not read, -20 for a type byte that is none of the nine tags, and for each of
the nine tags the code of the tag for a payload that is not read (-3, -5, -7,
-9, -11, -13, -15, -17, -19) and the code of the tag for a setter that rejects
the record (-2, -4, -6, -8, -10, -12, -14, -16, -18). -/
theorem decode_error_codes :
    (∀ (event : Option lwes_event) (bytes : Option (List Nat)) (num_bytes offset : Nat)
        (dtmp : Option lwes_event_deserialize_tmp),
      (event = none ∨ bytes = none ∨ dtmp = none ∨ num_bytes = 0 ∨ offset ≥ num_bytes) →
      lwes_event_from_bytes event bytes num_bytes offset dtmp = (-1, event)) ∧
    (∀ (ev : lwes_event) (bs : List Nat) (num_bytes offset : Nat)
        (dtmp : lwes_event_deserialize_tmp), 0 < num_bytes → offset < num_bytes →
      (unmarshall_SHORT_STRING (SHORT_STRING_MAX + 1) bs num_bytes offset = none →
        lwes_event_from_bytes (some ev) (some bs) num_bytes offset (some dtmp) =
          (-25, some ev)) ∧
      (∀ nm, unmarshall_SHORT_STRING (SHORT_STRING_MAX + 1) bs num_bytes offset = some nm →
        ((lwes_event_set_name (some ev) (some nm.1)).1 ≠ 0 →
          lwes_event_from_bytes (some ev) (some bs) num_bytes offset (some dtmp) =
            (-24, (lwes_event_set_name (some ev) (some nm.1)).2)) ∧
        ((lwes_event_set_name (some ev) (some nm.1)).1 = 0 →
          unmarshall_U_INT_16 bs num_bytes nm.2 = none →
          lwes_event_from_bytes (some ev) (some bs) num_bytes offset (some dtmp) =
            (-23, (lwes_event_set_name (some ev) (some nm.1)).2)) ∧
        (∀ cnt, (lwes_event_set_name (some ev) (some nm.1)).1 = 0 →
          unmarshall_U_INT_16 bs num_bytes nm.2 = some cnt →
          lwes_event_from_bytes (some ev) (some bs) num_bytes offset (some dtmp) =
            if (from_bytes_attributes cnt.1 (lwes_event_set_name (some ev) (some nm.1)).2
                bs num_bytes cnt.2).1 < 0 then
              ((from_bytes_attributes cnt.1 (lwes_event_set_name (some ev) (some nm.1)).2
                  bs num_bytes cnt.2).1,
                (from_bytes_attributes cnt.1 (lwes_event_set_name (some ev) (some nm.1)).2
                  bs num_bytes cnt.2).2.1)
            else
              (to_int (((from_bytes_attributes cnt.1
                  (lwes_event_set_name (some ev) (some nm.1)).2
                  bs num_bytes cnt.2).2.2 : Int) - (offset : Int)),
                (from_bytes_attributes cnt.1 (lwes_event_set_name (some ev) (some nm.1)).2
                  bs num_bytes cnt.2).2.1)))) ∧
    (∀ (bytes : List Nat) (num_bytes k m : Nat) (ev : Option lwes_event) (offset : Nat)
        (evk : Option lwes_event) (o : Nat),
      from_bytes_attributes k ev bytes num_bytes offset = (0, evk, o) →
      (from_bytes_attribute evk bytes num_bytes o).1 < 0 →
      from_bytes_attributes (k + 1 + m) ev bytes num_bytes offset =
        from_bytes_attribute evk bytes num_bytes o) ∧
    (∀ (event : Option lwes_event) (bytes : List Nat) (num_bytes offset : Nat),
      (unmarshall_SHORT_STRING (SHORT_STRING_MAX + 1) bytes num_bytes offset = none →
        from_bytes_attribute event bytes num_bytes offset = (-22, event, offset)) ∧
      (∀ nm, unmarshall_SHORT_STRING (SHORT_STRING_MAX + 1) bytes num_bytes offset = some nm →
        (unmarshall_BYTE bytes num_bytes nm.2 = none →
          from_bytes_attribute event bytes num_bytes offset = (-21, event, nm.2)) ∧
        (∀ t, unmarshall_BYTE bytes num_bytes nm.2 = some t →
          (t.1 ∉ known_tags →
            from_bytes_attribute event bytes num_bytes offset = (-20, event, t.2)) ∧
          (t.1 ∈ known_tags →
            from_bytes_attribute event bytes num_bytes offset =
              match read_payload t.1 bytes num_bytes t.2 with
              | none => (payload_read_code t.1, event, t.2)
              | some r =>
                (if (r.1.run event (some nm.1)).1 < 0 then setter_reject_code t.1 else 0,
                  (r.1.run event (some nm.1)).2, r.2))))) ∧
    (known_tags.map payload_read_code = [-3, -5, -7, -9, -11, -13, -15, -17, -19] ∧
      known_tags.map setter_reject_code = [-2, -4, -6, -8, -10, -12, -14, -16, -18]) := by
  refine ⟨?_, ?_, ?_, ?_, ⟨rfl, rfl⟩⟩
  · intro event bytes num_bytes offset dtmp h
    cases event with
    | none => rfl
    | some ev =>
      cases bytes with
      | none => rfl
      | some bs =>
        cases dtmp with
        | none => rfl
        | some d =>
          have hpre : num_bytes = 0 ∨ offset ≥ num_bytes := by
            rcases h with h | h | h | h | h
            · cases h
            · cases h
            · cases h
            · exact Or.inl h
            · exact Or.inr h
          unfold lwes_event_from_bytes
          simp only [hpre, if_true]
  · intro ev bs num_bytes offset dtmp h1 h2
    have hpre : ¬ (num_bytes = 0 ∨ offset ≥ num_bytes) := by omega
    unfold lwes_event_from_bytes
    simp only [hpre, if_false]
    refine ⟨fun hn => by rw [hn], fun nm hn => ?_⟩
    rw [hn]
    simp only
    refine ⟨fun hs => by rw [if_neg hs], fun hs hc => ?_, fun cnt hs hc => ?_⟩
    · rw [if_pos hs, hc]
    · rw [if_pos hs, hc]
  · intro bytes num_bytes k m ev offset evk o h1 h2
    exact from_bytes_attributes_stop bytes num_bytes k m ev offset evk o h1 h2
  · intro event bytes num_bytes offset
    refine ⟨fun hn => ?_, fun nm hn => ⟨fun ht => ?_, fun t ht => ⟨fun hu => ?_, fun hk => ?_⟩⟩⟩
    · unfold from_bytes_attribute
      rw [hn]
    · unfold from_bytes_attribute
      rw [hn]
      simp only
      rw [ht]
    · simp only [known_tags, List.mem_cons, List.mem_singleton, List.not_mem_nil, or_false,
        not_or] at hu
      obtain ⟨h1, h2, h3, h4, h5, h6, h7, h8, h9⟩ := hu
      unfold from_bytes_attribute
      rw [hn]
      simp only
      rw [ht]
      simp only [if_neg h1, if_neg h2, if_neg h3, if_neg h4, if_neg h5, if_neg h6, if_neg h7,
        if_neg h8, if_neg h9]
    · exact from_bytes_attribute_table event bytes num_bytes offset nm t hn ht hk

/-- C26 at a concrete input: the buffer `unknown_tag_bytes`, whose first record
"a" is installed and whose second record has the type byte 77. -/
theorem decode_error_codes_witness :
    from_bytes_attributes (1 + 1 + 1) (some { fresh_event with eventName := some [69] })
        unknown_tag_bytes 19 4 =
      from_bytes_attribute (some event_E_a7_no_db) unknown_tag_bytes 19 9 ∧
    from_bytes_attribute (some event_E_a7_no_db) unknown_tag_bytes 19 9 =
      (-20, some event_E_a7_no_db, 12) :=
  ⟨decode_error_codes.2.2.1 unknown_tag_bytes 19 1 1
      (some { fresh_event with eventName := some [69] }) 4 (some event_E_a7_no_db) 9 rfl
      (by decide),
    (((decode_error_codes.2.2.2.1 (some event_E_a7_no_db) unknown_tag_bytes 19 9).2
      ([98], 11) rfl).2 (77, 12) rfl).1 (by decide)⟩

/-! ## C27 : the branches of the encoder that no reachable event takes -/

/-- The tag of a typed setter call is one of the nine tags. -/
theorem typed_call_token_known (c : typed_call) : c.token ∈ known_tags := by
  cases c <;> simp [typed_call.token, known_tags]

/-- An attribute with one of the nine tags has a write for its payload. -/
theorem payload_steps_known (a : lwes_event_attribute) (h : a.type ∈ known_tags) :
    payload_steps a ≠ [] := by
  simp only [known_tags, List.mem_cons, List.mem_singleton, List.not_mem_nil, or_false] at h
  unfold payload_steps
  split_ifs <;> simp_all

/-- The encoding block returns -4 only for an attribute under the reserved name
without a value. -/
theorem to_bytes_encoding_no_value (ev : lwes_event) (bytes : List Nat)
    (num_bytes offset : Nat) (h : (to_bytes_encoding ev bytes num_bytes offset).1 = -4) :
    ∃ a, lwes_hash_get ev.attributes LWES_ENCODING = some a ∧ a.value = none := by
  rw [to_bytes_encoding_steps] at h
  by_cases hc : encoding_slot_check ev < 0
  · rw [if_pos hc] at h
    simp only at h
    unfold encoding_slot_check at h
    cases hg : lwes_hash_get ev.attributes LWES_ENCODING with
    | none =>
      rw [hg] at h
      exact absurd h (by decide)
    | some a =>
      rw [hg] at h
      simp only at h
      by_cases hv : a.value = none
      · exact ⟨a, rfl, hv⟩
      · rw [if_neg hv] at h
        split_ifs at h
        exact absurd h (by decide)
  · rw [if_neg hc] at h
    exfalso
    have hw := (to_bytes_encoding_writes ev bytes num_bytes offset).1
    rw [to_bytes_encoding_steps, if_neg hc] at hw
    have hcodes : ∀ (steps : List (Int × marshall_step)), (∀ f ∈ steps, f.1 = -2) →
        ∀ (b : List Nat) (o : Nat), (run_steps steps b num_bytes o).1 = 0 ∨
          (run_steps steps b num_bytes o).1 = -2 := by
      intro steps
      induction steps with
      | nil => intro _ b o; left; rfl
      | cons f fs ih =>
        intro hf b o
        obtain ⟨c, s⟩ := f
        simp only [run_steps]
        cases s b num_bytes o with
        | none =>
          right
          exact hf (c, s) (List.mem_cons_self _ _)
        | some r => exact ih (fun g hg => hf g (List.mem_cons_of_mem _ hg)) r.1 r.2
    have h2 : ∀ f ∈ encoding_steps ev, f.1 = -2 := by
      intro f hf
      unfold encoding_steps encoding_record at hf
      cases hg : lwes_hash_get ev.attributes LWES_ENCODING with
      | none =>
        rw [hg] at hf
        simp at hf
      | some a =>
        rw [hg] at hf
        simp only [List.flatMap_cons, List.flatMap_nil, List.append_nil, List.mem_cons,
          List.not_mem_nil, or_false] at hf
        rcases hf with h | h | h <;> rw [h]
    rcases hcodes (encoding_steps ev) h2 bytes offset with h3 | h3 <;> omega

/-- Past its argument checks `to_bytes_exact` returns -4 only for an
attribute under the reserved name without a value. -/
theorem to_bytes_no_value (ev : lwes_event) (bytes : List Nat) (num_bytes offset : Nat)
    (h : (to_bytes_exact (some ev) (some bytes) num_bytes offset).1 = -4) :
    ∃ a, lwes_hash_get ev.attributes LWES_ENCODING = some a ∧ a.value = none := by
  unfold to_bytes_exact at h
  by_cases hpre : num_bytes = 0 ∨ offset ≥ num_bytes
  · simp only [hpre, if_true] at h
    exact absurd h (by decide)
  · simp only [hpre, if_false] at h
    cases hm1 : marshall_SHORT_STRING ev.eventName bytes num_bytes offset with
    | none =>
      rw [hm1] at h
      simp at h
    | some r1 =>
      rw [hm1] at h
      simp only at h
      obtain ⟨s, _, _, hr1, _⟩ := marshall_SHORT_STRING_some _ _ _ _ r1 hm1
      cases hm2 : marshall_U_INT_16 ev.number_of_attributes r1.1 num_bytes r1.2 with
      | none =>
        rw [hm2] at h
        simp at h
      | some r2 =>
        rw [hm2] at h
        simp only at h
        obtain ⟨hr2, _⟩ := marshall_generic_some _ _ _ _ r2 hm2
        by_cases hneg : (to_bytes_encoding ev r2.1 num_bytes r2.2).1 < 0
        · simp only [hneg, if_true] at h
          exact to_bytes_encoding_no_value ev r2.1 num_bytes r2.2 h
        · simp only [hneg, if_false] at h
          exfalso
          have hw3 := (to_bytes_encoding_writes ev r2.1 num_bytes r2.2).1.2.2.1
          have hw4 := (to_bytes_attributes_writes ev (lwes_hash_keys ev.attributes)
            (to_bytes_encoding ev r2.1 num_bytes r2.2).2.1 num_bytes
            (to_bytes_encoding ev r2.1 num_bytes r2.2).2.2).2.2.1
          have hcode := to_bytes_attributes_code ev (lwes_hash_keys ev.attributes)
            (to_bytes_encoding ev r2.1 num_bytes r2.2).2.1 num_bytes
            (to_bytes_encoding ev r2.1 num_bytes r2.2).2.2
          have h1 : offset ≤ r1.2 := by rw [hr1]; simp
          have h2 : r1.2 ≤ r2.2 := by rw [hr2]; simp
          by_cases hneg4 : (to_bytes_attributes ev (lwes_hash_keys ev.attributes)
              (to_bytes_encoding ev r2.1 num_bytes r2.2).2.1 num_bytes
              (to_bytes_encoding ev r2.1 num_bytes r2.2).2.2).1 < 0
          · simp only [hneg4, if_true] at h
            omega
          · simp only [hneg4, if_false] at h
            omega

/-- C27 (amended). In every reachable event every stored attribute has one of
the nine type tags and a value; so for every key that the loop of the encoder
visits, the attribute that the table gives has one of the nine tags, for which
the dispatch on the type has a write, not the branch that skips the attribute,
and `lwes_event_to_bytes` never returns -4 for an event whose wire layout is
shorter than 2^31 bytes; for a longer one it returns -4 only after it has
written the whole layout, as the length of the layout converted to `int`. -/
theorem fallback_branches_dead (ev : lwes_event) (h : Reachable ev) :
    (∀ e ∈ ev.attributes.entries, e.2.type ∈ known_tags ∧ e.2.value ≠ none) ∧
    (∀ k ∈ lwes_hash_keys ev.attributes,
      lwes_hash_get ev.attributes k ≠ none ∧ (attribute_at ev k).type ∈ known_tags ∧
      (attribute_at ev k).value ≠ none ∧ payload_steps (attribute_at ev k) ≠ []) ∧
    (∀ (bytes : Option (List Nat)) (num_bytes offset : Nat),
      (wire_bytes ev).length < 2147483648 →
      (lwes_event_to_bytes (some ev) bytes num_bytes offset).1 ≠ -4) ∧
    (∀ (bytes : List Nat) (num_bytes offset : Nat),
      (lwes_event_to_bytes (some ev) (some bytes) num_bytes offset).1 = -4 →
      offset + (wire_bytes ev).length ≤ num_bytes ∧
      (lwes_event_to_bytes (some ev) (some bytes) num_bytes offset).2 =
        some (put_bytes (wire_bytes ev) bytes offset) ∧
      to_int ((wire_bytes ev).length : Int) = -4) := by
  have hwf := reachable_well_formed ev h
  have hall : ∀ e ∈ ev.attributes.entries, e.2.type ∈ known_tags ∧ e.2.value ≠ none := by
    intro e he
    obtain ⟨c, _, hs, hc⟩ := hwf.attrs_ok e he
    rw [hc]
    exact ⟨typed_call_token_known c, hs⟩
  have hdead : ∀ (bytes : List Nat) (num_bytes offset : Nat),
      (lwes_event_to_bytes (some ev) (some bytes) num_bytes offset).1 = -4 →
      offset + (wire_bytes ev).length ≤ num_bytes ∧
      (lwes_event_to_bytes (some ev) (some bytes) num_bytes offset).2 =
        some (put_bytes (wire_bytes ev) bytes offset) ∧
      to_int ((wire_bytes ev).length : Int) = -4 := by
    intro bytes num_bytes offset h4
    rw [to_bytes_buffer]
    rw [to_bytes_cast] at h4
    simp only at h4
    by_cases hneg : (to_bytes_exact (some ev) (some bytes) num_bytes offset).1 < 0
    · exfalso
      rw [if_pos hneg] at h4
      obtain ⟨a, ha, hv⟩ := to_bytes_no_value ev bytes num_bytes offset h4
      exact reachable_value ev h LWES_ENCODING a ha hv
    · rw [if_neg hneg] at h4
      obtain ⟨_, _, _, hfit, hout, hlen⟩ := to_bytes_success ev bytes num_bytes offset
        (to_bytes_exact (some ev) (some bytes) num_bytes offset).1
        (to_bytes_exact (some ev) (some bytes) num_bytes offset).2 rfl (not_lt.mp hneg)
      rw [hlen] at h4
      exact ⟨hfit, hout, h4⟩
  refine ⟨hall, ?_, ?_, hdead⟩
  · intro k hk
    simp only [lwes_hash_keys, List.mem_map] at hk
    obtain ⟨e, he, hek⟩ := hk
    have hat := attribute_at_of_nodup ev hwf.nodup e he
    rw [hek] at hat
    have hfind := find_of_nodup ev.attributes.entries hwf.nodup e he
    rw [hek] at hfind
    refine ⟨?_, ?_, ?_, ?_⟩
    · simp only [lwes_hash_get, hfind]
      simp
    · rw [hat]
      exact (hall e he).1
    · rw [hat]
      exact (hall e he).2
    · exact payload_steps_known _ (by rw [hat]; exact (hall e he).1)
  · intro bytes num_bytes offset hsmall h4
    cases bytes with
    | none => simp [lwes_event_to_bytes] at h4
    | some bs =>
      have h5 := (hdead bs num_bytes offset h4).2.2
      rw [to_int_small _ (by omega) (by omega)] at h5
      omega

/-- C27 at a concrete input: the event "Test" with its three attributes. -/
theorem fallback_branches_dead_witness :
    (∀ e ∈ event_test_state.attributes.entries, e.2.type ∈ known_tags ∧ e.2.value ≠ none) ∧
    (∀ k ∈ lwes_hash_keys event_test_state.attributes,
      lwes_hash_get event_test_state.attributes k ≠ none ∧
      (attribute_at event_test_state k).type ∈ known_tags ∧
      (attribute_at event_test_state k).value ≠ none ∧
      payload_steps (attribute_at event_test_state k) ≠ []) ∧
    (∀ (bytes : Option (List Nat)) (num_bytes offset : Nat),
      (wire_bytes event_test_state).length < 2147483648 →
      (lwes_event_to_bytes (some event_test_state) bytes num_bytes offset).1 ≠ -4) ∧
    (∀ (bytes : List Nat) (num_bytes offset : Nat),
      (lwes_event_to_bytes (some event_test_state) (some bytes) num_bytes offset).1 = -4 →
      offset + (wire_bytes event_test_state).length ≤ num_bytes ∧
      (lwes_event_to_bytes (some event_test_state) (some bytes) num_bytes offset).2 =
        some (put_bytes (wire_bytes event_test_state) bytes offset) ∧
      to_int ((wire_bytes event_test_state).length : Int) = -4) :=
  fallback_branches_dead event_test_state reachable_event_test_state
/-- C27 fails as stated: the reachable event `bulk_event 29 65530` takes
4294967292 bytes on the wire; in a buffer of that size every byte is written and
`lwes_event_to_bytes` returns -4, the number of bytes written converted to
`int`. -/
theorem fallback_branches_dead_counterexample :
    Reachable (bulk_event 29 65530) ∧
    (wire_bytes (bulk_event 29 65530)).length = 4294967292 ∧
    lwes_event_to_bytes (some (bulk_event 29 65530)) (some (List.replicate 4294967292 0))
        4294967292 0 =
      (-4, some (put_bytes (wire_bytes (bulk_event 29 65530)) (List.replicate 4294967292 0)
        0)) := by
  refine ⟨bulk_event_reachable 29 65530 (by decide), ?_, ?_⟩
  · rw [(to_bytes_exact_bulk 29 65530 (by decide) (by decide) [] 4294967292 0
      (by decide)).2]
  · rw [to_bytes_bulk 29 65530 (by decide) (by decide) _ 4294967292 0 (by decide)]
    rfl

/-! ## C28 : decoding into an event that has a name -/

/-- A short string that is read at an offset lies inside the buffer. -/
theorem unmarshall_SHORT_STRING_inside (m : Nat) (bytes : List Nat) (length offset : Nat)
    (r : List Nat × Nat) (h : unmarshall_SHORT_STRING m bytes length offset = some r) :
    offset < length := by
  unfold unmarshall_SHORT_STRING at h
  cases hl : unmarshall_BYTE bytes length offset with
  | none => rw [hl] at h; cases h
  | some len =>
    obtain ⟨_, hle1⟩ := unmarshall_map_some _ 1 bytes length offset len hl
    omega

/-- C28. For an event that has a name and a buffer with a readable short string
at the offset, `lwes_event_from_bytes` returns -24 and the event as it was, with
its name, its counter and its attributes, whatever follows the string in the
buffer: neither the count nor a record is read. -/
theorem decode_into_named (ev : lwes_event) (bytes : List Nat) (num_bytes offset : Nat)
    (dtmp : lwes_event_deserialize_tmp) (name : List Nat × Nat)
    (hname : ev.eventName ≠ none)
    (hread : unmarshall_SHORT_STRING (SHORT_STRING_MAX + 1) bytes num_bytes offset = some name) :
    lwes_event_from_bytes (some ev) (some bytes) num_bytes offset (some dtmp) =
      (-24, some ev) := by
  have hin := unmarshall_SHORT_STRING_inside _ bytes num_bytes offset name hread
  have hpre : ¬ (num_bytes = 0 ∨ offset ≥ num_bytes) := by omega
  unfold lwes_event_from_bytes
  simp only
  rw [if_neg hpre, hread]
  simp only [lwes_event_set_name]
  rw [if_pos hname]
  simp

/-- C28 at a concrete input: the event that `lwes_event_create` builds with the
name "T" and the buffer `test_bytes`, which starts with the short string "Test". -/
theorem decode_into_named_witness :
    lwes_event_create none place_first (some [84]) = some (named_event none place_first [84]) ∧
    lwes_event_from_bytes (some (named_event none place_first [84])) (some test_bytes) 36 0
        (some ⟨[], []⟩) = (-24, some (named_event none place_first [84])) :=
  ⟨rfl, decode_into_named (named_event none place_first [84]) test_bytes 36 0 ⟨[], []⟩
    ([84, 101, 115, 116], 5) (by simp [named_event]) (by decide)⟩

/-! ## C29 : the decoded count and the count on the wire -/

/-- A loop of reads and setter calls that does not fail has read `n` records, the
offset it reaches is the offset behind them, and each of them has put one
attribute under a new name into the table and has advanced the 16-bit counter by
one; the name stays. -/
theorem decode_records_succeeded (bytes : List Nat) (num_bytes : Nat) :
    ∀ (n : Nat) (ev : lwes_event) (offset : Nat),
      0 ≤ (decode_records n (some ev) bytes num_bytes offset).1 →
      (lwes_hash_keys ev.attributes).Nodup → ev.number_of_attributes < 65536 →
      ∃ ev2, (decode_records n (some ev) bytes num_bytes offset).2.1 = some ev2 ∧
        (decode_records n (some ev) bytes num_bytes offset).1 = 0 ∧
        skip_records n bytes num_bytes offset =
          some (decode_records n (some ev) bytes num_bytes offset).2.2 ∧
        ev2.eventName = ev.eventName ∧
        ev2.number_of_attributes = (ev.number_of_attributes + n) % 65536 ∧
        ev2.attributes.entries.length = ev.attributes.entries.length + n ∧
        (lwes_hash_keys ev2.attributes).Nodup := by
  intro n
  induction n with
  | zero =>
    intro ev offset _ hnd hlt
    refine ⟨ev, rfl, rfl, rfl, rfl, ?_, rfl, hnd⟩
    simp only [Nat.add_zero]
    omega
  | succ n ih =>
    intro ev offset hok hnd hlt
    simp only [decode_records, skip_records] at hok ⊢
    cases hread : read_record bytes num_bytes offset with
    | error code =>
      rw [hread] at hok
      have := read_record_error_neg bytes num_bytes offset code hread
      simp only at hok
      omega
    | ok r =>
      obtain ⟨name, call, next⟩ := r
      rw [hread] at hok
      simp only at hok ⊢
      by_cases hneg : (call.run (some ev) (some name)).1 < 0
      · rw [if_pos hneg] at hok
        have := reject_code_neg call
        simp only at hok
        omega
      · rw [if_neg hneg] at hok ⊢
        rcases typed_call_run_some call ev name with ⟨_, h1⟩ | ⟨_, h1⟩
        · rw [h1] at hneg
          exact absurd (show (-1 : Int) < 0 by decide) hneg
        · rcases lwes_event_add_cases ev name call.token call.stored with
            ⟨hneg2, _⟩ | ⟨hk, i, h2⟩
          · rw [h1] at hneg
            exact absurd hneg2 hneg
          · rw [h1, h2] at hok ⊢
            simp only at hok ⊢
            have hperm := insert_at_perm i (name, (⟨call.token, call.stored⟩ : lwes_event_attribute))
              ev.attributes.entries
            have hnd1 : (lwes_hash_keys { ev.attributes with
                entries := insert_at i (name, ⟨call.token, call.stored⟩)
                  ev.attributes.entries }).Nodup := by
              simp only [lwes_hash_keys]
              refine ((hperm.map Prod.fst).nodup_iff).mpr ?_
              simp only [List.map_cons, List.nodup_cons]
              exact ⟨hk, hnd⟩
            obtain ⟨ev2, he2, hc, hskip, hn2, hcount, hlen, hnd2⟩ := ih _ next hok hnd1
              (by simp only; omega)
            refine ⟨ev2, he2, hc, hskip, hn2, ?_, ?_, hnd2⟩
            · rw [hcount]
              simp only
              omega
            · rw [hlen]
              simp only [insert_at_length]
              omega

/-- The decoder without the conversion on the event without name and without
attributes, when it does not fail: the counter of the event is the 16-bit count
that the buffer holds behind the name, the table holds that number of attributes
under names that differ one from the other, and the result is the number of
bytes from the start offset to the offset behind the last of the records. -/
theorem from_bytes_exact_count (db : Option lwes_event_type_db)
    (place : List (List Nat) → List Nat → Nat) (bytes : List Nat) (num_bytes offset : Nat)
    (dtmp : lwes_event_deserialize_tmp) (hb : ∀ b ∈ bytes, b < 256)
    (hok : 0 ≤ (from_bytes_exact (some (empty_event db place)) (some bytes) num_bytes
      offset (some dtmp)).1) :
    ∃ (ev2 : lwes_event) (name : List Nat × Nat) (count : Nat × Nat) (last : Nat),
      lwes_event_create_no_name db place = some (empty_event db place) ∧
      (from_bytes_exact (some (empty_event db place)) (some bytes) num_bytes offset
        (some dtmp)).2 = some ev2 ∧
      unmarshall_SHORT_STRING (SHORT_STRING_MAX + 1) bytes num_bytes offset = some name ∧
      unmarshall_U_INT_16 bytes num_bytes name.2 = some count ∧
      ev2.eventName = some name.1 ∧
      ev2.number_of_attributes = count.1 ∧
      ev2.attributes.entries.length = count.1 ∧
      (lwes_hash_keys ev2.attributes).Nodup ∧
      skip_records count.1 bytes num_bytes count.2 = some last ∧
      (from_bytes_exact (some (empty_event db place)) (some bytes) num_bytes offset
        (some dtmp)).1 = (last : Int) - (offset : Int) := by
  rw [from_bytes_eq_decode] at hok ⊢
  by_cases hpre : num_bytes = 0 ∨ offset ≥ num_bytes
  · rw [if_pos hpre] at hok
    simp at hok
  · rw [if_neg hpre] at hok ⊢
    unfold decode_by_setters at hok ⊢
    cases hname : unmarshall_SHORT_STRING (SHORT_STRING_MAX + 1) bytes num_bytes offset with
    | none =>
      rw [hname] at hok
      simp at hok
    | some name =>
      rw [hname] at hok
      have hset : lwes_event_set_name (some (empty_event db place)) (some name.1) =
          (0, some { empty_event db place with eventName := some name.1 }) := rfl
      simp only [hset, ne_eq, not_true_eq_false, if_false] at hok ⊢
      cases hcount : unmarshall_U_INT_16 bytes num_bytes name.2 with
      | none =>
        rw [hcount] at hok
        simp at hok
      | some count =>
        rw [hcount] at hok
        simp only at hok ⊢
        obtain ⟨hc, _⟩ := unmarshall_map_some _ 2 bytes num_bytes name.2 count hcount
        have hlt := be_value_get_bytes_lt 2 bytes name.2 hb
        have hc1 : count.1 < 65536 := by
          rw [hc]
          simpa using hlt
        by_cases hneg : (decode_records count.1
            (some { empty_event db place with eventName := some name.1 }) bytes num_bytes
            count.2).1 < 0
        · rw [if_pos hneg] at hok
          exact absurd hneg (not_lt.mpr hok)
        · rw [if_neg hneg] at hok ⊢
          obtain ⟨ev2, he2, _, hskip, hn2, hcnt, hlen, hnd⟩ :=
            decode_records_succeeded bytes num_bytes count.1
              { empty_event db place with eventName := some name.1 } count.2 (not_lt.mp hneg)
              (by simp [empty_event, lwes_hash_keys, lwes_hash_create])
              (by simp [empty_event])
          refine ⟨ev2, name, count, _, rfl, he2, rfl, hcount, hn2, ?_, ?_, hnd, hskip, rfl⟩
          · rw [hcnt]
            simp only [empty_event]
            omega
          · rw [hlen]
            simp [empty_event, lwes_hash_create]
/-- C29 (amended). For a buffer of bytes and the event without name and without
attributes that `lwes_event_create_no_name` builds, when `lwes_event_from_bytes`
does not fail: the counter of the event is the 16-bit count that the buffer
holds behind the name, the table holds that number of attributes under names
that differ one from the other, and the result is the number of bytes from the
start offset to the offset behind the last of the records, converted to `int`:
that number itself when it is below 2^31. -/
theorem decoded_count (db : Option lwes_event_type_db)
    (place : List (List Nat) → List Nat → Nat) (bytes : List Nat) (num_bytes offset : Nat)
    (dtmp : lwes_event_deserialize_tmp) (hb : ∀ b ∈ bytes, b < 256)
    (hok : 0 ≤ (lwes_event_from_bytes (some (empty_event db place)) (some bytes) num_bytes
      offset (some dtmp)).1) :
    ∃ (ev2 : lwes_event) (name : List Nat × Nat) (count : Nat × Nat) (last : Nat),
      lwes_event_create_no_name db place = some (empty_event db place) ∧
      (lwes_event_from_bytes (some (empty_event db place)) (some bytes) num_bytes offset
        (some dtmp)).2 = some ev2 ∧
      unmarshall_SHORT_STRING (SHORT_STRING_MAX + 1) bytes num_bytes offset = some name ∧
      unmarshall_U_INT_16 bytes num_bytes name.2 = some count ∧
      ev2.eventName = some name.1 ∧
      ev2.number_of_attributes = count.1 ∧
      ev2.attributes.entries.length = count.1 ∧
      (lwes_hash_keys ev2.attributes).Nodup ∧
      skip_records count.1 bytes num_bytes count.2 = some last ∧
      offset ≤ last ∧
      (lwes_event_from_bytes (some (empty_event db place)) (some bytes) num_bytes offset
        (some dtmp)).1 = to_int ((last : Int) - (offset : Int)) ∧
      ((last : Int) - (offset : Int) < 2147483648 →
        (lwes_event_from_bytes (some (empty_event db place)) (some bytes) num_bytes offset
          (some dtmp)).1 = (last : Int) - (offset : Int)) := by
  obtain ⟨hnn, hc⟩ := from_bytes_cast_success _ _ _ _ _ hok
  obtain ⟨ev2, name, count, last, h1, h2, h3, h4, h5, h6, h7, h8, h9, h10⟩ :=
    from_bytes_exact_count db place bytes num_bytes offset dtmp hb hnn
  rw [h10] at hnn hc
  refine ⟨ev2, name, count, last, h1, ?_, h3, h4, h5, h6, h7, h8, h9, by omega, hc, ?_⟩
  · rw [from_bytes_event]
    exact h2
  · intro hsmall
    rw [hc, to_int_small _ hnn hsmall]
/-- C29 at a concrete input: the 36 bytes of `test_bytes` decoded into a fresh
event; the count on the wire is 3 and the result is 36. -/
theorem decoded_count_witness :
    0 ≤ (lwes_event_from_bytes (some (empty_event none place_first)) (some test_bytes) 36 0
      (some ⟨[], []⟩)).1 ∧
    ∃ (ev2 : lwes_event) (name : List Nat × Nat) (count : Nat × Nat) (last : Nat),
      lwes_event_create_no_name none place_first = some (empty_event none place_first) ∧
      (lwes_event_from_bytes (some (empty_event none place_first)) (some test_bytes) 36 0
        (some ⟨[], []⟩)).2 = some ev2 ∧
      unmarshall_SHORT_STRING (SHORT_STRING_MAX + 1) test_bytes 36 0 = some name ∧
      unmarshall_U_INT_16 test_bytes 36 name.2 = some count ∧
      ev2.eventName = some name.1 ∧
      ev2.number_of_attributes = count.1 ∧
      ev2.attributes.entries.length = count.1 ∧
      (lwes_hash_keys ev2.attributes).Nodup ∧
      skip_records count.1 test_bytes 36 count.2 = some last ∧
      0 ≤ last ∧
      (lwes_event_from_bytes (some (empty_event none place_first)) (some test_bytes) 36 0
        (some ⟨[], []⟩)).1 = to_int ((last : Int) - ((0 : Nat) : Int)) ∧
      ((last : Int) - ((0 : Nat) : Int) < 2147483648 →
        (lwes_event_from_bytes (some (empty_event none place_first)) (some test_bytes) 36 0
          (some ⟨[], []⟩)).1 = (last : Int) - ((0 : Nat) : Int)) :=
  ⟨by decide, decoded_count none place_first test_bytes 36 0 ⟨[], []⟩ (by decide) (by decide)⟩
/-- Every element of a big-endian representation is a byte. -/
theorem be_bytes_lt (w v : Nat) : ∀ b ∈ be_bytes w v, b < 256 := by
  induction w with
  | zero =>
    intro b hb
    simp [be_bytes] at hb
  | succ w ih =>
    intro b hb
    simp only [be_bytes, List.mem_cons] at hb
    rcases hb with hb | hb
    · rw [hb]
      exact Nat.mod_lt _ (by decide)
    · exact ih b hb
/-- Every element of the record of a STRING attribute is a byte when the
elements of the name and of the string are, and the name is shorter than 256. -/
theorem record_bytes_string_lt (key : List Nat) (a : lwes_event_attribute) (s : List Nat)
    (hk : key.length < 256) (hkey : ∀ b ∈ key, b < 256) (ht : a.type = LWES_STRING_TOKEN)
    (hv : a.value = some (.STRING s)) (hs : ∀ b ∈ s, b < 256) :
    ∀ b ∈ record_bytes (key, a), b < 256 := by
  have hp : payload_bytes a = be_bytes 2 s.length ++ s := by
    unfold payload_bytes
    simp [ht, hv, LWES_STRING_TOKEN, LWES_U_INT_16_TOKEN, LWES_INT_16_TOKEN,
      LWES_U_INT_32_TOKEN, LWES_INT_32_TOKEN, LWES_U_INT_64_TOKEN, LWES_INT_64_TOKEN,
      LWES_BOOLEAN_TOKEN, LWES_IP_ADDR_TOKEN, lwes_value.as_STRING]
  intro b hb
  simp only [record_bytes, short_string_bytes, hp, List.mem_append, List.mem_cons] at hb
  rcases hb with ((hb | hb) | hb) | (hb | hb)
  · omega
  · exact hkey b hb
  · exact be_bytes_lt 1 _ b hb
  · exact be_bytes_lt 2 _ b hb
  · exact hs b hb
/-- Every element of the wire form `bulk_bytes k n` is a byte. -/
theorem bulk_bytes_lt (k n : Nat) (hk : k ≤ 255) (hn : n ≤ 16581375) :
    ∀ b ∈ bulk_bytes k n, b < 256 := by
  intro b hb
  simp only [bulk_bytes, event_bytes, short_string_bytes, List.mem_append, List.mem_cons,
    List.mem_flatMap, List.length_replicate] at hb
  rcases hb with ((hb | hb) | hb) | ⟨e, he, hb⟩
  · omega
  · rw [List.eq_of_mem_replicate hb]
    omega
  · exact be_bytes_lt 2 _ b hb
  · obtain ⟨i, hi, hei⟩ := bulk_entries_mem n e he
    rw [hei] at hb
    refine record_bytes_string_lt (bulk_name i) bulk_value (List.replicate 65535 120)
      (by simp [bulk_name]) ?_ rfl rfl ?_ b hb
    · intro c hc
      simp only [bulk_name, List.mem_cons, List.mem_singleton, List.not_mem_nil,
        or_false] at hc
      have h1 : i / 65025 < 255 := by omega
      have h2 : i / 255 % 255 < 255 := Nat.mod_lt _ (by decide)
      have h3 : i % 255 < 255 := Nat.mod_lt _ (by decide)
      omega
    · intro c hc
      rw [List.eq_of_mem_replicate hc]
      omega
/-- The decoder on the wire form `bulk_bytes k n` and the event without name and
without attributes: the name and the count that it reads, the offset behind the
last record, and its result, the number of bytes read converted to `int`. -/
theorem bulk_bytes_reads (k n : Nat) (hk : k ≤ 255) (hn : n ≤ 65535) (num_bytes : Nat)
    (hcap : 3 + k + n * 65542 ≤ num_bytes) (dtmp : lwes_event_deserialize_tmp) :
    unmarshall_SHORT_STRING (SHORT_STRING_MAX + 1) (bulk_bytes k n) num_bytes 0 =
      some (List.replicate k 110, k + 1) ∧
    unmarshall_U_INT_16 (bulk_bytes k n) num_bytes (k + 1) = some (n, k + 3) ∧
    skip_records n (bulk_bytes k n) num_bytes (k + 3) = some (3 + k + n * 65542) ∧
    (lwes_event_from_bytes (some (empty_event none place_first)) (some (bulk_bytes k n))
      num_bytes 0 (some dtmp)).1 = to_int ((3 + k + n * 65542 : Nat) : Int) := by
  have hv : valid_string (List.replicate k 110) := by
    intro c hc
    rw [List.eq_of_mem_replicate hc]
    omega
  have hp : event_bytes (List.replicate k 110) (bulk_entries n) <+:
      (bulk_bytes k n).drop 0 := by
    rw [List.drop_zero]
    exact List.prefix_refl _
  unfold event_bytes at hp
  obtain ⟨hp12, _⟩ := prefix_append_split _ _ _ _ hp
  obtain ⟨hp1, hp2⟩ := prefix_append_split _ _ _ _ hp12
  have hsl : (short_string_bytes (List.replicate k 110)).length = k + 1 := by
    simp only [short_string_bytes, List.length_cons, List.length_replicate]
  have hrd1 := unmarshall_SHORT_STRING_of_head (List.replicate k 110) (bulk_bytes k n)
    num_bytes 0 hp1 (by rw [List.length_replicate]; exact hk) hv (by omega)
  rw [hsl, Nat.zero_add] at hrd1
  rw [hsl, Nat.zero_add, bulk_entries_length] at hp2
  have hrd2 : unmarshall_U_INT_16 (bulk_bytes k n) num_bytes (k + 1) = some (n, k + 3) := by
    have := unmarshall_be_of_head be_value 2 n (bulk_bytes k n) num_bytes _ hp2 (by omega)
    rw [be_value_be_bytes 2 n (by norm_num; omega)] at this
    exact this
  obtain ⟨ev2, h, _, _⟩ := from_bytes_exact_bulk k n hk hn (empty_event none place_first)
    rfl rfl (by
      intro i _ hin
      simp [empty_event, lwes_hash_keys, lwes_hash_create] at hin)
    (by simp only [empty_event]; omega) num_bytes hcap dtmp
  have hb := bulk_bytes_lt k n hk (by omega)
  obtain ⟨e3, name, count, last, _, _, h3, h4, _, _, _, _, h9, h10⟩ :=
    from_bytes_exact_count none place_first (bulk_bytes k n) num_bytes 0 dtmp hb
      (by rw [h]; exact Int.natCast_nonneg _)
  rw [hrd1] at h3
  cases h3
  rw [hrd2] at h4
  cases h4
  rw [h] at h10
  simp only at h10 h9
  have hl : last = 3 + k + n * 65542 := by omega
  rw [hl] at h9
  refine ⟨hrd1, hrd2, h9, ?_⟩
  rw [from_bytes_cast, h]
  simp only
  rw [if_neg (by omega)]
/-- C29 fails as stated: on the 4294967298 bytes of `bulk_bytes 35 65530`, a
name of 35 bytes, the count 65530 and 65530 STRING records, the decoder does not
fail on a fresh event; the last record ends at the offset 4294967298, and
`lwes_event_from_bytes` returns 2. -/
theorem decoded_count_counterexample :
    (bulk_bytes 35 65530).length = 4294967298 ∧
    unmarshall_SHORT_STRING (SHORT_STRING_MAX + 1) (bulk_bytes 35 65530) 4294967298 0 =
      some (List.replicate 35 110, 36) ∧
    unmarshall_U_INT_16 (bulk_bytes 35 65530) 4294967298 36 = some (65530, 38) ∧
    skip_records 65530 (bulk_bytes 35 65530) 4294967298 38 = some 4294967298 ∧
    (lwes_event_from_bytes (some (empty_event none place_first))
      (some (bulk_bytes 35 65530)) 4294967298 0 (some ⟨[], []⟩)).1 = 2 := by
  obtain ⟨h1, h2, h3, h4⟩ := bulk_bytes_reads 35 65530 (by decide) (by decide) 4294967298
    (by decide) ⟨[], []⟩
  exact ⟨bulk_bytes_length 35 65530, h1, h2, h3, h4⟩

/-! ## C30 : a setter and then the getter of its type -/

/-- A typed getter reads the event through the lookup of the name only. -/
theorem typed_slot_get_lookup (s : typed_slot) (ev ev2 : lwes_event) (nm : List Nat)
    (h : lwes_hash_get ev2.attributes nm = lwes_hash_get ev.attributes nm) :
    s.get (some ev2) (some nm) = s.get (some ev) (some nm) := by
  cases s <;> rename_i value <;> cases value <;>
    simp [typed_slot.get, lwes_event_get_U_INT_16, lwes_event_get_INT_16,
      lwes_event_get_U_INT_32, lwes_event_get_INT_32, lwes_event_get_U_INT_64,
      lwes_event_get_INT_64, lwes_event_get_BOOLEAN, lwes_event_get_IP_ADDR,
      lwes_event_get_STRING, h]

/-- A typed getter without a name does not read the event. -/
theorem typed_slot_get_no_name (s : typed_slot) (ev ev2 : lwes_event) :
    s.get (some ev2) none = s.get (some ev) none := by
  cases s <;> rfl

/-- The getter of the type of a setter call reads the object of the call as the
value of the call. -/
theorem typed_slot_get_stored (c : typed_call) (s : typed_slot) (ev : lwes_event)
    (nm : List Nat) (htok : s.token = c.token) (hp : s.present = true)
    (hget : lwes_hash_get ev.attributes nm = some ⟨c.token, c.stored⟩) :
    s.get (some ev) (some nm) = (0, c.slot) := by
  cases c <;> rename_i v <;> cases s <;> rename_i value <;>
    first
      | (exfalso; revert htok; simp [typed_slot.token, typed_call.token, LWES_U_INT_16_TOKEN,
          LWES_INT_16_TOKEN, LWES_U_INT_32_TOKEN, LWES_INT_32_TOKEN, LWES_U_INT_64_TOKEN,
          LWES_INT_64_TOKEN, LWES_BOOLEAN_TOKEN, LWES_IP_ADDR_TOKEN, LWES_STRING_TOKEN]; done)
      | (cases value <;>
          simp [typed_slot.present] at hp <;>
          simp [typed_slot.get, lwes_event_get_U_INT_16, lwes_event_get_INT_16,
            lwes_event_get_U_INT_32, lwes_event_get_INT_32, lwes_event_get_U_INT_64,
            lwes_event_get_INT_64, lwes_event_get_BOOLEAN, lwes_event_get_IP_ADDR,
            lwes_event_get_STRING, hget, typed_call.stored, typed_call.slot,
            lwes_value.as_U_INT_16, lwes_value.as_INT_16, lwes_value.as_U_INT_32,
            lwes_value.as_INT_32, lwes_value.as_U_INT_64, lwes_value.as_INT_64,
            lwes_value.as_BOOLEAN, lwes_value.as_IP_ADDR] <;>
          cases v <;> rfl)

/-- C30. When a typed setter succeeds on an event under a name, the event and
the name are present and, on the event that the setter leaves, the getter of the
same type with a present output slot returns 0 under that name with the value
of the setter in the slot (for the string setter, the string of the value); and
every typed getter under every other name, or without a name, gives what it gave
on the event before the setter. -/
theorem set_then_get (c : typed_call) (event : Option lwes_event) (name : Option (List Nat))
    (hok : 0 ≤ (c.run event name).1) :
    ∃ ev ev2 nm, event = some ev ∧ name = some nm ∧ (c.run event name).2 = some ev2 ∧
      (∀ s : typed_slot, s.token = c.token → s.present = true →
        s.get (some ev2) (some nm) = (0, c.slot)) ∧
      (∀ (s : typed_slot) (other : Option (List Nat)), other ≠ some nm →
        s.get (some ev2) other = s.get (some ev) other) := by
  cases event with
  | none =>
    rw [typed_call_run_absent c none name (Or.inl rfl)] at hok
    simp at hok
  | some ev =>
    cases name with
    | none =>
      rw [typed_call_run_absent c (some ev) none (Or.inr rfl)] at hok
      simp at hok
    | some nm =>
      rcases typed_call_run_some c ev nm with ⟨_, h1⟩ | ⟨_, h1⟩
      · rw [h1] at hok
        simp at hok
      · rcases lwes_event_add_cases ev nm c.token c.stored with ⟨hneg, _⟩ | ⟨hk, i, h2⟩
        · rw [h1] at hok
          exact absurd hok (not_le.mpr hneg)
        · rw [h1, h2]
          refine ⟨ev, _, nm, rfl, rfl, rfl, ?_, ?_⟩
          · intro s htok hp
            exact typed_slot_get_stored c s _ nm htok hp
              (lwes_hash_get_insert_at ev.attributes i nm _ hk)
          · intro s other hother
            cases other with
            | none => exact typed_slot_get_no_name s _ _
            | some k =>
              refine typed_slot_get_lookup s _ _ k ?_
              exact lwes_hash_get_insert_at_other ev.attributes i nm k _
                (fun h => hother (by rw [h]))

/-- C30 at a concrete input: the string setter with the value "ok" under the
name "a" on a fresh event. -/
theorem set_then_get_witness :
    0 ≤ (typed_call.run (.STRING (some [111, 107])) (some fresh_event) (some [97])).1 ∧
    ∃ ev ev2 nm, some fresh_event = some ev ∧ some [97] = some nm ∧
      (typed_call.run (.STRING (some [111, 107])) (some fresh_event) (some [97])).2 = some ev2 ∧
      (∀ s : typed_slot, s.token = (typed_call.STRING (some [111, 107])).token →
        s.present = true →
        s.get (some ev2) (some nm) = (0, (typed_call.STRING (some [111, 107])).slot)) ∧
      (∀ (s : typed_slot) (other : Option (List Nat)), other ≠ some nm →
        s.get (some ev2) other = s.get (some ev) other) :=
  ⟨by decide, set_then_get (.STRING (some [111, 107])) (some fresh_event) (some [97])
    (by decide)⟩

/-! ## C31 : the unsigned setter from a hex string and the signed parser -/

/-- The value that `strtoull` returns fits 64 bits. -/
theorem strtoull_16_value_lt (nptr : List Nat) :
    (strtoull_16 nptr).value < 18446744073709551616 := by
  unfold strtoull_16
  simp only
  split_ifs <;> simp only <;> omega

/-- The unsigned parser returns 0 or -1, and a value that fits 64 bits. -/
theorem from_hex_string_result (buffer : List Nat) :
    ((lwes_U_INT_64_from_hex_string buffer).1 = 0 ∨
      (lwes_U_INT_64_from_hex_string buffer).1 = -1) ∧
    (lwes_U_INT_64_from_hex_string buffer).2 < 18446744073709551616 := by
  unfold lwes_U_INT_64_from_hex_string
  simp only
  split_ifs
  · exact ⟨Or.inr rfl, strtoull_16_value_lt buffer⟩
  · exact ⟨Or.inl rfl, strtoull_16_value_lt buffer⟩

/-- The static `lwes_event_add` returns -2 exactly when the event has a type
database that permits the attribute name and rejects the type for it, or when
no type database rejects the attribute, the event holds the name and -2 is the
value with which the table rejects it. -/
theorem lwes_event_add_type_rejected (event : lwes_event) (attrNameIn : List Nat)
    (attrType : Nat) (attrValue : Option lwes_value) :
    (lwes_event_add event attrNameIn attrType attrValue).1 = -2 ↔
      ((∃ db, event.type_db = some db ∧
        lwes_event_type_db_check_for_attribute db attrNameIn event.eventName ≠ 0 ∧
        lwes_event_type_db_check_for_type db attrType attrNameIn event.eventName = 0) ∨
      (db_accepts event.type_db event.eventName attrNameIn attrType ∧
        attrNameIn ∈ lwes_hash_keys event.attributes ∧
        event.attributes.place (lwes_hash_keys event.attributes) attrNameIn = 1)) := by
  have hput : ∀ x y : lwes_event,
      (if (lwes_hash_put event.attributes attrNameIn
            (lwes_event_attribute_create attrType attrValue)).1 < 0 then
          ((lwes_hash_put event.attributes attrNameIn
            (lwes_event_attribute_create attrType attrValue)).1, x)
        else ((((event.number_of_attributes + 1) % 65536 : Nat) : Int), y)).1 = -2 ↔
      (attrNameIn ∈ lwes_hash_keys event.attributes ∧
        event.attributes.place (lwes_hash_keys event.attributes) attrNameIn = 1) := by
    intro x y
    rcases lwes_hash_put_cases event.attributes attrNameIn
        (lwes_event_attribute_create attrType attrValue) with ⟨hk, hneg, h⟩ | ⟨hk, i, h⟩
    · rw [if_pos hneg, h]
      simp only [hk, true_and]
      omega
    · rw [h]
      have hi : ¬ ((i : Int) < 0) := by omega
      simp only [hi, if_false, hk, false_and, iff_false]
      omega
  unfold lwes_event_add
  cases hd : event.type_db with
  | none =>
    simp only [Bool.false_eq_true, if_false]
    rw [hput]
    constructor
    · intro h
      refine Or.inr ⟨?_, h⟩
      intro d hd2
      cases hd2
    · rintro (⟨db, hdb, _⟩ | ⟨_, h⟩)
      · cases hdb
      · exact h
  | some d =>
    simp only
    by_cases ha : lwes_event_type_db_check_for_attribute d attrNameIn event.eventName = 0
    · simp only [ha, decide_True, if_true]
      constructor
      · intro h
        exact absurd h (by decide)
      · rintro (⟨db, hdb, hne, _⟩ | ⟨hacc, _⟩)
        · simp only [Option.some.injEq] at hdb
          subst hdb
          exact absurd ha hne
        · exact absurd ha (hacc d rfl).1
    · simp only [ha, decide_False, Bool.false_eq_true, if_false]
      by_cases ht : lwes_event_type_db_check_for_type d attrType attrNameIn event.eventName = 0
      · simp only [ht, decide_True, if_true, true_iff]
        exact Or.inl ⟨d, rfl, ha, ht⟩
      · simp only [ht, decide_False, Bool.false_eq_true, if_false]
        rw [hput]
        constructor
        · intro h
          refine Or.inr ⟨?_, h⟩
          intro d2 hd2
          simp only [Option.some.injEq] at hd2
          subst hd2
          exact ⟨ha, ht⟩
        · rintro (⟨db, hdb, _, ht2⟩ | ⟨_, h⟩)
          · simp only [Option.some.injEq] at hdb
            subst hdb
            exact absurd ht2 ht
          · exact h

/-- C31 (amended). `lwes_event_set_U_INT_64_w_string` parses with the signed
parser and hands the signed result to the unsigned setter.  For every string
that the unsigned parser accepts with the value `u`, `u` fits 64 bits, the
signed parser gives the two's complement reading of `u`, the setter is
`lwes_event_set_U_INT_64` on `u`, and when it succeeds `lwes_event_get_U_INT_64`
reads `u` back under the name.  On every string that the unsigned parser rejects
the setter returns -2 and leaves the event.  The setter returns -2 exactly on
the strings that the unsigned parser rejects and, on an event whose type
database permits the attribute name and rejects the type U_INT_64 for it, or
which holds the name already while -2 is the value with which the table rejects
a name that it holds, on every other string as well; so on an event without
such a rejection it returns -2 on exactly the strings that the unsigned parser
rejects. -/
theorem unsigned_hex_detour (ev : lwes_event) (nm s : List Nat) :
    (∀ u, lwes_U_INT_64_from_hex_string s = (0, u) →
      u < 18446744073709551616 ∧
      lwes_INT_64_from_hex_string s 0 = (0, to_signed 8 u) ∧
      lwes_event_set_U_INT_64_w_string (some ev) (some nm) (some s) =
        lwes_event_set_U_INT_64 (some ev) (some nm) u ∧
      (0 ≤ (lwes_event_set_U_INT_64_w_string (some ev) (some nm) (some s)).1 →
        ∃ ev2, (lwes_event_set_U_INT_64_w_string (some ev) (some nm) (some s)).2 = some ev2 ∧
          ∀ x : Nat, lwes_event_get_U_INT_64 (some ev2) (some nm) (some x) = (0, some u))) ∧
    ((lwes_U_INT_64_from_hex_string s).1 < 0 →
      lwes_event_set_U_INT_64_w_string (some ev) (some nm) (some s) = (-2, some ev)) ∧
    ((lwes_event_set_U_INT_64_w_string (some ev) (some nm) (some s)).1 = -2 ↔
      ((lwes_U_INT_64_from_hex_string s).1 < 0 ∨
        (∃ db, ev.type_db = some db ∧
          lwes_event_type_db_check_for_attribute db nm ev.eventName ≠ 0 ∧
          lwes_event_type_db_check_for_type db LWES_U_INT_64_TOKEN nm ev.eventName = 0) ∨
        (db_accepts ev.type_db ev.eventName nm LWES_U_INT_64_TOKEN ∧
          nm ∈ lwes_hash_keys ev.attributes ∧
          ev.attributes.place (lwes_hash_keys ev.attributes) nm = 1))) ∧
    (db_accepts ev.type_db ev.eventName nm LWES_U_INT_64_TOKEN →
      (nm ∉ lwes_hash_keys ev.attributes ∨
        ev.attributes.place (lwes_hash_keys ev.attributes) nm ≠ 1) →
      ((lwes_event_set_U_INT_64_w_string (some ev) (some nm) (some s)).1 = -2 ↔
        (lwes_U_INT_64_from_hex_string s).1 < 0)) := by
  have hlt := (from_hex_string_result s).2
  have hacc : ∀ u, lwes_U_INT_64_from_hex_string s = (0, u) →
      u < 18446744073709551616 ∧
      lwes_event_set_U_INT_64_w_string (some ev) (some nm) (some s) =
        lwes_event_set_U_INT_64 (some ev) (some nm) u := by
    intro u hu
    have hu2 : u < 18446744073709551616 := by
      rw [hu] at hlt
      exact hlt
    exact ⟨hu2, (w_string_accepted ev nm s u hu hu2).1⟩
  have hiff : (lwes_event_set_U_INT_64_w_string (some ev) (some nm) (some s)).1 = -2 ↔
      ((lwes_U_INT_64_from_hex_string s).1 < 0 ∨
        (∃ db, ev.type_db = some db ∧
          lwes_event_type_db_check_for_attribute db nm ev.eventName ≠ 0 ∧
          lwes_event_type_db_check_for_type db LWES_U_INT_64_TOKEN nm ev.eventName = 0) ∨
        (db_accepts ev.type_db ev.eventName nm LWES_U_INT_64_TOKEN ∧
          nm ∈ lwes_hash_keys ev.attributes ∧
          ev.attributes.place (lwes_hash_keys ev.attributes) nm = 1)) := by
    by_cases hrej : (lwes_U_INT_64_from_hex_string s).1 < 0
    · rw [(w_string_rejected ev nm s hrej).1]
      simp only [hrej, true_or]
    · have h0 : lwes_U_INT_64_from_hex_string s = (0, (lwes_U_INT_64_from_hex_string s).2) := by
        rcases (from_hex_string_result s).1 with h | h
        · exact Prod.ext h rfl
        · rw [h] at hrej
          exact absurd (show (-1 : Int) < 0 by decide) hrej
      rw [(hacc _ h0).2]
      simp only [hrej, false_or]
      exact lwes_event_add_type_rejected ev nm LWES_U_INT_64_TOKEN _
  refine ⟨?_, fun h => (w_string_rejected ev nm s h).1, hiff, ?_⟩
  · intro u hu
    obtain ⟨hu2, hset⟩ := hacc u hu
    refine ⟨hu2, ?_, hset, ?_⟩
    · unfold lwes_INT_64_from_hex_string
      simp only [hu, Int.lt_irrefl, if_false]
    · intro hok
      rw [hset] at hok ⊢
      obtain ⟨_, _, ev2, he2, hget⟩ := typed_call_run_succeeded (.U_INT_64 u) ev nm hok
      refine ⟨ev2, he2, fun x => ?_⟩
      simp only [lwes_event_get_U_INT_64, hget]
      rfl
  · intro hdb hfree
    rw [hiff]
    constructor
    · rintro (h | ⟨db, hd, _, ht⟩ | ⟨_, hin, hpl⟩)
      · exact h
      · exact absurd ht (hdb db hd).2
      · rcases hfree with hf | hf
        · exact absurd hin hf
        · exact absurd hpl hf
    · intro h
      exact Or.inl h

/-- C31 at concrete inputs: the string "ffffffffffffffff" goes through the signed
value -1 and is read back as the all-ones 64-bit value, and the string "xyz"
makes the setter return -2 on the fresh event. -/
theorem unsigned_hex_detour_witness :
    lwes_INT_64_from_hex_string hex_all_ones 0 = (0, to_signed 8 18446744073709551615) ∧
    to_signed 8 18446744073709551615 = -1 ∧
    (∃ ev2, (lwes_event_set_U_INT_64_w_string (some fresh_event) (some [97])
          (some hex_all_ones)).2 = some ev2 ∧
      ∀ x : Nat, lwes_event_get_U_INT_64 (some ev2) (some [97]) (some x) =
        (0, some 18446744073709551615)) ∧
    lwes_event_set_U_INT_64_w_string (some fresh_event) (some [97]) (some hex_xyz) =
      (-2, some fresh_event) :=
  ⟨((unsigned_hex_detour fresh_event [97] hex_all_ones).1 18446744073709551615 rfl).2.1,
    by decide,
    ((unsigned_hex_detour fresh_event [97] hex_all_ones).1 18446744073709551615 rfl).2.2.2
      (by decide),
    (unsigned_hex_detour fresh_event [97] hex_xyz).2.1 (by decide)⟩

/-- C31 fails as stated: the unsigned parser accepts the string "1" with the
value 1, and on the event "E", whose type database has "a" as U_INT_16, the
setter under "a" returns -2 on this string and adds nothing. -/
theorem unsigned_hex_detour_counterexample :
    lwes_U_INT_64_from_hex_string [49] = (0, 1) ∧
    lwes_event_set_U_INT_64_w_string (some event_E) (some [97]) (some [49]) =
      (-2, some event_E) :=
  ⟨rfl, rfl⟩

/-! ## C32 : what a successful encoding leaves outside its range -/

/-- The first byte that `put_bytes` writes is at the offset. -/
theorem put_bytes_first (d : Nat) (ds bytes : List Nat) (offset : Nat)
    (h : offset < bytes.length) : (put_bytes (d :: ds) bytes offset)[offset]? = some d := by
  simp only [put_bytes]
  rw [put_bytes_getElem_outside ds (bytes.set offset d) (offset + 1) offset (Or.inl (by omega))]
  rw [List.getElem?_set_self h]
/-- The encoder on a bulk event and a buffer of zero bytes that has room: the
result is the length of the layout converted to `int`, and the first byte of
the buffer, a zero, becomes the length of the name. -/
theorem to_bytes_bulk_first (k n : Nat) (hk : k ≤ 255) (hn : n ≤ 65536) (num_bytes : Nat)
    (hfit : 3 + k + n * 65542 ≤ num_bytes) :
    lwes_event_to_bytes (some (bulk_event k n)) (some (List.replicate num_bytes 0))
        num_bytes 0 =
      (to_int ((3 + k + n * 65542 : Nat) : Int),
        some (put_bytes (wire_bytes (bulk_event k n)) (List.replicate num_bytes 0) 0)) ∧
    (put_bytes (wire_bytes (bulk_event k n)) (List.replicate num_bytes 0) 0)[0]? = some k ∧
    (List.replicate num_bytes 0)[0]? = some 0 := by
  refine ⟨to_bytes_bulk k n hk hn _ num_bytes 0 (by omega), ?_, ?_⟩
  · simp only [wire_bytes, bulk_event, Option.getD_some, short_string_bytes,
      List.length_replicate, List.cons_append]
    exact put_bytes_first _ _ _ 0 (by rw [List.length_replicate]; omega)
  · rw [List.getElem?_replicate, if_pos (by omega)]
/-- C32 (amended). For every event, buffer, capacity and start offset on which
`lwes_event_to_bytes` returns a value `r` that is not negative: the buffer after
the call has the length of the buffer before it and the same byte at every index
below the start offset and at every index from the start offset plus the length
of the wire layout of the event on; the bytes of that length from the start
offset on are that layout (for a capacity within the buffer), and `r` is that
length converted to `int`; when the layout is shorter than 2^31 bytes, `r` is
its length, so every byte from the start offset plus `r` on is unchanged and the
`r` bytes from the start offset on are the layout.  The result and the bytes
written are the same for every buffer, capacity and start offset on which the
encoding of the event succeeds.  (The function only reads the event: it returns
no event.) -/
theorem encode_frame :
    (∀ (ev : lwes_event) (bytes : List Nat) (num_bytes offset : Nat),
      0 ≤ (lwes_event_to_bytes (some ev) (some bytes) num_bytes offset).1 →
      ∃ out, (lwes_event_to_bytes (some ev) (some bytes) num_bytes offset).2 = some out ∧
        out.length = bytes.length ∧
        (∀ i, i < offset ∨ offset + (wire_bytes ev).length ≤ i → out[i]? = bytes[i]?) ∧
        (lwes_event_to_bytes (some ev) (some bytes) num_bytes offset).1 =
          to_int ((wire_bytes ev).length : Int) ∧
        (num_bytes ≤ bytes.length →
          get_bytes (wire_bytes ev).length out offset = wire_bytes ev) ∧
        ((wire_bytes ev).length < 2147483648 →
          (lwes_event_to_bytes (some ev) (some bytes) num_bytes offset).1 =
            ((wire_bytes ev).length : Int) ∧
          (∀ i, i < offset ∨
              offset + (lwes_event_to_bytes (some ev) (some bytes) num_bytes offset).1.toNat
                ≤ i →
            out[i]? = bytes[i]?) ∧
          (num_bytes ≤ bytes.length →
            get_bytes (lwes_event_to_bytes (some ev) (some bytes) num_bytes offset).1.toNat out
              offset = wire_bytes ev))) ∧
    (∀ (ev : lwes_event) (bytes1 : List Nat) (num_bytes1 offset1 : Nat) (bytes2 : List Nat)
        (num_bytes2 offset2 : Nat),
      0 ≤ (lwes_event_to_bytes (some ev) (some bytes1) num_bytes1 offset1).1 →
      0 ≤ (lwes_event_to_bytes (some ev) (some bytes2) num_bytes2 offset2).1 →
      (lwes_event_to_bytes (some ev) (some bytes1) num_bytes1 offset1).1 =
        (lwes_event_to_bytes (some ev) (some bytes2) num_bytes2 offset2).1 ∧
      (num_bytes1 ≤ bytes1.length → num_bytes2 ≤ bytes2.length →
        ∃ out1 out2,
          (lwes_event_to_bytes (some ev) (some bytes1) num_bytes1 offset1).2 = some out1 ∧
          (lwes_event_to_bytes (some ev) (some bytes2) num_bytes2 offset2).2 = some out2 ∧
          get_bytes (wire_bytes ev).length out1 offset1 =
            get_bytes (wire_bytes ev).length out2 offset2)) := by
  have hone : ∀ (ev : lwes_event) (bytes : List Nat) (num_bytes offset : Nat),
      0 ≤ (lwes_event_to_bytes (some ev) (some bytes) num_bytes offset).1 →
      (lwes_event_to_bytes (some ev) (some bytes) num_bytes offset).2 =
          some (put_bytes (wire_bytes ev) bytes offset) ∧
        (lwes_event_to_bytes (some ev) (some bytes) num_bytes offset).1 =
          to_int ((wire_bytes ev).length : Int) ∧
        (num_bytes ≤ bytes.length →
          get_bytes (wire_bytes ev).length
            (put_bytes (wire_bytes ev) bytes offset) offset = wire_bytes ev) := by
    intro ev bytes num_bytes offset hok
    obtain ⟨hx, hr⟩ := to_bytes_result ev bytes num_bytes offset
      (lwes_event_to_bytes (some ev) (some bytes) num_bytes offset).1
      (lwes_event_to_bytes (some ev) (some bytes) num_bytes offset).2 rfl hok
    obtain ⟨_, _, _, hfit, hout, _⟩ := to_bytes_success ev bytes num_bytes offset
      ((wire_bytes ev).length : Int)
      (lwes_event_to_bytes (some ev) (some bytes) num_bytes offset).2 hx
      (Int.natCast_nonneg _)
    refine ⟨hout, hr, fun hcap => ?_⟩
    exact get_bytes_of_head _ _ _ (put_bytes_head (wire_bytes ev) bytes offset (by omega))
  refine ⟨?_, ?_⟩
  · intro ev bytes num_bytes offset hok
    obtain ⟨hout, hlen, hget⟩ := hone ev bytes num_bytes offset hok
    have hframe : ∀ i, i < offset ∨ offset + (wire_bytes ev).length ≤ i →
        (put_bytes (wire_bytes ev) bytes offset)[i]? = bytes[i]? :=
      fun i hi => put_bytes_getElem_outside _ _ _ _ hi
    refine ⟨_, hout, put_bytes_length _ _ _, hframe, hlen, hget, ?_⟩
    intro hsmall
    have heq : (lwes_event_to_bytes (some ev) (some bytes) num_bytes offset).1 =
        ((wire_bytes ev).length : Int) := by
      rw [hlen, to_int_small _ (Int.natCast_nonneg _) (by omega)]
    rw [heq, Int.toNat_ofNat]
    exact ⟨rfl, hframe, hget⟩
  · intro ev bytes1 num_bytes1 offset1 bytes2 num_bytes2 offset2 hok1 hok2
    obtain ⟨hout1, hlen1, hget1⟩ := hone ev bytes1 num_bytes1 offset1 hok1
    obtain ⟨hout2, hlen2, hget2⟩ := hone ev bytes2 num_bytes2 offset2 hok2
    refine ⟨by rw [hlen1, hlen2], fun hcap1 hcap2 => ⟨_, _, hout1, hout2, ?_⟩⟩
    rw [hget1 hcap1, hget2 hcap2]
/-- C32 at concrete inputs: the event "Test", of 36 bytes on the wire, encoded at
the offset 2 and at the offset 4 of a buffer of 40 zero bytes. -/
theorem encode_frame_witness :
    (∃ out, (lwes_event_to_bytes (some event_test_state) (some (List.replicate 40 0)) 40 2).2 =
          some out ∧
        out.length = (List.replicate 40 0).length ∧
        (∀ i, i < 2 ∨ 2 + (wire_bytes event_test_state).length ≤ i →
          out[i]? = (List.replicate 40 0)[i]?) ∧
        (lwes_event_to_bytes (some event_test_state) (some (List.replicate 40 0)) 40 2).1 =
          to_int ((wire_bytes event_test_state).length : Int) ∧
        (40 ≤ (List.replicate 40 0).length →
          get_bytes (wire_bytes event_test_state).length out 2 =
            wire_bytes event_test_state) ∧
        ((wire_bytes event_test_state).length < 2147483648 →
          (lwes_event_to_bytes (some event_test_state) (some (List.replicate 40 0)) 40 2).1 =
            ((wire_bytes event_test_state).length : Int) ∧
          (∀ i, i < 2 ∨
              2 + (lwes_event_to_bytes (some event_test_state) (some (List.replicate 40 0))
                40 2).1.toNat ≤ i →
            out[i]? = (List.replicate 40 0)[i]?) ∧
          (40 ≤ (List.replicate 40 0).length →
            get_bytes (lwes_event_to_bytes (some event_test_state)
              (some (List.replicate 40 0)) 40 2).1.toNat out 2 =
              wire_bytes event_test_state))) ∧
    (lwes_event_to_bytes (some event_test_state) (some (List.replicate 40 0)) 40 2).1 =
      (lwes_event_to_bytes (some event_test_state) (some (List.replicate 40 0)) 40 4).1 :=
  ⟨encode_frame.1 event_test_state (List.replicate 40 0) 40 2 (by decide),
    (encode_frame.2 event_test_state (List.replicate 40 0) 40 2 (List.replicate 40 0) 40 4
      (by decide) (by decide)).1⟩
/-- C32 fails as stated: the reachable event `bulk_event 33 65530` takes
4294967296 bytes on the wire; in a buffer of that many zero bytes, at the start
offset 0, `lwes_event_to_bytes` writes every byte of the layout and returns 0,
the number of bytes written converted to `int`; the byte at the index 0, which
is not below the start offset plus the result, has changed from 0 to 33. -/
theorem encode_frame_counterexample :
    Reachable (bulk_event 33 65530) ∧
    (wire_bytes (bulk_event 33 65530)).length = 4294967296 ∧
    lwes_event_to_bytes (some (bulk_event 33 65530)) (some (List.replicate 4294967296 0))
        4294967296 0 =
      (0, some (put_bytes (wire_bytes (bulk_event 33 65530)) (List.replicate 4294967296 0)
        0)) ∧
    (put_bytes (wire_bytes (bulk_event 33 65530)) (List.replicate 4294967296 0) 0)[0]? =
      some 33 ∧
    (List.replicate 4294967296 0)[0]? = some 0 := by
  obtain ⟨h1, h2, h3⟩ := to_bytes_bulk_first 33 65530 (by decide) (by decide) 4294967296
    (by decide)
  refine ⟨bulk_event_reachable 33 65530 (by decide), ?_, ?_, h2, h3⟩
  · rw [(to_bytes_exact_bulk 33 65530 (by decide) (by decide) [] 4294967296 0
      (by decide)).2]
  · rw [h1]
    rfl
end Lwes
